import Mathlib

/-!
# buf: path normalisation, module configuration

A shallow embedding of `private/pkg/normalpath` and of
`private/bufpkg/bufconfig` (module configuration), with the properties of
these packages stated and proved over the embedding.

Go strings are embedded as Lean strings; the lexical path algorithms work on
the list of characters of a string.  The separator `/` and the dot are ASCII,
so scanning characters and scanning bytes agree on every UTF-8 string.
The operating system is a Unix: `os.PathSeparator` is `/`, there is no volume
name, and `filepath.ToSlash` and `filepath.FromSlash` are the identity.
-/

set_option autoImplicit false

/-! ## Definitions -/

namespace filepath

/-- Unix `os.IsPathSeparator`: the separator is the slash. -/
def IsPathSeparator (c : Char) : Bool := c == '/'

/-- The output buffer of `Clean` together with the index `dotdot`.
`out` holds the written bytes `buf[0:w]`, the most recently written first,
so that `out.w` is `out.length`; `dotdot` is the index where `..` must stop. -/
structure lazybuf where
  out : List Char
  dotdot : Nat
deriving DecidableEq, Repr

/-- True when the element being read ends here: `r == n` or `path[r]` is a
separator, for the unread input `path[r:]`. -/
def elemEnds : List Char → Bool
  | [] => true
  | c :: _ => IsPathSeparator c

/-- The loop `for out.w > dotdot && !IsPathSeparator(out.index(out.w)) { out.w-- }`
of the `..` case of `Clean`.  `last` is the byte at index `out.w`, the one
dropped most recently. -/
def backtrack (dotdot : Nat) : Char → List Char → List Char
  | _, [] => []
  | last, c :: out =>
    if decide ((c :: out).length > dotdot) && !IsPathSeparator last then
      backtrack dotdot c out
    else c :: out

/-- The `..` element of `Clean`: backtrack when `out.w > dotdot`, append `..`
(after a separator when `out.w > 0`) and move `dotdot` when the path is not
rooted, and do nothing otherwise. -/
def dotdotElem (rooted : Bool) (b : lazybuf) : lazybuf :=
  if b.out.length > b.dotdot then
    match b.out with
    | [] => b
    | c :: out => { b with out := backtrack b.dotdot c out }
  else if !rooted then
    let out := if b.out.length > 0 then '/' :: b.out else b.out
    { out := '.' :: '.' :: out, dotdot := out.length + 2 }
  else b

/-- The slash written before a real path element:
`if rooted && out.w != 1 || !rooted && out.w != 0 { out.append(Separator) }`. -/
def addSlash (rooted : Bool) (out : List Char) : List Char :=
  if (rooted && out.length != 1) || (!rooted && out.length != 0) then '/' :: out else out

/-- The copy loop `for ; r < n && !IsPathSeparator(path[r]); r++ { out.append(path[r]) }`;
returns the unread input and the buffer. -/
def copyElement : List Char → List Char → List Char × List Char
  | [], out => ([], out)
  | c :: path, out =>
    if IsPathSeparator c then (c :: path, out) else copyElement path (c :: out)

/-- The main loop `for r < n { switch ... }` of `Clean` over the unread input
`path[r:]`.  Each iteration reads at least one byte, so a fuel of the length
of the unread input is never used up. -/
def cleanLoop (rooted : Bool) : Nat → List Char → lazybuf → lazybuf
  | 0, _, b => b
  | _ + 1, [], b => b
  | fuel + 1, c :: path, b =>
    if IsPathSeparator c then
      cleanLoop rooted fuel path b
    else if c == '.' && elemEnds path then
      cleanLoop rooted fuel path b
    else if c == '.' && path.head? == some '.' && elemEnds path.tail then
      cleanLoop rooted fuel path.tail (dotdotElem rooted b)
    else
      let r := copyElement (c :: path) (addSlash rooted b.out)
      cleanLoop rooted fuel r.1 { b with out := r.2 }

/-- Go `filepath.Clean` on Unix, over the characters of the path. -/
def cleanChars (path : List Char) : List Char :=
  match path with
  | [] => ['.']
  | c :: rest =>
    let rooted := IsPathSeparator c
    let b :=
      if rooted then cleanLoop rooted rest.length rest { out := ['/'], dotdot := 1 }
      else cleanLoop rooted path.length path { out := [], dotdot := 0 }
    if b.out.length == 0 then ['.'] else b.out.reverse

/-- Go `filepath.Clean` on Unix. -/
def Clean (path : String) : String := ⟨cleanChars path.data⟩

/-- Go `filepath.ToSlash` on Unix: the separator is already the slash. -/
def ToSlash (path : String) : String := path

/-- Go `filepath.FromSlash` on Unix. -/
def FromSlash (path : String) : String := path

/-- The scan `i := len(path) - 1; for i >= 0 && !IsPathSeparator(path[i]) { i-- }`
of `Dir`, returning `path[:i+1]`. -/
def dirPrefix (path : List Char) : List Char :=
  (path.reverse.dropWhile (fun c => !IsPathSeparator c)).reverse

/-- Go `filepath.Dir` on Unix. -/
def Dir (path : String) : String := Clean ⟨dirPrefix path.data⟩

/-- Go `filepath.IsAbs` on Unix: `strings.HasPrefix(path, "/")`. -/
def IsAbs (path : String) : Bool := path.data.head? == some '/'

end filepath

namespace normalpath

/-- Normalize normalizes the given path: `filepath.ToSlash(filepath.Clean(path))`. -/
def Normalize (path : String) : String := filepath.ToSlash (filepath.Clean path)

/-- Unnormalize calls `filepath.FromSlash` on the path. -/
def Unnormalize (path : String) : String := filepath.FromSlash path

/-- Dir is `filepath.Dir`, normalized before returning. -/
def Dir (path : String) : String := Normalize (filepath.Dir (Unnormalize path))

end normalpath


/-! ## Path elements: the view of `Clean` used in the proofs -/

namespace filepath

/-- Puts a character in front of the first element of a list of elements. -/
def consHead (c : Char) : List (List Char) → List (List Char)
  | [] => [[c]]
  | e :: es => (c :: e) :: es

/-- The path elements of a string: the pieces between separators (the empty
pieces included). -/
def splitSlash : List Char → List (List Char)
  | [] => [[]]
  | c :: t => if IsPathSeparator c then [] :: splitSlash t else consHead c (splitSlash t)

/-- Joins path elements with the separator. -/
def joinSlash : List (List Char) → List Char
  | [] => []
  | [e] => e
  | e :: e' :: es => e ++ '/' :: joinSlash (e' :: es)

/-- The contents of the output buffer seen as path elements: `dd` leading `..`
elements and then the real elements `elems`, the last one written first. -/
structure Stack where
  dd : Nat
  elems : List (List Char)
deriving DecidableEq, Repr

/-- What one path element does to the element stack. -/
def stepElem (rooted : Bool) (s : Stack) (e : List Char) : Stack :=
  if e = [] ∨ e = ['.'] then s
  else if e = ['.', '.'] then
    match s.elems with
    | _ :: es => { s with elems := es }
    | [] => if rooted then s else { s with dd := s.dd + 1 }
  else { s with elems := e :: s.elems }

/-- The buffer holding `k` leading `..` elements (latest byte first). -/
def ddOut : Nat → List Char
  | 0 => []
  | k + 1 => '.' :: '.' :: (if (ddOut k).length > 0 then '/' :: ddOut k else ddOut k)

/-- The buffer below the real elements: the root slash, or the `..` elements. -/
def baseOut (rooted : Bool) (k : Nat) : List Char := if rooted then ['/'] else ddOut k

/-- The buffer holding the real elements `es` over the base (latest byte first). -/
def elemsOut (rooted : Bool) (k : Nat) : List (List Char) → List Char
  | [] => baseOut rooted k
  | e :: es => e.reverse ++ addSlash rooted (elemsOut rooted k es)

/-- The buffer state that an element stack stands for. -/
def Stack.buf (rooted : Bool) (s : Stack) : lazybuf :=
  { out := elemsOut rooted s.dd s.elems, dotdot := (baseOut rooted s.dd).length }

/-- A real path element: not empty and without a separator. -/
def SepFree (e : List Char) : Prop := ∀ c ∈ e, IsPathSeparator c = false

/-- A real path element: not empty, not `.`, not `..`, and without a separator. -/
def RealElem (e : List Char) : Prop :=
  e ≠ [] ∧ e ≠ ['.'] ∧ e ≠ ['.', '.'] ∧ SepFree e

/-- The invariant of the element stack: a rooted path keeps no `..` element and
every element kept is real. -/
def Stack.Inv (rooted : Bool) (s : Stack) : Prop :=
  (rooted = true → s.dd = 0) ∧ ∀ e ∈ s.elems, RealElem e

/-- The path elements an element stack stands for, in path order. -/
def Stack.comps (s : Stack) : List (List Char) :=
  List.replicate s.dd ['.', '.'] ++ s.elems.reverse

/-- The root of a path: the slash of a rooted path. -/
def rootStr (rooted : Bool) : List Char := if rooted then ['/'] else []

/-- The string written in the buffer of an element stack. -/
def Stack.path (rooted : Bool) (s : Stack) : List Char :=
  rootStr rooted ++ joinSlash s.comps

/-- The result of `Clean` for the final element stack: an empty buffer gives `.`. -/
def finish (rooted : Bool) (s : Stack) : List Char :=
  if (s.buf rooted).out.length == 0 then ['.'] else (s.buf rooted).out.reverse

end filepath

namespace strings

/-- Go `strings.HasPrefix`. -/
def HasPrefix (s pre : String) : Bool := pre.data.isPrefixOf s.data

end strings

namespace normalpath

/-- PathType is a terminate type for path comparisons (a Go `int`). -/
abbrev PathType := Int

/-- Relative is the PathType for normalized and validated paths. -/
def Relative : PathType := 1

/-- Absolute is the PathType for normalized and absolute paths. -/
def Absolute : PathType := 2

/-- The prefix of a normalized relative path that jumps context. -/
def normalizedRelPathJumpContextPrefix : String := "../"

/-- The sentinel errors of the package: `errNotRelative` ("expected to be
relative") and `errOutsideContextDir` ("is outside the context directory"). -/
inductive PathErr where
  | errNotRelative
  | errOutsideContextDir
deriving DecidableEq, Repr

/-- Error is a path error: the offending path and the underlying error. -/
structure Error where
  Path : String
  Err : PathErr
deriving DecidableEq, Repr

deriving instance DecidableEq for Except

/-- NewError returns a new Error. -/
def NewError (path : String) (err : PathErr) : Error := { Path := path, Err := err }

/-- Separator gets the string value of the separator of a path type. -/
def Separator (t : PathType) : String :=
  if t = Relative then "." else if t = Absolute then "/" else ""

/-- Modelled from the spec: `NormalizeAndValidate` is declared in the
platform file of the package, which is not among the sources.  By the
specification it normalizes the path and additionally fails with the
not-relative error when the result is absolute, and with the context-jump
error (`errOutsideContextDir`) when the normalized relative path has the
prefix `normalizedRelPathJumpContextPrefix`; the error carries the path as
it was given. -/
def NormalizeAndValidate (path : String) : Except Error String :=
  let normalizedPath := Normalize path
  if filepath.IsAbs normalizedPath then
    .error (NewError path .errNotRelative)
  else if strings.HasPrefix normalizedPath normalizedRelPathJumpContextPrefix then
    .error (NewError path .errOutsideContextDir)
  else
    .ok normalizedPath

/-- The walk up the ancestor directories of `EqualsOrContainsPath`: compare
`value` with the current path and go on with its `Dir`, until the root. -/
def walkUp (value pathRoot : String) : Nat → String → Bool
  | 0, _ => false
  | fuel + 1, curPath =>
    if curPath == pathRoot then false
    else if value == curPath then true
    else walkUp value pathRoot fuel (Dir curPath)

/-- Modelled from the spec: `EqualsOrContainsPath` is declared in the
platform file of the package, which is not among the sources.  By the
specification and the documentation of `ContainsPath`, the root of the path
type (`PathType.Separator`) contains every path, and otherwise `value`
equals or contains `path` when it is `path` or one of its ancestor
directories, which are the iterates of `Dir` below the root.  Every `Dir`
step of a normalized path removes one element, so the number of steps is
bounded by the length of the path. -/
def EqualsOrContainsPath (value path : String) (pathType : PathType) : Bool :=
  let pathRoot := Separator pathType
  if value == pathRoot then true
  else walkUp value pathRoot (path.length + 1) path

/-- ContainsPath returns true if the dirPath contains the path. -/
def ContainsPath (dirPath path : String) (pathType : PathType) : Bool :=
  if dirPath == path then false
  else EqualsOrContainsPath dirPath (Dir path) pathType

end normalpath

namespace filepath

/-- Go `filepath.Dir` on Unix, over the characters of the path. -/
def dirChars (path : List Char) : List Char := cleanChars (dirPrefix path)

/-- The element stack without its last element. -/
def Stack.pop (s : Stack) : Stack :=
  match s.elems with
  | _ :: es => { s with elems := es }
  | [] => { s with dd := s.dd - 1 }

/-- The number of path elements of an element stack. -/
def Stack.size (s : Stack) : Nat := s.dd + s.elems.length

end filepath

namespace normalpath

/-- The order of Go strings: lexicographic on the characters. -/
def strLE (a b : String) : Prop := a.data ≤ b.data

instance : DecidableRel strLE := fun a b => inferInstanceAs (Decidable (a.data ≤ b.data))

instance : IsTotal String strLE := ⟨fun a b => le_total a.data b.data⟩

instance : IsTrans String strLE := ⟨fun _ _ _ h1 h2 => le_trans h1 h2⟩

/-- Go `sort.Strings`: the strings in increasing order. -/
def sortStrings (l : List String) : List String := l.insertionSort strLE

/-- The statement `m[dir] = append(m[dir], path)` on a Go map, embedded as an
association list with distinct keys. -/
def mapAppend : List (String × List String) → String → String → List (String × List String)
  | [], dir, path => [(dir, [path])]
  | (d, ps) :: m, dir, path =>
    if d = dir then (d, ps ++ [path]) :: m else (d, ps) :: mapAppend m dir path

/-- The value `m[dir]` of a Go map: the zero value (nil slice) for a missing key. -/
def mapGet : List (String × List String) → String → List String
  | [], _ => []
  | (d, ps) :: m, dir => if d = dir then ps else mapGet m dir

/-- ByDir maps the paths into a map from directory via Dir to the original
paths; the paths for each value slice are sorted. -/
def ByDir (paths : List String) : List (String × List String) :=
  let m := paths.foldl
    (fun m path =>
      let path := Normalize path
      let dir := filepath.Dir path
      mapAppend m dir path) []
  m.map (fun kv => (kv.1, sortStrings kv.2))

/-- The inner loop of `ChunkByDir`:
`for len(chunk) < suggestedChunkSize && len(pathsByDir) > 0`, which appends the
last slice of `pathsByDir` to the chunk and removes it.  The second argument is
`pathsByDir` from its last element to its first. -/
def mergeSmallest (suggestedChunkSize : Int) :
    List String → List (List String) → List String × List (List String)
  | chunk, [] => (chunk, [])
  | chunk, last :: revPathsByDir =>
    if (chunk.length : Int) < suggestedChunkSize then
      mergeSmallest suggestedChunkSize (chunk ++ last) revPathsByDir
    else (chunk, last :: revPathsByDir)

/-- The outer loop `for len(pathsByDir) > 0` of `ChunkByDir`.  Each iteration
removes at least the first slice, so a fuel of `len(pathsByDir)` is never
used up. -/
def chunkLoop (suggestedChunkSize : Int) :
    Nat → List (List String) → List (List String) → List (List String)
  | 0, _, chunks => chunks
  | _ + 1, [], chunks => chunks
  | fuel + 1, chunk :: pathsByDir, chunks =>
    let r := mergeSmallest suggestedChunkSize chunk pathsByDir.reverse
    chunkLoop suggestedChunkSize fuel r.2.reverse (chunks ++ [r.1])

/-- The slices of the directories in the order of the sorted directory names,
then sorted by length from greatest to smallest with `sort.SliceStable`. -/
def sortedPathsByDir (paths : List String) : List (List String) :=
  let dirToPaths := ByDir paths
  let dirs := sortStrings (dirToPaths.map Prod.fst)
  let pathsByDir := dirs.map (fun dir => mapGet dirToPaths dir)
  pathsByDir.insertionSort (fun a b => a.length ≥ b.length)

/-- ChunkByDir splits paths into chunks of around the suggestedChunkSize while
keeping directory affinity. -/
def ChunkByDir (paths : List String) (suggestedChunkSize : Int) : List (List String) :=
  if paths.length = 0 then []
  else if suggestedChunkSize ≤ 0 then [paths]
  else
    let pathsByDir := sortedPathsByDir paths
    chunkLoop suggestedChunkSize pathsByDir.length pathsByDir []

end normalpath

namespace xslices

/-- Modelled from the spec: `xslices.MapError` is declared in a package that
is not among the sources.  It applies `f` to every element in order and
returns the first error, or the slice of the results. -/
def MapError {α β ε : Type} (f : α → Except ε β) : List α → Except ε (List β)
  | [] => .ok []
  | a :: s =>
    match f a with
    | .error e => .error e
    | .ok b =>
      match MapError f s with
      | .error e => .error e
      | .ok bs => .ok (b :: bs)

/-- Modelled from the spec: `xslices.ToUniqueSorted` is declared in a package
that is not among the sources.  By the specification the includes and
excludes are de-duplicated and sorted. -/
def ToUniqueSorted (s : List String) : List String := normalpath.sortStrings s.dedup

end xslices

namespace bufconfig

/-- Modelled from the spec: the type `FileVersion` is declared in a file of the
package that is not among the sources; these are the three config versions
that `newModuleConfig` names. -/
inductive FileVersion where
  | FileVersionV1Beta1
  | FileVersionV1
  | FileVersionV2
deriving DecidableEq, Repr

open FileVersion

/-- The lint configuration, as far as `newModuleConfig` reads it: its
`FileVersion()`. -/
structure LintConfig where
  fileVersion : FileVersion
deriving DecidableEq, Repr

/-- The breaking configuration, as far as `newModuleConfig` reads it: its
`FileVersion()`. -/
structure BreakingConfig where
  fileVersion : FileVersion
deriving DecidableEq, Repr

/-- A Go `map[string][]string`, as an association list; the keys of a map
are pairwise distinct. -/
abbrev StringSliceMap := List (String × List String)

/-- The keys of a map are pairwise distinct. -/
def StringSliceMap.WF (m : StringSliceMap) : Prop := (m.map Prod.fst).Nodup

/-- The test `_, ok := m[key]`. -/
def mapHasKey (m : StringSliceMap) (key : String) : Bool := m.any (fun kv => kv.1 == key)

/-- The errors of `newModuleConfig`. -/
inductive ConfigError where
  | pathError (e : normalpath.Error)
  | lintConfigNil
  | breakingConfigNil
  | fileVersionMismatch (lint breaking : FileVersion)
  | hadDirPath (dirPath : String) (v : FileVersion)
  | rootToExcludesLength (n : Nat) (v : FileVersion)
  | rootToExcludesWithoutDot (v : FileVersion)
deriving DecidableEq, Repr

/-- The struct `moduleConfig`; the full name is kept as its string. -/
structure moduleConfig where
  dirPath : String
  moduleFullName : Option String
  rootToIncludes : StringSliceMap
  rootToExcludes : StringSliceMap
  lintConfig : LintConfig
  breakingConfig : BreakingConfig
deriving DecidableEq, Repr

/-- The loop `for root, paths := range m` of `newModuleConfig`, which
normalizes and validates the paths of every root and stores them unique and
sorted under the same root; the first error met ends the construction. -/
def normalizeRootMap : StringSliceMap → Except normalpath.Error StringSliceMap
  | [] => .ok []
  | (root, paths) :: m =>
    match xslices.MapError normalpath.NormalizeAndValidate paths with
    | .error e => .error e
    | .ok paths =>
      match normalizeRootMap m with
      | .error e => .error e
      | .ok newM => .ok ((root, xslices.ToUniqueSorted paths) :: newM)

/-- The constructor `newModuleConfig`; a nil `LintConfig` or `BreakingConfig`
is `none`. -/
def newModuleConfig (dirPath : String) (moduleFullName : Option String)
    (rootToIncludes rootToExcludes : StringSliceMap)
    (lintConfig : Option LintConfig) (breakingConfig : Option BreakingConfig) :
    Except ConfigError moduleConfig :=
  match normalpath.NormalizeAndValidate dirPath with
  | .error e => .error (.pathError e)
  | .ok dirPath =>
    match lintConfig with
    | none => .error .lintConfigNil
    | some lintConfig =>
      match breakingConfig with
      | none => .error .breakingConfigNil
      | some breakingConfig =>
        let lintFileVersion := lintConfig.fileVersion
        let breakingFileVersion := breakingConfig.fileVersion
        if lintFileVersion ≠ breakingFileVersion then
          .error (.fileVersionMismatch lintFileVersion breakingFileVersion)
        else
          let fileVersion := lintFileVersion
          if (fileVersion = FileVersionV1Beta1 ∨ fileVersion = FileVersionV1) ∧ dirPath ≠ "." then
            .error (.hadDirPath dirPath fileVersion)
          else if (fileVersion = FileVersionV1 ∨ fileVersion = FileVersionV2) ∧
              rootToExcludes.length ≠ 1 then
            .error (.rootToExcludesLength rootToExcludes.length fileVersion)
          else if (fileVersion = FileVersionV1 ∨ fileVersion = FileVersionV2) ∧
              mapHasKey rootToExcludes "." = false then
            .error (.rootToExcludesWithoutDot fileVersion)
          else
            match normalizeRootMap rootToIncludes with
            | .error e => .error (.pathError e)
            | .ok newRootToIncludes =>
              match normalizeRootMap rootToExcludes with
              | .error e => .error (.pathError e)
              | .ok newRootToExcludes =>
                .ok {
                  dirPath := dirPath
                  moduleFullName := moduleFullName
                  rootToIncludes := newRootToIncludes
                  rootToExcludes := newRootToExcludes
                  lintConfig := lintConfig
                  breakingConfig := breakingConfig }

/-- The accessor `RootToIncludes`, which returns a copy of the map. -/
def moduleConfig.RootToIncludes (m : moduleConfig) : StringSliceMap := m.rootToIncludes

/-- The accessor `RootToExcludes`, which returns a copy of the map. -/
def moduleConfig.RootToExcludes (m : moduleConfig) : StringSliceMap := m.rootToExcludes

/-- The accessor `DirPath`. -/
def moduleConfig.DirPath (m : moduleConfig) : String := m.dirPath

end bufconfig

namespace bufconfig

/-- What `newModuleConfig` stores for one root: the same root, with a strictly
ascending list that holds exactly the `NormalizeAndValidate` results of the
paths given for the root. -/
def RootNormalized (inp out : String × List String) : Prop :=
  out.1 = inp.1 ∧ out.2.Sorted (· < ·) ∧
    (∀ y ∈ out.2, ∃ x ∈ inp.2, normalpath.NormalizeAndValidate x = .ok y) ∧
    (∀ x ∈ inp.2, ∃ y ∈ out.2, normalpath.NormalizeAndValidate x = .ok y)

end bufconfig

namespace filepath

/-- The loop of Go `filepath.Ext`:
`for i := len(path) - 1; i >= 0 && !os.IsPathSeparator(path[i]); i--`, which
returns `path[i:]` at the first dot met.  The first argument is `path[:i+1]`
from its last byte to its first, the second is `path[i+1:]`. -/
def extLoop : List Char → List Char → List Char
  | [], _ => []
  | c :: rest, suffix =>
    if IsPathSeparator c then []
    else if c == '.' then c :: suffix
    else extLoop rest (c :: suffix)

/-- Go `filepath.Ext`: the suffix beginning at the final dot in the final
element of the path, empty if there is no dot. -/
def Ext (path : String) : String := ⟨extLoop path.data.reverse []⟩

end filepath

namespace normalpath

/-- Ext is equivalent to `filepath.Ext`. -/
def Ext (path : String) : String := filepath.Ext (Unnormalize path)

end normalpath

namespace storage

/-- A `storage.ReadBucket` as far as the module package reads it: `Stat` on a
path, which returns the path of the object or an error. -/
structure ReadBucket where
  Stat : String → Except String String

/-- A `storage.Matcher`: the paths it matches. -/
abbrev Matcher := String → Bool

/-- Modelled from the spec: `storage.MatchPathExt` is declared in a package
that is not among the sources; it matches the paths whose file extension is
the given one. -/
def MatchPathExt (ext : String) : Matcher := fun path => normalpath.Ext path == ext

/-- Modelled from the spec: `storage.MatchPathEqual` is declared in a package
that is not among the sources; it matches the path equal to the given one. -/
def MatchPathEqual (equalPath : String) : Matcher := fun path => path == equalPath

/-- Modelled from the spec: `storage.MatchOr` is declared in a package that is
not among the sources; it matches the paths that one of the matchers matches. -/
def MatchOr (matchers : List Matcher) : Matcher := fun path => matchers.any (fun m => m path)

/-- Modelled from the spec: `storage.FilterReadBucket` is declared in a
package that is not among the sources; the bucket restricted to the paths
that the matcher matches. -/
def FilterReadBucket (bucket : ReadBucket) (matcher : Matcher) : ReadBucket :=
  { Stat := fun path => if matcher path then bucket.Stat path else .error "not exist" }

end storage

namespace sync

/-- The state of the function returned by Go `sync.OnceValues`: the values of
the first call once it is made (`valid`, `r1`, `r2`), the state of the world
that the wrapped function works on, and the number of times the wrapped
function has been invoked. -/
structure OnceValues (σ ρ : Type) where
  values : Option ρ
  world : σ
  invocations : Nat

/-- A fresh `sync.OnceValues`. -/
def OnceValues.new {σ ρ : Type} (world : σ) : OnceValues σ ρ :=
  { values := none, world := world, invocations := 0 }

/-- One call of the function returned by `sync.OnceValues(f)`: `once.Do` runs
`f` on the first call only, and every call returns the stored values. -/
def OnceValues.call {σ ρ : Type} (f : σ → ρ × σ) (o : OnceValues σ ρ) : ρ × OnceValues σ ρ :=
  match o.values with
  | some r => (r, o)
  | none =>
    let r := f o.world
    (r.1, { values := some r.1, world := r.2, invocations := o.invocations + 1 })

/-- The results of `n` calls in a row, with the state after them. -/
def OnceValues.calls {σ ρ : Type} (f : σ → ρ × σ) :
    Nat → OnceValues σ ρ → List ρ × OnceValues σ ρ
  | 0, o => ([], o)
  | n + 1, o =>
    let r := OnceValues.call f o
    let rs := OnceValues.calls f n r.2
    (r.1 :: rs.1, rs.2)

end sync

namespace bufmodule

/-- The path of the license file within a Module. -/
def licenseFilePath : String := "LICENSE"

/-- The potential documentation file paths for a Module, in order. -/
def orderedDocFilePaths : List String := ["buf.md", "README.md", "README.markdown"]

/-- The test `err == nil` on the result of a call. -/
def errIsNil {ε α : Type} : Except ε α → Bool
  | .ok _ => true
  | .error _ => false

/-- The loop `for _, docFilePath := range orderedDocFilePaths` that returns the
first path whose `Stat` has a nil error, and the empty string after the loop. -/
def docFilePathLoop (stat : String → Except String String) : List String → String
  | [] => ""
  | docFilePath :: rest =>
    if errIsNil (stat docFilePath) then docFilePath else docFilePathLoop stat rest

/-- The function `getDocFilePathForStorageReadBucket`. -/
def getDocFilePathForStorageReadBucket (bucket : storage.ReadBucket) : String :=
  docFilePathLoop bucket.Stat orderedDocFilePaths

/-- A `ModuleReadBucket` as far as this file reads it: `StatFileInfo` on a path. -/
structure ModuleReadBucket where
  StatFileInfo : String → Except String String

/-- The function `getDocFilePathForModuleReadBucket`. -/
def getDocFilePathForModuleReadBucket (bucket : ModuleReadBucket) : String :=
  docFilePathLoop bucket.StatFileInfo orderedDocFilePaths

/-- The function `getStorageMatcher`: the matcher that filters the bucket down
to the files that are relevant to a module. -/
def getStorageMatcher (bucket : storage.ReadBucket) : storage.Matcher :=
  storage.MatchOr [
    storage.MatchPathExt ".proto",
    storage.MatchPathEqual licenseFilePath,
    storage.MatchPathEqual (getDocFilePathForStorageReadBucket bucket)]

/-- The function that `getSyncOnceValuesGetBucketWithStorageMatcherApplied`
wraps with `sync.OnceValues`: get the bucket and apply the storage matcher.
`getBucket` works on a state of the world `σ`. -/
def getBucketWithStorageMatcherApplied {σ : Type}
    (getBucket : σ → Except String storage.ReadBucket × σ) :
    σ → Except String storage.ReadBucket × σ :=
  fun w =>
    match getBucket w with
    | (.error err, w') => (.error err, w')
    | (.ok bucket, w') => (.ok (storage.FilterReadBucket bucket (getStorageMatcher bucket)), w')

/-- The function `getSyncOnceValuesGetBucketWithStorageMatcherApplied`: the
state of the returned function before its first call. -/
def getSyncOnceValuesGetBucketWithStorageMatcherApplied {σ : Type} (world : σ) :
    sync.OnceValues σ (Except String storage.ReadBucket) :=
  sync.OnceValues.new world

/-- One call of the function returned by
`getSyncOnceValuesGetBucketWithStorageMatcherApplied`. -/
def callGetBucket {σ : Type} (getBucket : σ → Except String storage.ReadBucket × σ)
    (o : sync.OnceValues σ (Except String storage.ReadBucket)) :
    Except String storage.ReadBucket × sync.OnceValues σ (Except String storage.ReadBucket) :=
  sync.OnceValues.call (getBucketWithStorageMatcherApplied getBucket) o

end bufmodule

/-! ## The uploader (private/bufpkg/bufmodule/bufmoduleapi)

The registry is a state machine of an arbitrary state type `ρ`: every call of
the client takes the state of the registry and returns the response with the
next state.  The uploader works on a `World`, which holds the state of the
registry together with the list of the calls made on the client so far. -/

namespace xslices

/-- Modelled from the spec: `xslices.FilterError` is declared in a package that
is not among the sources.  It calls `f` on every element in order, returns the
first error, and otherwise keeps the elements for which `f` returned true. -/
def FilterError {α ε : Type} (f : α → Except ε Bool) : List α → Except ε (List α)
  | [] => .ok []
  | a :: s =>
    match f a with
    | .error e => .error e
    | .ok keep =>
      match FilterError f s with
      | .error e => .error e
      | .ok r => .ok (if keep then a :: r else r)

/-- Modelled from the spec: `xslices.Reduce` is declared in a package that is
not among the sources; it folds the slice from the left. -/
def Reduce {α β : Type} (s : List α) (f : β → α → β) (initialValue : β) : β :=
  s.foldl f initialValue

end xslices

namespace bufmoduleapi

/-- A connect error code. -/
abbrev Code := Nat

/-- The code `connect.CodeUnknown`, which `connect.CodeOf` gives for an error
that is not a connect error. -/
def CodeUnknown : Code := 2

/-- The code `connect.CodeAlreadyExists`. -/
def CodeAlreadyExists : Code := 6

/-- The errors that `Upload` returns: the errors it makes itself, and the
errors of its collaborators, which it returns unchanged. -/
inductive Error where
  | external (msg : String)
  | connect (code : Code) (msg : String)
  | unnamedModule (moduleDescription : String)
  | unnamedDependencies (moduleName : String) (depModuleDescriptions : List String)
  | multipleDefaultLabels (moduleNames : List String) (defaultLabels : List String)
  | commitCount (expected : Nat) (got : Nat)
  | syserror (msg : String)
deriving DecidableEq, Repr

/-- The function `connect.CodeOf`. -/
def CodeOf : Error → Code
  | .connect code _ => code
  | _ => CodeUnknown

/-- Modelled from the spec: `bufparse.FullName` is declared in a package that
is not among the sources; the globally unique identity
`registry/owner/name` of a module. -/
structure FullName where
  registry : String
  owner : String
  name : String
deriving DecidableEq, Repr

/-- The method `FullName.String`. -/
def FullName.String (n : FullName) : String := n.registry ++ "/" ++ n.owner ++ "/" ++ n.name

/-- A `uuid.UUID`, a 128-bit number. -/
abbrev UUID := Nat

/-- The nil UUID `uuid.Nil`. -/
def uuidNil : UUID := 0

/-- A file of a module in its wire form. -/
structure File where
  path : String
  content : String
deriving DecidableEq, Repr

/-- A `bufmodule.ModuleDep` as far as `Upload` reads it. -/
structure ModuleDep where
  fullName : Option FullName
  description : String
deriving DecidableEq, Repr

/-- A `bufmodule.Module` as far as `Upload` reads it: `FullName()` (nil is
`none`), `Description()`, `IsLocal()`, the outcome of `ModuleDeps()`, and the
outcome of `bucketToV1Beta1ProtoFiles` on the bucket of the module. -/
structure Module where
  fullName : Option FullName
  description : String
  isLocal : Bool
  moduleDeps : Except Error (List ModuleDep)
  files : Except Error (List File)
deriving DecidableEq, Repr

/-- A `bufmodule.RemoteDep` as far as `Upload` reads it. -/
structure RemoteDep where
  fullName : Option FullName
  commitID : UUID
  opaqueID : String
deriving DecidableEq, Repr

/-- A `bufmodule.ModuleSet` as far as `Upload` reads it: the outcome of
`ModuleSetTargetLocalModulesAndTransitiveLocalDeps` and the function
`RemoteDepsForModules`, both declared outside the sources. -/
structure ModuleSet where
  targetLocalModulesAndTransitiveLocalDeps : Except Error (List Module)
  remoteDepsForModules : List Module → Except Error (List RemoteDep)

/-- The upload options (`bufmodule.UploadOptions`). -/
structure UploadOptions where
  excludeUnnamed : Bool
  createIfNotExist : Bool
  createModuleVisibility : Nat
  createDefaultLabel : String
  tags : List String
  labels : List String
  sourceControlURL : String
deriving DecidableEq, Repr

/-- A `modulev1.Module` as far as `Upload` reads it. -/
structure ProtoModule where
  name : String
  defaultLabelName : String
deriving DecidableEq, Repr

/-- A `modulev1.CreateModulesRequest_Value`. -/
structure CreateModulesRequestValue where
  ownerName : String
  name : String
  visibility : Nat
  defaultLabelName : String
deriving DecidableEq, Repr

/-- A module reference by name (`ModuleRef_Name`). -/
structure ModuleRef where
  owner : String
  module : String
deriving DecidableEq, Repr

/-- A `modulev1beta1.ScopedLabelRef` by name. -/
structure ScopedLabelRef where
  name : String
deriving DecidableEq, Repr

/-- A `modulev1beta1.UploadRequest_Content`. -/
structure UploadRequestContent where
  moduleRef : ModuleRef
  files : List File
  scopedLabelRefs : List ScopedLabelRef
  sourceControlUrl : String
deriving DecidableEq, Repr

/-- A `modulev1.UploadRequest_Content`. -/
structure V1UploadRequestContent where
  moduleRef : ModuleRef
  files : List File
  scopedLabelRefs : List ScopedLabelRef
  sourceControlUrl : String
deriving DecidableEq, Repr

/-- A `modulev1beta1.UploadRequest_DepRef`. -/
structure DepRef where
  commitId : String
  registry : String
deriving DecidableEq, Repr

/-- The federated request `modulev1beta1.UploadRequest`. -/
structure V1Beta1UploadRequest where
  contents : List UploadRequestContent
  depRefs : List DepRef
deriving DecidableEq, Repr

/-- The simple request `modulev1.UploadRequest`. -/
structure V1UploadRequest where
  contents : List V1UploadRequestContent
  depCommitIds : List String
deriving DecidableEq, Repr

/-- A commit of an upload response, of either endpoint. -/
structure ProtoCommit where
  id : String
  digest : String
  createTime : Nat
deriving DecidableEq, Repr

/-- The struct `universalProtoCommit`. -/
structure universalProtoCommit where
  ID : String
  Digest : String
  CreateTime : Nat
deriving DecidableEq, Repr

/-- Modelled from the spec: `bufmodule.ModuleKey` is declared outside the
sources; the triple of the full name, the commit id and the digest. -/
structure ModuleKey where
  fullName : Option FullName
  commitID : UUID
  digest : String
deriving DecidableEq, Repr

/-- Modelled from the spec: `bufmodule.Commit` is declared outside the
sources; a module key with the create time. -/
structure Commit where
  moduleKey : ModuleKey
  createTime : Nat
deriving DecidableEq, Repr

/-- The functions of the repository that `Upload` calls and that are declared
outside the sources; the uploader is embedded for every choice of them. -/
structure Helpers where
  validateDepRegistries : String → List String → String → Option Error
  moduleVisibilityToV1Proto : Nat → Except Error Nat
  newUniversalProtoCommitForV1 : ProtoCommit → Except Error universalProtoCommit
  newUniversalProtoCommitForV1Beta1 : ProtoCommit → Except Error universalProtoCommit
  FromDashless : String → Except Error UUID
  ToDashless : UUID → String
  newModuleKeyError : Option FullName → UUID → Option Error

/-- The client of the registry: the four calls that the uploader makes, each
from the state of the registry to the response and the next state. -/
structure ModuleClientProvider (ρ : Type) where
  CreateModules : String → List CreateModulesRequestValue → ρ → Except Error (List ProtoModule) × ρ
  GetModules : String → List ModuleRef → ρ → Except Error (List ProtoModule) × ρ
  V1Upload : String → V1UploadRequest → ρ → Except Error (List ProtoCommit) × ρ
  V1Beta1Upload : String → V1Beta1UploadRequest → ρ → Except Error (List ProtoCommit) × ρ

/-- A call made on the client of the registry. -/
inductive Call where
  | createModules (registry : String) (values : List CreateModulesRequestValue)
  | getModules (registry : String) (moduleRefs : List ModuleRef)
  | v1Upload (registry : String) (request : V1UploadRequest)
  | v1beta1Upload (registry : String) (request : V1Beta1UploadRequest)
deriving DecidableEq, Repr

/-- True for the calls of the two upload endpoints. -/
def Call.isUpload : Call → Bool
  | .v1Upload _ _ => true
  | .v1beta1Upload _ _ => true
  | _ => false

/-- The state of the registry and the calls made on its client so far. -/
structure World (ρ : Type) where
  registry : ρ
  calls : List Call
deriving DecidableEq, Repr

/-- The struct `uploader`. -/
structure uploader (ρ : Type) where
  moduleClientProvider : ModuleClientProvider ρ
  publicRegistry : String
  helpers : Helpers

end bufmoduleapi

namespace bufmoduleapi

/-- The owner of the full name of a module, `module.FullName().Owner()`; the
uploader reads it on named modules only. -/
def Module.owner (m : Module) : String := (m.fullName.map (·.owner)).getD ""

/-- The name of the full name of a module, `module.FullName().Name()`; the
uploader reads it on named modules only. -/
def Module.name (m : Module) : String := (m.fullName.map (·.name)).getD ""

/-- The function literal that `Upload` gives to `xslices.FilterError`: an
unnamed module is excluded or is an error, and a named module must have named
dependencies only. -/
def filterContentModule (uploadOptions : UploadOptions) (module : Module) : Except Error Bool :=
  match module.fullName with
  | none =>
    if uploadOptions.excludeUnnamed then .ok false
    else .error (.unnamedModule module.description)
  | some moduleName =>
    match module.moduleDeps with
    | .error err => .error err
    | .ok deps =>
      let allDepModuleDescriptions :=
        xslices.Reduce deps
          (fun (allDepModuleDescriptions : List String) (dep : ModuleDep) =>
            if dep.fullName = none then allDepModuleDescriptions ++ [dep.description]
            else allDepModuleDescriptions)
          []
      if allDepModuleDescriptions.length > 0 then
        .error (.unnamedDependencies moduleName.String allDepModuleDescriptions)
      else .ok true

/-- Modelled from the spec: `getSingleRegistryForContentModules` is declared
in a file of the package that is not among the sources.  By the specification
all content modules must share exactly one registry, which is returned, and a
violation is a programming error. -/
def getSingleRegistryForContentModules (contentModules : List Module) : Except Error String :=
  match contentModules with
  | [] => .error (.syserror "no content modules")
  | module :: rest =>
    match module.fullName with
    | none => .error (.syserror "expected module name for content module")
    | some fullName =>
      if rest.all (fun m => m.fullName.map (·.registry) == some fullName.registry) then
        .ok fullName.registry
      else .error (.syserror "content modules from more than one registry")

/-- Modelled from the spec: `labelNameToV1Beta1ProtoScopedLabelRef` is
declared in a file of the package that is not among the sources; the wire form
of a label name. -/
def labelNameToV1Beta1ProtoScopedLabelRef (labelName : String) : ScopedLabelRef :=
  { name := labelName }

/-- Modelled from the spec:
`v1beta1ProtoUploadRequestContentToV1ProtoUploadRequestContent` is declared in
a file of the package that is not among the sources; the same content in the
message type of the simple endpoint. -/
def v1beta1ProtoUploadRequestContentToV1ProtoUploadRequestContent
    (content : UploadRequestContent) : V1UploadRequestContent :=
  { moduleRef := content.moduleRef, files := content.files,
    scopedLabelRefs := content.scopedLabelRefs, sourceControlUrl := content.sourceControlUrl }

/-- Appends a call to the calls of a world and sets the state of the registry. -/
def World.record {ρ : Type} (w : World ρ) (call : Call) (registry : ρ) : World ρ :=
  { registry := registry, calls := w.calls ++ [call] }

/-- The method `validateContentModulesExist`: one `GetModules` call for the
references of the content modules. -/
def uploader.validateContentModulesExist {ρ : Type} (a : uploader ρ) (primaryRegistry : String)
    (contentModules : List Module) (w : World ρ) : Except Error (List ProtoModule) × World ρ :=
  let moduleRefs := contentModules.map
    (fun module => ({ owner := module.owner, module := module.name } : ModuleRef))
  let response := a.moduleClientProvider.GetModules primaryRegistry moduleRefs w.registry
  (response.1, w.record (.getModules primaryRegistry moduleRefs) response.2)

/-- The check `len(modules) != 1` followed by `modules[0]`. -/
def expectOneModule (modules : List ProtoModule) : Except Error ProtoModule :=
  match modules with
  | [module] => .ok module
  | _ => .error (.syserror "expected 1 Module")

/-- The method `createContentModuleIfNotExist`: one `CreateModules` call, and
when it fails with the already-exists code, one `GetModules` call. -/
def uploader.createContentModuleIfNotExist {ρ : Type} (a : uploader ρ) (primaryRegistry : String)
    (contentModule : Module) (createModuleVisibility : Nat) (createDefaultLabel : String)
    (w : World ρ) : Except Error ProtoModule × World ρ :=
  match a.helpers.moduleVisibilityToV1Proto createModuleVisibility with
  | .error err => (.error err, w)
  | .ok v1ProtoCreateModuleVisibility =>
    let values : List CreateModulesRequestValue :=
      [{ ownerName := contentModule.owner, name := contentModule.name,
         visibility := v1ProtoCreateModuleVisibility, defaultLabelName := createDefaultLabel }]
    let response := a.moduleClientProvider.CreateModules primaryRegistry values w.registry
    let w1 := w.record (.createModules primaryRegistry values) response.2
    match response.1 with
    | .error err =>
      if CodeOf err = CodeAlreadyExists then
        let r := a.validateContentModulesExist primaryRegistry [contentModule] w1
        match r.1 with
        | .error err => (.error err, r.2)
        | .ok modules => (expectOneModule modules, r.2)
      else (.error err, w1)
    | .ok modules => (expectOneModule modules, w1)

/-- The loop `for i, contentModule := range contentModules` of `Upload` that
creates the modules one at a time. -/
def uploader.createContentModules {ρ : Type} (a : uploader ρ) (primaryRegistry : String)
    (uploadOptions : UploadOptions) :
    List Module → World ρ → Except Error (List ProtoModule) × World ρ
  | [], w => (.ok [], w)
  | contentModule :: rest, w =>
    match a.createContentModuleIfNotExist primaryRegistry contentModule
        uploadOptions.createModuleVisibility uploadOptions.createDefaultLabel w with
    | (.error err, w1) => (.error err, w1)
    | (.ok module, w1) =>
      match uploader.createContentModules a primaryRegistry uploadOptions rest w1 with
      | (.error err, w2) => (.error err, w2)
      | (.ok modules, w2) => (.ok (module :: modules), w2)

/-- The registry modules of the content modules, in the order of the content
modules: created when `CreateIfNotExist` is set, fetched otherwise. -/
def uploader.resolveModules {ρ : Type} (a : uploader ρ) (primaryRegistry : String)
    (uploadOptions : UploadOptions) (contentModules : List Module) (w : World ρ) :
    Except Error (List ProtoModule) × World ρ :=
  if uploadOptions.createIfNotExist then
    a.createContentModules primaryRegistry uploadOptions contentModules w
  else
    a.validateContentModulesExist primaryRegistry contentModules w

/-- The label references of the upload request: the tags followed by the
default label that all modules share, or else the labels. -/
def scopedLabelRefs (uploadOptions : UploadOptions) (contentModules : List Module)
    (modules : List ProtoModule) : Except Error (List ScopedLabelRef) :=
  if uploadOptions.tags.length > 0 then
    let contentModuleSortedDefaultLabels :=
      xslices.ToUniqueSorted (modules.map (fun module => module.defaultLabelName))
    if contentModuleSortedDefaultLabels.length > 1 then
      .error (.multipleDefaultLabels
        (contentModules.map (fun module => (module.fullName.map FullName.String).getD ""))
        contentModuleSortedDefaultLabels)
    else
      match contentModuleSortedDefaultLabels with
      | [] => .error (.syserror "no default labels for modules")
      | defaultLabel :: _ =>
        let labelNames := uploadOptions.tags ++ [defaultLabel]
        .ok (labelNames.map labelNameToV1Beta1ProtoScopedLabelRef)
  else if uploadOptions.labels.length > 0 then
    .ok (uploadOptions.labels.map labelNameToV1Beta1ProtoScopedLabelRef)
  else .ok []

/-- The function `getV1Beta1ProtoUploadRequestContent`. -/
def getV1Beta1ProtoUploadRequestContent (v1beta1ProtoScopedLabelRefs : List ScopedLabelRef)
    (primaryRegistry : String) (module : Module) (sourceControlURL : String) :
    Except Error UploadRequestContent :=
  if !module.isLocal then
    .error (.syserror "expected local Module in getProtoLegacyFederationUploadRequestContent")
  else
    match module.fullName with
    | none => .error (.syserror "expected module name for local module")
    | some fullName =>
      if fullName.registry ≠ primaryRegistry then
        .error (.syserror "attempting to upload content for registry other than the primary")
      else
        match module.files with
        | .error err => .error err
        | .ok v1beta1ProtoFiles =>
          .ok { moduleRef := { owner := fullName.owner, module := fullName.name },
                files := v1beta1ProtoFiles,
                scopedLabelRefs := v1beta1ProtoScopedLabelRefs,
                sourceControlUrl := if sourceControlURL ≠ "" then sourceControlURL else "" }

/-- The function `remoteDepToV1Beta1ProtoUploadRequestDepRef`. -/
def remoteDepToV1Beta1ProtoUploadRequestDepRef (h : Helpers) (remoteDep : RemoteDep) :
    Except Error DepRef :=
  match remoteDep.fullName with
  | none => .error (.syserror "expected module name for remote module dependency")
  | some fullName =>
    let depCommitID := remoteDep.commitID
    if depCommitID = uuidNil then
      .error (.syserror "did not have a commit ID for a remote module dependency")
    else
      .ok { commitId := h.ToDashless depCommitID, registry := fullName.registry }

/-- The sorted slice of the unique registries of the remote dependencies,
`xslices.MapKeysToSortedSlice(xslices.ToValuesMap(remoteDeps, ...))`; the full
names are present when the uploader computes it. -/
def remoteDepRegistriesOf (remoteDeps : List RemoteDep) : List String :=
  xslices.ToUniqueSorted
    (remoteDeps.map (fun remoteDep => (remoteDep.fullName.map (·.registry)).getD ""))

/-- What `Upload` has computed when it reaches the upload step. -/
structure Prepared where
  contentModules : List Module
  primaryRegistry : String
  contents : List UploadRequestContent
  depRefs : List DepRef
  remoteDepRegistries : List String
deriving DecidableEq, Repr

/-- The first part of `Upload`, up to and including `validateDepRegistries`:
an error, nothing to upload (`none`), or what the upload step needs. -/
def uploader.prepare {ρ : Type} (a : uploader ρ) (moduleSet : ModuleSet)
    (uploadOptions : Except Error UploadOptions) (w : World ρ) :
    Except Error (Option Prepared) × World ρ :=
  match uploadOptions with
  | .error err => (.error err, w)
  | .ok uploadOptions =>
    match moduleSet.targetLocalModulesAndTransitiveLocalDeps with
    | .error err => (.error err, w)
    | .ok contentModules =>
      match xslices.FilterError (filterContentModule uploadOptions) contentModules with
      | .error err => (.error err, w)
      | .ok contentModules =>
        if contentModules.length = 0 then (.ok none, w)
        else
          match getSingleRegistryForContentModules contentModules with
          | .error err => (.error err, w)
          | .ok primaryRegistry =>
            match a.resolveModules primaryRegistry uploadOptions contentModules w with
            | (.error err, w1) => (.error err, w1)
            | (.ok modules, w1) =>
              match scopedLabelRefs uploadOptions contentModules modules with
              | .error err => (.error err, w1)
              | .ok v1beta1ProtoScopedLabelRefs =>
                match xslices.MapError
                    (fun module => getV1Beta1ProtoUploadRequestContent
                      v1beta1ProtoScopedLabelRefs primaryRegistry module
                      uploadOptions.sourceControlURL)
                    contentModules with
                | .error err => (.error err, w1)
                | .ok v1beta1ProtoUploadRequestContents =>
                  match moduleSet.remoteDepsForModules contentModules with
                  | .error err => (.error err, w1)
                  | .ok remoteDeps =>
                    match xslices.MapError
                        (remoteDepToV1Beta1ProtoUploadRequestDepRef a.helpers) remoteDeps with
                    | .error err => (.error err, w1)
                    | .ok v1beta1ProtoUploadRequestDepRefs =>
                      let remoteDepRegistries := remoteDepRegistriesOf remoteDeps
                      match a.helpers.validateDepRegistries primaryRegistry remoteDepRegistries
                          a.publicRegistry with
                      | some err => (.error err, w1)
                      | none =>
                        (.ok (some
                          { contentModules := contentModules
                            primaryRegistry := primaryRegistry
                            contents := v1beta1ProtoUploadRequestContents
                            depRefs := v1beta1ProtoUploadRequestDepRefs
                            remoteDepRegistries := remoteDepRegistries }), w1)

/-- The condition of the upload step for the federated endpoint:
`len(remoteDepRegistries) > 0 && (len(remoteDepRegistries) > 1 ||
remoteDepRegistries[0] != primaryRegistry)`. -/
def Prepared.federated (p : Prepared) : Bool :=
  match p.remoteDepRegistries with
  | [] => false
  | registry :: rest => decide (rest.length + 1 > 1) || registry != p.primaryRegistry

/-- The federated request of the upload step. -/
def Prepared.v1beta1Request (p : Prepared) : V1Beta1UploadRequest :=
  { contents := p.contents, depRefs := p.depRefs }

/-- The simple request of the upload step. -/
def Prepared.v1Request (p : Prepared) : V1UploadRequest :=
  { contents := p.contents.map v1beta1ProtoUploadRequestContentToV1ProtoUploadRequestContent,
    depCommitIds := p.depRefs.map (fun v1beta1ProtoDepRef => v1beta1ProtoDepRef.commitId) }

/-- The upload step of `Upload`: the call of the federated or of the simple
endpoint, and the commits of the response as `universalProtoCommit`s. -/
def uploader.uploadCommits {ρ : Type} (a : uploader ρ) (p : Prepared) (w : World ρ) :
    Except Error (List universalProtoCommit) × World ρ :=
  if p.federated then
    let response :=
      a.moduleClientProvider.V1Beta1Upload p.primaryRegistry p.v1beta1Request w.registry
    let w1 := w.record (.v1beta1Upload p.primaryRegistry p.v1beta1Request) response.2
    match response.1 with
    | .error err => (.error err, w1)
    | .ok commits => (xslices.MapError a.helpers.newUniversalProtoCommitForV1Beta1 commits, w1)
  else
    let response := a.moduleClientProvider.V1Upload p.primaryRegistry p.v1Request w.registry
    let w1 := w.record (.v1Upload p.primaryRegistry p.v1Request) response.2
    match response.1 with
    | .error err => (.error err, w1)
    | .ok commits => (xslices.MapError a.helpers.newUniversalProtoCommitForV1 commits, w1)

/-- The constructor `bufmodule.NewModuleKey` followed by `bufmodule.NewCommit`
for one commit of the response and the full name of its content module. -/
def newCommit (h : Helpers) (moduleFullName : Option FullName)
    (universalProtoCommit : universalProtoCommit) : Except Error Commit :=
  match h.FromDashless universalProtoCommit.ID with
  | .error err => .error err
  | .ok commitID =>
    match h.newModuleKeyError moduleFullName commitID with
    | some err => .error err
    | none =>
      .ok { moduleKey := { fullName := moduleFullName, commitID := commitID,
                           digest := universalProtoCommit.Digest },
            createTime := universalProtoCommit.CreateTime }

/-- The loop `for i, universalProtoCommit := range universalProtoCommits` of
`Upload`, which reads `contentModules[i]`; the lists have the same length
when the loop runs, and an index out of range is an error. -/
def newCommits (h : Helpers) : List Module → List universalProtoCommit → Except Error (List Commit)
  | _, [] => .ok []
  | [], _ :: _ => .error (.syserror "index out of range")
  | contentModule :: contentModules, universalProtoCommit :: universalProtoCommits =>
    match newCommit h contentModule.fullName universalProtoCommit with
    | .error err => .error err
    | .ok commit =>
      match newCommits h contentModules universalProtoCommits with
      | .error err => .error err
      | .ok commits => .ok (commit :: commits)

/-- The last part of `Upload`: the upload step, the check of the number of
commits, and the commits returned. -/
def uploader.send {ρ : Type} (a : uploader ρ) (p : Prepared) (w : World ρ) :
    Except Error (List Commit) × World ρ :=
  match a.uploadCommits p w with
  | (.error err, w1) => (.error err, w1)
  | (.ok universalProtoCommits, w1) =>
    if universalProtoCommits.length ≠ p.contents.length then
      (.error (.commitCount p.contents.length universalProtoCommits.length), w1)
    else (newCommits a.helpers p.contentModules universalProtoCommits, w1)

/-- The method `Upload`.  The options are the outcome of
`bufmodule.NewUploadOptions`. -/
def uploader.Upload {ρ : Type} (a : uploader ρ) (moduleSet : ModuleSet)
    (uploadOptions : Except Error UploadOptions) (w : World ρ) :
    Except Error (List Commit) × World ρ :=
  match a.prepare moduleSet uploadOptions w with
  | (.error err, w1) => (.error err, w1)
  | (.ok none, w1) => (.ok [], w1)
  | (.ok (some p), w1) => a.send p w1

end bufmoduleapi

namespace bufmoduleapi

/-- What the registry returns for the upload request of the upload step. -/
def uploader.uploadResponse {ρ : Type} (a : uploader ρ) (p : Prepared) (w : World ρ) :
    Except Error (List ProtoCommit) :=
  if p.federated then
    (a.moduleClientProvider.V1Beta1Upload p.primaryRegistry p.v1beta1Request w.registry).1
  else (a.moduleClientProvider.V1Upload p.primaryRegistry p.v1Request w.registry).1

/-- The conversion of the commits of the response of the upload step. -/
def uploader.newUniversalProtoCommit {ρ : Type} (a : uploader ρ) (p : Prepared) :
    ProtoCommit → Except Error universalProtoCommit :=
  if p.federated then a.helpers.newUniversalProtoCommitForV1Beta1
  else a.helpers.newUniversalProtoCommitForV1

/-- A commit returned by `Upload` carries the full name of its content module
and the commit id, digest and create time of its commit of the response. -/
def CommitOf (h : Helpers) (moduleAndCommit : Module × universalProtoCommit)
    (commit : Commit) : Prop :=
  commit.moduleKey.fullName = moduleAndCommit.1.fullName ∧
  h.FromDashless moduleAndCommit.2.ID = .ok commit.moduleKey.commitID ∧
  commit.moduleKey.digest = moduleAndCommit.2.Digest ∧
  commit.createTime = moduleAndCommit.2.CreateTime

/-- Helpers that accept everything: no registry restriction, the identity on
visibilities, commits converted field by field, and a commit id that is the
length of its dashless form. -/
def stubHelpers : Helpers where
  validateDepRegistries := fun _ _ _ => none
  moduleVisibilityToV1Proto := fun v => .ok v
  newUniversalProtoCommitForV1 := fun c => .ok ⟨c.id, c.digest, c.createTime⟩
  newUniversalProtoCommitForV1Beta1 := fun c => .ok ⟨c.id, c.digest, c.createTime⟩
  FromDashless := fun s => .ok s.length
  ToDashless := fun n => ⟨List.replicate n 'c'⟩
  newModuleKeyError := fun _ _ => none

/-- A registry that accepts every call; its state is the number of calls made.
Modules get the default label `main`, and every content gets one commit. -/
def stubClient : ModuleClientProvider Nat where
  CreateModules := fun _ values n => (.ok (values.map (fun v => ⟨v.name, "main"⟩)), n + 1)
  GetModules := fun _ refs n => (.ok (refs.map (fun r => ⟨r.module, "main"⟩)), n + 1)
  V1Upload := fun _ request n =>
    (.ok (request.contents.map (fun c => ⟨c.moduleRef.module, "digest", n⟩)), n + 1)
  V1Beta1Upload := fun _ request n =>
    (.ok (request.contents.map (fun c => ⟨c.moduleRef.module, "digest", n⟩)), n + 1)

/-- An uploader on the stub registry, with the public registry `buf.build`. -/
def stubUploader : uploader Nat :=
  { moduleClientProvider := stubClient, publicRegistry := "buf.build", helpers := stubHelpers }

/-- Options with nothing set. -/
def stubOptions : UploadOptions :=
  { excludeUnnamed := false, createIfNotExist := false, createModuleVisibility := 0,
    createDefaultLabel := "", tags := [], labels := [], sourceControlURL := "" }

/-- A local module with the given name and dependencies and one file. -/
def stubModule (fullName : Option FullName) (description : String) (deps : List ModuleDep) :
    Module :=
  { fullName := fullName, description := description, isLocal := true,
    moduleDeps := .ok deps, files := .ok [⟨"a.proto", "syntax"⟩] }

/-- A module set with the given content modules and remote dependencies. -/
def stubModuleSet (modules : List Module) (remoteDeps : List RemoteDep) : ModuleSet :=
  { targetLocalModulesAndTransitiveLocalDeps := .ok modules,
    remoteDepsForModules := fun _ => .ok remoteDeps }

end bufmoduleapi

namespace bufmoduleapi

/-- The calls that a step adds to a world are not upload calls. -/
def NoUploadAdded {ρ : Type} (w w1 : World ρ) : Prop :=
  ∃ cs, w1.calls = w.calls ++ cs ∧ ∀ c ∈ cs, Call.isUpload c = false

end bufmoduleapi

namespace bufmoduleapi

/-- A step adds at most `n` calls to a world. -/
def CallsAdded {ρ : Type} (w w1 : World ρ) (n : Nat) : Prop :=
  ∃ cs, w1.calls = w.calls ++ cs ∧ cs.length ≤ n

end bufmoduleapi

namespace strings

/-- Go `strings.ContainsRune`. -/
def ContainsRune (s : String) (r : Char) : Bool := s.data.contains r

/-- Go `strings.Contains`: `substr` starts at some position of `s`. -/
def Contains (s substr : String) : Bool := s.data.tails.any (fun t => substr.data.isPrefixOf t)

end strings

namespace url

/-- The bytes of the UTF-8 encoding of a character; Go strings are sequences
of bytes and `escape` reads them one byte at a time. -/
def utf8 (c : Char) : List Nat :=
  let n := c.toNat
  if n < 0x80 then [n]
  else if n < 0x800 then [0xC0 + n / 0x40, 0x80 + n % 0x40]
  else if n < 0x10000 then [0xE0 + n / 0x1000, 0x80 + n / 0x40 % 0x40, 0x80 + n % 0x40]
  else [0xF0 + n / 0x40000, 0x80 + n / 0x1000 % 0x40, 0x80 + n / 0x40 % 0x40, 0x80 + n % 0x40]

/-- Go `shouldEscape(c, encodePathSegment)` of `net/url`: letters, digits and
`-_.~` are never escaped, of the reserved characters a path segment escapes
`/ ; , ?` and leaves `$ & + : = @`, and every other byte is escaped. -/
def shouldEscape (c : Nat) : Bool :=
  if ('a'.toNat ≤ c ∧ c ≤ 'z'.toNat) ∨ ('A'.toNat ≤ c ∧ c ≤ 'Z'.toNat) ∨
      ('0'.toNat ≤ c ∧ c ≤ '9'.toNat) then false
  else if c = '-'.toNat ∨ c = '_'.toNat ∨ c = '.'.toNat ∨ c = '~'.toNat then false
  else if c = '$'.toNat ∨ c = '&'.toNat ∨ c = '+'.toNat ∨ c = ','.toNat ∨ c = '/'.toNat ∨
      c = ':'.toNat ∨ c = ';'.toNat ∨ c = '='.toNat ∨ c = '?'.toNat ∨ c = '@'.toNat then
    decide (c = '/'.toNat ∨ c = ';'.toNat ∨ c = ','.toNat ∨ c = '?'.toNat)
  else true

/-- The table `upperhex` of `net/url`. -/
def upperhex (n : Nat) : Char := "0123456789ABCDEF".data.getD n '0'

/-- What `escape` writes for one byte: `%XX` when the byte is escaped, the
byte otherwise. -/
def escapeByte (c : Nat) : List Char :=
  if shouldEscape c then ['%', upperhex (c / 16), upperhex (c % 16)] else [Char.ofNat c]

/-- Go `url.PathEscape`, that is `escape(s, encodePathSegment)`: the string
itself when no byte is escaped, and otherwise the bytes one by one. -/
def PathEscape (s : String) : String :=
  let bytes := s.data.flatMap utf8
  if (bytes.filter shouldEscape).length = 0 then s
  else ⟨bytes.flatMap escapeByte⟩

end url

namespace normalpath

/-- The errors of `ValidatePathComponent`, one for each `return` of an error. -/
inductive ComponentError where
  | empty
  | containsSlash
  | containsDotDot
  | notEscaped (component escaped : String)
deriving DecidableEq, Repr

/-- ValidatePathComponent validates that the string is a valid component of a
path; `none` is the nil error. -/
def ValidatePathComponent (component : String) : Option ComponentError :=
  if component = "" then some .empty
  else if strings.ContainsRune component '/' then some .containsSlash
  else if strings.Contains component ".." then some .containsDotDot
  else if url.PathEscape component ≠ component then
    some (.notEscaped component (url.PathEscape component))
  else none

/-- ValidatePathComponents validates that all the strings are valid
components of a path: the error of the first component that has one. -/
def ValidatePathComponents : List String → Option ComponentError
  | [] => none
  | component :: components =>
    match ValidatePathComponent component with
    | some err => some err
    | none => ValidatePathComponents components

end normalpath

namespace strings

/-- The search of `strings.Cut`: the characters before and after the first
occurrence of `sep`, when there is one. -/
def cutChars (sep : List Char) : List Char → Option (List Char × List Char)
  | [] => if sep = [] then some ([], []) else none
  | c :: cs =>
    if sep.isPrefixOf (c :: cs) then some ([], (c :: cs).drop sep.length)
    else (cutChars sep cs).map (fun r => (c :: r.1, r.2))

/-- Go `strings.Cut`: `s` around the first `sep`; without `sep` in `s` the
result is `s, "", false`. -/
def Cut (s sep : String) : String × String × Bool :=
  match cutChars sep.data s.data with
  | some (before, after) => (⟨before⟩, ⟨after⟩, true)
  | none => (s, "", false)

/-- The fields of `strings.Split` for a separator of one character. -/
def splitChars (sep : Char) : List Char → List (List Char)
  | [] => [[]]
  | c :: cs =>
    if c = sep then [] :: splitChars sep cs
    else
      match splitChars sep cs with
      | [] => [[c]]
      | field :: fields => (c :: field) :: fields

/-- Go `strings.Split` for a separator of one character. -/
def Split (s : String) (sep : Char) : List String := (splitChars sep s.data).map String.mk

end strings

namespace bufremotepluginconfig

/-- A Go `error` of the package: the format string of `errors.New` or
`fmt.Errorf`, its arguments, and for `%w` the wrapped error. -/
inductive Error where
  | new (format : String) (args : List String)
  | wrap (format : String) (args : List String) (err : Error)
deriving DecidableEq, Repr

/-- The interface `bufremotepluginref.PluginIdentity`, by the results of its
methods. -/
structure PluginIdentity where
  Remote : String
  Owner : String
  Plugin : String
  IdentityString : String
deriving DecidableEq, Repr

/-- The interface `bufremotepluginref.PluginReference`, by the results of its
methods. -/
structure PluginReference where
  Remote : String
  IdentityString : String
  Version : String
  Revision : Int
deriving DecidableEq, Repr

/-- What `config.go` calls of other packages, and the constant
`ExternalConfigFilePath`: `modfile.GoVersionRE.MatchString`, `semver.IsValid`,
the constructors of `bufremotepluginref`, `OptionsSliceToPluginOptions`,
`xslices.Duplicates`, and `spdx.LicenseForID` as the ID of the license that it
finds. -/
structure Env where
  ExternalConfigFilePath : String
  GoVersionREMatchString : String → Bool
  semverIsValid : String → Bool
  PluginIdentityForString : String → Except Error PluginIdentity
  NewPluginIdentity : String → String → String → Except Error PluginIdentity
  OptionsSliceToPluginOptions : List String → List (String × String)
  Duplicates : List String → List String
  PluginReferenceForString : String → Int → Except Error PluginReference
  NewPluginReference : PluginIdentity → String → Int → Except Error PluginReference
  LicenseForID : String → Option String

structure ExternalGoRegistryDependencyConfig where
  Module : String
  Version : String
deriving DecidableEq, Repr

structure ExternalGoRegistryConfig where
  MinVersion : String
  Deps : List ExternalGoRegistryDependencyConfig
  BasePlugin : String
deriving DecidableEq, Repr

structure GoRegistryDependencyConfig where
  Module : String
  Version : String
deriving DecidableEq, Repr

structure GoRegistryConfig where
  MinVersion : String
  Deps : List GoRegistryDependencyConfig
  BasePlugin : Option PluginIdentity
deriving DecidableEq, Repr

structure ExternalNPMRegistryDependencyConfig where
  Package : String
  Version : String
deriving DecidableEq, Repr

structure ExternalNPMRegistryConfig where
  RewriteImportPathSuffix : String
  Deps : List ExternalNPMRegistryDependencyConfig
  ImportStyle : String
deriving DecidableEq, Repr

structure NPMRegistryDependencyConfig where
  Package : String
  Version : String
deriving DecidableEq, Repr

structure NPMRegistryConfig where
  RewriteImportPathSuffix : String
  Deps : List NPMRegistryDependencyConfig
  ImportStyle : String
deriving DecidableEq, Repr

structure MavenCompilerJavaConfig where
  Encoding : String
  Release : Int
  Source : Int
  Target : Int
deriving DecidableEq, Repr

structure MavenCompilerKotlinConfig where
  APIVersion : String
  JVMTarget : String
  LanguageVersion : String
  Version : String
deriving DecidableEq, Repr

structure MavenCompilerConfig where
  Java : MavenCompilerJavaConfig
  Kotlin : MavenCompilerKotlinConfig
deriving DecidableEq, Repr

structure ExternalMavenRuntimeConfig where
  Name : String
  Deps : List String
  Opts : List String
deriving DecidableEq, Repr

/-- The external Maven configuration; its compiler fields are read one by one
and have the types of the fields of `MavenCompilerConfig`. -/
structure ExternalMavenRegistryConfig where
  Compiler : MavenCompilerConfig
  Deps : List String
  AdditionalRuntimes : List ExternalMavenRuntimeConfig
deriving DecidableEq, Repr

structure MavenDependencyConfig where
  GroupID : String
  ArtifactID : String
  Version : String
  Classifier : String
  Extension : String
deriving DecidableEq, Repr

structure MavenRuntimeConfig where
  Name : String
  Deps : List MavenDependencyConfig
  Options : List String
deriving DecidableEq, Repr

structure MavenRegistryConfig where
  Compiler : MavenCompilerConfig
  Deps : List MavenDependencyConfig
  AdditionalRuntimes : List MavenRuntimeConfig
deriving DecidableEq, Repr

end bufremotepluginconfig

namespace bufremotepluginconfig

structure SwiftRegistryDependencyPlatformConfig where
  MacOS : String
  IOS : String
  TVOS : String
  WatchOS : String
deriving DecidableEq, Repr

/-- The external Swift dependency; its platform fields are read one by one
and have the types of the fields of `SwiftRegistryDependencyPlatformConfig`. -/
structure ExternalSwiftRegistryDependencyConfig where
  Source : String
  Package : String
  Version : String
  Products : List String
  SwiftVersions : List String
  Platforms : SwiftRegistryDependencyPlatformConfig
deriving DecidableEq, Repr

structure ExternalSwiftRegistryConfig where
  Deps : List ExternalSwiftRegistryDependencyConfig
deriving DecidableEq, Repr

structure SwiftRegistryDependencyConfig where
  Source : String
  Package : String
  Version : String
  Products : List String
  SwiftVersions : List String
  Platforms : SwiftRegistryDependencyPlatformConfig
deriving DecidableEq, Repr

structure SwiftRegistryConfig where
  Dependencies : List SwiftRegistryDependencyConfig
deriving DecidableEq, Repr

structure ExternalPythonRegistryConfig where
  Deps : List String
  RequiresPython : String
  PackageType : String
deriving DecidableEq, Repr

structure PythonRegistryConfig where
  Deps : List String
  RequiresPython : String
  PackageType : String
deriving DecidableEq, Repr

/-- A Cargo dependency; `CargoRegistryDependency(dependency)` is a conversion
between two struct types with the same fields. -/
structure CargoRegistryDependency where
  Name : String
  VersionRequirement : String
  DefaultFeatures : Bool
  Features : List String
deriving DecidableEq, Repr

structure ExternalCargoRegistryConfig where
  RustVersion : String
  Deps : List CargoRegistryDependency
deriving DecidableEq, Repr

structure CargoRegistryConfig where
  RustVersion : String
  Deps : List CargoRegistryDependency
deriving DecidableEq, Repr

structure ExternalNugetDependency where
  Name : String
  Version : String
  TargetFrameworks : List String
deriving DecidableEq, Repr

structure ExternalNugetRegistryConfig where
  TargetFrameworks : List String
  Deps : List ExternalNugetDependency
deriving DecidableEq, Repr

structure NugetDependencyConfig where
  Name : String
  Version : String
  TargetFrameworks : List String
deriving DecidableEq, Repr

structure NugetRegistryConfig where
  TargetFrameworks : List String
  Deps : List NugetDependencyConfig
deriving DecidableEq, Repr

structure ExternalCmakeRegistryConfig where
deriving DecidableEq, Repr

structure CmakeRegistryConfig where
deriving DecidableEq, Repr

/-- The external registry configuration: one pointer for each registry, nil
when the registry is not configured, and the options. -/
structure ExternalRegistryConfig where
  Go : Option ExternalGoRegistryConfig := none
  NPM : Option ExternalNPMRegistryConfig := none
  Maven : Option ExternalMavenRegistryConfig := none
  Swift : Option ExternalSwiftRegistryConfig := none
  Python : Option ExternalPythonRegistryConfig := none
  Cargo : Option ExternalCargoRegistryConfig := none
  Nuget : Option ExternalNugetRegistryConfig := none
  Cmake : Option ExternalCmakeRegistryConfig := none
  Opts : List String := []
deriving DecidableEq, Repr

/-- The registry configuration: one pointer for each registry, and the plugin
options. -/
structure RegistryConfig where
  Go : Option GoRegistryConfig := none
  NPM : Option NPMRegistryConfig := none
  Maven : Option MavenRegistryConfig := none
  Swift : Option SwiftRegistryConfig := none
  Python : Option PythonRegistryConfig := none
  Cargo : Option CargoRegistryConfig := none
  Nuget : Option NugetRegistryConfig := none
  Cmake : Option CmakeRegistryConfig := none
  Options : List (String × String) := []
deriving DecidableEq, Repr

end bufremotepluginconfig

namespace bufremotepluginconfig

/-- The function `pluginIdentityForStringWithOverrideRemote`. -/
def pluginIdentityForStringWithOverrideRemote (env : Env) (identityStr overrideRemote : String) :
    Except Error PluginIdentity :=
  match env.PluginIdentityForString identityStr with
  | .error err => .error err
  | .ok identity =>
    if overrideRemote.length = 0 then .ok identity
    else env.NewPluginIdentity overrideRemote identity.Owner identity.Plugin

/-- The function `mavenExternalDependencyToDependencyConfig`, for
`<groupId>:<artifactId>:<version>[:<classifier>][@<type>]`. -/
def mavenExternalDependencyToDependencyConfig (dependency : String) :
    Except Error MavenDependencyConfig :=
  let cut := strings.Cut dependency "@"
  let dependencyWithoutExtension := cut.1
  let extension := cut.2.1
  let components := strings.Split dependencyWithoutExtension ':'
  if components.length < 3 then
    .error (.new "invalid dependency %q: missing required groupId:artifactId:version fields"
      [dependency])
  else if components.length > 4 then
    .error (.new "invalid dependency %q: maximum 4 fields before optional type" [dependency])
  else
    .ok { GroupID := components.getD 0 "", ArtifactID := components.getD 1 "",
          Version := components.getD 2 "", Extension := extension,
          Classifier := if components.length = 4 then components.getD 3 "" else "" }

/-- The loop over the dependencies of `newNPMRegistryConfig`. -/
def npmDependencies :
    List ExternalNPMRegistryDependencyConfig → Except Error (List NPMRegistryDependencyConfig)
  | [] => .ok []
  | dep :: deps =>
    if dep.Package = "" then
      .error (.new "npm runtime dependency requires a non-empty package name" [])
    else if dep.Version = "" then
      .error (.new "npm runtime dependency requires a non-empty version name" [])
    else
      match npmDependencies deps with
      | .error err => .error err
      | .ok dependencies => .ok ({ Package := dep.Package, Version := dep.Version } :: dependencies)

/-- The function `newNPMRegistryConfig`; `none` is the nil pointer. -/
def newNPMRegistryConfig (externalNPMRegistryConfig : Option ExternalNPMRegistryConfig) :
    Except Error (Option NPMRegistryConfig) :=
  match externalNPMRegistryConfig with
  | none => .ok none
  | some externalNPMRegistryConfig =>
    match npmDependencies externalNPMRegistryConfig.Deps with
    | .error err => .error err
    | .ok dependencies =>
      if externalNPMRegistryConfig.ImportStyle = "module" ∨
          externalNPMRegistryConfig.ImportStyle = "commonjs" then
        .ok (some
          { RewriteImportPathSuffix := externalNPMRegistryConfig.RewriteImportPathSuffix,
            Deps := dependencies, ImportStyle := externalNPMRegistryConfig.ImportStyle })
      else
        .error (.new
          "npm registry config import_style must be one of: \"module\" or \"commonjs\"" [])

/-- The loop over the dependencies of `newGoRegistryConfig`. -/
def goRuntimeDependencies (env : Env) :
    List ExternalGoRegistryDependencyConfig → Except Error (List GoRegistryDependencyConfig)
  | [] => .ok []
  | dep :: deps =>
    if dep.Module = "" then
      .error (.new "go runtime dependency requires a non-empty module name" [])
    else if dep.Version = "" then
      .error (.new "go runtime dependency requires a non-empty version name" [])
    else if !env.semverIsValid dep.Version then
      .error (.new "go runtime dependency %s:%s does not have a valid semantic version"
        [dep.Module, dep.Version])
    else
      match goRuntimeDependencies env deps with
      | .error err => .error err
      | .ok runtimeDependencies =>
        .ok ({ Module := dep.Module, Version := dep.Version } :: runtimeDependencies)

/-- The function `newGoRegistryConfig`; `none` is the nil pointer, and the
base plugin is nil when the external configuration names none. -/
def newGoRegistryConfig (env : Env) (externalGoRegistryConfig : Option ExternalGoRegistryConfig)
    (pluginDependencies : List PluginReference) (overrideRemote : String) :
    Except Error (Option GoRegistryConfig) :=
  match externalGoRegistryConfig with
  | none => .ok none
  | some externalGoRegistryConfig =>
    if externalGoRegistryConfig.MinVersion ≠ "" ∧
        !env.GoVersionREMatchString externalGoRegistryConfig.MinVersion then
      .error (.new
        "the go minimum version %q must be a valid semantic version in the form of <major>.<minor>"
        [externalGoRegistryConfig.MinVersion])
    else
      match goRuntimeDependencies env externalGoRegistryConfig.Deps with
      | .error err => .error err
      | .ok runtimeDependencies =>
        if externalGoRegistryConfig.BasePlugin ≠ "" then
          match pluginIdentityForStringWithOverrideRemote env
              externalGoRegistryConfig.BasePlugin overrideRemote with
          | .error err => .error (.wrap "failed to parse base plugin: %w" [] err)
          | .ok basePlugin =>
            let ok := pluginDependencies.any
              (fun ref => ref.IdentityString == basePlugin.IdentityString)
            if pluginDependencies.length > 0 ∧ !ok then
              .error (.new "base plugin %q not found in plugin dependencies"
                [externalGoRegistryConfig.BasePlugin])
            else
              .ok (some { MinVersion := externalGoRegistryConfig.MinVersion,
                          Deps := runtimeDependencies, BasePlugin := some basePlugin })
        else
          .ok (some { MinVersion := externalGoRegistryConfig.MinVersion,
                      Deps := runtimeDependencies, BasePlugin := none })

/-- The loops of `newMavenRegistryConfig` over dependency strings. -/
def mavenDependencies : List String → Except Error (List MavenDependencyConfig)
  | [] => .ok []
  | externalDep :: externalDeps =>
    match mavenExternalDependencyToDependencyConfig externalDep with
    | .error err => .error err
    | .ok dep =>
      match mavenDependencies externalDeps with
      | .error err => .error err
      | .ok dependencies => .ok (dep :: dependencies)

/-- The loop over the additional runtimes of `newMavenRegistryConfig`. -/
def mavenAdditionalRuntimes :
    List ExternalMavenRuntimeConfig → Except Error (List MavenRuntimeConfig)
  | [] => .ok []
  | runtime :: runtimes =>
    match mavenDependencies runtime.Deps with
    | .error err => .error err
    | .ok deps =>
      match mavenAdditionalRuntimes runtimes with
      | .error err => .error err
      | .ok additionalRuntimes =>
        .ok ({ Name := runtime.Name, Deps := deps, Options := runtime.Opts } ::
          additionalRuntimes)

/-- The function `newMavenRegistryConfig`; `none` is the nil pointer. -/
def newMavenRegistryConfig (externalMavenRegistryConfig : Option ExternalMavenRegistryConfig) :
    Except Error (Option MavenRegistryConfig) :=
  match externalMavenRegistryConfig with
  | none => .ok none
  | some externalMavenRegistryConfig =>
    match mavenDependencies externalMavenRegistryConfig.Deps with
    | .error err => .error err
    | .ok dependencies =>
      match mavenAdditionalRuntimes externalMavenRegistryConfig.AdditionalRuntimes with
      | .error err => .error err
      | .ok additionalRuntimes =>
        .ok (some
          { Compiler :=
              { Java :=
                  { Encoding := externalMavenRegistryConfig.Compiler.Java.Encoding,
                    Release := externalMavenRegistryConfig.Compiler.Java.Release,
                    Source := externalMavenRegistryConfig.Compiler.Java.Source,
                    Target := externalMavenRegistryConfig.Compiler.Java.Target },
                Kotlin :=
                  { APIVersion := externalMavenRegistryConfig.Compiler.Kotlin.APIVersion,
                    JVMTarget := externalMavenRegistryConfig.Compiler.Kotlin.JVMTarget,
                    LanguageVersion :=
                      externalMavenRegistryConfig.Compiler.Kotlin.LanguageVersion,
                    Version := externalMavenRegistryConfig.Compiler.Kotlin.Version } },
            Deps := dependencies, AdditionalRuntimes := additionalRuntimes })

end bufremotepluginconfig

namespace bufremotepluginconfig

/-- The function `swiftExternalDependencyToDependencyConfig`. -/
def swiftExternalDependencyToDependencyConfig (env : Env)
    (externalDep : ExternalSwiftRegistryDependencyConfig) :
    Except Error SwiftRegistryDependencyConfig :=
  if externalDep.Source = "" then
    .error (.new "swift runtime dependency requires a non-empty source" [])
  else if externalDep.Package = "" then
    .error (.new "swift runtime dependency requires a non-empty package name" [])
  else if externalDep.Version = "" then
    .error (.new "swift runtime dependency requires a non-empty version name" [])
  else if !env.semverIsValid ("v" ++ externalDep.Version) then
    .error (.new "swift runtime dependency %s:%s does not have a valid semantic version"
      [externalDep.Package, externalDep.Version])
  else
    .ok { Source := externalDep.Source, Package := externalDep.Package,
          Version := externalDep.Version, Products := externalDep.Products,
          SwiftVersions := externalDep.SwiftVersions,
          Platforms :=
            { MacOS := externalDep.Platforms.MacOS, IOS := externalDep.Platforms.IOS,
              TVOS := externalDep.Platforms.TVOS, WatchOS := externalDep.Platforms.WatchOS } }

/-- The loop over the dependencies of `newSwiftRegistryConfig`. -/
def swiftDependencies (env : Env) :
    List ExternalSwiftRegistryDependencyConfig → Except Error (List SwiftRegistryDependencyConfig)
  | [] => .ok []
  | externalDependency :: externalDependencies =>
    match swiftExternalDependencyToDependencyConfig env externalDependency with
    | .error err => .error err
    | .ok dependency =>
      match swiftDependencies env externalDependencies with
      | .error err => .error err
      | .ok dependencies => .ok (dependency :: dependencies)

/-- The function `newSwiftRegistryConfig`; `none` is the nil pointer. -/
def newSwiftRegistryConfig (env : Env)
    (externalSwiftRegistryConfig : Option ExternalSwiftRegistryConfig) :
    Except Error (Option SwiftRegistryConfig) :=
  match externalSwiftRegistryConfig with
  | none => .ok none
  | some externalSwiftRegistryConfig =>
    match swiftDependencies env externalSwiftRegistryConfig.Deps with
    | .error err => .error err
    | .ok dependencies => .ok (some { Dependencies := dependencies })

/-- The loop over the dependency specifications of `newPythonRegistryConfig`. -/
def pythonDependencySpecifications : List String → Except Error (List String)
  | [] => .ok []
  | externalDependencySpecification :: rest =>
    if externalDependencySpecification = "" then
      .error (.new "python registry config cannot have an empty dependency specification" [])
    else
      match pythonDependencySpecifications rest with
      | .error err => .error err
      | .ok dependencySpecifications =>
        .ok (externalDependencySpecification :: dependencySpecifications)

/-- The function `newPythonRegistryConfig`; `none` is the nil pointer. -/
def newPythonRegistryConfig (externalPythonRegistryConfig : Option ExternalPythonRegistryConfig) :
    Except Error (Option PythonRegistryConfig) :=
  match externalPythonRegistryConfig with
  | none => .ok none
  | some externalPythonRegistryConfig =>
    match pythonDependencySpecifications externalPythonRegistryConfig.Deps with
    | .error err => .error err
    | .ok dependencySpecifications =>
      if externalPythonRegistryConfig.PackageType = "runtime" ∨
          externalPythonRegistryConfig.PackageType = "stub-only" then
        .ok (some { Deps := dependencySpecifications,
                    RequiresPython := externalPythonRegistryConfig.RequiresPython,
                    PackageType := externalPythonRegistryConfig.PackageType })
      else
        .error (.new
          "python registry config package_type must be one of: \"runtime\" or \"stub-only\"" [])

/-- The loop over the dependencies of `newCargoRegistryConfig`. -/
def cargoDependencies : List CargoRegistryDependency → Except Error (List CargoRegistryDependency)
  | [] => .ok []
  | dependency :: rest =>
    if dependency.Name = "" then
      .error (.new "cargo registry dependency cannot have empty name" [])
    else if dependency.VersionRequirement = "" then
      .error (.new "cargo registry dependency cannot have empty req" [])
    else
      match cargoDependencies rest with
      | .error err => .error err
      | .ok deps => .ok (dependency :: deps)

/-- The function `newCargoRegistryConfig`; `none` is the nil pointer. -/
def newCargoRegistryConfig (externalCargoRegistryConfig : Option ExternalCargoRegistryConfig) :
    Except Error (Option CargoRegistryConfig) :=
  match externalCargoRegistryConfig with
  | none => .ok none
  | some externalCargoRegistryConfig =>
    match cargoDependencies externalCargoRegistryConfig.Deps with
    | .error err => .error err
    | .ok deps => .ok (some { RustVersion := externalCargoRegistryConfig.RustVersion, Deps := deps })

/-- The function `validateNugetTargetFramework`; `none` is the nil error. -/
def validateNugetTargetFramework (targetFramework : String) : Option Error :=
  if targetFramework ∈ ["netstandard1.0", "netstandard1.1", "netstandard1.2", "netstandard1.3",
      "netstandard1.4", "netstandard1.5", "netstandard1.6", "netstandard2.0", "netstandard2.1",
      "net5.0", "net6.0", "net7.0", "net8.0"] then none
  else some (.new "invalid target framework: %q" [targetFramework])

/-- The loop `for i, targetFramework := range targetFrameworks` of
`validateNugetTargetFrameworks`, from the index `i` on. -/
def validateNugetTargetFrameworksFrom (i : Nat) : List String → Option Error
  | [] => none
  | targetFramework :: rest =>
    match validateNugetTargetFramework targetFramework with
    | some err => some (.wrap "target framework %d: %w" [toString i] err)
    | none => validateNugetTargetFrameworksFrom (i + 1) rest

/-- The function `validateNugetTargetFrameworks`. -/
def validateNugetTargetFrameworks (env : Env) (targetFrameworks : List String) :
    Except Error (List String) :=
  if targetFrameworks.length = 0 then .ok []
  else if (env.Duplicates targetFrameworks).length > 0 then
    .error (.new "duplicate target frameworks: %v" (env.Duplicates targetFrameworks))
  else
    match validateNugetTargetFrameworksFrom 0 targetFrameworks with
    | some err => .error err
    | none => .ok targetFrameworks

/-- The loop `for i, externalDep := range externalConfig.Deps` of
`newNugetRegistryConfig`, from the index `i` on. -/
def nugetDependenciesFrom (env : Env) (i : Nat) :
    List ExternalNugetDependency → Except Error (List NugetDependencyConfig)
  | [] => .ok []
  | externalDep :: rest =>
    if externalDep.Name = "" then
      .error (.new "nuget registry dependency %d: empty name" [toString i])
    else if externalDep.Version = "" then
      .error (.new "nuget registry dependency %d: empty version" [toString i])
    else
      match validateNugetTargetFrameworks env externalDep.TargetFrameworks with
      | .error err => .error (.wrap "nuget registry dependency %d: %w" [toString i] err)
      | .ok depTargetFrameworks =>
        match nugetDependenciesFrom env (i + 1) rest with
        | .error err => .error err
        | .ok deps =>
          .ok ({ Name := externalDep.Name, Version := externalDep.Version,
                 TargetFrameworks := depTargetFrameworks } :: deps)

/-- The function `newNugetRegistryConfig`; it reads its argument without a
nil check, so the argument is a configuration. -/
def newNugetRegistryConfig (env : Env) (externalConfig : ExternalNugetRegistryConfig) :
    Except Error (Option NugetRegistryConfig) :=
  if externalConfig.TargetFrameworks.length = 0 then
    .error (.new "nuget registry target frameworks required" [])
  else
    match validateNugetTargetFrameworks env externalConfig.TargetFrameworks with
    | .error err => .error (.wrap "nuget registry: %w" [] err)
    | .ok targetFrameworks =>
      match (if externalConfig.Deps.length > 0 then
          nugetDependenciesFrom env 0 externalConfig.Deps else .ok []) with
      | .error err => .error err
      | .ok deps => .ok (some { TargetFrameworks := targetFrameworks, Deps := deps })

/-- The function `newCmakeRegistryConfig`; `none` is the nil pointer. -/
def newCmakeRegistryConfig (externalCmakeRegistryConfig : Option ExternalCmakeRegistryConfig) :
    Except Error (Option CmakeRegistryConfig) :=
  match externalCmakeRegistryConfig with
  | none => .ok none
  | some _ => .ok (some {})

end bufremotepluginconfig

namespace bufremotepluginconfig

/-- The loop `for _, isEmpty := range []bool{...}` of `newRegistryConfig`: it
counts the registries that are set and returns the error as soon as the count
exceeds one. -/
def countRegistries (env : Env) : List Bool → Nat → Except Error Nat
  | [], registryCount => .ok registryCount
  | isEmpty :: rest, registryCount =>
    let registryCount := if !isEmpty then registryCount + 1 else registryCount
    if registryCount > 1 then
      .error (.new "%s configuration contains multiple registry configurations"
        [env.ExternalConfigFilePath])
    else countRegistries env rest registryCount

/-- The function `newRegistryConfig`; `none` is the nil pointer. -/
def newRegistryConfig (env : Env) (externalRegistryConfig : ExternalRegistryConfig)
    (pluginDependencies : List PluginReference) (overrideRemote : String) :
    Except Error (Option RegistryConfig) :=
  let isGoEmpty := externalRegistryConfig.Go.isNone
  let isNPMEmpty := externalRegistryConfig.NPM.isNone
  let isMavenEmpty := externalRegistryConfig.Maven.isNone
  let isSwiftEmpty := externalRegistryConfig.Swift.isNone
  let isPythonEmpty := externalRegistryConfig.Python.isNone
  let isCargoEmpty := externalRegistryConfig.Cargo.isNone
  let isNugetEmpty := externalRegistryConfig.Nuget.isNone
  let isCmakeEmpty := externalRegistryConfig.Cmake.isNone
  match countRegistries env [isGoEmpty, isNPMEmpty, isMavenEmpty, isSwiftEmpty, isPythonEmpty,
      isCargoEmpty, isNugetEmpty, isCmakeEmpty] 0 with
  | .error err => .error err
  | .ok registryCount =>
    if registryCount = 0 then .ok none
    else
      let options := env.OptionsSliceToPluginOptions externalRegistryConfig.Opts
      if !isGoEmpty then
        match newGoRegistryConfig env externalRegistryConfig.Go pluginDependencies
            overrideRemote with
        | .error err => .error err
        | .ok goRegistryConfig => .ok (some { Go := goRegistryConfig, Options := options })
      else if !isNPMEmpty then
        match newNPMRegistryConfig externalRegistryConfig.NPM with
        | .error err => .error err
        | .ok npmRegistryConfig => .ok (some { NPM := npmRegistryConfig, Options := options })
      else if !isMavenEmpty then
        match newMavenRegistryConfig externalRegistryConfig.Maven with
        | .error err => .error err
        | .ok mavenRegistryConfig =>
          .ok (some { Maven := mavenRegistryConfig, Options := options })
      else if !isSwiftEmpty then
        match newSwiftRegistryConfig env externalRegistryConfig.Swift with
        | .error err => .error err
        | .ok swiftRegistryConfig =>
          .ok (some { Swift := swiftRegistryConfig, Options := options })
      else if !isPythonEmpty then
        match newPythonRegistryConfig externalRegistryConfig.Python with
        | .error err => .error err
        | .ok pythonRegistryConfig =>
          .ok (some { Python := pythonRegistryConfig, Options := options })
      else if !isCargoEmpty then
        match newCargoRegistryConfig externalRegistryConfig.Cargo with
        | .error err => .error err
        | .ok cargoRegistryConfig =>
          .ok (some { Cargo := cargoRegistryConfig, Options := options })
      else
        match externalRegistryConfig.Nuget with
        | some externalNugetRegistryConfig =>
          match newNugetRegistryConfig env externalNugetRegistryConfig with
          | .error err => .error err
          | .ok nugetRegistryConfig =>
            .ok (some { Nuget := nugetRegistryConfig, Options := options })
        | none =>
          if !isCmakeEmpty then
            match newCmakeRegistryConfig externalRegistryConfig.Cmake with
            | .error err => .error err
            | .ok cmakeRegistryConfig =>
              .ok (some { Cmake := cmakeRegistryConfig, Options := options })
          else .error (.new "unknown registry configuration" [])

/-- The number of registries that an external registry configuration sets. -/
def ExternalRegistryConfig.registryCount (c : ExternalRegistryConfig) : Nat :=
  ([c.Go.isSome, c.NPM.isSome, c.Maven.isSome, c.Swift.isSome, c.Python.isSome,
    c.Cargo.isSome, c.Nuget.isSome, c.Cmake.isSome].filter id).length

/-- The number of registries that a registry configuration holds. -/
def RegistryConfig.registryCount (c : RegistryConfig) : Nat :=
  ([c.Go.isSome, c.NPM.isSome, c.Maven.isSome, c.Swift.isSome, c.Python.isSome,
    c.Cargo.isSome, c.Nuget.isSome, c.Cmake.isSome].filter id).length

/-- An environment for examples: every version is valid, a plugin identity is
three fields separated by slashes, and no option is read. -/
def stubEnv : Env where
  ExternalConfigFilePath := "buf.plugin.yaml"
  GoVersionREMatchString := fun _ => true
  semverIsValid := fun _ => true
  PluginIdentityForString := fun s =>
    match strings.Split s '/' with
    | [remote, owner, plugin] => .ok ⟨remote, owner, plugin, s⟩
    | _ => .error (.new "invalid plugin identity %q" [s])
  NewPluginIdentity := fun remote owner plugin =>
    .ok ⟨remote, owner, plugin, remote ++ "/" ++ owner ++ "/" ++ plugin⟩
  OptionsSliceToPluginOptions := fun _ => []
  Duplicates := fun s => s.filter (fun x => decide (s.count x > 1))
  PluginReferenceForString := fun s revision =>
    match strings.Split s ':' with
    | [identity, version] =>
      match strings.Split identity '/' with
      | [remote, _, _] => .ok ⟨remote, identity, version, revision⟩
      | _ => .error (.new "invalid plugin reference %q" [s])
    | _ => .error (.new "invalid plugin reference %q" [s])
  NewPluginReference := fun identity version revision =>
    .ok ⟨identity.Remote, identity.IdentityString, version, revision⟩
  LicenseForID := fun id => if id = "apache-2.0" ∨ id = "Apache-2.0" then some "Apache-2.0" else none

end bufremotepluginconfig

namespace strings

/-- The characters of `strings.Join`: the elements with `sep` between them. -/
def joinChars (sep : List Char) : List (List Char) → List Char
  | [] => []
  | [elem] => elem
  | elem :: elems => elem ++ sep ++ joinChars sep elems

/-- Go `strings.Join`. -/
def Join (elems : List String) (sep : String) : String :=
  ⟨joinChars sep.data (elems.map String.data)⟩

end strings

namespace bufremotepluginconfig

/-- A dependency string `<groupId>:<artifactId>:<version>[:<classifier>][@<type>]`
with the given fields before the `@` and the given type. -/
def mavenDependencyString (fields : List String) (type : Option String) : String :=
  strings.Join fields ":" ++
    match type with
    | none => ""
    | some type => "@" ++ type

end bufremotepluginconfig

namespace bufconfig

/-- The errors of `normalizeAndCheckPaths`, one for each `return` of an
error: the `fmt.Errorf` calls with their arguments, and the error of
`normalpath.NormalizeAndValidate`. -/
inductive PathsError where
  | emptyPath (name : String)
  | normalize (err : normalpath.Error)
  | duplicate (name output : String)
  | within (name inner outer : String)
deriving DecidableEq, Repr

/-- The first loop of `normalizeAndCheckPaths`: no path is empty, and every
path is normalized and validated. -/
def normalizeEach (name : String) : List String → Except PathsError (List String)
  | [] => .ok []
  | path :: paths =>
    if path = "" then .error (.emptyPath name)
    else
      match normalpath.NormalizeAndValidate path with
      | .error err => .error (.normalize err)
      | .ok output =>
        match normalizeEach name paths with
        | .error err => .error err
        | .ok outputs => .ok (output :: outputs)

/-- The body of the inner loop of `normalizeAndCheckPaths` for `output1` and
`output2`; `none` when no error is returned. -/
def checkPair (name output1 output2 : String) : Option PathsError :=
  if output1 = output2 then some (.duplicate name output1)
  else if normalpath.EqualsOrContainsPath output2 output1 normalpath.Relative then
    some (.within name output1 output2)
  else if normalpath.EqualsOrContainsPath output1 output2 normalpath.Relative then
    some (.within name output2 output1)
  else none

/-- The inner loop `for j := i + 1; j < len(outputs); j++` for `outputs[i]`. -/
def checkAgainst (name output1 : String) : List String → Option PathsError
  | [] => none
  | output2 :: outputs =>
    match checkPair name output1 output2 with
    | some err => some err
    | none => checkAgainst name output1 outputs

/-- The outer loop `for i := range outputs`. -/
def checkOutputs (name : String) : List String → Option PathsError
  | [] => none
  | output1 :: outputs =>
    match checkAgainst name output1 outputs with
    | some err => some err
    | none => checkOutputs name outputs

/-- The function `normalizeAndCheckPaths`: normalizes and sorts the paths and
checks that no path is empty, all are valid and unique, and none contains
another. -/
def normalizeAndCheckPaths (paths : List String) (name : String) :
    Except PathsError (List String) :=
  if paths.length = 0 then .ok paths
  else
    match normalizeEach name paths with
    | .error err => .error err
    | .ok outputs =>
      let outputs := normalpath.sortStrings outputs
      match checkOutputs name outputs with
      | some err => .error err
      | none => .ok outputs

end bufconfig

namespace bufconfig

/-- Two outputs that the loops of `normalizeAndCheckPaths` accept: they
differ, and neither equals or contains the other. -/
def NoOverlap (a b : String) : Prop :=
  a ≠ b ∧ normalpath.EqualsOrContainsPath b a normalpath.Relative = false ∧
    normalpath.EqualsOrContainsPath a b normalpath.Relative = false

end bufconfig

namespace bufremotepluginconfig

/-- A dependency of the external configuration: the plugin reference string
and the revision. -/
structure ExternalDependency where
  Plugin : String
  Revision : Int
deriving DecidableEq, Repr

/-- The external configuration as far as `newConfig` reads it; the zero value
`ExternalConfig{}` is `{}`. -/
structure ExternalConfig where
  Name : String := ""
  PluginVersion : String := ""
  Deps : List ExternalDependency := []
  Registry : ExternalRegistryConfig := {}
  SourceURL : String := ""
  Description : String := ""
  OutputLanguages : List String := []
  SPDXLicenseID : String := ""
  LicenseURL : String := ""
  IntegrationGuideURL : String := ""
  Deprecated : Bool := false
deriving DecidableEq, Repr

/-- The plugin configuration that `newConfig` returns. -/
structure Config where
  Name : PluginIdentity
  PluginVersion : String
  Dependencies : List PluginReference
  Registry : Option RegistryConfig
  SourceURL : String
  Description : String
  OutputLanguages : List String
  SPDXLicenseID : String
  LicenseURL : String
  IntegrationGuideURL : String
  Deprecated : Bool
deriving DecidableEq, Repr

/-- The struct `configOptions`. -/
structure configOptions where
  overrideRemote : String := ""
deriving DecidableEq, Repr

/-- A `ConfigOption` is a function that sets fields of the `configOptions`. -/
abbrev ConfigOption := configOptions → configOptions

/-- The function `pluginReferenceForStringWithOverrideRemote`. -/
def pluginReferenceForStringWithOverrideRemote (env : Env) (referenceStr : String)
    (revision : Int) (overrideRemote : String) : Except Error PluginReference :=
  match env.PluginReferenceForString referenceStr revision with
  | .error err => .error err
  | .ok reference =>
    if overrideRemote.length = 0 then .ok reference
    else
      match pluginIdentityForStringWithOverrideRemote env reference.IdentityString
          overrideRemote with
      | .error err => .error err
      | .ok overrideIdentity =>
        env.NewPluginReference overrideIdentity reference.Version reference.Revision

/-- The loop `for _, dependency := range externalConfig.Deps` of `newConfig`;
`existingDeps` holds the keys of the map of the identity strings seen. -/
def pluginDependencies (env : Env) (pluginIdentity : PluginIdentity) (overrideRemote : String) :
    List ExternalDependency → List String → Except Error (List PluginReference)
  | [], _ => .ok []
  | dependency :: rest, existingDeps =>
    match pluginReferenceForStringWithOverrideRemote env dependency.Plugin dependency.Revision
        overrideRemote with
    | .error err => .error err
    | .ok reference =>
      if reference.Remote ≠ pluginIdentity.Remote then
        .error (.new "plugin dependency %q must use same remote as plugin %q"
          [dependency.Plugin, toString dependency.Revision, pluginIdentity.Remote])
      else if reference.IdentityString ∈ existingDeps then
        .error (.new "plugin dependency %q was specified more than once"
          [dependency.Plugin, toString dependency.Revision])
      else
        match pluginDependencies env pluginIdentity overrideRemote rest
            (reference.IdentityString :: existingDeps) with
        | .error err => .error err
        | .ok dependencies => .ok (reference :: dependencies)

/-- The loop `for _, option := range options` that applies the options to
`&configOptions{}`. -/
def applyOptions (options : List ConfigOption) : configOptions :=
  options.foldl (fun opts option => option opts) {}

/-- The function `newConfig`. -/
def newConfig (env : Env) (externalConfig : ExternalConfig) (options : List ConfigOption) :
    Except Error Config :=
  let opts := applyOptions options
  match pluginIdentityForStringWithOverrideRemote env externalConfig.Name opts.overrideRemote with
  | .error err => .error err
  | .ok pluginIdentity =>
    let pluginVersion := externalConfig.PluginVersion
    if pluginVersion = "" then .error (.new "a plugin_version is required" [])
    else if !env.semverIsValid pluginVersion then
      .error (.new "plugin_version %q must be a valid semantic version"
        [externalConfig.PluginVersion])
    else
      match (if externalConfig.Deps.length > 0 then
          pluginDependencies env pluginIdentity opts.overrideRemote externalConfig.Deps []
          else .ok []) with
      | .error err => .error err
      | .ok dependencies =>
        match newRegistryConfig env externalConfig.Registry dependencies opts.overrideRemote with
        | .error err => .error err
        | .ok registryConfig =>
          let spdxLicenseID := externalConfig.SPDXLicenseID
          match (if spdxLicenseID ≠ "" then
              match env.LicenseForID spdxLicenseID with
              | some licenseID => Except.ok licenseID
              | none => .error (Error.new "unknown SPDX License ID %q" [spdxLicenseID])
              else .ok spdxLicenseID) with
          | .error err => .error err
          | .ok spdxLicenseID =>
            .ok { Name := pluginIdentity
                  PluginVersion := pluginVersion
                  Dependencies := dependencies
                  Registry := registryConfig
                  SourceURL := externalConfig.SourceURL
                  Description := externalConfig.Description
                  OutputLanguages := externalConfig.OutputLanguages
                  SPDXLicenseID := spdxLicenseID
                  LicenseURL := externalConfig.LicenseURL
                  IntegrationGuideURL := externalConfig.IntegrationGuideURL
                  Deprecated := externalConfig.Deprecated }

end bufremotepluginconfig

namespace bufremotepluginconfig

/-- The struct `externalConfigVersion`: the version of a configuration file. -/
structure externalConfigVersion where
  Version : String
deriving DecidableEq, Repr

/-- A `storage.ReadObjectCloser` as far as `getConfigForBucket` uses it: the
outcome of `io.ReadAll`, the external path, and the error of `Close` (`none`
is the nil error). -/
structure ReadObjectCloser where
  ReadAll : Except Error (List Nat)
  ExternalPath : String
  Close : Option Error
deriving DecidableEq, Repr

/-- A `storage.ReadBucket` as far as `getConfigForBucket` uses it: the
outcome of `storage.Exists` and of `Get` for every path. -/
structure ReadBucket where
  Exists : String → Except Error Bool
  Get : String → Except Error ReadObjectCloser

/-- What `get.go` uses of other files and packages: the constants
`AllConfigFilePaths` and `V1Version`, the functions of `encoding` on the two
structs that are unmarshalled, and `xstrings.SliceToString`. -/
structure GetEnv where
  AllConfigFilePaths : List String
  V1Version : String
  UnmarshalYAMLNonStrict : List Nat → Except Error externalConfigVersion
  UnmarshalYAMLStrict : List Nat → Except Error ExternalConfig
  UnmarshalJSONOrYAMLNonStrict : List Nat → Except Error externalConfigVersion
  UnmarshalJSONOrYAMLStrict : List Nat → Except Error ExternalConfig
  SliceToString : List String → String

/-- The error that `getConfigForBucket` returns: an error as it is, or what
`errors.Join` makes of the errors that are not nil. -/
inductive BucketError where
  | plain (err : Error)
  | join (errs : List Error)
deriving DecidableEq, Repr

/-- The function `validateExternalConfigVersion`; `none` is the nil error. -/
def validateExternalConfigVersion (genv : GetEnv) (externalConfigVersion : externalConfigVersion)
    (id : String) : Option Error :=
  if externalConfigVersion.Version = "" then
    some (.new "%s has no version set. Please add \"version: %s\"" [id, genv.V1Version])
  else if externalConfigVersion.Version = genv.V1Version then none
  else
    some (.new "%s has an invalid \"version: %s\" set. Please add \"version: %s\""
      [id, externalConfigVersion.Version, genv.V1Version])

/-- The function `getConfigForDataInternal`. -/
def getConfigForDataInternal (env : Env) (genv : GetEnv)
    (unmarshalNonStrict : List Nat → Except Error externalConfigVersion)
    (unmarshalStrict : List Nat → Except Error ExternalConfig)
    (data : List Nat) (id : String) (options : List ConfigOption) : Except Error Config :=
  match unmarshalNonStrict data with
  | .error err => .error err
  | .ok externalConfigVersion =>
    match validateExternalConfigVersion genv externalConfigVersion id with
    | some err => .error err
    | none =>
      match unmarshalStrict data with
      | .error err => .error err
      | .ok externalConfig => newConfig env externalConfig options

/-- The function `getConfigForData`. -/
def getConfigForData (env : Env) (genv : GetEnv) (data : List Nat)
    (options : List ConfigOption) : Except Error Config :=
  getConfigForDataInternal env genv genv.UnmarshalJSONOrYAMLNonStrict
    genv.UnmarshalJSONOrYAMLStrict data "Plugin configuration data" options

/-- The first loop of `getConfigForBucket`: the configuration file paths that
exist in the bucket, in the order of precedence. -/
def foundConfigFilePaths (readBucket : ReadBucket) : List String → Except Error (List String)
  | [] => .ok []
  | configFilePath :: rest =>
    match readBucket.Exists configFilePath with
    | .error err => .error err
    | .ok fileExists =>
      match foundConfigFilePaths readBucket rest with
      | .error err => .error err
      | .ok found => .ok (if fileExists then configFilePath :: found else found)

/-- The deferred function of `getConfigForBucket`:
`retErr = errors.Join(retErr, readObjectCloser.Close())`. -/
def joinClose (result : Except Error Config) (close : Option Error) :
    Option Config × Option BucketError :=
  match result, close with
  | .ok config, none => (some config, none)
  | .ok config, some closeErr => (some config, some (.join [closeErr]))
  | .error err, none => (none, some (.join [err]))
  | .error err, some closeErr => (none, some (.join [err, closeErr]))

/-- The function `getConfigForBucket`: the configuration and the error that
it returns, each `none` when nil. -/
def getConfigForBucket (env : Env) (genv : GetEnv) (readBucket : ReadBucket)
    (options : List ConfigOption) : Option Config × Option BucketError :=
  match foundConfigFilePaths readBucket genv.AllConfigFilePaths with
  | .error err => (none, some (.plain err))
  | .ok [] =>
    match newConfig env {} options with
    | .error err => (none, some (.plain err))
    | .ok config => (some config, none)
  | .ok [configFilePath] =>
    match readBucket.Get configFilePath with
    | .error err => (none, some (.plain err))
    | .ok readObjectCloser =>
      match readObjectCloser.ReadAll with
      | .error err => joinClose (.error err) readObjectCloser.Close
      | .ok data =>
        joinClose
          (getConfigForDataInternal env genv genv.UnmarshalYAMLNonStrict
            genv.UnmarshalYAMLStrict data readObjectCloser.ExternalPath options)
          readObjectCloser.Close
  | .ok found =>
    (none, some (.plain (.new
      "only one plugin file can exist but found multiple plugin files: %s"
      [genv.SliceToString found])))

/-- A bucket without files, for examples. -/
def emptyBucket : ReadBucket where
  Exists := fun _ => .ok false
  Get := fun path => .error (.new "%s: file does not exist" [path])

/-- The constants of the package, with decoders that fail, for examples. -/
def stubGetEnv : GetEnv where
  AllConfigFilePaths := ["buf.plugin.yaml"]
  V1Version := "v1"
  UnmarshalYAMLNonStrict := fun _ => .error (.new "could not unmarshal as YAML" [])
  UnmarshalYAMLStrict := fun _ => .error (.new "could not unmarshal as YAML" [])
  UnmarshalJSONOrYAMLNonStrict := fun _ => .error (.new "could not unmarshal as JSON or YAML" [])
  UnmarshalJSONOrYAMLStrict := fun _ => .error (.new "could not unmarshal as JSON or YAML" [])
  SliceToString := fun s => strings.Join s ", "

end bufremotepluginconfig

namespace strings

/-- Go `strings.TrimPrefix`: `s` without the leading `pre`, or `s` itself. -/
def TrimPrefix (s pre : String) : String :=
  if HasPrefix s pre then ⟨s.data.drop pre.data.length⟩ else s

end strings

namespace internal

/-- The file schemes of the package; the type `FileScheme` is declared
outside the file `single_ref.go`. -/
inductive FileScheme where
  | FileSchemeHTTP
  | FileSchemeHTTPS
  | FileSchemeLocal
  | FileSchemeStdio
  | FileSchemeStdin
  | FileSchemeStdout
  | FileSchemeNull
deriving DecidableEq, Repr

open FileScheme

/-- A `CompressionType` is passed through unread. -/
abbrev CompressionType := Nat

/-- The errors of `newSingleRef`: `NewNoPathError()` and
`NewInvalidPathError(format, path)`. -/
inductive RefError where
  | noPath
  | invalidPath (format path : String)
deriving DecidableEq, Repr

/-- The functions of the package `app` that `newSingleRef` calls. -/
structure App where
  IsDevStderr : String → Bool
  IsDevStdin : String → Bool
  IsDevStdout : String → Bool
  IsDevNull : String → Bool

/-- The map `fileSchemePrefixToFileScheme`, in the order of its declaration;
no string starts with two of its keys. -/
def fileSchemePrefixToFileScheme : List (String × FileScheme) :=
  [("http://", FileSchemeHTTP), ("https://", FileSchemeHTTPS), ("file://", FileSchemeLocal)]

/-- The struct `singleRef`; the custom options are a map. -/
structure singleRef where
  format : String
  path : String
  fileScheme : FileScheme
  compressionType : CompressionType
  customOptions : List (String × String)
deriving DecidableEq, Repr

/-- The function `newDirectSingleRef`; `none` is the nil map. -/
def newDirectSingleRef (format path : String) (fileScheme : FileScheme)
    (compressionType : CompressionType) (customOptions : Option (List (String × String))) :
    singleRef :=
  let customOptions := match customOptions with
    | none => []
    | some customOptions => customOptions
  { format := format, path := path, fileScheme := fileScheme,
    compressionType := compressionType, customOptions := customOptions }

/-- The loop `for prefix, fileScheme := range fileSchemePrefixToFileScheme` of
`newSingleRef`; `none` when no key is a prefix of the path. -/
def schemeLoop (format path : String) (compressionType : CompressionType)
    (customOptions : Option (List (String × String))) :
    List (String × FileScheme) → Option (Except RefError singleRef)
  | [] => none
  | (pre, fileScheme) :: rest =>
    if strings.HasPrefix path pre then
      let path := strings.TrimPrefix path pre
      let path := if fileScheme = FileSchemeLocal then normalpath.Normalize path else path
      if path = "" then some (.error .noPath)
      else some (.ok (newDirectSingleRef format path fileScheme compressionType customOptions))
    else schemeLoop format path compressionType customOptions rest

/-- The function `newSingleRef`. -/
def newSingleRef (app : App) (format path : String) (compressionType : CompressionType)
    (customOptions : Option (List (String × String))) : Except RefError singleRef :=
  if path = "" then .error .noPath
  else if app.IsDevStderr path then .error (.invalidPath format path)
  else if path = "-" then
    .ok (newDirectSingleRef format "" FileSchemeStdio compressionType customOptions)
  else if app.IsDevStdin path then
    .ok (newDirectSingleRef format "" FileSchemeStdin compressionType customOptions)
  else if app.IsDevStdout path then
    .ok (newDirectSingleRef format "" FileSchemeStdout compressionType customOptions)
  else if app.IsDevNull path then
    .ok (newDirectSingleRef format "" FileSchemeNull compressionType customOptions)
  else
    match schemeLoop format path compressionType customOptions fileSchemePrefixToFileScheme with
    | some result => result
    | none =>
      if strings.Contains path "://" then .error (.invalidPath format path)
      else
        .ok (newDirectSingleRef format (normalpath.Normalize path) FileSchemeLocal
          compressionType customOptions)

/-- The functions of `app` on Unix, for examples: a path is a device when it
is the path of the device. -/
def unixApp : App where
  IsDevStderr := fun path => path == "/dev/stderr"
  IsDevStdin := fun path => path == "/dev/stdin"
  IsDevStdout := fun path => path == "/dev/stdout"
  IsDevNull := fun path => path == "/dev/null"

end internal

namespace strings

/-- Go `len(s)`: the number of bytes of the string. -/
def len (s : String) : Nat := (s.data.flatMap url.utf8).length

/-- Go `strings.SplitN(s, sep, 2)` for a separator that is not empty: `s`
around the first `sep`, or `s` alone without `sep` in `s`. -/
def SplitN (s sep : String) : List String :=
  match cutChars sep.data s.data with
  | some (before, after) => [⟨before⟩, ⟨after⟩]
  | none => [s]

end strings

namespace strconv

/-- A decimal digit as a character. -/
def digitChar (d : Nat) : Char := Char.ofNat ('0'.toNat + d)

/-- The loop of `formatBits` for base 10: the digits of `u` before `acc`.
The fuel `u + 1` is never used up. -/
def itoaLoop : Nat → Nat → List Char → List Char
  | 0, _, acc => acc
  | fuel + 1, u, acc =>
    if u < 10 then digitChar u :: acc
    else itoaLoop fuel (u / 10) (digitChar (u % 10) :: acc)

/-- The decimal digits of a natural number. -/
def natChars (u : Nat) : List Char := itoaLoop (u + 1) u []

/-- Go `strconv.Itoa`. -/
def Itoa (i : Int) : String :=
  if i < 0 then ⟨'-' :: natChars i.natAbs⟩ else ⟨natChars i.toNat⟩

/-- A character of `0` to `9`. -/
def isDigit (c : Char) : Bool := decide ('0'.toNat ≤ c.toNat ∧ c.toNat ≤ '9'.toNat)

/-- The loop of `ParseUint` for base 10: `none` for a character that is not a
digit. -/
def parseDigits : List Char → Nat → Option Nat
  | [], n => some n
  | c :: cs, n =>
    if isDigit c then parseDigits cs (n * 10 + (c.toNat - '0'.toNat)) else none

/-- Go `strconv.ParseInt(s, 10, 32)`; `none` when it returns an error: the
string is empty, has a character that is not a digit after the optional sign,
or its value is not an `int32`. -/
def ParseInt (s : String) : Option Int :=
  match s.data with
  | [] => none
  | c :: cs =>
    let neg := c == '-'
    let digits := if c = '+' ∨ c = '-' then cs else c :: cs
    if digits = [] then none
    else
      match parseDigits digits 0 with
      | none => none
      | some un =>
        let cutoff := 2 ^ 31
        if !neg && decide (un ≥ cutoff) then none
        else if neg && decide (un > cutoff) then none
        else some (if neg then -(un : Int) else (un : Int))

end strconv

namespace protoversion

/-- The stability levels of the package; the type `StabilityLevel` and its
method `String` are declared outside the file `package_version.go`, and the
strings of the levels are the argument `levelString` below. -/
inductive StabilityLevel where
  | StabilityLevelStable
  | StabilityLevelAlpha
  | StabilityLevelBeta
  | StabilityLevelTest
deriving DecidableEq, Repr

open StabilityLevel

/-- The struct `packageVersion`. -/
structure packageVersion where
  major : Int
  stabilityLevel : StabilityLevel
  minor : Int
  patch : Int
  suffix : String
deriving DecidableEq, Repr

/-- The struct `packageVersionOptions`. -/
structure packageVersionOptions where
  allowV0 : Bool
deriving DecidableEq, Repr

/-- The function `newPackageVersionOptions`. -/
def newPackageVersionOptions : packageVersionOptions := { allowV0 := false }

/-- A `PackageVersionOption` is a function that sets fields of the options. -/
abbrev PackageVersionOption := packageVersionOptions → packageVersionOptions

/-- The function `getNumber`; `none` when it returns false. -/
def getNumber (s : String) (minimum : Int) : Option Int :=
  if s = "" then none
  else
    match strconv.ParseInt s with
    | none => none
    | some value => if value < minimum then none else some value

/-- The function `getAlphaBetaMajorPatch`; `none` when it returns false. -/
def getAlphaBetaMajorPatch (remainder : String) (minMajorVersionNumber : Int) :
    Option (Int × Int) :=
  if strings.Contains remainder "p" then
    match strings.SplitN remainder "p" with
    | [patchSplit0, patchSplit1] =>
      match getNumber patchSplit0 minMajorVersionNumber with
      | none => none
      | some major =>
        match getNumber patchSplit1 1 with
        | none => none
        | some patch => some (major, patch)
    | _ => none
  else
    match getNumber remainder minMajorVersionNumber with
    | none => none
    | some major => some (major, 0)

/-- The function `newPackageVersion`. -/
def newPackageVersion (major : Int) (stabilityLevel : StabilityLevel) (minor patch : Int)
    (suffix : String) : packageVersion :=
  { major := major, stabilityLevel := stabilityLevel, minor := minor, patch := patch,
    suffix := suffix }

/-- The minimum major version number of the options, after the options were
applied to `newPackageVersionOptions()`. -/
def minMajorVersionNumber (options : List PackageVersionOption) : Int :=
  let packageVersionOptions :=
    options.foldl (fun packageVersionOptions option => option packageVersionOptions)
      newPackageVersionOptions
  if packageVersionOptions.allowV0 then 0 else 1

/-- The part of `newPackageVersionForComponent` after
`version := component[1:]`: the version without the leading `v`. -/
def versionForComponent (levelString : StabilityLevel → String) (version : String)
    (minMajorVersionNumber : Int) : Option packageVersion :=
  if strings.Contains version "test" then
    match strings.SplitN version "test" with
    | [split0, split1] =>
      match getNumber split0 minMajorVersionNumber with
      | none => none
      | some major => some (newPackageVersion major StabilityLevelTest 0 0 split1)
    | _ => none
  else
    let containsAlpha := strings.Contains version "alpha"
    let containsBeta := strings.Contains version "beta"
    if containsAlpha && containsBeta then none
    else
      let stabilityLevel :=
        if !containsAlpha && !containsBeta then StabilityLevelStable
        else if containsAlpha && !containsBeta then StabilityLevelAlpha
        else StabilityLevelBeta
      if stabilityLevel ≠ StabilityLevelStable then
        match strings.SplitN version (levelString stabilityLevel) with
        | [split0, split1] =>
          match (if split1 ≠ "" then getNumber split1 1 else some 0) with
          | none => none
          | some minor =>
            match getAlphaBetaMajorPatch split0 minMajorVersionNumber with
            | none => none
            | some (major, patch) =>
              some (newPackageVersion major stabilityLevel minor patch "")
        | _ => none
      else
        match getNumber version minMajorVersionNumber with
        | none => none
        | some major => some (newPackageVersion major StabilityLevelStable 0 0 "")

/-- The function `newPackageVersionForComponent`; `none` when it returns
false.  `component[0]` is the first byte and `component[1:]` the rest; the
first byte is `v` exactly when the first character is. -/
def newPackageVersionForComponent (levelString : StabilityLevel → String) (component : String)
    (options : List PackageVersionOption) : Option packageVersion :=
  let minMajorVersionNumber := minMajorVersionNumber options
  if strings.Contains component "." then none
  else if strings.len component < 2 then none
  else
    match component.data with
    | [] => none
    | component0 :: rest =>
      if component0 ≠ 'v' then none
      else versionForComponent levelString ⟨rest⟩ minMajorVersionNumber

/-- The function `newPackageVersionForPackage`. -/
def newPackageVersionForPackage (levelString : StabilityLevel → String) (pkg : String)
    (options : List PackageVersionOption) : Option packageVersion :=
  if pkg = "" then none
  else
    let parts := strings.Split pkg '.'
    if parts.length < 2 then none
    else newPackageVersionForComponent levelString (parts.getLastD "") options

/-- The method `String` of a package version. -/
def packageVersion.String (levelString : StabilityLevel → String) (p : packageVersion) :
    String :=
  "v" ++ strconv.Itoa p.major ++
    (if p.patch > 0 then "p" ++ strconv.Itoa p.patch else "") ++
    levelString p.stabilityLevel ++
    (if p.minor > 0 then strconv.Itoa p.minor else "") ++
    (if p.suffix ≠ "" then p.suffix else "")

/-- The strings of the stability levels that the parser looks for, for
examples. -/
def levelNames : StabilityLevel → String
  | StabilityLevelStable => ""
  | StabilityLevelAlpha => "alpha"
  | StabilityLevelBeta => "beta"
  | StabilityLevelTest => "test"

end protoversion

/-! ## Theorems -/

namespace filepath

theorem copyElement_eq (path out : List Char) :
    copyElement path out =
      (path.dropWhile (fun c => !IsPathSeparator c),
       (path.takeWhile (fun c => !IsPathSeparator c)).reverse ++ out) := by
  induction path generalizing out with
  | nil => simp [copyElement]
  | cons c t ih =>
    by_cases h : IsPathSeparator c = true
    · simp [copyElement, h, List.dropWhile, List.takeWhile]
    · simp [copyElement, h, List.dropWhile, List.takeWhile, ih]

theorem splitSlash_ne_nil (l : List Char) : splitSlash l ≠ [] := by
  cases l with
  | nil => simp [splitSlash]
  | cons c t =>
    by_cases h : IsPathSeparator c = true
    · simp [splitSlash, h]
    · cases hs : splitSlash t <;> simp [splitSlash, h, hs, consHead]

theorem splitSlash_sepFree (e : List Char) (h : SepFree e) : splitSlash e = [e] := by
  induction e with
  | nil => rfl
  | cons c t ih =>
    have hc : IsPathSeparator c = false := h c (List.mem_cons_self _ _)
    have ht : SepFree t := fun x hx => h x (List.mem_cons_of_mem _ hx)
    simp [splitSlash, hc, ih ht, consHead]

theorem splitSlash_append_sep (e t : List Char) (h : SepFree e) :
    splitSlash (e ++ '/' :: t) = e :: splitSlash t := by
  induction e with
  | nil => simp [splitSlash, IsPathSeparator]
  | cons c r ih =>
    have hc : IsPathSeparator c = false := h c (List.mem_cons_self _ _)
    have ht : SepFree r := fun x hx => h x (List.mem_cons_of_mem _ hx)
    simp [splitSlash, hc, ih ht, consHead]

theorem splitSlash_mem_sepFree (l : List Char) : ∀ e ∈ splitSlash l, SepFree e := by
  induction l with
  | nil => intro e he; simp [splitSlash] at he; subst he; intro c hc; simp at hc
  | cons c t ih =>
    intro e he
    by_cases h : IsPathSeparator c = true
    · simp [splitSlash, h] at he
      rcases he with rfl | he
      · intro c hc; simp at hc
      · exact ih e he
    · simp [splitSlash, h] at he
      cases hs : splitSlash t with
      | nil => exact absurd hs (splitSlash_ne_nil t)
      | cons x xs =>
        rw [hs] at he ih
        simp [consHead] at he
        rcases he with rfl | he
        · intro d hd
          simp at hd
          rcases hd with rfl | hd
          · simpa using h
          · exact ih x (List.mem_cons_self _ _) d hd
        · exact ih e (List.mem_cons_of_mem _ he)

theorem isPathSeparator_iff (c : Char) : IsPathSeparator c = true ↔ c = '/' := by
  simp [IsPathSeparator]

theorem elemEnds_dropWhile (t : List Char) :
    elemEnds (t.dropWhile (fun c => !IsPathSeparator c)) = true := by
  induction t with
  | nil => rfl
  | cons c t ih =>
    by_cases h : IsPathSeparator c = true
    · simp [List.dropWhile, h, elemEnds]
    · simp [List.dropWhile, h, ih]

theorem sepFree_takeWhile (t : List Char) :
    SepFree (t.takeWhile (fun c => !IsPathSeparator c)) := by
  intro c hc
  have := List.mem_takeWhile_imp hc
  simpa using this

theorem elemEnds_cases (t : List Char) (h : elemEnds t = true) :
    t = [] ∨ ∃ t', t = '/' :: t' := by
  cases t with
  | nil => exact Or.inl rfl
  | cons c t' =>
    right
    simp [elemEnds, isPathSeparator_iff] at h
    exact ⟨t', by rw [h]⟩

theorem stepElem_nil (rooted : Bool) (s : Stack) : stepElem rooted s [] = s := by
  simp [stepElem]

theorem stepElem_dot (rooted : Bool) (s : Stack) : stepElem rooted s ['.'] = s := by
  simp [stepElem]

theorem stepElem_real (rooted : Bool) (s : Stack) (e : List Char)
    (h1 : e ≠ []) (h2 : e ≠ ['.']) (h3 : e ≠ ['.', '.']) :
    stepElem rooted s e = { s with elems := e :: s.elems } := by
  simp [stepElem, h1, h2, h3]

/-- Reading one element `e` and then the rest is reading `e ++ rest`. -/
theorem foldl_splitSlash_append (rooted : Bool) (s : Stack) (e rest : List Char)
    (he : SepFree e) (hr : elemEnds rest = true) :
    (splitSlash (e ++ rest)).foldl (stepElem rooted) s =
      (splitSlash rest).foldl (stepElem rooted) (stepElem rooted s e) := by
  rcases elemEnds_cases rest hr with rfl | ⟨t, rfl⟩
  · simp [splitSlash_sepFree e he, splitSlash, stepElem_nil]
  · rw [splitSlash_append_sep e t he]
    simp [splitSlash, IsPathSeparator, stepElem_nil]

theorem stepElem_inv (rooted : Bool) (s : Stack) (e : List Char)
    (hs : s.Inv rooted) (he : SepFree e) : (stepElem rooted s e).Inv rooted := by
  by_cases h1 : e = [] ∨ e = ['.']
  · have h : stepElem rooted s e = s := by simp [stepElem, h1]
    rw [h]; exact hs
  · by_cases h2 : e = ['.', '.']
    · subst h2
      obtain ⟨dd, elems⟩ := s
      cases elems with
      | nil =>
        cases rooted with
        | true => simpa [stepElem] using hs
        | false =>
          refine ⟨by simp, ?_⟩
          intro x hx
          simp [stepElem] at hx
      | cons x xs =>
        refine ⟨?_, ?_⟩
        · intro hr
          simpa [stepElem] using hs.1 hr
        · intro y hy
          simp only [stepElem] at hy
          simp at hy
          exact hs.2 y (List.mem_cons_of_mem _ hy)
    · push_neg at h1
      rw [stepElem_real rooted s e h1.1 h1.2 h2]
      refine ⟨hs.1, ?_⟩
      intro y hy
      simp only [List.mem_cons] at hy
      rcases hy with rfl | hy
      · exact ⟨h1.1, h1.2, h2, he⟩
      · exact hs.2 y hy

theorem foldl_stepElem_inv (rooted : Bool) (es : List (List Char)) (s : Stack)
    (hs : s.Inv rooted) (he : ∀ e ∈ es, SepFree e) :
    (es.foldl (stepElem rooted) s).Inv rooted := by
  induction es generalizing s with
  | nil => exact hs
  | cons e es ih =>
    simp only [List.foldl_cons]
    exact ih _ (stepElem_inv rooted s e hs (he e (List.mem_cons_self _ _)))
      (fun x hx => he x (List.mem_cons_of_mem _ hx))

theorem backtrack_sep (dd : Nat) (r below : List Char) (last : Char)
    (hr : SepFree r) (hl : IsPathSeparator last = false) (hb : dd ≤ below.length) :
    backtrack dd last (r ++ '/' :: below) = below := by
  have hsl : IsPathSeparator '/' = true := by decide
  induction r generalizing last with
  | nil =>
    have h1 : dd < below.length + 1 := by omega
    cases below with
    | nil =>
      simp only [List.length_nil] at h1
      simp [backtrack, hl, h1]
    | cons c out =>
      simp only [List.nil_append]
      rw [backtrack]
      simp only [List.length_cons] at h1 ⊢
      simp [h1, hl, backtrack, hsl]
  | cons x r ih =>
    have hx : IsPathSeparator x = false := hr x (List.mem_cons_self _ _)
    have hr' : SepFree r := fun c hc => hr c (List.mem_cons_of_mem _ hc)
    have h1 : dd < (r ++ '/' :: below).length + 1 := by
      simp only [List.length_append, List.length_cons]; omega
    simp only [List.cons_append]
    rw [backtrack]
    simp only [List.length_cons]
    simp only [h1, hl, decide_True, Bool.not_false, Bool.and_self, if_true]
    exact ih x hr' hx

theorem backtrack_base (dd : Nat) (r below : List Char) (last : Char)
    (hr : SepFree r) (hl : IsPathSeparator last = false) (hb : below.length = dd) :
    backtrack dd last (r ++ below) = below := by
  induction r generalizing last with
  | nil =>
    cases below with
    | nil => simp [backtrack]
    | cons c out =>
      simp only [List.nil_append]
      rw [backtrack]
      simp [hb]
  | cons x r ih =>
    have hx : IsPathSeparator x = false := hr x (List.mem_cons_self _ _)
    have hr' : SepFree r := fun c hc => hr c (List.mem_cons_of_mem _ hc)
    have h1 : dd < (r ++ below).length + 1 := by
      simp only [List.length_append]; omega
    simp only [List.cons_append]
    rw [backtrack]
    simp only [List.length_cons]
    simp only [h1, hl, decide_True, Bool.not_false, Bool.and_self, if_true]
    exact ih x hr' hx

theorem baseOut_length_le (rooted : Bool) (k : Nat) (es : List (List Char)) :
    (baseOut rooted k).length ≤ (elemsOut rooted k es).length := by
  induction es with
  | nil => exact le_refl _
  | cons e es ih =>
    simp only [elemsOut, List.length_append, List.length_reverse, addSlash]
    split_ifs <;> (try simp only [List.length_cons]) <;> omega

/-- The `..` case of the loop is the `..` step on the element stack. -/
theorem dotdotElem_buf (rooted : Bool) (s : Stack) (hs : s.Inv rooted) :
    dotdotElem rooted (s.buf rooted) = (stepElem rooted s ['.', '.']).buf rooted := by
  obtain ⟨k, elems⟩ := s
  cases elems with
  | nil =>
    cases rooted with
    | true => simp [dotdotElem, Stack.buf, elemsOut, stepElem]
    | false =>
      simp only [dotdotElem, Stack.buf, elemsOut, stepElem, baseOut]
      simp [ddOut]
  | cons e es =>
    have he : RealElem e := hs.2 e (List.mem_cons_self _ _)
    have hle := baseOut_length_le rooted k es
    have hstep : stepElem rooted ⟨k, e :: es⟩ ['.', '.'] = ⟨k, es⟩ := by simp [stepElem]
    rw [hstep]
    obtain ⟨hne, -, -, hsf⟩ := he
    have hrev : e.reverse ≠ [] := by simpa using hne
    obtain ⟨c, r, hcr⟩ := List.exists_cons_of_ne_nil hrev
    have hsf' : SepFree (c :: r) := by
      intro x hx
      rw [← hcr] at hx
      exact hsf x (List.mem_reverse.mp hx)
    have hc : IsPathSeparator c = false := hsf' c (List.mem_cons_self _ _)
    have hr : SepFree r := fun x hx => hsf' x (List.mem_cons_of_mem _ hx)
    have hout : (Stack.buf rooted ⟨k, e :: es⟩).out =
        c :: (r ++ addSlash rooted (elemsOut rooted k es)) := by
      simp [Stack.buf, elemsOut, hcr]
    have hdd : (Stack.buf rooted ⟨k, e :: es⟩).dotdot = (baseOut rooted k).length := rfl
    have hgt : (Stack.buf rooted ⟨k, e :: es⟩).out.length >
        (Stack.buf rooted ⟨k, e :: es⟩).dotdot := by
      rw [hout, hdd]
      simp only [List.length_cons, List.length_append, addSlash]
      split_ifs <;> (try simp only [List.length_cons]) <;> omega
    unfold dotdotElem
    rw [if_pos hgt, hout]
    simp only [hdd]
    have hbt : backtrack (baseOut rooted k).length c (r ++ addSlash rooted (elemsOut rooted k es))
        = elemsOut rooted k es := by
      unfold addSlash
      split_ifs with hcond
      · exact backtrack_sep _ r _ c hr hc hle
      · apply backtrack_base _ r _ c hr hc
        cases rooted with
        | true => simpa [baseOut] using hcond
        | false =>
          simp at hcond
          rw [hcond] at hle ⊢
          simp only [List.length_nil] at hle ⊢
          omega
    simp only [Stack.buf, hbt]

theorem takeWhile_append_dropWhile_sep (t : List Char) :
    t.takeWhile (fun c => !IsPathSeparator c) ++ t.dropWhile (fun c => !IsPathSeparator c) = t :=
  List.takeWhile_append_dropWhile _ t

theorem takeWhile_nil_elemEnds (t : List Char)
    (h : t.takeWhile (fun c => !IsPathSeparator c) = []) : elemEnds t = true := by
  have h1 := takeWhile_append_dropWhile_sep t
  rw [h, List.nil_append] at h1
  rw [← h1]
  exact elemEnds_dropWhile t

/-- The loop of `Clean` reads the path element by element: with enough fuel
its result is the element stack after all the elements of the unread input. -/
theorem cleanLoop_buf (rooted : Bool) (fuel : Nat) (path : List Char) (s : Stack)
    (hf : path.length ≤ fuel) (hs : s.Inv rooted) :
    cleanLoop rooted fuel path (s.buf rooted) =
      ((splitSlash path).foldl (stepElem rooted) s).buf rooted := by
  induction fuel generalizing path s with
  | zero =>
    have : path = [] := List.length_eq_zero.mp (Nat.le_zero.mp hf)
    subst this
    simp [cleanLoop, splitSlash, stepElem_nil]
  | succ fuel ih =>
    cases path with
    | nil => simp [cleanLoop, splitSlash, stepElem_nil]
    | cons c t =>
      have hlen : t.length ≤ fuel := by simpa using hf
      rw [cleanLoop]
      by_cases h1 : IsPathSeparator c = true
      · rw [if_pos h1, ih t s hlen hs]
        simp [splitSlash, h1, stepElem_nil]
      · rw [if_neg h1]
        have hc : IsPathSeparator c = false := by simpa using h1
        by_cases h2 : (c == '.' && elemEnds t) = true
        · rw [if_pos h2, ih t s hlen hs]
          simp only [Bool.and_eq_true, beq_iff_eq] at h2
          obtain ⟨rfl, h2⟩ := h2
          have := foldl_splitSlash_append rooted s ['.'] t (by intro x hx; simp at hx; subst hx; decide) h2
          simp only [List.singleton_append, stepElem_dot] at this
          rw [this]
        · rw [if_neg h2]
          by_cases h3 : (c == '.' && t.head? == some '.' && elemEnds t.tail) = true
          · rw [if_pos h3]
            simp only [Bool.and_eq_true, beq_iff_eq] at h3
            obtain ⟨⟨rfl, h3⟩, h4⟩ := h3
            cases t with
            | nil => simp at h3
            | cons d t' =>
              simp only [List.head?_cons, Option.some.injEq] at h3
              subst h3
              simp only [List.tail_cons] at h4 ⊢
              have hlen' : t'.length ≤ fuel := by simp at hlen; omega
              rw [dotdotElem_buf rooted s hs,
                ih t' _ hlen' (stepElem_inv rooted s _ hs (by intro x hx; simp at hx; subst hx; decide))]
              have := foldl_splitSlash_append rooted s ['.', '.'] t'
                (by intro x hx; simp at hx; subst hx; decide) h4
              simp only [List.cons_append, List.nil_append] at this
              rw [this]
          · rw [if_neg h3]
            simp only [copyElement, hc, Bool.false_eq_true, if_false, copyElement_eq]
            set e := c :: t.takeWhile (fun c => !IsPathSeparator c) with he
            set rest := t.dropWhile (fun c => !IsPathSeparator c) with hrest
            have hsplit : c :: t = e ++ rest := by
              rw [he, hrest, List.cons_append, takeWhile_append_dropWhile_sep]
            have hesf : SepFree e := by
              intro x hx
              rw [he] at hx
              simp only [List.mem_cons] at hx
              rcases hx with rfl | hx
              · exact hc
              · exact sepFree_takeWhile t x hx
            have hne1 : e ≠ [] := by simp [he]
            have hne2 : e ≠ ['.'] := by
              intro h
              rw [he] at h
              simp only [List.cons.injEq] at h
              obtain ⟨rfl, h⟩ := h
              apply h2
              simp [takeWhile_nil_elemEnds t h]
            have hne3 : e ≠ ['.', '.'] := by
              intro h
              rw [he] at h
              simp only [List.cons.injEq] at h
              obtain ⟨rfl, h⟩ := h
              have h5 := takeWhile_append_dropWhile_sep t
              rw [h] at h5
              apply h3
              rw [← h5]
              simp [elemEnds_dropWhile]
            have hrl : rest.length ≤ fuel := by
              have : rest.length ≤ t.length := by
                rw [hrest]; exact (List.dropWhile_sublist _).length_le
              omega
            have hbuf : ({ out := e.reverse ++ addSlash rooted (s.buf rooted).out,
                           dotdot := (s.buf rooted).dotdot } : lazybuf) =
                (stepElem rooted s e).buf rooted := by
              rw [stepElem_real rooted s e hne1 hne2 hne3]
              simp [Stack.buf, elemsOut]
            have hgoal : ({ out := (t.takeWhile (fun c => !IsPathSeparator c)).reverse ++
                              c :: addSlash rooted (s.buf rooted).out,
                            dotdot := (s.buf rooted).dotdot } : lazybuf) =
                (stepElem rooted s e).buf rooted := by
              rw [← hbuf, he]; simp
            rw [hgoal, ih rest _ hrl (stepElem_inv rooted s e hs hesf), hsplit,
              foldl_splitSlash_append rooted s e rest hesf (elemEnds_dropWhile t)]

theorem joinSlash_cons_cons (x y : List Char) (l : List (List Char)) :
    joinSlash (x :: y :: l) = x ++ '/' :: joinSlash (y :: l) := rfl

theorem joinSlash_append_singleton (l : List (List Char)) (e : List Char) :
    joinSlash (l ++ [e]) = if l = [] then e else joinSlash l ++ '/' :: e := by
  induction l with
  | nil => simp [joinSlash]
  | cons x xs ih =>
    cases xs with
    | nil => simp [joinSlash]
    | cons y ys =>
      simp only [List.cons_append] at ih ⊢
      rw [joinSlash_cons_cons, ih]
      simp [joinSlash_cons_cons]

theorem joinSlash_eq_nil (l : List (List Char)) (h : ∀ e ∈ l, e ≠ []) :
    joinSlash l = [] ↔ l = [] := by
  cases l with
  | nil => simp [joinSlash]
  | cons x xs =>
    have hx := h x (List.mem_cons_self _ _)
    cases xs with
    | nil => simp [joinSlash, hx]
    | cons y ys => simp [joinSlash, hx]

theorem comps_ne_nil_mem (rooted : Bool) (s : Stack) (hs : s.Inv rooted) :
    ∀ e ∈ s.comps, e ≠ [] ∧ SepFree e := by
  intro e he
  simp only [Stack.comps, List.mem_append, List.mem_reverse] at he
  rcases he with he | he
  · have := List.eq_of_mem_replicate he
    subst this
    refine ⟨by simp, ?_⟩
    intro x hx; simp at hx; subst hx; decide
  · exact ⟨(hs.2 e he).1, (hs.2 e he).2.2.2⟩

theorem ddOut_reverse (k : Nat) :
    (ddOut k).reverse = joinSlash (List.replicate k ['.', '.']) := by
  induction k with
  | zero => rfl
  | succ k ih =>
    rw [List.replicate_succ', joinSlash_append_singleton]
    have hlen : (ddOut k).length > 0 ↔ List.replicate k ['.', '.'] ≠ [] := by
      cases k with
      | zero => simp [ddOut]
      | succ j => simp [ddOut, List.replicate_succ]
    by_cases hk : List.replicate k ['.', '.'] = []
    · have : ¬ (ddOut k).length > 0 := fun h => (hlen.mp h) hk
      have h0 : ddOut k = [] := by
        cases hd : ddOut k with
        | nil => rfl
        | cons a b => rw [hd] at this; simp at this
      simp [ddOut, hk, h0]
    · have : (ddOut k).length > 0 := hlen.mpr hk
      simp [ddOut, hk, this, ih]

/-- The buffer of an element stack, read in path order, is the root followed
by the elements joined with slashes. -/
theorem buf_out_reverse (rooted : Bool) (s : Stack) (hs : s.Inv rooted) :
    (s.buf rooted).out.reverse = s.path rooted := by
  obtain ⟨k, elems⟩ := s
  induction elems with
  | nil =>
    cases rooted with
    | true =>
      have hk : k = 0 := hs.1 rfl
      subst hk
      simp [Stack.buf, elemsOut, baseOut, Stack.path, Stack.comps, rootStr, joinSlash]
    | false =>
      simp [Stack.buf, elemsOut, baseOut, Stack.path, Stack.comps, rootStr, ddOut_reverse]
  | cons e es ih =>
    have hs' : Stack.Inv rooted ⟨k, es⟩ :=
      ⟨hs.1, fun x hx => hs.2 x (List.mem_cons_of_mem _ hx)⟩
    have ih' := ih hs'
    simp only [Stack.buf, Stack.path] at ih' ⊢
    have hcomps : Stack.comps ⟨k, e :: es⟩ = Stack.comps ⟨k, es⟩ ++ [e] := by
      simp [Stack.comps]
    rw [hcomps, joinSlash_append_singleton]
    simp only [elemsOut, List.reverse_append, List.reverse_reverse]
    have hmem := comps_ne_nil_mem rooted ⟨k, es⟩ hs'
    have hnil := joinSlash_eq_nil (Stack.comps ⟨k, es⟩) (fun x hx => (hmem x hx).1)
    have hlen : (elemsOut rooted k es).length =
        (rootStr rooted).length + (joinSlash (Stack.comps ⟨k, es⟩)).length := by
      rw [← List.length_reverse, ih', List.length_append]
    by_cases hc : Stack.comps ⟨k, es⟩ = []
    · have hj : joinSlash (Stack.comps ⟨k, es⟩) = [] := hnil.mpr hc
      rw [hj] at hlen ih'
      rw [if_pos hc]
      have hadd : addSlash rooted (elemsOut rooted k es) = elemsOut rooted k es := by
        unfold addSlash
        cases rooted <;> simp [rootStr] at hlen <;> simp [hlen]
      rw [hadd, ih']
      simp
    · have hj : joinSlash (Stack.comps ⟨k, es⟩) ≠ [] := fun h => hc (hnil.mp h)
      have hpos : 0 < (joinSlash (Stack.comps ⟨k, es⟩)).length := List.length_pos.mpr hj
      rw [if_neg hc]
      have hadd : addSlash rooted (elemsOut rooted k es) = '/' :: elemsOut rooted k es := by
        unfold addSlash
        cases rooted with
        | true =>
          have h1 : (elemsOut true k es).length ≠ 1 := by simp [rootStr] at hlen; omega
          simp [h1]
        | false =>
          have h1 : (elemsOut false k es).length ≠ 0 := by simp [rootStr] at hlen; omega
          simp only [Bool.false_and, Bool.not_false, Bool.true_and, Bool.false_or, bne_iff_ne,
            ne_eq, h1, not_false_eq_true, if_true]
      rw [hadd]
      simp only [List.reverse_cons, ih']
      simp

/-- The result of `Clean` on a non-empty path, through the element stack. -/
theorem cleanChars_cons (c : Char) (rest : List Char) :
    cleanChars (c :: rest) =
      finish (IsPathSeparator c)
        ((splitSlash (if IsPathSeparator c = true then rest else c :: rest)).foldl
          (stepElem (IsPathSeparator c)) ⟨0, []⟩) := by
  have hinv : ∀ r, Stack.Inv r ⟨0, []⟩ := fun r => ⟨fun _ => rfl, by simp⟩
  by_cases h : IsPathSeparator c = true
  · have hb : ({ out := ['/'], dotdot := 1 } : lazybuf) = Stack.buf true ⟨0, []⟩ := by
      simp [Stack.buf, elemsOut, baseOut]
    simp only [cleanChars, h, if_true]
    rw [hb, cleanLoop_buf true _ rest _ (le_refl _) (hinv true)]
    rfl
  · have hc : IsPathSeparator c = false := by simpa using h
    have hb : ({ out := [], dotdot := 0 } : lazybuf) = Stack.buf false ⟨0, []⟩ := by
      simp [Stack.buf, elemsOut, baseOut, ddOut]
    simp only [cleanChars, hc, Bool.false_eq_true, if_false]
    rw [hb, cleanLoop_buf false _ (c :: rest) _ (le_refl _) (hinv false)]
    rfl

/-- Every result of `Clean` is the rendering of an element stack that satisfies
the invariant. -/
theorem cleanChars_finish (path : List Char) :
    ∃ rooted s, Stack.Inv rooted s ∧ cleanChars path = finish rooted s ∧
      (rooted = true ↔ path.head? = some '/') := by
  cases path with
  | nil =>
    refine ⟨false, ⟨0, []⟩, ⟨fun h => rfl, by simp⟩, ?_, by simp⟩
    simp [cleanChars, finish, Stack.buf, elemsOut, baseOut, ddOut]
  | cons c rest =>
    refine ⟨IsPathSeparator c, _, ?_, cleanChars_cons c rest, ?_⟩
    · exact foldl_stepElem_inv _ _ _ ⟨fun _ => rfl, by simp⟩ (splitSlash_mem_sepFree _)
    · simp [isPathSeparator_iff]

theorem splitSlash_joinSlash (cs : List (List Char)) (hne : cs ≠ [])
    (hsf : ∀ e ∈ cs, SepFree e) : splitSlash (joinSlash cs) = cs := by
  induction cs with
  | nil => exact absurd rfl hne
  | cons e es ih =>
    cases es with
    | nil => simpa [joinSlash] using splitSlash_sepFree e (hsf e (List.mem_cons_self _ _))
    | cons e' es' =>
      rw [joinSlash_cons_cons, splitSlash_append_sep e _ (hsf e (List.mem_cons_self _ _)),
        ih (by simp) (fun x hx => hsf x (List.mem_cons_of_mem _ hx))]

theorem foldl_stepElem_replicate (j k : Nat) :
    (List.replicate k ['.', '.']).foldl (stepElem false) ⟨j, []⟩ = ⟨j + k, []⟩ := by
  induction k generalizing j with
  | zero => rfl
  | succ k ih =>
    simp only [List.replicate_succ, List.foldl_cons]
    have : stepElem false ⟨j, []⟩ ['.', '.'] = ⟨j + 1, []⟩ := by simp [stepElem]
    rw [this, ih]
    congr 1
    omega

theorem foldl_stepElem_reals (rooted : Bool) (k : Nat) (es : List (List Char))
    (h : ∀ e ∈ es, RealElem e) :
    es.reverse.foldl (stepElem rooted) ⟨k, []⟩ = ⟨k, es⟩ := by
  induction es with
  | nil => rfl
  | cons e es ih =>
    have he := h e (List.mem_cons_self _ _)
    rw [List.reverse_cons, List.foldl_append, ih (fun x hx => h x (List.mem_cons_of_mem _ hx))]
    simp only [List.foldl_cons, List.foldl_nil]
    rw [stepElem_real rooted _ e he.1 he.2.1 he.2.2.1]

/-- Reading the elements of an element stack from the empty stack gives the
stack back. -/
theorem foldl_stepElem_comps (rooted : Bool) (s : Stack) (hs : s.Inv rooted) :
    s.comps.foldl (stepElem rooted) ⟨0, []⟩ = s := by
  obtain ⟨k, es⟩ := s
  simp only [Stack.comps, List.foldl_append]
  cases rooted with
  | true =>
    have hk : k = 0 := hs.1 rfl
    subst hk
    simp only [List.replicate_zero, List.foldl_nil]
    exact foldl_stepElem_reals true 0 es hs.2
  | false =>
    rw [foldl_stepElem_replicate 0 k, Nat.zero_add]
    exact foldl_stepElem_reals false k es hs.2

theorem finish_eq (rooted : Bool) (s : Stack) (hs : s.Inv rooted) :
    finish rooted s = if s.path rooted = [] then ['.'] else s.path rooted := by
  unfold finish
  rw [← buf_out_reverse rooted s hs]
  by_cases h : (s.buf rooted).out = []
  · simp [h]
  · simp [h]

theorem joinSlash_head_not_sep (cs : List (List Char)) (c : Char) (rest : List Char)
    (h : ∀ e ∈ cs, e ≠ [] ∧ SepFree e) (hj : joinSlash cs = c :: rest) :
    IsPathSeparator c = false := by
  cases cs with
  | nil => simp [joinSlash] at hj
  | cons e es =>
    obtain ⟨hne, hsf⟩ := h e (List.mem_cons_self _ _)
    obtain ⟨x, r, rfl⟩ := List.exists_cons_of_ne_nil hne
    have hx : IsPathSeparator x = false := hsf x (List.mem_cons_self _ _)
    cases es with
    | nil =>
      simp only [joinSlash, List.cons.injEq] at hj
      rw [← hj.1]; exact hx
    | cons e' es' =>
      simp only [joinSlash_cons_cons, List.cons_append, List.cons.injEq] at hj
      rw [← hj.1]; exact hx

/-- A result of `Clean` is a fixed point of `Clean`. -/
theorem cleanChars_finish_fixed (rooted : Bool) (s : Stack) (hs : s.Inv rooted) :
    cleanChars (finish rooted s) = finish rooted s := by
  have hmem := comps_ne_nil_mem rooted s hs
  have hnil := joinSlash_eq_nil s.comps (fun x hx => (hmem x hx).1)
  by_cases hc : s.comps = []
  · have hj : joinSlash s.comps = [] := hnil.mpr hc
    rw [finish_eq rooted s hs]
    cases rooted with
    | true => simp only [Stack.path, hj, rootStr]; decide
    | false => simp only [Stack.path, hj, rootStr]; decide
  · have hj : joinSlash s.comps ≠ [] := fun h => hc (hnil.mp h)
    have hsplit := splitSlash_joinSlash s.comps hc (fun x hx => (hmem x hx).2)
    have hfold := foldl_stepElem_comps rooted s hs
    have hfin : finish rooted s = s.path rooted := by
      rw [finish_eq rooted s hs]
      have : s.path rooted ≠ [] := by simp [Stack.path, hj]
      rw [if_neg this]
    rw [hfin]
    cases rooted with
    | true =>
      have hp : Stack.path true s = '/' :: joinSlash s.comps := by simp [Stack.path, rootStr]
      rw [hp, cleanChars_cons]
      have hs' : IsPathSeparator '/' = true := by decide
      simp only [hs', if_true]
      rw [hsplit, hfold, ← hp, hfin]
    | false =>
      have hp : Stack.path false s = joinSlash s.comps := by simp [Stack.path, rootStr]
      obtain ⟨c, rest, hcr⟩ := List.exists_cons_of_ne_nil hj
      have hsep := joinSlash_head_not_sep s.comps c rest hmem hcr
      rw [hp, hcr, cleanChars_cons]
      simp only [hsep, Bool.false_eq_true, if_false]
      rw [← hcr, hsplit, hfold, ← hp, hfin]

/-- The function `Clean` is idempotent on character lists. -/
theorem cleanChars_idem (path : List Char) :
    cleanChars (cleanChars path) = cleanChars path := by
  obtain ⟨rooted, s, hs, heq, -⟩ := cleanChars_finish path
  rw [heq]
  exact cleanChars_finish_fixed rooted s hs

theorem Clean_idem (path : String) : Clean (Clean path) = Clean path := by
  simp only [Clean, cleanChars_idem]

end filepath

namespace normalpath

/-- C1: for every string `p`, `Normalize (Normalize p) = Normalize p`. -/
theorem Normalize_idempotent (p : String) : Normalize (Normalize p) = Normalize p := by
  simp only [Normalize, filepath.ToSlash, filepath.Clean_idem]

end normalpath

namespace filepath

theorem finish_head (rooted : Bool) (s : Stack) (hs : s.Inv rooted) :
    (finish rooted s).head? = some '/' ↔ rooted = true := by
  have hmem := comps_ne_nil_mem rooted s hs
  rw [finish_eq rooted s hs]
  cases rooted with
  | true => simp [Stack.path, rootStr]
  | false =>
    simp only [Stack.path, rootStr, Bool.false_eq_true, if_false, List.nil_append]
    cases hj : joinSlash s.comps with
    | nil => simp
    | cons c rest =>
      have := joinSlash_head_not_sep s.comps c rest hmem hj
      simp only [List.cons_ne_nil, if_false, List.head?_cons, Option.some.injEq]
      constructor
      · intro h; subst h; exact absurd this (by decide)
      · intro h; exact absurd h (by decide)

/-- The function `Clean` keeps a path rooted or not rooted. -/
theorem IsAbs_Clean (path : String) : IsAbs (Clean path) = IsAbs path := by
  obtain ⟨rooted, s, hs, heq, hroot⟩ := cleanChars_finish path.data
  have h := finish_head rooted s hs
  simp only [IsAbs, Clean, heq]
  by_cases hr : rooted = true
  · rw [h.mpr hr, hroot.mp hr]
  · have h1 : ¬ (finish rooted s).head? = some '/' := fun hh => hr (h.mp hh)
    have h2 : ¬ path.data.head? = some '/' := fun hh => hr (hroot.mpr hh)
    simp [h1, h2]

end filepath

namespace normalpath

/-- C2, as stated, fails: `a/../../b` is relative and does not start with
`../`, and `NormalizeAndValidate` rejects it as outside the context directory. -/
theorem NormalizeAndValidate_relative_counterexample :
    filepath.IsAbs "a/../../b" = false ∧
    strings.HasPrefix "a/../../b" "../" = false ∧
    NormalizeAndValidate "a/../../b" =
      .error { Path := "a/../../b", Err := .errOutsideContextDir } := by
  decide

/-- C2, amended: for every relative path `p` whose normalized form does not
start with `../`, `NormalizeAndValidate p` succeeds and returns exactly
`Normalize p`. -/
theorem NormalizeAndValidate_relative (p : String)
    (hrel : filepath.IsAbs p = false)
    (hjump : strings.HasPrefix (Normalize p) "../" = false) :
    NormalizeAndValidate p = .ok (Normalize p) := by
  have habs : filepath.IsAbs (Normalize p) = false := by
    simp only [Normalize, filepath.ToSlash, filepath.IsAbs_Clean, hrel]
  have hjump' : strings.HasPrefix (Normalize p) normalizedRelPathJumpContextPrefix = false :=
    hjump
  simp only [NormalizeAndValidate, habs, hjump', Bool.false_eq_true, if_false]

theorem NormalizeAndValidate_relative_witness :
    NormalizeAndValidate "a/./b/../c" = .ok (Normalize "a/./b/../c") :=
  NormalizeAndValidate_relative "a/./b/../c" (by decide) (by decide)

/-- C3: when `Normalize p` starts with `../`, `NormalizeAndValidate p` fails
with the error that the path is outside the context directory, and when
`Normalize p` is absolute it fails with the not-relative error. -/
theorem NormalizeAndValidate_errors (p : String) :
    (strings.HasPrefix (Normalize p) "../" = true →
      NormalizeAndValidate p = .error (NewError p .errOutsideContextDir)) ∧
    (filepath.IsAbs (Normalize p) = true →
      NormalizeAndValidate p = .error (NewError p .errNotRelative)) := by
  constructor
  · intro h
    have h' : strings.HasPrefix (Normalize p) normalizedRelPathJumpContextPrefix = true := h
    have habs : filepath.IsAbs (Normalize p) = false := by
      simp only [strings.HasPrefix] at h
      simp only [filepath.IsAbs]
      cases hd : (Normalize p).data with
      | nil => simp
      | cons c t =>
        rw [hd] at h
        have hc : c = '.' := by
          simp [List.isPrefixOf] at h
          exact h.1.symm
        subst hc
        simp
    simp only [NormalizeAndValidate, habs, h', Bool.false_eq_true, if_false, if_true]
  · intro h
    simp only [NormalizeAndValidate, h, if_true]

theorem NormalizeAndValidate_errors_witness :
    NormalizeAndValidate "a/../../b" = .error (NewError "a/../../b" .errOutsideContextDir) ∧
    NormalizeAndValidate "/a/.." = .error (NewError "/a/.." .errNotRelative) :=
  ⟨(NormalizeAndValidate_errors "a/../../b").1 (by decide),
   (NormalizeAndValidate_errors "/a/..").2 (by decide)⟩

end normalpath

namespace filepath

theorem dropWhile_append_sep (e a : List Char) (h : SepFree e) :
    (e ++ '/' :: a).dropWhile (fun c => !IsPathSeparator c) = '/' :: a := by
  induction e with
  | nil => simp [List.dropWhile, IsPathSeparator]
  | cons c r ih =>
    have hc : IsPathSeparator c = false := h c (List.mem_cons_self _ _)
    have hr : SepFree r := fun x hx => h x (List.mem_cons_of_mem _ hx)
    simp [List.dropWhile, hc, ih hr]

theorem dropWhile_sepFree (e : List Char) (h : SepFree e) :
    e.dropWhile (fun c => !IsPathSeparator c) = [] := by
  induction e with
  | nil => rfl
  | cons c r ih =>
    have hc : IsPathSeparator c = false := h c (List.mem_cons_self _ _)
    have hr : SepFree r := fun x hx => h x (List.mem_cons_of_mem _ hx)
    simp [List.dropWhile, hc, ih hr]

theorem sepFree_reverse (e : List Char) (h : SepFree e) : SepFree e.reverse :=
  fun c hc => h c (List.mem_reverse.mp hc)

theorem dirPrefix_sepFree (e : List Char) (h : SepFree e) : dirPrefix e = [] := by
  simp [dirPrefix, dropWhile_sepFree e.reverse (sepFree_reverse e h)]

theorem dirPrefix_append_sep (a e : List Char) (h : SepFree e) :
    dirPrefix (a ++ '/' :: e) = a ++ ['/'] := by
  have : (a ++ '/' :: e).reverse = e.reverse ++ '/' :: a.reverse := by simp
  simp [dirPrefix, this, dropWhile_append_sep e.reverse a.reverse (sepFree_reverse e h)]

theorem splitSlash_joinSlash_append (cs : List (List Char)) (t : List Char) (hne : cs ≠ [])
    (hsf : ∀ e ∈ cs, SepFree e) :
    splitSlash (joinSlash cs ++ '/' :: t) = cs ++ splitSlash t := by
  induction cs with
  | nil => exact absurd rfl hne
  | cons e es ih =>
    cases es with
    | nil =>
      simpa [joinSlash] using splitSlash_append_sep e t (hsf e (List.mem_cons_self _ _))
    | cons e' es' =>
      rw [joinSlash_cons_cons]
      have : e ++ '/' :: joinSlash (e' :: es') ++ '/' :: t =
          e ++ '/' :: (joinSlash (e' :: es') ++ '/' :: t) := by simp
      rw [this, splitSlash_append_sep e _ (hsf e (List.mem_cons_self _ _)),
        ih (by simp) (fun x hx => hsf x (List.mem_cons_of_mem _ hx))]
      simp

/-- Cleaning the elements of a stack followed by a slash gives the stack. -/
theorem cleanChars_joinSlash_sep (s : Stack) (hs : s.Inv false) (hne : s.comps ≠ []) :
    cleanChars (joinSlash s.comps ++ ['/']) = finish false s := by
  have hmem := comps_ne_nil_mem false s hs
  have hnil := joinSlash_eq_nil s.comps (fun x hx => (hmem x hx).1)
  have hj : joinSlash s.comps ≠ [] := fun h => hne (hnil.mp h)
  obtain ⟨c, rest, hcr⟩ := List.exists_cons_of_ne_nil hj
  have hsep := joinSlash_head_not_sep s.comps c rest hmem hcr
  rw [hcr, List.cons_append, cleanChars_cons]
  simp only [hsep, Bool.false_eq_true, if_false]
  rw [← List.cons_append, ← hcr, splitSlash_joinSlash_append s.comps [] hne
    (fun x hx => (hmem x hx).2)]
  simp only [splitSlash, List.foldl_append, List.foldl_cons, List.foldl_nil, stepElem_nil]
  rw [foldl_stepElem_comps false s hs]

theorem comps_eq_nil (s : Stack) : s.comps = [] ↔ s = ⟨0, []⟩ := by
  obtain ⟨k, es⟩ := s
  simp [Stack.comps, List.replicate_eq_nil_iff]

/-- The directory of the path of `cs ++ [e]` is the path of `cs`. -/
theorem dirChars_snoc (s : Stack) (hs : s.Inv false) (e : List Char) (he : SepFree e) :
    dirChars (joinSlash (s.comps ++ [e])) = finish false s := by
  rw [joinSlash_append_singleton]
  by_cases hc : s.comps = []
  · rw [if_pos hc, dirChars, dirPrefix_sepFree e he]
    rw [(comps_eq_nil s).mp hc]
    decide
  · rw [if_neg hc, dirChars, dirPrefix_append_sep _ e he]
    exact cleanChars_joinSlash_sep s hs hc

theorem pop_inv (s : Stack) (hs : s.Inv false) : s.pop.Inv false := by
  obtain ⟨k, es⟩ := s
  cases es with
  | nil => exact ⟨by simp, by simp [Stack.pop]⟩
  | cons e es =>
    exact ⟨by simp, fun x hx => hs.2 x (List.mem_cons_of_mem _ (by simpa [Stack.pop] using hx))⟩

theorem finish_false_eq (s : Stack) (hs : s.Inv false) :
    finish false s = if s.comps = [] then ['.'] else joinSlash s.comps := by
  have hmem := comps_ne_nil_mem false s hs
  have hnil := joinSlash_eq_nil s.comps (fun x hx => (hmem x hx).1)
  rw [finish_eq false s hs]
  simp only [Stack.path, rootStr, Bool.false_eq_true, if_false, List.nil_append]
  by_cases hc : s.comps = []
  · rw [if_pos hc, if_pos (hnil.mpr hc)]
  · rw [if_neg hc, if_neg (fun h => hc (hnil.mp h))]

/-- On a clean relative path, `Dir` removes the last path element. -/
theorem dirChars_finish (s : Stack) (hs : s.Inv false) :
    dirChars (finish false s) = finish false s.pop := by
  obtain ⟨k, es⟩ := s
  cases es with
  | cons e es =>
    have hs' : Stack.Inv false ⟨k, es⟩ :=
      ⟨by simp, fun x hx => hs.2 x (List.mem_cons_of_mem _ hx)⟩
    have hcomps : Stack.comps ⟨k, e :: es⟩ = Stack.comps ⟨k, es⟩ ++ [e] := by
      simp [Stack.comps]
    rw [finish_false_eq _ hs, hcomps, if_neg (by simp)]
    exact dirChars_snoc ⟨k, es⟩ hs' e (hs.2 e (List.mem_cons_self _ _)).2.2.2
  | nil =>
    cases k with
    | zero => decide
    | succ k =>
      have hs' : Stack.Inv false ⟨k, []⟩ := ⟨by simp, by simp⟩
      have hcomps : Stack.comps ⟨k + 1, []⟩ = Stack.comps ⟨k, []⟩ ++ [['.', '.']] := by
        simp [Stack.comps, List.replicate_succ']
      rw [finish_false_eq _ hs, hcomps, if_neg (by simp)]
      have := dirChars_snoc ⟨k, []⟩ hs' ['.', '.'] (by intro x hx; simp at hx; subst hx; decide)
      rw [this]
      simp [Stack.pop]

theorem pop_size (s : Stack) : s.pop.size = s.size - 1 := by
  obtain ⟨k, es⟩ := s
  cases es with
  | nil => simp [Stack.pop, Stack.size]
  | cons e es => simp [Stack.pop, Stack.size]

theorem size_eq_zero (s : Stack) : s.size = 0 ↔ s = ⟨0, []⟩ := by
  obtain ⟨k, es⟩ := s
  simp [Stack.size]

theorem iterate_pop_size (n : Nat) (s : Stack) : (Stack.pop^[n] s).size = s.size - n := by
  induction n generalizing s with
  | zero => simp
  | succ n ih =>
    rw [Function.iterate_succ_apply, ih, pop_size]
    omega

theorem length_joinSlash_ge (cs : List (List Char)) (h : ∀ e ∈ cs, e ≠ []) :
    cs.length ≤ (joinSlash cs).length := by
  induction cs with
  | nil => simp
  | cons e es ih =>
    have he : 0 < e.length := List.length_pos.mpr (h e (List.mem_cons_self _ _))
    cases es with
    | nil => simp [joinSlash]; omega
    | cons e' es' =>
      have := ih (fun x hx => h x (List.mem_cons_of_mem _ hx))
      rw [joinSlash_cons_cons]
      simp only [List.length_cons, List.length_append] at this ⊢
      omega

theorem size_le_length_finish (s : Stack) (hs : s.Inv false) :
    s.size ≤ (finish false s).length := by
  have hmem := comps_ne_nil_mem false s hs
  have h1 := length_joinSlash_ge s.comps (fun x hx => (hmem x hx).1)
  have h2 : s.comps.length = s.size := by simp [Stack.comps, Stack.size]
  rw [finish_false_eq s hs]
  by_cases hc : s.comps = []
  · rw [if_pos hc]
    rw [hc] at h2
    simp at h2 ⊢
    omega
  · rw [if_neg hc]; omega

end filepath

namespace normalpath

/-- Normalizing the result of `filepath.Dir` changes nothing. -/
theorem Dir_eq (p : String) : Dir p = filepath.Dir p := by
  simp only [Dir, Normalize, Unnormalize, filepath.ToSlash, filepath.FromSlash, filepath.Dir,
    filepath.Clean_idem]

theorem Dir_finish (s : filepath.Stack) (hs : s.Inv false) :
    Dir ⟨filepath.finish false s⟩ = ⟨filepath.finish false s.pop⟩ := by
  rw [Dir_eq]
  have := filepath.dirChars_finish s hs
  simp only [filepath.dirChars] at this
  simp only [filepath.Dir, filepath.Clean, this]

theorem iterate_Dir_finish (n : Nat) (s : filepath.Stack) (hs : s.Inv false) :
    Dir^[n] ⟨filepath.finish false s⟩ = ⟨filepath.finish false (filepath.Stack.pop^[n] s)⟩ := by
  induction n generalizing s with
  | zero => rfl
  | succ n ih =>
    rw [Function.iterate_succ_apply, Function.iterate_succ_apply, Dir_finish s hs,
      ih _ (filepath.pop_inv s hs)]

/-- After as many `Dir` steps as it has elements, a clean relative path has
become `.`. -/
theorem iterate_Dir_size (s : filepath.Stack) (hs : s.Inv false) :
    Dir^[s.size] ⟨filepath.finish false s⟩ = "." := by
  rw [iterate_Dir_finish _ s hs]
  have h : (filepath.Stack.pop^[s.size] s).size = 0 := by
    rw [filepath.iterate_pop_size]; omega
  rw [(filepath.size_eq_zero _).mp h]
  rfl

/-- A normalized and validated path is a clean relative path. -/
theorem validated_eq_finish (p : String) (h : NormalizeAndValidate p = .ok p) :
    ∃ s : filepath.Stack, s.Inv false ∧ p = ⟨filepath.finish false s⟩ := by
  simp only [NormalizeAndValidate] at h
  split_ifs at h with h1 h2
  simp only [Except.ok.injEq] at h
  obtain ⟨rooted, s, hs, heq, hroot⟩ := filepath.cleanChars_finish p.data
  have habs : filepath.IsAbs p = false := by
    rw [← h] at h1
    simp only [Normalize, filepath.ToSlash, filepath.IsAbs_Clean] at h1
    simpa using h1
  have hr : rooted = false := by
    cases rooted with
    | false => rfl
    | true =>
      have := hroot.mp rfl
      simp [filepath.IsAbs, this] at habs
  subst hr
  refine ⟨s, hs, ?_⟩
  rw [← heq]
  exact h.symm

theorem Dir_dot : Dir "." = "." := by decide

theorem iterate_Dir_dot (n : Nat) : Dir^[n] "." = "." := by
  induction n with
  | zero => rfl
  | succ n ih => rw [Function.iterate_succ_apply, Dir_dot, ih]

/-- The walk up finds `value` exactly when some iterate of `Dir` within the
fuel is `value` and the root was not met up to there. -/
theorem walkUp_iff (value pathRoot : String) (fuel : Nat) (cur : String) :
    walkUp value pathRoot fuel cur = true ↔
      ∃ m, m < fuel ∧ Dir^[m] cur = value ∧ ∀ j, j ≤ m → Dir^[j] cur ≠ pathRoot := by
  induction fuel generalizing cur with
  | zero => simp [walkUp]
  | succ fuel ih =>
    rw [walkUp]
    by_cases h1 : cur = pathRoot
    · simp only [h1, beq_self_eq_true, if_true, Bool.false_eq_true, false_iff]
      rintro ⟨m, -, -, hm⟩
      exact hm 0 (Nat.zero_le _) rfl
    · have h1' : (cur == pathRoot) = false := by simpa using h1
      simp only [h1', Bool.false_eq_true, if_false]
      by_cases h2 : value = cur
      · simp only [h2, beq_self_eq_true, if_true, true_iff]
        refine ⟨0, Nat.succ_pos _, rfl, ?_⟩
        intro j hj
        have : j = 0 := Nat.le_zero.mp hj
        subst this
        exact h1
      · have h2' : (value == cur) = false := by simpa using h2
        simp only [h2', Bool.false_eq_true, if_false]
        rw [ih]
        constructor
        · rintro ⟨m, hm, hv, hall⟩
          refine ⟨m + 1, by omega, by rw [Function.iterate_succ_apply]; exact hv, ?_⟩
          intro j hj
          cases j with
          | zero => exact h1
          | succ j =>
            rw [Function.iterate_succ_apply]
            exact hall j (by omega)
        · rintro ⟨m, hm, hv, hall⟩
          cases m with
          | zero => exact absurd hv.symm h2
          | succ m =>
            refine ⟨m, by omega, by rw [← Function.iterate_succ_apply]; exact hv, ?_⟩
            intro j hj
            have := hall (j + 1) (by omega)
            rwa [Function.iterate_succ_apply] at this

/-- On a clean relative path and for a value other than `.`, the walk up of
`EqualsOrContainsPath` finds the value exactly when the value is an iterate
of `Dir` on the path. -/
theorem walkUp_finish (value : String) (s : filepath.Stack) (hs : s.Inv false)
    (hv : value ≠ ".") :
    walkUp value "." ((⟨filepath.finish false s⟩ : String).length + 1)
        ⟨filepath.finish false s⟩ = true ↔
      ∃ m, Dir^[m] ⟨filepath.finish false s⟩ = value := by
  rw [walkUp_iff]
  have hsize := iterate_Dir_size s hs
  have hlen : s.size ≤ (⟨filepath.finish false s⟩ : String).length :=
    filepath.size_le_length_finish s hs
  have hafter : ∀ m, s.size ≤ m → Dir^[m] ⟨filepath.finish false s⟩ = "." := by
    intro m hm
    obtain ⟨d, rfl⟩ := Nat.exists_eq_add_of_le hm
    rw [Nat.add_comm, Function.iterate_add_apply, hsize, iterate_Dir_dot]
  constructor
  · rintro ⟨m, -, hm, -⟩
    exact ⟨m, hm⟩
  · rintro ⟨m, hm⟩
    have hlt : m < s.size := by
      by_contra hge
      exact hv (by rw [← hm]; exact hafter m (by omega))
    refine ⟨m, by omega, hm, ?_⟩
    intro j hj hroot
    apply hv
    rw [← hm]
    obtain ⟨d, rfl⟩ := Nat.exists_eq_add_of_le hj
    rw [Nat.add_comm, Function.iterate_add_apply, hroot, iterate_Dir_dot]

/-- C4: for normalized and validated relative paths, `ContainsPath dir path`
holds exactly when `dir` differs from `path` and is `.` or an iterate (one or
more times) of `Dir` on `path`; `a` contains `a/b`, `a` does not contain `a`,
`a/b` does not contain `a`, and no path contains itself. -/
theorem ContainsPath_iff_strict_ancestor :
    (∀ dir path : String,
      NormalizeAndValidate dir = .ok dir → NormalizeAndValidate path = .ok path →
      (ContainsPath dir path Relative = true ↔
        dir ≠ path ∧ (dir = "." ∨ ∃ n, 1 ≤ n ∧ Dir^[n] path = dir))) ∧
    ContainsPath "a" "a/b" Relative = true ∧
    ContainsPath "a" "a" Relative = false ∧
    ContainsPath "a/b" "a" Relative = false ∧
    (∀ (p : String) (t : PathType), ContainsPath p p t = false) := by
  refine ⟨?_, by decide, by decide, by decide, ?_⟩
  · intro dir path _ hpath
    obtain ⟨s, hs, rfl⟩ := validated_eq_finish path hpath
    have hsep : Separator Relative = "." := by decide
    by_cases hne : dir = ⟨filepath.finish false s⟩
    · simp [ContainsPath, hne]
    · have hne' : (dir == (⟨filepath.finish false s⟩ : String)) = false := by simpa using hne
      simp only [ContainsPath, hne', Bool.false_eq_true, if_false, ne_eq, hne,
        not_false_eq_true, true_and, EqualsOrContainsPath, hsep]
      by_cases hdot : dir = "."
      · simp [hdot]
      · have hdot' : (dir == ".") = false := by simpa using hdot
        simp only [hdot', Bool.false_eq_true, if_false, hdot, false_or]
        rw [Dir_finish s hs, walkUp_finish dir s.pop (filepath.pop_inv s hs) hdot]
        constructor
        · rintro ⟨m, hm⟩
          exact ⟨m + 1, by omega, by
            rw [Function.iterate_succ_apply, Dir_finish s hs]; exact hm⟩
        · rintro ⟨n, hn, hm⟩
          obtain ⟨m, rfl⟩ := Nat.exists_eq_add_of_le hn
          refine ⟨m, ?_⟩
          rw [Nat.add_comm, Function.iterate_succ_apply, Dir_finish s hs] at hm
          exact hm
  · intro p t
    simp [ContainsPath]

theorem ContainsPath_iff_strict_ancestor_witness :
    (ContainsPath "a" "a/b/c" Relative = true ↔
      "a" ≠ "a/b/c" ∧ ("a" = "." ∨ ∃ n, 1 ≤ n ∧ Dir^[n] "a/b/c" = "a")) :=
  ContainsPath_iff_strict_ancestor.1 "a" "a/b/c" (by decide) (by decide)

end normalpath

namespace normalpath

theorem mapGet_mapAppend (m : List (String × List String)) (d x d' : String) :
    mapGet (mapAppend m d x) d' = if d' = d then mapGet m d ++ [x] else mapGet m d' := by
  induction m with
  | nil =>
    by_cases h : d' = d
    · subst h; simp [mapAppend, mapGet]
    · have h' : ¬ d = d' := fun hh => h hh.symm
      simp [mapAppend, mapGet, h, h']
  | cons kv m ih =>
    obtain ⟨k, v⟩ := kv
    by_cases hk : k = d
    · subst hk
      by_cases h : d' = k
      · subst h
        simp [mapAppend, mapGet]
      · have h' : ¬ k = d' := fun hh => h hh.symm
        simp [mapAppend, mapGet, h, h']
    · by_cases h : d' = d
      · subst h
        simp only [if_true] at ih
        simp [mapAppend, mapGet, hk, ih]
      · simp only [h, if_false] at ih
        simp [mapAppend, mapGet, hk, h, ih]

theorem keys_mapAppend (m : List (String × List String)) (d x d' : String) :
    d' ∈ (mapAppend m d x).map Prod.fst ↔ d' = d ∨ d' ∈ m.map Prod.fst := by
  induction m with
  | nil => simp [mapAppend]
  | cons kv m ih =>
    obtain ⟨k, v⟩ := kv
    by_cases hk : k = d
    · subst hk
      simp [mapAppend]
    · simp only [mapAppend, hk, if_false, List.map_cons, List.mem_cons, ih]
      tauto

/-- The map built by the first loop of `ByDir`, from a starting map. -/
theorem mapGet_foldl (paths : List String) (m : List (String × List String)) (d : String) :
    mapGet (paths.foldl (fun m path => mapAppend m (filepath.Dir (Normalize path))
        (Normalize path)) m) d =
      mapGet m d ++ (paths.map Normalize).filter (fun x => filepath.Dir x = d) := by
  induction paths generalizing m with
  | nil => simp
  | cons p ps ih =>
    simp only [List.foldl_cons, List.map_cons]
    rw [ih, mapGet_mapAppend]
    by_cases h : d = filepath.Dir (Normalize p)
    · subst h; simp
    · have h' : ¬ filepath.Dir (Normalize p) = d := fun hh => h hh.symm
      simp [h, h']

theorem keys_foldl (paths : List String) (m : List (String × List String)) (d : String) :
    d ∈ (paths.foldl (fun m path => mapAppend m (filepath.Dir (Normalize path))
        (Normalize path)) m).map Prod.fst ↔
      d ∈ m.map Prod.fst ∨ ∃ p ∈ paths, filepath.Dir (Normalize p) = d := by
  induction paths generalizing m with
  | nil => simp
  | cons p ps ih =>
    simp only [List.foldl_cons]
    rw [ih, keys_mapAppend]
    simp only [List.mem_cons, exists_eq_or_imp]
    constructor
    · rintro ((h | h) | h)
      · exact Or.inr (Or.inl h.symm)
      · exact Or.inl h
      · exact Or.inr (Or.inr h)
    · rintro (h | h | h)
      · exact Or.inl (Or.inr h)
      · exact Or.inl (Or.inl h.symm)
      · exact Or.inr h

theorem mapGet_map (m : List (String × List String)) (f : List String → List String)
    (hf : f [] = []) (d : String) :
    mapGet (m.map (fun kv => (kv.1, f kv.2))) d = f (mapGet m d) := by
  induction m with
  | nil => simp [mapGet, hf]
  | cons kv m ih =>
    obtain ⟨k, v⟩ := kv
    by_cases h : k = d
    · subst h; simp [mapGet]
    · simp [mapGet, h, ih]

/-- The slice that `ByDir` holds for a directory: the normalized paths of that
directory, sorted. -/
theorem mapGet_ByDir (paths : List String) (d : String) :
    mapGet (ByDir paths) d =
      sortStrings ((paths.map Normalize).filter (fun x => filepath.Dir x = d)) := by
  simp only [ByDir]
  rw [mapGet_map _ sortStrings rfl, mapGet_foldl]
  simp [mapGet]

/-- The directories that `ByDir` holds are those of the normalized paths. -/
theorem keys_ByDir (paths : List String) (d : String) :
    d ∈ (ByDir paths).map Prod.fst ↔ ∃ p ∈ paths, filepath.Dir (Normalize p) = d := by
  simp only [ByDir, List.map_map]
  have : (Prod.fst ∘ fun kv : String × List String => (kv.1, sortStrings kv.2)) = Prod.fst := by
    funext kv; rfl
  rw [this, keys_foldl]
  simp

theorem mem_sortStrings (l : List String) (x : String) : x ∈ sortStrings l ↔ x ∈ l :=
  List.mem_insertionSort _

/-- The slices that `ChunkByDir` merges are the slices of the directories. -/
theorem mem_sortedPathsByDir (paths : List String) (b : List String) :
    b ∈ sortedPathsByDir paths ↔
      ∃ p ∈ paths, b = sortStrings ((paths.map Normalize).filter
        (fun x => filepath.Dir x = filepath.Dir (Normalize p))) := by
  simp only [sortedPathsByDir, List.mem_insertionSort]
  rw [List.mem_map]
  constructor
  · rintro ⟨d, hd, rfl⟩
    rw [mem_sortStrings] at hd
    obtain ⟨p, hp, rfl⟩ := (keys_ByDir paths d).mp hd
    exact ⟨p, hp, mapGet_ByDir paths _⟩
  · rintro ⟨p, hp, rfl⟩
    exact ⟨filepath.Dir (Normalize p),
      (mem_sortStrings _ _).mpr ((keys_ByDir paths _).mpr ⟨p, hp, rfl⟩),
      mapGet_ByDir paths _⟩

/-- The inner loop takes slices from the end of `pathsByDir` and stops when
the chunk is long enough or nothing is left. -/
theorem mergeSmallest_spec (size : Int) (chunk : List String) (rev : List (List String)) :
    ∃ taken, rev = taken ++ (mergeSmallest size chunk rev).2 ∧
      (mergeSmallest size chunk rev).1 = chunk ++ taken.flatten ∧
      ((mergeSmallest size chunk rev).2 = [] ∨
        size ≤ ((mergeSmallest size chunk rev).1.length : Int)) := by
  induction rev generalizing chunk with
  | nil => exact ⟨[], by simp [mergeSmallest]⟩
  | cons last rev ih =>
    by_cases h : (chunk.length : Int) < size
    · obtain ⟨taken, h1, h2, h3⟩ := ih (chunk ++ last)
      refine ⟨last :: taken, ?_, ?_, ?_⟩
      · simp only [mergeSmallest, h, if_true, List.cons_append]
        rw [← h1]
      · simp only [mergeSmallest, h, if_true, h2, List.flatten_cons, List.append_assoc]
      · simpa only [mergeSmallest, h, if_true] using h3
    · refine ⟨[], ?_, ?_, ?_⟩
      · simp [mergeSmallest, h]
      · simp [mergeSmallest, h]
      · right
        simp only [mergeSmallest, h, if_false]
        omega

/-- The chunks that the outer loop adds: every chunk but the last is long
enough, every slice lies in one chunk, and every element of a chunk comes
from a slice lying in that chunk. -/
theorem chunkLoop_spec (size : Int) (fuel : Nat) (l chunks : List (List String))
    (hf : l.length ≤ fuel) :
    ∃ new, chunkLoop size fuel l chunks = chunks ++ new ∧
      (l = [] → new = []) ∧
      (∀ c ∈ new.dropLast, size ≤ (c.length : Int)) ∧
      (∀ b ∈ l, ∃ c ∈ new, ∀ x ∈ b, x ∈ c) ∧
      (∀ c ∈ new, ∀ x ∈ c, ∃ b ∈ l, x ∈ b ∧ ∀ y ∈ b, y ∈ c) := by
  induction fuel generalizing l chunks with
  | zero =>
    have : l = [] := List.length_eq_zero.mp (Nat.le_zero.mp hf)
    subst this
    exact ⟨[], by simp [chunkLoop]⟩
  | succ fuel ih =>
    cases l with
    | nil => exact ⟨[], by simp [chunkLoop]⟩
    | cons chunk rest =>
      obtain ⟨taken, h1, h2, h3⟩ := mergeSmallest_spec size chunk rest.reverse
      set r := mergeSmallest size chunk rest.reverse with hr
      have hrest : ∀ b, b ∈ rest ↔ b ∈ taken ∨ b ∈ r.2 := by
        intro b
        rw [← List.mem_reverse, h1, List.mem_append]
      have hlen : r.2.reverse.length ≤ fuel := by
        have : rest.reverse.length = taken.length + r.2.length := by
          rw [h1, List.length_append]
        simp only [List.length_reverse, List.length_cons] at this hf ⊢
        omega
      obtain ⟨new', e1, e2, e3, e4, e5⟩ := ih r.2.reverse (chunks ++ [r.1]) hlen
      refine ⟨r.1 :: new', ?_, by simp, ?_, ?_, ?_⟩
      · rw [chunkLoop]
        simp only [← hr]
        rw [e1]
        simp
      · intro c hc
        by_cases hn : new' = []
        · subst hn; simp at hc
        · rw [List.dropLast_cons_of_ne_nil hn, List.mem_cons] at hc
          rcases hc with rfl | hc
          · rcases h3 with h3 | h3
            · exact absurd (e2 (by simp [h3])) hn
            · exact h3
          · exact e3 c hc
      · intro b hb
        rw [List.mem_cons] at hb
        rcases hb with rfl | hb
        · exact ⟨r.1, List.mem_cons_self _ _, fun x hx => by rw [h2]; simp [hx]⟩
        · rcases (hrest b).mp hb with ht | hr2
          · refine ⟨r.1, List.mem_cons_self _ _, fun x hx => ?_⟩
            rw [h2, List.mem_append, List.mem_flatten]
            exact Or.inr ⟨b, ht, hx⟩
          · obtain ⟨c, hc, hsub⟩ := e4 b (List.mem_reverse.mpr hr2)
            exact ⟨c, List.mem_cons_of_mem _ hc, hsub⟩
      · intro c hc x hx
        rw [List.mem_cons] at hc
        rcases hc with rfl | hc
        · rw [h2, List.mem_append, List.mem_flatten] at hx
          rcases hx with hx | ⟨b, hb, hxb⟩
          · exact ⟨chunk, List.mem_cons_self _ _, hx, fun y hy => by rw [h2]; simp [hy]⟩
          · refine ⟨b, List.mem_cons_of_mem _ ((hrest b).mpr (Or.inl hb)), hxb, fun y hy => ?_⟩
            rw [h2, List.mem_append, List.mem_flatten]
            exact Or.inr ⟨b, hb, hy⟩
        · obtain ⟨b, hb, hxb, hsub⟩ := e5 c hc x hx
          exact ⟨b, List.mem_cons_of_mem _ ((hrest b).mpr (Or.inr (List.mem_reverse.mp hb))),
            hxb, hsub⟩

theorem ChunkByDir_eq (paths : List String) (size : Int) (hne : paths ≠ []) (hsize : 0 < size) :
    ChunkByDir paths size =
      chunkLoop size (sortedPathsByDir paths).length (sortedPathsByDir paths) [] := by
  have h1 : ¬ paths.length = 0 := by simpa using hne
  have h2 : ¬ size ≤ 0 := by omega
  simp only [ChunkByDir, h1, h2, if_false]

/-- C5: for a chunk size above zero, two input paths whose normalized forms
have the same directory have their normalized forms in one chunk of the
result of `ChunkByDir`, and no chunk holds one of them without the other. -/
theorem ChunkByDir_same_dir (paths : List String) (suggestedChunkSize : Int)
    (hsize : 0 < suggestedChunkSize) (p q : String) (hp : p ∈ paths) (hq : q ∈ paths)
    (hdir : filepath.Dir (Normalize p) = filepath.Dir (Normalize q)) :
    (∃ chunk ∈ ChunkByDir paths suggestedChunkSize,
      Normalize p ∈ chunk ∧ Normalize q ∈ chunk) ∧
    (∀ chunk ∈ ChunkByDir paths suggestedChunkSize,
      Normalize p ∈ chunk ↔ Normalize q ∈ chunk) := by
  have hne : paths ≠ [] := List.ne_nil_of_mem hp
  rw [ChunkByDir_eq paths suggestedChunkSize hne hsize]
  obtain ⟨new, e1, -, -, e4, e5⟩ :=
    chunkLoop_spec suggestedChunkSize _ (sortedPathsByDir paths) [] (le_refl _)
  rw [e1, List.nil_append]
  have hmemB : ∀ r ∈ paths, ∀ x, x ∈ sortStrings ((paths.map Normalize).filter
      (fun x => filepath.Dir x = filepath.Dir (Normalize r))) ↔
      x ∈ paths.map Normalize ∧ filepath.Dir x = filepath.Dir (Normalize r) := by
    intro r _ x
    rw [mem_sortStrings, List.mem_filter]
    simp
  have hnp : Normalize p ∈ paths.map Normalize := List.mem_map_of_mem _ hp
  have hnq : Normalize q ∈ paths.map Normalize := List.mem_map_of_mem _ hq
  constructor
  · obtain ⟨c, hc, hsub⟩ := e4 _ ((mem_sortedPathsByDir paths _).mpr ⟨p, hp, rfl⟩)
    exact ⟨c, hc, hsub _ ((hmemB p hp _).mpr ⟨hnp, rfl⟩),
      hsub _ ((hmemB p hp _).mpr ⟨hnq, hdir.symm⟩)⟩
  · intro c hc
    constructor
    · intro hx
      obtain ⟨b, hb, hxb, hsub⟩ := e5 c hc _ hx
      obtain ⟨r, hr, rfl⟩ := (mem_sortedPathsByDir paths b).mp hb
      have := ((hmemB r hr _).mp hxb).2
      exact hsub _ ((hmemB r hr _).mpr ⟨hnq, by rw [← hdir]; exact this⟩)
    · intro hx
      obtain ⟨b, hb, hxb, hsub⟩ := e5 c hc _ hx
      obtain ⟨r, hr, rfl⟩ := (mem_sortedPathsByDir paths b).mp hb
      have := ((hmemB r hr _).mp hxb).2
      exact hsub _ ((hmemB r hr _).mpr ⟨hnp, by rw [hdir]; exact this⟩)

theorem ChunkByDir_same_dir_witness :
    (∃ chunk ∈ ChunkByDir ["a/x", "b/y", "a/../a/z"] 1,
      Normalize "a/x" ∈ chunk ∧ Normalize "a/../a/z" ∈ chunk) ∧
    (∀ chunk ∈ ChunkByDir ["a/x", "b/y", "a/../a/z"] 1,
      Normalize "a/x" ∈ chunk ↔ Normalize "a/../a/z" ∈ chunk) :=
  ChunkByDir_same_dir ["a/x", "b/y", "a/../a/z"] 1 (by decide) "a/x" "a/../a/z"
    (by decide) (by decide) (by decide)

/-- C6: for a non-empty list of paths and a chunk size above zero, every
chunk of the result of `ChunkByDir` except possibly the last one has at least
`suggestedChunkSize` paths. -/
theorem ChunkByDir_chunk_length (paths : List String) (suggestedChunkSize : Int)
    (hne : paths ≠ []) (hsize : 0 < suggestedChunkSize) :
    ∀ chunk ∈ (ChunkByDir paths suggestedChunkSize).dropLast,
      suggestedChunkSize ≤ (chunk.length : Int) := by
  rw [ChunkByDir_eq paths suggestedChunkSize hne hsize]
  obtain ⟨new, e1, -, e3, -, -⟩ :=
    chunkLoop_spec suggestedChunkSize _ (sortedPathsByDir paths) [] (le_refl _)
  rw [e1, List.nil_append]
  exact e3

theorem ChunkByDir_chunk_length_witness :
    ["a/x", "a/z"] ∈ (ChunkByDir ["a/x", "b/y", "a/z", "c/1", "c/2", "c/3", "d"] 2).dropLast ∧
    (2 : Int) ≤ ((["a/x", "a/z"] : List String).length : Int) :=
  ⟨by decide,
   ChunkByDir_chunk_length ["a/x", "b/y", "a/z", "c/1", "c/2", "c/3", "d"] 2
    (by decide) (by decide) ["a/x", "a/z"] (by decide)⟩

end normalpath

namespace normalpath

theorem sorted_sortStrings (l : List String) : (sortStrings l).Sorted strLE :=
  List.sorted_insertionSort strLE l

theorem strLE_lt_of_ne (a b : String) (h : strLE a b) (hne : a ≠ b) : a < b := by
  rw [String.lt_iff_toList_lt]
  have h1 : a.data ≠ b.data := fun hh => hne (String.ext hh)
  exact lt_of_le_of_ne h h1

end normalpath

namespace xslices

/-- The result of `ToUniqueSorted` is strictly ascending. -/
theorem sorted_ToUniqueSorted (s : List String) : (ToUniqueSorted s).Sorted (· < ·) := by
  have h1 := normalpath.sorted_sortStrings s.dedup
  have h2 : (ToUniqueSorted s).Nodup :=
    (List.perm_insertionSort _ _).nodup_iff.mpr (List.nodup_dedup s)
  unfold ToUniqueSorted at h2 ⊢
  unfold List.Sorted at h1 ⊢
  have h3 := List.Pairwise.and h1 h2
  exact h3.imp (fun {a b} hab => normalpath.strLE_lt_of_ne a b hab.1 hab.2)

theorem mem_ToUniqueSorted (s : List String) (x : String) : x ∈ ToUniqueSorted s ↔ x ∈ s := by
  simp [ToUniqueSorted, normalpath.mem_sortStrings]

theorem MapError_ok {α β ε : Type} (f : α → Except ε β) (s : List α) (r : List β)
    (h : MapError f s = .ok r) : List.Forall₂ (fun a b => f a = .ok b) s r := by
  induction s generalizing r with
  | nil =>
    simp only [MapError, Except.ok.injEq] at h
    subst h
    exact List.Forall₂.nil
  | cons a s ih =>
    simp only [MapError] at h
    cases hfa : f a with
    | error e => simp [hfa] at h
    | ok b =>
      cases hs : MapError f s with
      | error e => simp [hfa, hs] at h
      | ok bs =>
        simp only [hfa, hs, Except.ok.injEq] at h
        subst h
        exact List.Forall₂.cons hfa (ih bs hs)

theorem forall₂_mem_left {α β : Type} {R : α → β → Prop} {l : List α} {r : List β}
    (h : List.Forall₂ R l r) {a : α} (ha : a ∈ l) : ∃ b ∈ r, R a b := by
  induction h with
  | nil => simp at ha
  | cons hab _ ih =>
    rcases List.mem_cons.mp ha with rfl | ha
    · exact ⟨_, List.mem_cons_self _ _, hab⟩
    · obtain ⟨b, hb, hr⟩ := ih ha
      exact ⟨b, List.mem_cons_of_mem _ hb, hr⟩

theorem forall₂_mem_right {α β : Type} {R : α → β → Prop} {l : List α} {r : List β}
    (h : List.Forall₂ R l r) {b : β} (hb : b ∈ r) : ∃ a ∈ l, R a b := by
  induction h with
  | nil => simp at hb
  | cons hab _ ih =>
    rcases List.mem_cons.mp hb with rfl | hb
    · exact ⟨_, List.mem_cons_self _ _, hab⟩
    · obtain ⟨a, ha, hr⟩ := ih hb
      exact ⟨a, List.mem_cons_of_mem _ ha, hr⟩

end xslices

namespace bufconfig

open FileVersion

theorem normalizeRootMap_ok (m newM : StringSliceMap) (h : normalizeRootMap m = .ok newM) :
    List.Forall₂ RootNormalized m newM := by
  induction m generalizing newM with
  | nil =>
    simp only [normalizeRootMap, Except.ok.injEq] at h
    subst h
    exact List.Forall₂.nil
  | cons kv m ih =>
    obtain ⟨root, paths⟩ := kv
    simp only [normalizeRootMap] at h
    cases hp : xslices.MapError normalpath.NormalizeAndValidate paths with
    | error e => simp [hp] at h
    | ok ps =>
      cases hm : normalizeRootMap m with
      | error e => simp [hp, hm] at h
      | ok newM' =>
        simp only [hp, hm, Except.ok.injEq] at h
        subst h
        have hf := xslices.MapError_ok _ _ _ hp
        refine List.Forall₂.cons ⟨rfl, xslices.sorted_ToUniqueSorted ps, ?_, ?_⟩ (ih newM' hm)
        · intro y hy
          rw [xslices.mem_ToUniqueSorted] at hy
          exact xslices.forall₂_mem_right hf hy
        · intro x hx
          obtain ⟨y, hy, hxy⟩ := xslices.forall₂_mem_left hf hx
          exact ⟨y, (xslices.mem_ToUniqueSorted ps y).mpr hy, hxy⟩

/-- When `newModuleConfig` succeeds, both maps went through `normalizeRootMap`. -/
theorem newModuleConfig_ok (dirPath : String) (moduleFullName : Option String)
    (rootToIncludes rootToExcludes : StringSliceMap)
    (lintConfig : Option LintConfig) (breakingConfig : Option BreakingConfig)
    (cfg : moduleConfig)
    (h : newModuleConfig dirPath moduleFullName rootToIncludes rootToExcludes
      lintConfig breakingConfig = .ok cfg) :
    normalizeRootMap rootToIncludes = .ok cfg.rootToIncludes ∧
    normalizeRootMap rootToExcludes = .ok cfg.rootToExcludes ∧
    normalpath.NormalizeAndValidate dirPath = .ok cfg.dirPath := by
  unfold newModuleConfig at h
  cases hd : normalpath.NormalizeAndValidate dirPath with
  | error e => simp [hd] at h
  | ok d =>
    cases lintConfig with
    | none => simp [hd] at h
    | some lint =>
      cases breakingConfig with
      | none => simp [hd] at h
      | some breaking =>
        simp only [hd] at h
        split_ifs at h
        cases hi : normalizeRootMap rootToIncludes with
        | error e => simp [hi] at h
        | ok ni =>
          cases he : normalizeRootMap rootToExcludes with
          | error e => simp [hi, he] at h
          | ok ne =>
            simp only [hi, he, Except.ok.injEq] at h
            subst h
            exact ⟨rfl, rfl, rfl⟩

/-- C7 on the code: with the includes `x` and `x/y` under the root `.`,
`newModuleConfig` succeeds and keeps both, although `x` contains `x/y`. -/
theorem newModuleConfig_includes_containment :
    newModuleConfig "." none [(".", ["x", "x/y"])] [(".", [])]
        (some ⟨FileVersionV2⟩) (some ⟨FileVersionV2⟩) =
      .ok { dirPath := ".", moduleFullName := none,
            rootToIncludes := [(".", ["x", "x/y"])], rootToExcludes := [(".", [])],
            lintConfig := ⟨FileVersionV2⟩, breakingConfig := ⟨FileVersionV2⟩ } ∧
    normalpath.ContainsPath "x" "x/y" normalpath.Relative = true := by
  decide

/-- C8 on the code: for the single-root version v2, `newModuleConfig` succeeds
on a `rootToIncludes` with the two roots `a` and `b` and none of them `.`;
only `rootToExcludes` is checked. -/
theorem newModuleConfig_single_root_includes :
    newModuleConfig "." none [("a", []), ("b", [])] [(".", [])]
        (some ⟨FileVersionV2⟩) (some ⟨FileVersionV2⟩) =
      .ok { dirPath := ".", moduleFullName := none,
            rootToIncludes := [("a", []), ("b", [])], rootToExcludes := [(".", [])],
            lintConfig := ⟨FileVersionV2⟩, breakingConfig := ⟨FileVersionV2⟩ } := by
  decide

/-- C9 on the code: `newModuleConfig` succeeds on maps with different roots,
and the key sets of `RootToIncludes()` and `RootToExcludes()` then differ. -/
theorem newModuleConfig_keys_differ :
    ∃ cfg, newModuleConfig "." none [("a", [])] [("b", [])]
        (some ⟨FileVersionV1Beta1⟩) (some ⟨FileVersionV1Beta1⟩) = .ok cfg ∧
      cfg.RootToIncludes.map Prod.fst = ["a"] ∧
      cfg.RootToExcludes.map Prod.fst = ["b"] :=
  ⟨{ dirPath := ".", moduleFullName := none,
     rootToIncludes := [("a", [])], rootToExcludes := [("b", [])],
     lintConfig := ⟨FileVersionV1Beta1⟩, breakingConfig := ⟨FileVersionV1Beta1⟩ },
   by decide, by decide, by decide⟩

/-- C10: when `newModuleConfig` succeeds, the include and exclude lists it
holds are, root by root, strictly ascending, every element is the
`NormalizeAndValidate` result of an input element of that root, and every
input element has its result in the list. -/
theorem newModuleConfig_lists_unique_sorted (dirPath : String) (moduleFullName : Option String)
    (rootToIncludes rootToExcludes : StringSliceMap)
    (lintConfig : Option LintConfig) (breakingConfig : Option BreakingConfig)
    (cfg : moduleConfig)
    (h : newModuleConfig dirPath moduleFullName rootToIncludes rootToExcludes
      lintConfig breakingConfig = .ok cfg) :
    List.Forall₂ RootNormalized rootToIncludes cfg.RootToIncludes ∧
    List.Forall₂ RootNormalized rootToExcludes cfg.RootToExcludes := by
  obtain ⟨h1, h2, -⟩ := newModuleConfig_ok _ _ _ _ _ _ _ h
  exact ⟨normalizeRootMap_ok _ _ h1, normalizeRootMap_ok _ _ h2⟩

theorem newModuleConfig_lists_unique_sorted_witness :
    List.Forall₂ RootNormalized [(".", ["b", "a/../a", "b/"])]
      [(".", ["a", "b"])] ∧
    List.Forall₂ RootNormalized [(".", ["z/..", "y"])] [(".", [".", "y"])] :=
  newModuleConfig_lists_unique_sorted "" none [(".", ["b", "a/../a", "b/"])]
    [(".", ["z/..", "y"])] (some ⟨FileVersionV2⟩) (some ⟨FileVersionV2⟩)
    { dirPath := ".", moduleFullName := none,
      rootToIncludes := [(".", ["a", "b"])], rootToExcludes := [(".", [".", "y"])],
      lintConfig := ⟨FileVersionV2⟩, breakingConfig := ⟨FileVersionV2⟩ }
    (by decide)

end bufconfig

namespace bufconfig

open FileVersion

/-- C11 on the code: `newModuleConfig` succeeds on maps whose root is `../x`
and keeps that root as the key of `RootToIncludes()` and `RootToExcludes()`,
although `NormalizeAndValidate` rejects `../x`; it keeps the root `a//b` too,
whose normalized form is `a/b`. -/
theorem newModuleConfig_roots_not_validated :
    (∃ cfg, newModuleConfig "." none [("../x", [])] [("../x", [])]
        (some ⟨FileVersionV1Beta1⟩) (some ⟨FileVersionV1Beta1⟩) = .ok cfg ∧
      cfg.RootToIncludes.map Prod.fst = ["../x"] ∧
      cfg.RootToExcludes.map Prod.fst = ["../x"] ∧
      normalpath.NormalizeAndValidate "../x" =
        .error (normalpath.NewError "../x" .errOutsideContextDir)) ∧
    (∃ cfg, newModuleConfig "." none [("a//b", [])] [("a//b", [])]
        (some ⟨FileVersionV1Beta1⟩) (some ⟨FileVersionV1Beta1⟩) = .ok cfg ∧
      cfg.RootToIncludes.map Prod.fst = ["a//b"] ∧
      cfg.RootToExcludes.map Prod.fst = ["a//b"] ∧
      normalpath.NormalizeAndValidate "a//b" = .ok "a/b") :=
  ⟨⟨{ dirPath := ".", moduleFullName := none,
      rootToIncludes := [("../x", [])], rootToExcludes := [("../x", [])],
      lintConfig := ⟨FileVersionV1Beta1⟩, breakingConfig := ⟨FileVersionV1Beta1⟩ },
    by decide, by decide, by decide, by decide⟩,
   ⟨{ dirPath := ".", moduleFullName := none,
      rootToIncludes := [("a//b", [])], rootToExcludes := [("a//b", [])],
      lintConfig := ⟨FileVersionV1Beta1⟩, breakingConfig := ⟨FileVersionV1Beta1⟩ },
    by decide, by decide, by decide, by decide⟩⟩

/-- When `newModuleConfig` succeeds, the config holds the lint configuration
given and, for v1beta1 and v1, the directory `.`. -/
theorem newModuleConfig_ok_version (dirPath : String) (moduleFullName : Option String)
    (rootToIncludes rootToExcludes : StringSliceMap)
    (lintConfig : Option LintConfig) (breakingConfig : Option BreakingConfig)
    (cfg : moduleConfig)
    (h : newModuleConfig dirPath moduleFullName rootToIncludes rootToExcludes
      lintConfig breakingConfig = .ok cfg) :
    lintConfig = some cfg.lintConfig ∧
    ((cfg.lintConfig.fileVersion = FileVersionV1Beta1 ∨
      cfg.lintConfig.fileVersion = FileVersionV1) → cfg.dirPath = ".") := by
  unfold newModuleConfig at h
  cases hd : normalpath.NormalizeAndValidate dirPath with
  | error e => simp [hd] at h
  | ok d =>
    cases lintConfig with
    | none => simp [hd] at h
    | some lint =>
      cases breakingConfig with
      | none => simp [hd] at h
      | some breaking =>
        simp only [hd] at h
        split_ifs at h with h1 h2 h3 h4
        cases hi : normalizeRootMap rootToIncludes with
        | error e => simp [hi] at h
        | ok ni =>
          cases he : normalizeRootMap rootToExcludes with
          | error e => simp [hi, he] at h
          | ok ne =>
            simp only [hi, he, Except.ok.injEq] at h
            subst h
            refine ⟨rfl, ?_⟩
            intro hv
            by_contra hne
            exact h2 ⟨hv, hne⟩

/-- C12: a config that `newModuleConfig` constructs has `DirPath()` equal to
the `NormalizeAndValidate` result of the `dirPath` argument (the empty string
gives `.`), for v1beta1 and v1 its `DirPath()` is `.`, and for these versions
the construction fails when `dirPath` does not normalize to `.`. -/
theorem newModuleConfig_DirPath (dirPath : String) (moduleFullName : Option String)
    (rootToIncludes rootToExcludes : StringSliceMap)
    (lintConfig : Option LintConfig) (breakingConfig : Option BreakingConfig) :
    (∀ cfg, newModuleConfig dirPath moduleFullName rootToIncludes rootToExcludes
        lintConfig breakingConfig = .ok cfg →
      normalpath.NormalizeAndValidate dirPath = .ok cfg.DirPath ∧
      lintConfig = some cfg.lintConfig ∧
      ((cfg.lintConfig.fileVersion = FileVersionV1Beta1 ∨
        cfg.lintConfig.fileVersion = FileVersionV1) → cfg.DirPath = ".")) ∧
    (∀ lint, lintConfig = some lint →
      (lint.fileVersion = FileVersionV1Beta1 ∨ lint.fileVersion = FileVersionV1) →
      normalpath.NormalizeAndValidate dirPath ≠ .ok "." →
      ∃ e, newModuleConfig dirPath moduleFullName rootToIncludes rootToExcludes
        lintConfig breakingConfig = .error e) ∧
    normalpath.NormalizeAndValidate "" = .ok "." := by
  refine ⟨?_, ?_, by decide⟩
  · intro cfg h
    obtain ⟨-, -, h3⟩ := newModuleConfig_ok _ _ _ _ _ _ _ h
    obtain ⟨h4, h5⟩ := newModuleConfig_ok_version _ _ _ _ _ _ _ h
    exact ⟨h3, h4, h5⟩
  · intro lint hl hv hne
    cases hres : newModuleConfig dirPath moduleFullName rootToIncludes rootToExcludes
        lintConfig breakingConfig with
    | error e => exact ⟨e, rfl⟩
    | ok cfg =>
      exfalso
      obtain ⟨-, -, h3⟩ := newModuleConfig_ok _ _ _ _ _ _ _ hres
      obtain ⟨h4, h5⟩ := newModuleConfig_ok_version _ _ _ _ _ _ _ hres
      rw [hl] at h4
      have h6 : lint = cfg.lintConfig := Option.some.inj h4
      rw [h6] at hv
      apply hne
      rw [h3, h5 hv]

theorem newModuleConfig_DirPath_witness :
    (normalpath.NormalizeAndValidate "a/.." = .ok "." ∧
      some (⟨FileVersionV1⟩ : LintConfig) = some ⟨FileVersionV1⟩ ∧
      (((⟨FileVersionV1⟩ : LintConfig).fileVersion = FileVersionV1Beta1 ∨
        (⟨FileVersionV1⟩ : LintConfig).fileVersion = FileVersionV1) →
          ("." : String) = ".")) ∧
    (∃ e, newModuleConfig "a" none [(".", [])] [(".", [])]
      (some ⟨FileVersionV1⟩) (some ⟨FileVersionV1⟩) = .error e) :=
  ⟨(newModuleConfig_DirPath "a/.." none [(".", [])] [(".", [])]
      (some ⟨FileVersionV1⟩) (some ⟨FileVersionV1⟩)).1
      { dirPath := ".", moduleFullName := none,
        rootToIncludes := [(".", [])], rootToExcludes := [(".", [])],
        lintConfig := ⟨FileVersionV1⟩, breakingConfig := ⟨FileVersionV1⟩ } (by decide),
   (newModuleConfig_DirPath "a" none [(".", [])] [(".", [])]
      (some ⟨FileVersionV1⟩) (some ⟨FileVersionV1⟩)).2.1 ⟨FileVersionV1⟩ rfl
      (Or.inr rfl) (by decide)⟩

end bufconfig

namespace bufmodule

/-- C13: for every bucket the documentation file path selected is `buf.md`
when it exists, else `README.md` when it exists, else `README.markdown` when
it exists, and the empty string when none of them exists; the same for a
module bucket. -/
theorem getDocFilePath_first_existing (bucket : storage.ReadBucket)
    (moduleBucket : ModuleReadBucket) :
    ((errIsNil (bucket.Stat "buf.md") = true →
        getDocFilePathForStorageReadBucket bucket = "buf.md") ∧
      (errIsNil (bucket.Stat "buf.md") = false → errIsNil (bucket.Stat "README.md") = true →
        getDocFilePathForStorageReadBucket bucket = "README.md") ∧
      (errIsNil (bucket.Stat "buf.md") = false → errIsNil (bucket.Stat "README.md") = false →
        errIsNil (bucket.Stat "README.markdown") = true →
        getDocFilePathForStorageReadBucket bucket = "README.markdown") ∧
      (errIsNil (bucket.Stat "buf.md") = false → errIsNil (bucket.Stat "README.md") = false →
        errIsNil (bucket.Stat "README.markdown") = false →
        getDocFilePathForStorageReadBucket bucket = "")) ∧
    ((errIsNil (moduleBucket.StatFileInfo "buf.md") = true →
        getDocFilePathForModuleReadBucket moduleBucket = "buf.md") ∧
      (errIsNil (moduleBucket.StatFileInfo "buf.md") = false →
        errIsNil (moduleBucket.StatFileInfo "README.md") = true →
        getDocFilePathForModuleReadBucket moduleBucket = "README.md") ∧
      (errIsNil (moduleBucket.StatFileInfo "buf.md") = false →
        errIsNil (moduleBucket.StatFileInfo "README.md") = false →
        errIsNil (moduleBucket.StatFileInfo "README.markdown") = true →
        getDocFilePathForModuleReadBucket moduleBucket = "README.markdown") ∧
      (errIsNil (moduleBucket.StatFileInfo "buf.md") = false →
        errIsNil (moduleBucket.StatFileInfo "README.md") = false →
        errIsNil (moduleBucket.StatFileInfo "README.markdown") = false →
        getDocFilePathForModuleReadBucket moduleBucket = "")) := by
  refine ⟨⟨?_, ?_, ?_, ?_⟩, ⟨?_, ?_, ?_, ?_⟩⟩
  · intro h1
    simp [getDocFilePathForStorageReadBucket, orderedDocFilePaths, docFilePathLoop, h1]
  · intro h1 h2
    simp [getDocFilePathForStorageReadBucket, orderedDocFilePaths, docFilePathLoop, h1, h2]
  · intro h1 h2 h3
    simp [getDocFilePathForStorageReadBucket, orderedDocFilePaths, docFilePathLoop, h1, h2, h3]
  · intro h1 h2 h3
    simp [getDocFilePathForStorageReadBucket, orderedDocFilePaths, docFilePathLoop, h1, h2, h3]
  · intro h1
    simp [getDocFilePathForModuleReadBucket, orderedDocFilePaths, docFilePathLoop, h1]
  · intro h1 h2
    simp [getDocFilePathForModuleReadBucket, orderedDocFilePaths, docFilePathLoop, h1, h2]
  · intro h1 h2 h3
    simp [getDocFilePathForModuleReadBucket, orderedDocFilePaths, docFilePathLoop, h1, h2, h3]
  · intro h1 h2 h3
    simp [getDocFilePathForModuleReadBucket, orderedDocFilePaths, docFilePathLoop, h1, h2, h3]

theorem getDocFilePath_first_existing_witness :
    getDocFilePathForStorageReadBucket
        { Stat := fun p => if p = "buf.md" then .error "not exist" else .ok p } = "README.md" ∧
    getDocFilePathForModuleReadBucket
        { StatFileInfo := fun _ => .error "not exist" } = "" :=
  ⟨(getDocFilePath_first_existing
      { Stat := fun p => if p = "buf.md" then .error "not exist" else .ok p }
      { StatFileInfo := fun _ => .error "not exist" }).1.2.1 (by decide) (by decide),
   (getDocFilePath_first_existing
      { Stat := fun p => if p = "buf.md" then .error "not exist" else .ok p }
      { StatFileInfo := fun _ => .error "not exist" }).2.2.2.2 (by decide) (by decide)
      (by decide)⟩

theorem getDocFilePath_mem (bucket : storage.ReadBucket) :
    getDocFilePathForStorageReadBucket bucket = "" ∨
      getDocFilePathForStorageReadBucket bucket ∈ orderedDocFilePaths := by
  simp only [getDocFilePathForStorageReadBucket, orderedDocFilePaths, docFilePathLoop]
  split_ifs <;> simp

/-- C14: the storage matcher of a bucket accepts a path exactly when the path
has the extension `.proto`, or is `LICENSE`, or is the documentation file path
selected for the bucket; of `buf.md`, `README.md` and `README.markdown` it
accepts the selected one only, hence at most one. -/
theorem getStorageMatcher_accepts (bucket : storage.ReadBucket) :
    (∀ p : String, getStorageMatcher bucket p = true ↔
      (normalpath.Ext p = ".proto" ∨ p = "LICENSE" ∨
        p = getDocFilePathForStorageReadBucket bucket)) ∧
    (∀ p ∈ orderedDocFilePaths, (getStorageMatcher bucket p = true ↔
      p = getDocFilePathForStorageReadBucket bucket)) ∧
    (∀ p ∈ orderedDocFilePaths, ∀ q ∈ orderedDocFilePaths,
      getStorageMatcher bucket p = true → getStorageMatcher bucket q = true → p = q) := by
  have hiff : ∀ p : String, getStorageMatcher bucket p = true ↔
      (normalpath.Ext p = ".proto" ∨ p = "LICENSE" ∨
        p = getDocFilePathForStorageReadBucket bucket) := by
    intro p
    simp [getStorageMatcher, storage.MatchOr, storage.MatchPathExt, storage.MatchPathEqual,
      licenseFilePath]
  have hdoc : ∀ p ∈ orderedDocFilePaths, (getStorageMatcher bucket p = true ↔
      p = getDocFilePathForStorageReadBucket bucket) := by
    intro p hp
    rw [hiff]
    have hne : ¬ normalpath.Ext p = ".proto" ∧ ¬ p = "LICENSE" := by
      simp only [orderedDocFilePaths, List.mem_cons, List.mem_singleton, List.not_mem_nil,
        or_false] at hp
      rcases hp with rfl | rfl | rfl <;> exact ⟨by decide, by decide⟩
    constructor
    · rintro (h | h | h)
      · exact absurd h hne.1
      · exact absurd h hne.2
      · exact h
    · intro h
      exact Or.inr (Or.inr h)
  refine ⟨hiff, hdoc, ?_⟩
  intro p hp q hq h1 h2
  rw [(hdoc p hp).mp h1, (hdoc q hq).mp h2]

theorem getStorageMatcher_accepts_witness :
    (getStorageMatcher { Stat := fun p => .ok p } "README.md" = true ↔
      "README.md" = getDocFilePathForStorageReadBucket { Stat := fun p => .ok p }) :=
  (getStorageMatcher_accepts { Stat := fun p => .ok p }).2.1 "README.md" (by decide)

end bufmodule

namespace sync

theorem OnceValues.calls_of_values {σ ρ : Type} (f : σ → ρ × σ) (n : Nat)
    (o : OnceValues σ ρ) (r : ρ) (h : o.values = some r) :
    OnceValues.calls f n o = (List.replicate n r, o) := by
  induction n with
  | zero => simp [OnceValues.calls]
  | succ n ih =>
    have hc : OnceValues.call f o = (r, o) := by simp [OnceValues.call, h]
    simp only [OnceValues.calls, hc, ih, List.replicate_succ]

/-- Over any number of calls, the function returned by `sync.OnceValues`
invokes the wrapped function at most once, and every call returns the values
of the first invocation. -/
theorem OnceValues.calls_new {σ ρ : Type} (f : σ → ρ × σ) (n : Nat) (world : σ) :
    (OnceValues.calls f n (OnceValues.new world)).2.invocations ≤ 1 ∧
    (OnceValues.calls f n (OnceValues.new world)).1 = List.replicate n (f world).1 := by
  cases n with
  | zero => simp [OnceValues.calls, OnceValues.new]
  | succ n =>
    have hc : OnceValues.call f (OnceValues.new world) =
        ((f world).1, { values := some (f world).1, world := (f world).2, invocations := 1 }) := by
      simp [OnceValues.call, OnceValues.new]
    have h := OnceValues.calls_of_values f n
      { values := some (f world).1, world := (f world).2, invocations := 1 } (f world).1 rfl
    simp only [OnceValues.calls, hc, h, List.replicate_succ]
    exact ⟨le_refl _, trivial⟩

/-- Over any number of calls, the function returned by `sync.OnceValues`
leaves the world as one invocation of the wrapped function on the initial
state leaves it, and untouched when no call is made. -/
theorem OnceValues.calls_new_world {σ ρ : Type} (f : σ → ρ × σ) (n : Nat) (world : σ) :
    (OnceValues.calls f n (OnceValues.new world)).2.world =
      (if n = 0 then world else (f world).2) := by
  cases n with
  | zero => simp [OnceValues.calls, OnceValues.new]
  | succ n =>
    have hc : OnceValues.call f (OnceValues.new world) =
        ((f world).1, { values := some (f world).1, world := (f world).2, invocations := 1 }) := by
      simp [OnceValues.call, OnceValues.new]
    have h := OnceValues.calls_of_values f n
      { values := some (f world).1, world := (f world).2, invocations := 1 } (f world).1 rfl
    simp only [OnceValues.calls, hc, h]
    rw [if_neg (Nat.succ_ne_zero n)]

end sync

namespace bufmodule

/-- Applying the storage matcher has no effect on the world: the wrapped
function leaves the state that `getBucket` leaves. -/
theorem getBucketWithStorageMatcherApplied_world {σ : Type}
    (getBucket : σ → Except String storage.ReadBucket × σ) (world : σ) :
    (getBucketWithStorageMatcherApplied getBucket world).2 = (getBucket world).2 := by
  simp only [getBucketWithStorageMatcherApplied]
  cases hg : getBucket world with
  | mk r w =>
    cases r with
    | error e => rfl
    | ok bucket => rfl

/-- C15: over any number of calls, the function returned by
`getSyncOnceValuesGetBucketWithStorageMatcherApplied` invokes the wrapped
`getBucket` at most once: with no call the state of the world that `getBucket`
works on is the initial one, and with one call or more it is the state that a
single invocation of `getBucket` on the initial state leaves, however many
calls are made; every call returns the outcome of that one invocation; and
when `getBucket` fails on it, every call returns that error. -/
theorem getSyncOnceValues_at_most_once {σ : Type}
    (getBucket : σ → Except String storage.ReadBucket × σ) (world : σ) (n : Nat) :
    (sync.OnceValues.calls (getBucketWithStorageMatcherApplied getBucket) n
      (getSyncOnceValuesGetBucketWithStorageMatcherApplied world)).2.invocations ≤ 1 ∧
    (sync.OnceValues.calls (getBucketWithStorageMatcherApplied getBucket) n
      (getSyncOnceValuesGetBucketWithStorageMatcherApplied world)).2.world =
      (if n = 0 then world else (getBucket world).2) ∧
    (sync.OnceValues.calls (getBucketWithStorageMatcherApplied getBucket) n
        (getSyncOnceValuesGetBucketWithStorageMatcherApplied world)).1 =
      List.replicate n (getBucketWithStorageMatcherApplied getBucket world).1 ∧
    (∀ err, (getBucket world).1 = .error err →
      (sync.OnceValues.calls (getBucketWithStorageMatcherApplied getBucket) n
        (getSyncOnceValuesGetBucketWithStorageMatcherApplied world)).1 =
      List.replicate n (.error err)) := by
  have h := sync.OnceValues.calls_new (getBucketWithStorageMatcherApplied getBucket) n world
  have hw := sync.OnceValues.calls_new_world
    (getBucketWithStorageMatcherApplied getBucket) n world
  rw [getBucketWithStorageMatcherApplied_world] at hw
  refine ⟨h.1, hw, h.2, ?_⟩
  intro err herr
  have h2 : (getBucketWithStorageMatcherApplied getBucket world).1 = .error err := by
    simp only [getBucketWithStorageMatcherApplied]
    cases hg : getBucket world with
    | mk r w =>
      rw [hg] at herr
      simp only at herr
      subst herr
      rfl
  rw [← h2]
  exact h.2

theorem getSyncOnceValues_at_most_once_witness :
    (sync.OnceValues.calls
        (getBucketWithStorageMatcherApplied
          (fun w : Nat => ((.error "unavailable" : Except String storage.ReadBucket), w + 1)))
        3 (getSyncOnceValuesGetBucketWithStorageMatcherApplied 0)).2.world = 1 ∧
    (sync.OnceValues.calls
        (getBucketWithStorageMatcherApplied
          (fun w : Nat => ((.error "unavailable" : Except String storage.ReadBucket), w + 1)))
        3 (getSyncOnceValuesGetBucketWithStorageMatcherApplied 0)).1 =
      List.replicate 3 (.error "unavailable") :=
  ⟨(getSyncOnceValues_at_most_once
      (fun w : Nat => ((.error "unavailable" : Except String storage.ReadBucket), w + 1))
      0 3).2.1,
   (getSyncOnceValues_at_most_once
      (fun w : Nat => ((.error "unavailable" : Except String storage.ReadBucket), w + 1))
      0 3).2.2.2 "unavailable" rfl⟩

end bufmodule

namespace xslices

theorem FilterError_error {α ε : Type} (f : α → Except ε Bool) (pre post : List α) (a : α)
    (e : ε) (hpre : ∀ x ∈ pre, ∃ b, f x = .ok b) (ha : f a = .error e) :
    FilterError f (pre ++ a :: post) = .error e := by
  induction pre with
  | nil => simp [FilterError, ha]
  | cons x pre ih =>
    obtain ⟨b, hb⟩ := hpre x (List.mem_cons_self _ _)
    have := ih (fun y hy => hpre y (List.mem_cons_of_mem _ hy))
    simp [FilterError, hb, this]

theorem FilterError_error_of_mem {α ε : Type} (f : α → Except ε Bool) (s : List α) (a : α)
    (e : ε) (hmem : a ∈ s) (ha : f a = .error e) : ∃ e', FilterError f s = .error e' := by
  induction s with
  | nil => simp at hmem
  | cons x s ih =>
    cases hx : f x with
    | error e' => exact ⟨e', by simp [FilterError, hx]⟩
    | ok b =>
      rcases List.mem_cons.mp hmem with rfl | hmem
      · rw [ha] at hx; cases hx
      · obtain ⟨e', he'⟩ := ih hmem
        exact ⟨e', by simp [FilterError, hx, he']⟩

theorem FilterError_ok {α ε : Type} (f : α → Except ε Bool) (s r : List α)
    (h : FilterError f s = .ok r) :
    (∀ x ∈ s, ∃ b, f x = .ok b) ∧ (∀ x, x ∈ r ↔ x ∈ s ∧ f x = .ok true) := by
  induction s generalizing r with
  | nil =>
    simp only [FilterError, Except.ok.injEq] at h
    subst h
    simp
  | cons a s ih =>
    simp only [FilterError] at h
    cases ha : f a with
    | error e => simp [ha] at h
    | ok keep =>
      cases hs : FilterError f s with
      | error e => simp [ha, hs] at h
      | ok r' =>
        simp only [ha, hs, Except.ok.injEq] at h
        obtain ⟨h1, h2⟩ := ih r' hs
        refine ⟨?_, ?_⟩
        · intro x hx
          rcases List.mem_cons.mp hx with rfl | hx
          · exact ⟨keep, ha⟩
          · exact h1 x hx
        · intro x
          subst h
          cases keep with
          | true =>
            simp only [if_true, List.mem_cons, h2]
            constructor
            · rintro (rfl | ⟨hx, hfx⟩)
              · exact ⟨Or.inl rfl, ha⟩
              · exact ⟨Or.inr hx, hfx⟩
            · rintro ⟨rfl | hx, hfx⟩
              · exact Or.inl rfl
              · exact Or.inr ⟨hx, hfx⟩
          | false =>
            simp only [Bool.false_eq_true, if_false, List.mem_cons, h2]
            constructor
            · rintro ⟨hx, hfx⟩
              exact ⟨Or.inr hx, hfx⟩
            · rintro ⟨rfl | hx, hfx⟩
              · rw [ha] at hfx; cases hfx
              · exact ⟨hx, hfx⟩

theorem MapError_length {α β ε : Type} (f : α → Except ε β) (s : List α) (r : List β)
    (h : MapError f s = .ok r) : r.length = s.length :=
  (List.Forall₂.length_eq (MapError_ok f s r h)).symm

end xslices

namespace bufmoduleapi

theorem foldl_unnamed (deps : List ModuleDep) (acc : List String) :
    deps.foldl (fun (all : List String) (dep : ModuleDep) =>
        if dep.fullName = none then all ++ [dep.description] else all) acc =
      acc ++ (deps.filter (fun d => d.fullName = none)).map (fun d => d.description) := by
  induction deps generalizing acc with
  | nil => simp
  | cons d deps ih =>
    simp only [List.foldl_cons]
    rw [ih]
    by_cases h : d.fullName = none
    · simp [h, List.filter_cons]
    · simp [h, List.filter_cons]

/-- The filter of `Upload` on a named module that has unnamed dependencies. -/
theorem filterContentModule_unnamed_deps (o : UploadOptions) (m : Module) (fn : FullName)
    (deps : List ModuleDep) (hfn : m.fullName = some fn) (hdeps : m.moduleDeps = .ok deps)
    (hd : ∃ d ∈ deps, d.fullName = none) :
    filterContentModule o m = .error (.unnamedDependencies fn.String
      ((deps.filter (fun d => d.fullName = none)).map (fun d => d.description))) := by
  obtain ⟨d, hmem, hnone⟩ := hd
  have hne : (deps.filter (fun d => d.fullName = none)).map (fun d => d.description) ≠ [] := by
    intro h
    have hd' : d ∈ deps.filter (fun d => d.fullName = none) := by
      simp [List.mem_filter, hmem, hnone]
    rw [List.map_eq_nil_iff] at h
    rw [h] at hd'
    simp at hd'
  have hpos : 0 < ((deps.filter (fun d => d.fullName = none)).map
      (fun d => d.description)).length := List.length_pos.mpr hne
  simp only [filterContentModule, hfn, hdeps, xslices.Reduce, foldl_unnamed, List.nil_append]
  rw [if_pos hpos]

theorem prepare_filter_error {ρ : Type} (a : uploader ρ) (ms : ModuleSet) (o : UploadOptions)
    (w : World ρ) (mods : List Module) (e : Error)
    (hms : ms.targetLocalModulesAndTransitiveLocalDeps = .ok mods)
    (hf : xslices.FilterError (filterContentModule o) mods = .error e) :
    a.Upload ms (.ok o) w = (.error e, w) := by
  simp [uploader.Upload, uploader.prepare, hms, hf]

/-- C16: on a module set whose only content module has no full name, `Upload`
fails with the unnamed-module error for the description of that module when
the exclude-unnamed option is off; when the option is on it returns no commit
and no error, and leaves the registry and the list of calls as they were. -/
theorem Upload_unnamed_module {ρ : Type} (a : uploader ρ) (ms : ModuleSet) (o : UploadOptions)
    (w : World ρ) (m : Module)
    (hms : ms.targetLocalModulesAndTransitiveLocalDeps = .ok [m])
    (hm : m.fullName = none) :
    (o.excludeUnnamed = false →
      a.Upload ms (.ok o) w = (.error (.unnamedModule m.description), w)) ∧
    (o.excludeUnnamed = true → a.Upload ms (.ok o) w = (.ok [], w)) := by
  constructor
  · intro h
    apply prepare_filter_error a ms o w [m] _ hms
    simp [xslices.FilterError, filterContentModule, hm, h]
  · intro h
    simp [uploader.Upload, uploader.prepare, hms, xslices.FilterError, filterContentModule, hm, h]

theorem Upload_unnamed_module_witness :
    stubUploader.Upload (stubModuleSet [stubModule none "path/to/module" []] [])
        (.ok stubOptions) ⟨0, []⟩ = (.error (.unnamedModule "path/to/module"), ⟨0, []⟩) ∧
    stubUploader.Upload (stubModuleSet [stubModule none "path/to/module" []] [])
        (.ok { stubOptions with excludeUnnamed := true }) ⟨0, []⟩ = (.ok [], ⟨0, []⟩) :=
  ⟨(Upload_unnamed_module stubUploader (stubModuleSet [stubModule none "path/to/module" []] [])
      stubOptions ⟨0, []⟩ (stubModule none "path/to/module" []) rfl rfl).1 rfl,
   (Upload_unnamed_module stubUploader (stubModuleSet [stubModule none "path/to/module" []] [])
      { stubOptions with excludeUnnamed := true } ⟨0, []⟩
      (stubModule none "path/to/module" []) rfl rfl).2 rfl⟩

/-- C17, as stated, fails: with two named content modules that each have an
unnamed dependency, the error of `Upload` lists the unnamed dependency of the
first module only; the unnamed dependency of the second module is not in it. -/
theorem Upload_unnamed_dependencies_counterexample :
    stubUploader.Upload
        (stubModuleSet
          [stubModule (some ⟨"buf.build", "acme", "a"⟩) "a" [⟨none, "dep-of-a"⟩],
           stubModule (some ⟨"buf.build", "acme", "b"⟩) "b" [⟨none, "dep-of-b"⟩]] [])
        (.ok stubOptions) ⟨0, []⟩ =
      (.error (.unnamedDependencies "buf.build/acme/a" ["dep-of-a"]), ⟨0, []⟩) ∧
    "dep-of-b" ∉ ["dep-of-a"] := by
  decide

/-- C17, amended: when a named content module has a dependency with no full
name, `Upload` fails and makes no call on the registry; when the modules
before it pass the filter, the error names that module and lists the
descriptions of all its unnamed dependencies, in their order. -/
theorem Upload_unnamed_dependencies {ρ : Type} (a : uploader ρ) (ms : ModuleSet)
    (o : UploadOptions) (w : World ρ) (mods : List Module)
    (hms : ms.targetLocalModulesAndTransitiveLocalDeps = .ok mods) :
    ((∃ m ∈ mods, ∃ fn deps, m.fullName = some fn ∧ m.moduleDeps = .ok deps ∧
        ∃ d ∈ deps, d.fullName = none) →
      ∃ e, a.Upload ms (.ok o) w = (.error e, w)) ∧
    (∀ pre m post fn deps, mods = pre ++ m :: post →
      (∀ x ∈ pre, ∃ b, filterContentModule o x = .ok b) →
      m.fullName = some fn → m.moduleDeps = .ok deps → (∃ d ∈ deps, d.fullName = none) →
      a.Upload ms (.ok o) w =
        (.error (.unnamedDependencies fn.String
          ((deps.filter (fun d => d.fullName = none)).map (fun d => d.description))), w)) := by
  constructor
  · rintro ⟨m, hmem, fn, deps, hfn, hdeps, hd⟩
    have hm := filterContentModule_unnamed_deps o m fn deps hfn hdeps hd
    obtain ⟨e, he⟩ := xslices.FilterError_error_of_mem _ mods m _ hmem hm
    exact ⟨e, prepare_filter_error a ms o w mods e hms he⟩
  · intro pre m post fn deps hmods hpre hfn hdeps hd
    have hm := filterContentModule_unnamed_deps o m fn deps hfn hdeps hd
    apply prepare_filter_error a ms o w mods _ hms
    rw [hmods]
    exact xslices.FilterError_error _ pre post m _ hpre hm

theorem Upload_unnamed_dependencies_witness :
    (∃ e, stubUploader.Upload
        (stubModuleSet
          [stubModule (some ⟨"buf.build", "acme", "a"⟩) "a" [],
           stubModule (some ⟨"buf.build", "acme", "b"⟩) "b"
             [⟨none, "x"⟩, ⟨some ⟨"buf.build", "acme", "a"⟩, "a"⟩, ⟨none, "y"⟩]] [])
        (.ok stubOptions) ⟨0, []⟩ = (.error e, ⟨0, []⟩)) ∧
    stubUploader.Upload
        (stubModuleSet
          [stubModule (some ⟨"buf.build", "acme", "a"⟩) "a" [],
           stubModule (some ⟨"buf.build", "acme", "b"⟩) "b"
             [⟨none, "x"⟩, ⟨some ⟨"buf.build", "acme", "a"⟩, "a"⟩, ⟨none, "y"⟩]] [])
        (.ok stubOptions) ⟨0, []⟩ =
      (.error (.unnamedDependencies (FullName.String ⟨"buf.build", "acme", "b"⟩)
        (([⟨none, "x"⟩, ⟨some ⟨"buf.build", "acme", "a"⟩, "a"⟩, ⟨none, "y"⟩].filter
          (fun d : ModuleDep => d.fullName = none)).map (fun d => d.description))), ⟨0, []⟩) :=
  ⟨(Upload_unnamed_dependencies stubUploader _ stubOptions ⟨0, []⟩ _ rfl).1
      ⟨stubModule (some ⟨"buf.build", "acme", "b"⟩) "b"
         [⟨none, "x"⟩, ⟨some ⟨"buf.build", "acme", "a"⟩, "a"⟩, ⟨none, "y"⟩],
       by simp, ⟨"buf.build", "acme", "b"⟩, _, rfl, rfl, ⟨none, "x"⟩, by simp, rfl⟩,
   (Upload_unnamed_dependencies stubUploader _ stubOptions ⟨0, []⟩ _ rfl).2
      [stubModule (some ⟨"buf.build", "acme", "a"⟩) "a" []]
      (stubModule (some ⟨"buf.build", "acme", "b"⟩) "b"
         [⟨none, "x"⟩, ⟨some ⟨"buf.build", "acme", "a"⟩, "a"⟩, ⟨none, "y"⟩])
      [] ⟨"buf.build", "acme", "b"⟩ _ rfl
      (by intro x hx; simp at hx; subst hx; exact ⟨true, by decide⟩)
      rfl rfl ⟨⟨none, "x"⟩, by simp, rfl⟩⟩

theorem getSingleRegistry_differ (ma mb : Module) (fa fb : FullName)
    (ha : ma.fullName = some fa) (hb : mb.fullName = some fb)
    (hne : fa.registry ≠ fb.registry) :
    ∃ e, getSingleRegistryForContentModules [ma, mb] = .error e := by
  have hne' : ¬ fb.registry = fa.registry := fun h => hne h.symm
  exact ⟨.syserror "content modules from more than one registry",
    by simp [getSingleRegistryForContentModules, ha, hb, hne']⟩

/-- C18: on two named content modules whose registries differ, `Upload`
returns an error and leaves the registry and the list of calls as they were:
no call is made on the client. -/
theorem Upload_registries_differ {ρ : Type} (a : uploader ρ) (ms : ModuleSet)
    (uploadOptions : Except Error UploadOptions) (w : World ρ) (ma mb : Module)
    (fa fb : FullName)
    (hms : ms.targetLocalModulesAndTransitiveLocalDeps = .ok [ma, mb])
    (ha : ma.fullName = some fa) (hb : mb.fullName = some fb)
    (hne : fa.registry ≠ fb.registry) :
    ∃ e, a.Upload ms uploadOptions w = (.error e, w) := by
  cases uploadOptions with
  | error e => exact ⟨e, by simp [uploader.Upload, uploader.prepare]⟩
  | ok o =>
    cases hf : xslices.FilterError (filterContentModule o) [ma, mb] with
    | error e => exact ⟨e, prepare_filter_error a ms o w _ e hms hf⟩
    | ok kept =>
      have hkept : kept = [ma, mb] := by
        obtain ⟨hall, -⟩ := xslices.FilterError_ok _ _ _ hf
        have hta : filterContentModule o ma = .ok true := by
          obtain ⟨b, hb'⟩ := hall ma (by simp)
          simp only [filterContentModule, ha] at hb' ⊢
          cases hd : ma.moduleDeps with
          | error e => simp [hd] at hb'
          | ok deps =>
            simp only [hd] at hb' ⊢
            split_ifs at hb' ⊢
            rfl
        have htb : filterContentModule o mb = .ok true := by
          obtain ⟨b, hb'⟩ := hall mb (by simp)
          simp only [filterContentModule, hb] at hb' ⊢
          cases hd : mb.moduleDeps with
          | error e => simp [hd] at hb'
          | ok deps =>
            simp only [hd] at hb' ⊢
            split_ifs at hb' ⊢
            rfl
        simp only [xslices.FilterError, hta, htb, if_true, Except.ok.injEq] at hf
        exact hf.symm
      subst hkept
      obtain ⟨e, he⟩ := getSingleRegistry_differ ma mb fa fb ha hb hne
      exact ⟨e, by simp [uploader.Upload, uploader.prepare, hms, hf, he]⟩

theorem Upload_registries_differ_witness :
    ∃ e, stubUploader.Upload
        (stubModuleSet
          [stubModule (some ⟨"buf.build", "acme", "a"⟩) "a" [],
           stubModule (some ⟨"example.com", "acme", "b"⟩) "b" []] [])
        (.ok stubOptions) ⟨0, []⟩ = (.error e, ⟨0, []⟩) :=
  Upload_registries_differ stubUploader _ (.ok stubOptions) ⟨0, []⟩
    (stubModule (some ⟨"buf.build", "acme", "a"⟩) "a" [])
    (stubModule (some ⟨"example.com", "acme", "b"⟩) "b" [])
    ⟨"buf.build", "acme", "a"⟩ ⟨"example.com", "acme", "b"⟩ rfl rfl rfl (by decide)

end bufmoduleapi

namespace bufmoduleapi

theorem NoUploadAdded.refl {ρ : Type} (w : World ρ) : NoUploadAdded w w :=
  ⟨[], by simp, by simp⟩

theorem NoUploadAdded.trans {ρ : Type} {w w1 w2 : World ρ} (h1 : NoUploadAdded w w1)
    (h2 : NoUploadAdded w1 w2) : NoUploadAdded w w2 := by
  obtain ⟨cs1, e1, n1⟩ := h1
  obtain ⟨cs2, e2, n2⟩ := h2
  refine ⟨cs1 ++ cs2, by rw [e2, e1, List.append_assoc], ?_⟩
  intro c hc
  rcases List.mem_append.mp hc with hc | hc
  · exact n1 c hc
  · exact n2 c hc

theorem validateContentModulesExist_calls {ρ : Type} (a : uploader ρ) (primaryRegistry : String)
    (contentModules : List Module) (w : World ρ) :
    NoUploadAdded w (a.validateContentModulesExist primaryRegistry contentModules w).2 :=
  ⟨[_], rfl, by simp [Call.isUpload]⟩

theorem createContentModuleIfNotExist_calls {ρ : Type} (a : uploader ρ) (primaryRegistry : String)
    (contentModule : Module) (visibility : Nat) (label : String) (w : World ρ) :
    NoUploadAdded w
      (a.createContentModuleIfNotExist primaryRegistry contentModule visibility label w).2 := by
  unfold uploader.createContentModuleIfNotExist
  cases hv : a.helpers.moduleVisibilityToV1Proto visibility with
  | error e => exact NoUploadAdded.refl w
  | ok v =>
    simp only
    have h1 : ∀ r : ρ, NoUploadAdded w (w.record (.createModules primaryRegistry
        [{ ownerName := contentModule.owner, name := contentModule.name, visibility := v,
           defaultLabelName := label }]) r) :=
      fun r => ⟨[_], rfl, by simp [Call.isUpload]⟩
    split
    · split_ifs
      · have h2 := validateContentModulesExist_calls a primaryRegistry [contentModule]
          (w.record (.createModules primaryRegistry
            [{ ownerName := contentModule.owner, name := contentModule.name, visibility := v,
               defaultLabelName := label }])
            (a.moduleClientProvider.CreateModules primaryRegistry
              [{ ownerName := contentModule.owner, name := contentModule.name, visibility := v,
                 defaultLabelName := label }] w.registry).2)
        split <;> exact (h1 _).trans h2
      · exact h1 _
    · exact h1 _

theorem createContentModules_calls {ρ : Type} (a : uploader ρ) (primaryRegistry : String)
    (o : UploadOptions) (contentModules : List Module) (w : World ρ) :
    NoUploadAdded w (a.createContentModules primaryRegistry o contentModules w).2 := by
  induction contentModules generalizing w with
  | nil => exact NoUploadAdded.refl w
  | cons m rest ih =>
    have h1 := createContentModuleIfNotExist_calls a primaryRegistry m
      o.createModuleVisibility o.createDefaultLabel w
    unfold uploader.createContentModules
    cases hc : a.createContentModuleIfNotExist primaryRegistry m
        o.createModuleVisibility o.createDefaultLabel w with
    | mk r w1 =>
      rw [hc] at h1
      cases r with
      | error e => exact h1
      | ok pm =>
        simp only
        have h2 := ih w1
        cases hr : a.createContentModules primaryRegistry o rest w1 with
        | mk r2 w2 =>
          rw [hr] at h2
          cases r2 with
          | error e => exact h1.trans h2
          | ok pms => exact h1.trans h2

theorem resolveModules_calls {ρ : Type} (a : uploader ρ) (primaryRegistry : String)
    (o : UploadOptions) (contentModules : List Module) (w : World ρ) :
    NoUploadAdded w (a.resolveModules primaryRegistry o contentModules w).2 := by
  unfold uploader.resolveModules
  split_ifs
  · exact createContentModules_calls a primaryRegistry o contentModules w
  · exact validateContentModulesExist_calls a primaryRegistry contentModules w

/-- What holds when the first part of `Upload` reaches the upload step. -/
theorem prepare_some {ρ : Type} (a : uploader ρ) (ms : ModuleSet)
    (uploadOptions : Except Error UploadOptions) (w w1 : World ρ) (p : Prepared)
    (h : a.prepare ms uploadOptions w = (.ok (some p), w1)) :
    ∃ o mods modules refs remoteDeps,
      uploadOptions = .ok o ∧
      ms.targetLocalModulesAndTransitiveLocalDeps = .ok mods ∧
      xslices.FilterError (filterContentModule o) mods = .ok p.contentModules ∧
      p.contentModules ≠ [] ∧
      getSingleRegistryForContentModules p.contentModules = .ok p.primaryRegistry ∧
      a.resolveModules p.primaryRegistry o p.contentModules w = (.ok modules, w1) ∧
      scopedLabelRefs o p.contentModules modules = .ok refs ∧
      xslices.MapError (fun module => getV1Beta1ProtoUploadRequestContent refs
        p.primaryRegistry module o.sourceControlURL) p.contentModules = .ok p.contents ∧
      ms.remoteDepsForModules p.contentModules = .ok remoteDeps ∧
      xslices.MapError (remoteDepToV1Beta1ProtoUploadRequestDepRef a.helpers) remoteDeps =
        .ok p.depRefs ∧
      p.remoteDepRegistries = remoteDepRegistriesOf remoteDeps ∧
      a.helpers.validateDepRegistries p.primaryRegistry p.remoteDepRegistries
        a.publicRegistry = none := by
  unfold uploader.prepare at h
  cases uploadOptions with
  | error e => simp at h
  | ok o =>
    cases hm : ms.targetLocalModulesAndTransitiveLocalDeps with
    | error e => simp [hm] at h
    | ok mods =>
      cases hf : xslices.FilterError (filterContentModule o) mods with
      | error e => simp [hm, hf] at h
      | ok kept =>
        simp only [hm, hf] at h
        by_cases hlen : kept.length = 0
        · simp [hlen] at h
        · rw [if_neg hlen] at h
          cases hr : getSingleRegistryForContentModules kept with
          | error e => simp [hr] at h
          | ok primaryRegistry =>
            simp only [hr] at h
            cases hres : a.resolveModules primaryRegistry o kept w with
            | mk res w' =>
              rw [hres] at h
              cases res with
              | error e => simp at h
              | ok modules =>
                simp only at h
                cases hl : scopedLabelRefs o kept modules with
                | error e => simp [hl] at h
                | ok refs =>
                  simp only [hl] at h
                  cases hc : xslices.MapError (fun module => getV1Beta1ProtoUploadRequestContent
                      refs primaryRegistry module o.sourceControlURL) kept with
                  | error e => simp [hc] at h
                  | ok contents =>
                    simp only [hc] at h
                    cases hd : ms.remoteDepsForModules kept with
                    | error e => simp [hd] at h
                    | ok remoteDeps =>
                      simp only [hd] at h
                      cases hdr : xslices.MapError
                          (remoteDepToV1Beta1ProtoUploadRequestDepRef a.helpers) remoteDeps with
                      | error e => simp [hdr] at h
                      | ok depRefs =>
                        simp only [hdr] at h
                        cases hv : a.helpers.validateDepRegistries primaryRegistry
                            (remoteDepRegistriesOf remoteDeps) a.publicRegistry with
                        | some e => simp [hv] at h
                        | none =>
                          simp only [hv, Prod.mk.injEq, Except.ok.injEq, Option.some.injEq] at h
                          obtain ⟨hp, hw⟩ := h
                          subst hp hw
                          refine ⟨o, mods, modules, refs, remoteDeps, rfl, rfl, hf, ?_, hr, hres,
                            hl, hc, hd, hdr, rfl, hv⟩
                          intro hnil
                          exact hlen (by simpa using congrArg List.length hnil)

end bufmoduleapi

namespace bufmoduleapi

theorem getContent_ok (refs : List ScopedLabelRef) (primaryRegistry : String) (m : Module)
    (url : String) (c : UploadRequestContent)
    (h : getV1Beta1ProtoUploadRequestContent refs primaryRegistry m url = .ok c) :
    ∃ fn, m.fullName = some fn ∧ fn.registry = primaryRegistry := by
  unfold getV1Beta1ProtoUploadRequestContent at h
  by_cases h1 : (!m.isLocal) = true
  · rw [if_pos h1] at h; cases h
  · rw [if_neg h1] at h
    cases hfn : m.fullName with
    | none => rw [hfn] at h; cases h
    | some fn =>
      rw [hfn] at h
      simp only at h
      by_cases h2 : fn.registry ≠ primaryRegistry
      · rw [if_pos h2] at h; cases h
      · exact ⟨fn, rfl, not_not.mp h2⟩

theorem uploadCommits_world {ρ : Type} (a : uploader ρ) (p : Prepared) (w : World ρ) :
    (a.uploadCommits p w).2.calls = w.calls ++
      [if p.federated then Call.v1beta1Upload p.primaryRegistry p.v1beta1Request
       else Call.v1Upload p.primaryRegistry p.v1Request] := by
  unfold uploader.uploadCommits
  by_cases hf : p.federated = true
  · simp only [hf, if_true]
    split <;> rfl
  · simp only [hf, Bool.false_eq_true, if_false]
    split <;> rfl

theorem uploadCommits_fst {ρ : Type} (a : uploader ρ) (p : Prepared) (w : World ρ) :
    (a.uploadCommits p w).1 =
      match a.uploadResponse p w with
      | .error err => .error err
      | .ok commits => xslices.MapError (a.newUniversalProtoCommit p) commits := by
  unfold uploader.uploadCommits uploader.uploadResponse uploader.newUniversalProtoCommit
  by_cases hf : p.federated = true
  · simp only [hf, if_true]
    split <;> rename_i h <;> simp [h]
  · simp only [hf, Bool.false_eq_true, if_false]
    split <;> rename_i h <;> simp [h]

theorem send_world {ρ : Type} (a : uploader ρ) (p : Prepared) (w : World ρ) :
    (a.send p w).2 = (a.uploadCommits p w).2 := by
  unfold uploader.send
  cases hu : a.uploadCommits p w with
  | mk r w1 =>
    cases r with
    | error e => rfl
    | ok ucs =>
      simp only
      split_ifs <;> rfl

theorem newCommits_ok (h : Helpers) (mods : List Module) (ucs : List universalProtoCommit)
    (commits : List Commit) (hok : newCommits h mods ucs = .ok commits) :
    List.Forall₂ (CommitOf h) (List.zip mods ucs) commits ∧ commits.length = ucs.length ∧
      ucs.length ≤ mods.length := by
  induction ucs generalizing mods commits with
  | nil =>
    cases mods <;>
    · simp only [newCommits, Except.ok.injEq] at hok
      subst hok
      simp
  | cons uc ucs ih =>
    cases mods with
    | nil => simp [newCommits] at hok
    | cons m mods =>
      simp only [newCommits] at hok
      cases hc : newCommit h m.fullName uc with
      | error e => simp [hc] at hok
      | ok c =>
        cases hr : newCommits h mods ucs with
        | error e => simp [hc, hr] at hok
        | ok cs =>
          simp only [hc, hr, Except.ok.injEq] at hok
          subst hok
          obtain ⟨h1, h2, h3⟩ := ih mods cs hr
          refine ⟨?_, by simp [h2], by simp; omega⟩
          simp only [List.zip_cons_cons]
          refine List.Forall₂.cons ?_ h1
          unfold newCommit at hc
          cases hd : h.FromDashless uc.ID with
          | error e => simp [hd] at hc
          | ok commitID =>
            simp only [hd] at hc
            cases hk : h.newModuleKeyError m.fullName commitID with
            | some e => simp [hk] at hc
            | none =>
              simp only [hk, Except.ok.injEq] at hc
              subst hc
              exact ⟨rfl, hd, rfl, rfl⟩

theorem federated_iff (p : Prepared) :
    p.federated = true ↔
      (p.remoteDepRegistries.length > 0 ∧
        (p.remoteDepRegistries.length > 1 ∨
          p.remoteDepRegistries.head? ≠ some p.primaryRegistry)) := by
  unfold Prepared.federated
  cases hr : p.remoteDepRegistries with
  | nil => simp
  | cons r rest =>
    simp only [List.length_cons, Bool.or_eq_true, decide_eq_true_eq, bne_iff_ne, ne_eq,
      List.head?_cons, Option.some.injEq, gt_iff_lt, Nat.zero_lt_succ, true_and]

theorem federated_of_mem (p : Prepared) (r : String) (hr : r ∈ p.remoteDepRegistries)
    (hne : r ≠ p.primaryRegistry) : p.federated = true := by
  rw [federated_iff]
  cases hl : p.remoteDepRegistries with
  | nil => rw [hl] at hr; simp at hr
  | cons x rest =>
    rw [hl] at hr
    refine ⟨by simp, ?_⟩
    cases rest with
    | nil =>
      right
      simp only [List.mem_singleton] at hr
      subst hr
      simpa using hne
    | cons y ys => left; simp

/-- C19: when `Upload` reaches the upload step, the calls made before are no
upload calls, and the upload step makes exactly one call: the federated
(v1beta1) upload when the sorted remote-dependency registries are not empty
and have more than one element or a first element other than the primary
registry, and the simple (v1) upload otherwise.  When a remote dependency is
on a registry other than the primary registry, which is the registry of
every content module, the call is the federated upload. -/
theorem Upload_federation_decision {ρ : Type} (a : uploader ρ) (ms : ModuleSet)
    (uploadOptions : Except Error UploadOptions) (w w1 : World ρ) (p : Prepared)
    (h : a.prepare ms uploadOptions w = (.ok (some p), w1)) :
    a.Upload ms uploadOptions w = a.send p w1 ∧
    NoUploadAdded w w1 ∧
    (p.federated = true ↔
      (p.remoteDepRegistries.length > 0 ∧
        (p.remoteDepRegistries.length > 1 ∨
          p.remoteDepRegistries.head? ≠ some p.primaryRegistry))) ∧
    (p.federated = true → (a.Upload ms uploadOptions w).2.calls =
      w1.calls ++ [.v1beta1Upload p.primaryRegistry p.v1beta1Request]) ∧
    (p.federated = false → (a.Upload ms uploadOptions w).2.calls =
      w1.calls ++ [.v1Upload p.primaryRegistry p.v1Request]) ∧
    (∃ remoteDeps, ms.remoteDepsForModules p.contentModules = .ok remoteDeps ∧
      p.remoteDepRegistries = remoteDepRegistriesOf remoteDeps ∧
      (∀ m ∈ p.contentModules, ∃ fn, m.fullName = some fn ∧ fn.registry = p.primaryRegistry) ∧
      ((∃ d ∈ remoteDeps, ∃ fn, d.fullName = some fn ∧ fn.registry ≠ p.primaryRegistry) →
        (a.Upload ms uploadOptions w).2.calls =
          w1.calls ++ [.v1beta1Upload p.primaryRegistry p.v1beta1Request])) := by
  have hup : a.Upload ms uploadOptions w = a.send p w1 := by
    simp [uploader.Upload, h]
  obtain ⟨o, mods, modules, refs, remoteDeps, -, -, -, -, -, hres, -, hc, hd, -, hregs, -⟩ :=
    prepare_some a ms uploadOptions w w1 p h
  have hno : NoUploadAdded w w1 := by
    have := resolveModules_calls a p.primaryRegistry o p.contentModules w
    rw [hres] at this
    exact this
  have hcalls := uploadCommits_world a p w1
  rw [← send_world, ← hup] at hcalls
  have hfed : p.federated = true → (a.Upload ms uploadOptions w).2.calls =
      w1.calls ++ [.v1beta1Upload p.primaryRegistry p.v1beta1Request] := by
    intro hf
    rw [hcalls, if_pos hf]
  refine ⟨hup, hno, federated_iff p, hfed, ?_, remoteDeps, hd, hregs, ?_, ?_⟩
  · intro hf
    rw [hcalls, hf]
    simp
  · intro m hm
    obtain ⟨c, -, hcm⟩ := xslices.forall₂_mem_left (xslices.MapError_ok _ _ _ hc) hm
    exact getContent_ok _ _ _ _ _ hcm
  · rintro ⟨d, hdm, fn, hfn, hne⟩
    apply hfed
    apply federated_of_mem p fn.registry _ hne
    rw [hregs, remoteDepRegistriesOf, xslices.mem_ToUniqueSorted, List.mem_map]
    exact ⟨d, hdm, by simp [hfn]⟩

theorem Upload_federation_decision_witness :
    (stubUploader.Upload
        (stubModuleSet [stubModule (some ⟨"r1.example", "acme", "c"⟩) "c" []]
          [⟨some ⟨"r2.example", "acme", "d"⟩, 5, "d"⟩])
        (.ok stubOptions) ⟨0, []⟩).2.calls =
      [Call.getModules "r1.example" [⟨"acme", "c"⟩]] ++
        [.v1beta1Upload "r1.example"
          (Prepared.v1beta1Request
            { contentModules := [stubModule (some ⟨"r1.example", "acme", "c"⟩) "c" []]
              primaryRegistry := "r1.example"
              contents := [⟨⟨"acme", "c"⟩, [⟨"a.proto", "syntax"⟩], [], ""⟩]
              depRefs := [⟨"ccccc", "r2.example"⟩]
              remoteDepRegistries := ["r2.example"] })] :=
  (Upload_federation_decision stubUploader
    (stubModuleSet [stubModule (some ⟨"r1.example", "acme", "c"⟩) "c" []]
      [⟨some ⟨"r2.example", "acme", "d"⟩, 5, "d"⟩])
    (.ok stubOptions) ⟨0, []⟩ ⟨1, [Call.getModules "r1.example" [⟨"acme", "c"⟩]]⟩
    { contentModules := [stubModule (some ⟨"r1.example", "acme", "c"⟩) "c" []]
      primaryRegistry := "r1.example"
      contents := [⟨⟨"acme", "c"⟩, [⟨"a.proto", "syntax"⟩], [], ""⟩]
      depRefs := [⟨"ccccc", "r2.example"⟩]
      remoteDepRegistries := ["r2.example"] }
    (by decide)).2.2.2.1 (by decide)

/-- C20: when `Upload` succeeds, either there was nothing to upload and no
commit is returned, or the registry returned exactly as many commits as
content items were sent, the commits returned are as many, and commit `i` has
the full name of content module `i` and the commit id, digest and create time
of commit `i` of the response; a response with another number of commits
makes `Upload` fail. -/
theorem Upload_commits {ρ : Type} (a : uploader ρ) (ms : ModuleSet)
    (uploadOptions : Except Error UploadOptions) (w : World ρ) :
    (∀ commits w2, a.Upload ms uploadOptions w = (.ok commits, w2) →
      (a.prepare ms uploadOptions w = (.ok none, w2) ∧ commits = []) ∨
      ∃ p w1 response universalProtoCommits,
        a.prepare ms uploadOptions w = (.ok (some p), w1) ∧
        a.uploadResponse p w1 = .ok response ∧
        response.length = p.contents.length ∧
        p.contents.length = p.contentModules.length ∧
        commits.length = p.contentModules.length ∧
        List.Forall₂ (fun r u => a.newUniversalProtoCommit p r = .ok u)
          response universalProtoCommits ∧
        List.Forall₂ (CommitOf a.helpers)
          (List.zip p.contentModules universalProtoCommits) commits) ∧
    (∀ p w1 response, a.prepare ms uploadOptions w = (.ok (some p), w1) →
      a.uploadResponse p w1 = .ok response → response.length ≠ p.contents.length →
      ∃ e, (a.Upload ms uploadOptions w).1 = .error e) := by
  constructor
  · intro commits w2 h
    unfold uploader.Upload at h
    cases hp : a.prepare ms uploadOptions w with
    | mk r w1 =>
      rw [hp] at h
      cases r with
      | error e => simp at h
      | ok op =>
        cases op with
        | none =>
          simp only [Prod.mk.injEq, Except.ok.injEq] at h
          left
          rw [← h.2, ← h.1]
          exact ⟨rfl, rfl⟩
        | some p =>
          right
          simp only at h
          obtain ⟨o, mods, modules, refs, remoteDeps, -, -, -, -, -, -, -, hc, -, -, -, -⟩ :=
            prepare_some a ms uploadOptions w w1 p hp
          have hlenc := xslices.MapError_length _ _ _ hc
          unfold uploader.send at h
          have hfst := uploadCommits_fst a p w1
          cases hu : a.uploadCommits p w1 with
          | mk ru wu =>
            rw [hu] at h hfst
            cases ru with
            | error e => simp at h
            | ok ucs =>
              simp only at h hfst
              by_cases hlen : ucs.length ≠ p.contents.length
              · rw [if_pos hlen] at h
                simp at h
              · rw [if_neg hlen] at h
                simp only [Prod.mk.injEq] at h
                cases hresp : a.uploadResponse p w1 with
                | error e => rw [hresp] at hfst; simp at hfst
                | ok response =>
                  rw [hresp] at hfst
                  simp only at hfst
                  have hconv := xslices.MapError_ok _ _ _ hfst.symm
                  obtain ⟨hall, hl1, -⟩ := newCommits_ok _ _ _ _ h.1
                  have hlen' : ucs.length = p.contents.length := not_not.mp hlen
                  refine ⟨p, w1, response, ucs, rfl, hresp, ?_, hlenc, ?_, hconv, hall⟩
                  · rw [List.Forall₂.length_eq hconv, hlen']
                  · rw [hl1, hlen', hlenc]
  · intro p w1 response hp hresp hne
    have hfst := uploadCommits_fst a p w1
    rw [hresp] at hfst
    simp only at hfst
    simp only [uploader.Upload, hp, uploader.send]
    cases hu : a.uploadCommits p w1 with
    | mk ru wu =>
      rw [hu] at hfst
      cases ru with
      | error e => exact ⟨e, rfl⟩
      | ok ucs =>
        simp only at hfst ⊢
        have hl := xslices.MapError_length _ _ _ hfst.symm
        have hlen : ucs.length ≠ p.contents.length := by rw [hl]; exact hne
        rw [if_pos hlen]
        exact ⟨_, rfl⟩

theorem Upload_commits_witness :
    (stubUploader.prepare
        (stubModuleSet [stubModule (some ⟨"r1.example", "acme", "a"⟩) "a" [],
          stubModule (some ⟨"r1.example", "acme", "b"⟩) "b" []] [])
        (.ok stubOptions) ⟨0, []⟩ =
          (.ok none, ⟨2, [.getModules "r1.example" [⟨"acme", "a"⟩, ⟨"acme", "b"⟩],
            .v1Upload "r1.example"
              ⟨[⟨⟨"acme", "a"⟩, [⟨"a.proto", "syntax"⟩], [], ""⟩,
                ⟨⟨"acme", "b"⟩, [⟨"a.proto", "syntax"⟩], [], ""⟩], []⟩]⟩) ∧
      [(⟨⟨some ⟨"r1.example", "acme", "a"⟩, 1, "digest"⟩, 1⟩ : Commit),
        ⟨⟨some ⟨"r1.example", "acme", "b"⟩, 1, "digest"⟩, 1⟩] = []) ∨
    ∃ p w1 response universalProtoCommits,
      stubUploader.prepare
        (stubModuleSet [stubModule (some ⟨"r1.example", "acme", "a"⟩) "a" [],
          stubModule (some ⟨"r1.example", "acme", "b"⟩) "b" []] [])
        (.ok stubOptions) ⟨0, []⟩ = (.ok (some p), w1) ∧
      stubUploader.uploadResponse p w1 = .ok response ∧
      response.length = p.contents.length ∧
      p.contents.length = p.contentModules.length ∧
      [(⟨⟨some ⟨"r1.example", "acme", "a"⟩, 1, "digest"⟩, 1⟩ : Commit),
        ⟨⟨some ⟨"r1.example", "acme", "b"⟩, 1, "digest"⟩, 1⟩].length =
          p.contentModules.length ∧
      List.Forall₂ (fun r u => stubUploader.newUniversalProtoCommit p r = .ok u)
        response universalProtoCommits ∧
      List.Forall₂ (CommitOf stubUploader.helpers)
        (List.zip p.contentModules universalProtoCommits)
        [(⟨⟨some ⟨"r1.example", "acme", "a"⟩, 1, "digest"⟩, 1⟩ : Commit),
          ⟨⟨some ⟨"r1.example", "acme", "b"⟩, 1, "digest"⟩, 1⟩] :=
  (Upload_commits stubUploader
    (stubModuleSet [stubModule (some ⟨"r1.example", "acme", "a"⟩) "a" [],
      stubModule (some ⟨"r1.example", "acme", "b"⟩) "b" []] [])
    (.ok stubOptions) ⟨0, []⟩).1
    [⟨⟨some ⟨"r1.example", "acme", "a"⟩, 1, "digest"⟩, 1⟩,
      ⟨⟨some ⟨"r1.example", "acme", "b"⟩, 1, "digest"⟩, 1⟩]
    ⟨2, [.getModules "r1.example" [⟨"acme", "a"⟩, ⟨"acme", "b"⟩],
      .v1Upload "r1.example"
        ⟨[⟨⟨"acme", "a"⟩, [⟨"a.proto", "syntax"⟩], [], ""⟩,
          ⟨⟨"acme", "b"⟩, [⟨"a.proto", "syntax"⟩], [], ""⟩], []⟩]⟩
    (by decide)

end bufmoduleapi

namespace xslices

theorem MapError_error_of_mem {α β ε : Type} (f : α → Except ε β) (s : List α) (a : α) (e : ε)
    (hmem : a ∈ s) (ha : f a = .error e) : ∃ e', MapError f s = .error e' := by
  induction s with
  | nil => simp at hmem
  | cons x s ih =>
    cases hx : f x with
    | error e' => exact ⟨e', by simp [MapError, hx]⟩
    | ok b =>
      rcases List.mem_cons.mp hmem with rfl | hmem
      · rw [ha] at hx; cases hx
      · obtain ⟨e', he'⟩ := ih hmem
        exact ⟨e', by simp [MapError, hx, he']⟩

end xslices

namespace bufmoduleapi

/-- C24: in `createContentModuleIfNotExist`, when the create call fails with
the already-exists code, the module is fetched with one `GetModules` call
and, if exactly one module comes back, that module is returned with no
error; a create error with another code is returned unchanged. -/
theorem createContentModuleIfNotExist_already_exists {ρ : Type} (a : uploader ρ)
    (primaryRegistry : String) (contentModule : Module) (createModuleVisibility : Nat)
    (createDefaultLabel : String) (w : World ρ) (v : Nat)
    (hv : a.helpers.moduleVisibilityToV1Proto createModuleVisibility = .ok v) (err : Error)
    (herr : (a.moduleClientProvider.CreateModules primaryRegistry
      [{ ownerName := contentModule.owner, name := contentModule.name, visibility := v,
         defaultLabelName := createDefaultLabel }] w.registry).1 = .error err) :
    (CodeOf err = CodeAlreadyExists →
      (a.createContentModuleIfNotExist primaryRegistry contentModule createModuleVisibility
        createDefaultLabel w).2.calls =
        w.calls ++ [.createModules primaryRegistry
          [{ ownerName := contentModule.owner, name := contentModule.name, visibility := v,
             defaultLabelName := createDefaultLabel }],
          .getModules primaryRegistry
            [{ owner := contentModule.owner, module := contentModule.name }]] ∧
      ∀ module, (a.moduleClientProvider.GetModules primaryRegistry
          [{ owner := contentModule.owner, module := contentModule.name }]
          (a.moduleClientProvider.CreateModules primaryRegistry
            [{ ownerName := contentModule.owner, name := contentModule.name, visibility := v,
               defaultLabelName := createDefaultLabel }] w.registry).2).1 = .ok [module] →
        (a.createContentModuleIfNotExist primaryRegistry contentModule createModuleVisibility
          createDefaultLabel w).1 = .ok module) ∧
    (CodeOf err ≠ CodeAlreadyExists →
      a.createContentModuleIfNotExist primaryRegistry contentModule createModuleVisibility
          createDefaultLabel w =
        (.error err, w.record (.createModules primaryRegistry
          [{ ownerName := contentModule.owner, name := contentModule.name, visibility := v,
             defaultLabelName := createDefaultLabel }])
          (a.moduleClientProvider.CreateModules primaryRegistry
            [{ ownerName := contentModule.owner, name := contentModule.name, visibility := v,
               defaultLabelName := createDefaultLabel }] w.registry).2)) := by
  constructor
  · intro hcode
    constructor
    · simp only [uploader.createContentModuleIfNotExist, hv, herr, hcode, if_true,
        uploader.validateContentModulesExist, World.record, List.map_cons, List.map_nil]
      split <;> simp
    · intro module hget
      simp only [uploader.createContentModuleIfNotExist, hv, herr, hcode, if_true,
        uploader.validateContentModulesExist, World.record, List.map_cons, List.map_nil, hget,
        expectOneModule]
  · intro hcode
    simp only [uploader.createContentModuleIfNotExist, hv, herr, hcode, if_false]

theorem createContentModuleIfNotExist_already_exists_witness :
    (({ moduleClientProvider :=
          { stubClient with CreateModules := fun _ _ n => (.error (.connect 6 "exists"), n + 1) }
        publicRegistry := "buf.build", helpers := stubHelpers } : uploader Nat
      ).createContentModuleIfNotExist "buf.build"
        (stubModule (some ⟨"buf.build", "acme", "a"⟩) "a" []) 0 "main" ⟨0, []⟩).2.calls =
        [] ++ [.createModules "buf.build" [⟨"acme", "a", 0, "main"⟩],
          .getModules "buf.build" [⟨"acme", "a"⟩]] ∧
    (({ moduleClientProvider :=
          { stubClient with CreateModules := fun _ _ n => (.error (.connect 6 "exists"), n + 1) }
        publicRegistry := "buf.build", helpers := stubHelpers } : uploader Nat
      ).createContentModuleIfNotExist "buf.build"
        (stubModule (some ⟨"buf.build", "acme", "a"⟩) "a" []) 0 "main" ⟨0, []⟩).1 =
        .ok ⟨"a", "main"⟩ :=
  ⟨((createContentModuleIfNotExist_already_exists
      { moduleClientProvider :=
          { stubClient with CreateModules := fun _ _ n => (.error (.connect 6 "exists"), n + 1) }
        publicRegistry := "buf.build", helpers := stubHelpers }
      "buf.build" (stubModule (some ⟨"buf.build", "acme", "a"⟩) "a" []) 0 "main" ⟨0, []⟩ 0 rfl
      (.connect 6 "exists") rfl).1 rfl).1,
   ((createContentModuleIfNotExist_already_exists
      { moduleClientProvider :=
          { stubClient with CreateModules := fun _ _ n => (.error (.connect 6 "exists"), n + 1) }
        publicRegistry := "buf.build", helpers := stubHelpers }
      "buf.build" (stubModule (some ⟨"buf.build", "acme", "a"⟩) "a" []) 0 "main" ⟨0, []⟩ 0 rfl
      (.connect 6 "exists") rfl).1 rfl).2 ⟨"a", "main"⟩ rfl⟩

theorem remoteDepToDepRef_error_iff (h : Helpers) (d : RemoteDep) :
    (∃ e, remoteDepToV1Beta1ProtoUploadRequestDepRef h d = .error e) ↔
      (d.fullName = none ∨ d.commitID = uuidNil) := by
  unfold remoteDepToV1Beta1ProtoUploadRequestDepRef
  cases hfn : d.fullName with
  | none => simp
  | some fn =>
    by_cases hc : d.commitID = uuidNil
    · simp [hc]
    · simp [hc]

/-- C26: `remoteDepToV1Beta1ProtoUploadRequestDepRef` fails, with a system
error, exactly when the remote dependency has no full name or has the nil
commit id; otherwise the reference has the dashless form of the commit id and
the registry of the full name.  When a remote dependency of the content
modules fails the conversion, `Upload` fails and has made no upload call. -/
theorem remoteDepToDepRef_and_Upload {ρ : Type} (a : uploader ρ) (ms : ModuleSet)
    (o : UploadOptions) (w : World ρ) (mods kept : List Module) (deps : List RemoteDep) :
    (∀ d : RemoteDep,
      ((∃ msg, remoteDepToV1Beta1ProtoUploadRequestDepRef a.helpers d = .error (.syserror msg)) ↔
        (d.fullName = none ∨ d.commitID = uuidNil)) ∧
      (∀ fn, d.fullName = some fn → d.commitID ≠ uuidNil →
        remoteDepToV1Beta1ProtoUploadRequestDepRef a.helpers d =
          .ok { commitId := a.helpers.ToDashless d.commitID, registry := fn.registry })) ∧
    (ms.targetLocalModulesAndTransitiveLocalDeps = .ok mods →
      xslices.FilterError (filterContentModule o) mods = .ok kept → kept ≠ [] →
      ms.remoteDepsForModules kept = .ok deps →
      (∃ d ∈ deps, d.fullName = none ∨ d.commitID = uuidNil) →
      ∃ e w1, a.Upload ms (.ok o) w = (.error e, w1) ∧ NoUploadAdded w w1) := by
  constructor
  · intro d
    constructor
    · unfold remoteDepToV1Beta1ProtoUploadRequestDepRef
      cases hfn : d.fullName with
      | none => simp
      | some fn =>
        by_cases hc : d.commitID = uuidNil
        · simp [hc]
        · simp [hc]
    · intro fn hfn hc
      simp [remoteDepToV1Beta1ProtoUploadRequestDepRef, hfn, hc]
  · intro hms hf hne hdeps hbad
    obtain ⟨d, hd, hfail⟩ := hbad
    obtain ⟨e0, he0⟩ := (remoteDepToDepRef_error_iff a.helpers d).mpr hfail
    obtain ⟨e1, he1⟩ := xslices.MapError_error_of_mem _ deps d e0 hd he0
    have hlen : ¬ kept.length = 0 := fun h => hne (List.length_eq_zero.mp h)
    cases hp : a.prepare ms (.ok o) w with
    | mk r w1 =>
      cases r with
      | error e =>
        refine ⟨e, w1, by simp [uploader.Upload, hp], ?_⟩
        unfold uploader.prepare at hp
        simp only [hms, hf, if_neg hlen] at hp
        cases hr : getSingleRegistryForContentModules kept with
        | error e' =>
          simp only [hr, Prod.mk.injEq] at hp
          rw [← hp.2]; exact NoUploadAdded.refl w
        | ok primaryRegistry =>
          simp only [hr] at hp
          have hcalls := resolveModules_calls a primaryRegistry o kept w
          cases hres : a.resolveModules primaryRegistry o kept w with
          | mk res w' =>
            rw [hres] at hp hcalls
            cases res with
            | error e' =>
              simp only [Prod.mk.injEq] at hp
              rw [← hp.2]; exact hcalls
            | ok modules =>
              simp only at hp
              have hw : w1 = w' := by
                repeat' split at hp
                all_goals simp only [Prod.mk.injEq] at hp
                all_goals exact hp.2.symm
              rw [hw]; exact hcalls
      | ok op =>
        exfalso
        cases op with
        | none =>
          unfold uploader.prepare at hp
          simp only [hms, hf, if_neg hlen] at hp
          repeat' split at hp
          all_goals simp at hp
        | some p =>
          obtain ⟨o', mods', modules, refs, remoteDeps, ho, hm', hf', -, -, -, -, -, hd', hdr, -, -⟩ :=
            prepare_some a ms (.ok o) w w1 p hp
          simp only [Except.ok.injEq] at ho
          subst ho
          rw [hms] at hm'
          simp only [Except.ok.injEq] at hm'
          subst hm'
          rw [hf] at hf'
          simp only [Except.ok.injEq] at hf'
          rw [← hf', hdeps] at hd'
          simp only [Except.ok.injEq] at hd'
          subst hd'
          rw [he1] at hdr
          cases hdr

theorem remoteDepToDepRef_and_Upload_witness :
    ∃ e w1, stubUploader.Upload
        (stubModuleSet [stubModule (some ⟨"buf.build", "acme", "a"⟩) "a" []]
          [⟨some ⟨"buf.build", "acme", "d"⟩, 0, "d"⟩])
        (.ok stubOptions) ⟨0, []⟩ = (.error e, w1) ∧
      NoUploadAdded ⟨0, []⟩ w1 :=
  (remoteDepToDepRef_and_Upload stubUploader
    (stubModuleSet [stubModule (some ⟨"buf.build", "acme", "a"⟩) "a" []]
      [⟨some ⟨"buf.build", "acme", "d"⟩, 0, "d"⟩])
    stubOptions ⟨0, []⟩ [stubModule (some ⟨"buf.build", "acme", "a"⟩) "a" []]
    [stubModule (some ⟨"buf.build", "acme", "a"⟩) "a" []]
    [⟨some ⟨"buf.build", "acme", "d"⟩, 0, "d"⟩]).2 rfl (by decide) (by simp) rfl
    ⟨⟨some ⟨"buf.build", "acme", "d"⟩, 0, "d"⟩, by simp, Or.inr rfl⟩

end bufmoduleapi

namespace xslices

theorem nodup_ToUniqueSorted (s : List String) : (ToUniqueSorted s).Nodup :=
  (List.perm_insertionSort _ _).nodup_iff.mpr (List.nodup_dedup s)

theorem ToUniqueSorted_length_of_ne (s : List String) (x y : String) (hx : x ∈ s) (hy : y ∈ s)
    (hxy : x ≠ y) : 1 < (ToUniqueSorted s).length := by
  have hx1 := (mem_ToUniqueSorted s x).mpr hx
  have hy1 := (mem_ToUniqueSorted s y).mpr hy
  match h : ToUniqueSorted s with
  | [] => rw [h] at hx1; simp at hx1
  | [z] =>
    rw [h] at hx1 hy1
    simp only [List.mem_singleton] at hx1 hy1
    exact absurd (hx1.trans hy1.symm) hxy
  | _ :: _ :: _ => simp

theorem ToUniqueSorted_eq_singleton (s : List String) (l : String) (hne : s ≠ [])
    (hall : ∀ x ∈ s, x = l) : ToUniqueSorted s = [l] := by
  have hnd := nodup_ToUniqueSorted s
  have hmem : ∀ x ∈ ToUniqueSorted s, x = l := fun x hx => hall x ((mem_ToUniqueSorted s x).mp hx)
  obtain ⟨x, hx⟩ := List.exists_mem_of_ne_nil s hne
  have hx1 := (mem_ToUniqueSorted s x).mpr hx
  match h : ToUniqueSorted s with
  | [] => rw [h] at hx1; simp at hx1
  | [z] =>
    rw [h] at hmem
    rw [hmem z (List.mem_singleton_self z)]
  | z1 :: z2 :: t =>
    rw [h] at hmem hnd
    have h1 := hmem z1 (by simp)
    have h2 := hmem z2 (by simp)
    simp only [List.nodup_cons, List.mem_cons] at hnd
    exact absurd (Or.inl (h1.trans h2.symm)) hnd.1

end xslices

namespace bufmoduleapi

/-- The label references of every content of a successful `MapError` over
`getV1Beta1ProtoUploadRequestContent` are the references that were passed in. -/
theorem contents_scopedLabelRefs (refs : List ScopedLabelRef) (primaryRegistry url : String)
    (contentModules : List Module) (contents : List UploadRequestContent)
    (h : xslices.MapError (fun module => getV1Beta1ProtoUploadRequestContent refs
      primaryRegistry module url) contentModules = .ok contents) :
    ∀ c ∈ contents, c.scopedLabelRefs = refs := by
  intro c hc
  obtain ⟨m, -, hm⟩ := xslices.forall₂_mem_right (xslices.MapError_ok _ _ _ h) hc
  simp only [getV1Beta1ProtoUploadRequestContent] at hm
  repeat' split at hm
  all_goals cases hm
  all_goals rfl

/-- The label references that `scopedLabelRefs` computes, by the cases of the
options. -/
theorem scopedLabelRefs_ok (o : UploadOptions) (contentModules : List Module)
    (modules : List ProtoModule) (refs : List ScopedLabelRef)
    (h : scopedLabelRefs o contentModules modules = .ok refs) :
    (o.tags ≠ [] → ∃ defaultLabel, (∀ module ∈ modules, module.defaultLabelName = defaultLabel) ∧
      refs = (o.tags ++ [defaultLabel]).map labelNameToV1Beta1ProtoScopedLabelRef) ∧
    (o.tags = [] → o.labels ≠ [] → refs = o.labels.map labelNameToV1Beta1ProtoScopedLabelRef) ∧
    (o.tags = [] → o.labels = [] → refs = []) := by
  unfold scopedLabelRefs at h
  refine ⟨?_, ?_, ?_⟩
  · intro ht
    have ht' : o.tags.length > 0 := List.length_pos.mpr ht
    rw [if_pos ht'] at h
    simp only at h
    by_cases hlen : (xslices.ToUniqueSorted (modules.map fun module => module.defaultLabelName)).length > 1
    · rw [if_pos hlen] at h; cases h
    · rw [if_neg hlen] at h
      match hu : xslices.ToUniqueSorted (modules.map fun module => module.defaultLabelName) with
      | [] => rw [hu] at h; cases h
      | defaultLabel :: rest =>
        rw [hu] at h hlen
        simp only [Except.ok.injEq] at h
        have hrest : rest = [] := by
          cases rest with
          | nil => rfl
          | cons _ _ => simp at hlen
        subst hrest
        refine ⟨defaultLabel, ?_, h.symm⟩
        intro module hm
        have hmem : module.defaultLabelName ∈
            xslices.ToUniqueSorted (modules.map fun module => module.defaultLabelName) :=
          (xslices.mem_ToUniqueSorted _ _).mpr (List.mem_map_of_mem _ hm)
        rw [hu] at hmem
        simpa using hmem
  · intro ht hl
    have hl' : o.labels.length > 0 := List.length_pos.mpr hl
    simp only [ht, List.length_nil, gt_iff_lt, lt_self_iff_false, if_false, if_pos hl',
      Except.ok.injEq] at h
    exact h.symm
  · intro ht hl
    simp only [ht, hl, List.length_nil, gt_iff_lt, lt_self_iff_false, if_false,
      Except.ok.injEq] at h
    exact h.symm

/-- C22: in a request that `Upload` has prepared, every content carries the
same label references, in the federated and in the simple request: with tags,
the tags followed by the one default label that all the content modules share;
without tags and with labels, the labels; with neither, none. -/
theorem Upload_label_refs_shared {ρ : Type} (a : uploader ρ) (ms : ModuleSet) (o : UploadOptions)
    (w w1 : World ρ) (p : Prepared) (h : a.prepare ms (.ok o) w = (.ok (some p), w1)) :
    ∃ (modules : List ProtoModule) (refs : List ScopedLabelRef),
      a.resolveModules p.primaryRegistry o p.contentModules w = (.ok modules, w1) ∧
      (∀ c ∈ p.v1beta1Request.contents, c.scopedLabelRefs = refs) ∧
      (∀ c ∈ p.v1Request.contents, c.scopedLabelRefs = refs) ∧
      (o.tags ≠ [] → ∃ defaultLabel,
        (∀ module ∈ modules, module.defaultLabelName = defaultLabel) ∧
        refs = (o.tags ++ [defaultLabel]).map labelNameToV1Beta1ProtoScopedLabelRef) ∧
      (o.tags = [] → o.labels ≠ [] →
        refs = o.labels.map labelNameToV1Beta1ProtoScopedLabelRef) ∧
      (o.tags = [] → o.labels = [] → refs = []) := by
  obtain ⟨o', mods, modules, refs, remoteDeps, ho, -, -, -, -, hres, hrefs, hcontents, -⟩ :=
    prepare_some a ms (.ok o) w w1 p h
  simp only [Except.ok.injEq] at ho
  subst ho
  have hc := contents_scopedLabelRefs refs p.primaryRegistry o.sourceControlURL _ _ hcontents
  refine ⟨modules, refs, hres, hc, ?_, scopedLabelRefs_ok o _ modules refs hrefs⟩
  intro c hmem
  simp only [Prepared.v1Request, List.mem_map] at hmem
  obtain ⟨c0, hc0, rfl⟩ := hmem
  simpa [v1beta1ProtoUploadRequestContentToV1ProtoUploadRequestContent] using hc c0 hc0

theorem Upload_label_refs_shared_witness :
    ∃ (modules : List ProtoModule) (refs : List ScopedLabelRef),
      stubUploader.resolveModules "buf.build" { stubOptions with tags := ["v1"] }
        [stubModule (some ⟨"buf.build", "acme", "a"⟩) "a" [],
         stubModule (some ⟨"buf.build", "acme", "b"⟩) "b" []] ⟨0, []⟩ =
        (.ok modules, ⟨1, [.getModules "buf.build" [⟨"acme", "a"⟩, ⟨"acme", "b"⟩]]⟩) ∧
      (∀ c ∈ [(⟨⟨"acme", "a"⟩, [⟨"a.proto", "syntax"⟩], [⟨"v1"⟩, ⟨"main"⟩], ""⟩ : UploadRequestContent),
          ⟨⟨"acme", "b"⟩, [⟨"a.proto", "syntax"⟩], [⟨"v1"⟩, ⟨"main"⟩], ""⟩], c.scopedLabelRefs = refs) ∧
      (∀ c ∈ [(⟨⟨"acme", "a"⟩, [⟨"a.proto", "syntax"⟩], [⟨"v1"⟩, ⟨"main"⟩], ""⟩ : V1UploadRequestContent),
          ⟨⟨"acme", "b"⟩, [⟨"a.proto", "syntax"⟩], [⟨"v1"⟩, ⟨"main"⟩], ""⟩], c.scopedLabelRefs = refs) ∧
      (["v1"] ≠ [] → ∃ defaultLabel,
        (∀ module ∈ modules, module.defaultLabelName = defaultLabel) ∧
        refs = (["v1"] ++ [defaultLabel]).map labelNameToV1Beta1ProtoScopedLabelRef) ∧
      (["v1"] = [] → ([] : List String) ≠ [] →
        refs = ([] : List String).map labelNameToV1Beta1ProtoScopedLabelRef) ∧
      (["v1"] = [] → ([] : List String) = [] → refs = []) :=
  Upload_label_refs_shared stubUploader
    (stubModuleSet [stubModule (some ⟨"buf.build", "acme", "a"⟩) "a" [],
      stubModule (some ⟨"buf.build", "acme", "b"⟩) "b" []] [])
    { stubOptions with tags := ["v1"] } ⟨0, []⟩
    ⟨1, [.getModules "buf.build" [⟨"acme", "a"⟩, ⟨"acme", "b"⟩]]⟩
    ⟨[stubModule (some ⟨"buf.build", "acme", "a"⟩) "a" [],
      stubModule (some ⟨"buf.build", "acme", "b"⟩) "b" []], "buf.build",
     [⟨⟨"acme", "a"⟩, [⟨"a.proto", "syntax"⟩], [⟨"v1"⟩, ⟨"main"⟩], ""⟩, ⟨⟨"acme", "b"⟩, [⟨"a.proto", "syntax"⟩], [⟨"v1"⟩, ⟨"main"⟩], ""⟩],
     [], []⟩ (by decide)

end bufmoduleapi

namespace bufmoduleapi

/-- C23: when tags are supplied and the registry modules of the content
modules have more than one distinct default label name, `Upload` fails and no
upload call has been made; when tags are supplied and all the modules share
one default label, the computation of the label references succeeds, with the
tags followed by that label. -/
theorem Upload_multiple_default_labels {ρ : Type} (a : uploader ρ) (ms : ModuleSet)
    (o : UploadOptions) (w w1 : World ρ) (mods kept : List Module) (primaryRegistry : String)
    (modules : List ProtoModule) (htags : o.tags ≠ [])
    (hms : ms.targetLocalModulesAndTransitiveLocalDeps = .ok mods)
    (hf : xslices.FilterError (filterContentModule o) mods = .ok kept) (hne : kept ≠ [])
    (hreg : getSingleRegistryForContentModules kept = .ok primaryRegistry)
    (hres : a.resolveModules primaryRegistry o kept w = (.ok modules, w1)) :
    ((∃ m1 ∈ modules, ∃ m2 ∈ modules, m1.defaultLabelName ≠ m2.defaultLabelName) →
      (∃ names labels, a.Upload ms (.ok o) w = (.error (.multipleDefaultLabels names labels), w1)) ∧
        NoUploadAdded w w1) ∧
    (∀ defaultLabel, modules ≠ [] →
      (∀ module ∈ modules, module.defaultLabelName = defaultLabel) →
      scopedLabelRefs o kept modules =
        .ok ((o.tags ++ [defaultLabel]).map labelNameToV1Beta1ProtoScopedLabelRef)) := by
  have ht : o.tags.length > 0 := List.length_pos.mpr htags
  have hlen : ¬ kept.length = 0 := fun h => hne (List.length_eq_zero.mp h)
  constructor
  · rintro ⟨m1, hm1, m2, hm2, hdiff⟩
    have hgt := xslices.ToUniqueSorted_length_of_ne
      (modules.map fun module => module.defaultLabelName) _ _
      (List.mem_map_of_mem _ hm1) (List.mem_map_of_mem _ hm2) hdiff
    refine ⟨⟨kept.map (fun module => (module.fullName.map FullName.String).getD ""),
      xslices.ToUniqueSorted (modules.map fun module => module.defaultLabelName), ?_⟩, ?_⟩
    · simp only [uploader.Upload, uploader.prepare, hms, hf, if_neg hlen, hreg, hres,
        scopedLabelRefs, if_pos ht, if_pos hgt]
    · have h := resolveModules_calls a primaryRegistry o kept w
      rw [hres] at h
      exact h
  · intro defaultLabel hmne hall
    have hs := xslices.ToUniqueSorted_eq_singleton
      (modules.map fun module => module.defaultLabelName) defaultLabel
      (by simpa using hmne)
      (by
        intro x hx
        obtain ⟨m, hm, rfl⟩ := List.mem_map.mp hx
        exact hall m hm)
    simp only [scopedLabelRefs, if_pos ht, hs, List.length_singleton, gt_iff_lt,
      lt_self_iff_false, if_false]

theorem Upload_multiple_default_labels_witness :
    (∃ names labels,
      ({ moduleClientProvider :=
          { stubClient with
            GetModules := fun _ refs n => (.ok (refs.map (fun r => ⟨r.module, r.module⟩)), n + 1) }
         publicRegistry := "buf.build", helpers := stubHelpers } : uploader Nat).Upload
        (stubModuleSet [stubModule (some ⟨"buf.build", "acme", "a"⟩) "a" [],
          stubModule (some ⟨"buf.build", "acme", "b"⟩) "b" []] [])
        (.ok { stubOptions with tags := ["v1"] }) ⟨0, []⟩ =
        (.error (.multipleDefaultLabels names labels),
          ⟨1, [.getModules "buf.build" [⟨"acme", "a"⟩, ⟨"acme", "b"⟩]]⟩)) ∧
      NoUploadAdded (⟨0, []⟩ : World Nat)
        ⟨1, [.getModules "buf.build" [⟨"acme", "a"⟩, ⟨"acme", "b"⟩]]⟩ :=
  (Upload_multiple_default_labels
    { moduleClientProvider :=
        { stubClient with
          GetModules := fun _ refs n => (.ok (refs.map (fun r => ⟨r.module, r.module⟩)), n + 1) }
      publicRegistry := "buf.build", helpers := stubHelpers }
    (stubModuleSet [stubModule (some ⟨"buf.build", "acme", "a"⟩) "a" [],
      stubModule (some ⟨"buf.build", "acme", "b"⟩) "b" []] [])
    { stubOptions with tags := ["v1"] } ⟨0, []⟩
    ⟨1, [.getModules "buf.build" [⟨"acme", "a"⟩, ⟨"acme", "b"⟩]]⟩
    [stubModule (some ⟨"buf.build", "acme", "a"⟩) "a" [],
      stubModule (some ⟨"buf.build", "acme", "b"⟩) "b" []]
    [stubModule (some ⟨"buf.build", "acme", "a"⟩) "a" [],
      stubModule (some ⟨"buf.build", "acme", "b"⟩) "b" []]
    "buf.build" [⟨"a", "a"⟩, ⟨"b", "b"⟩] (by decide) rfl (by decide) (by simp) (by decide)
    (by decide)).1 ⟨⟨"a", "a"⟩, by simp, ⟨"b", "b"⟩, by simp, by decide⟩

end bufmoduleapi

namespace xslices

theorem FilterError_length {α ε : Type} (f : α → Except ε Bool) (s r : List α)
    (h : FilterError f s = .ok r) : r.length ≤ s.length := by
  induction s generalizing r with
  | nil =>
    simp only [FilterError, Except.ok.injEq] at h
    subst h
    simp
  | cons a s ih =>
    simp only [FilterError] at h
    cases ha : f a with
    | error e => simp [ha] at h
    | ok keep =>
      cases hs : FilterError f s with
      | error e => simp [ha, hs] at h
      | ok r' =>
        simp only [ha, hs, Except.ok.injEq] at h
        subst h
        have := ih r' hs
        split_ifs <;> simp <;> omega

end xslices

namespace bufmoduleapi

theorem callsAdded_zero {ρ : Type} (w : World ρ) : CallsAdded w w 0 :=
  ⟨[], by simp, by simp⟩

theorem callsAdded_mono {ρ : Type} {w w1 : World ρ} {n m : Nat} (h : CallsAdded w w1 n)
    (hnm : n ≤ m) : CallsAdded w w1 m := by
  obtain ⟨cs, hcs, hlen⟩ := h
  exact ⟨cs, hcs, le_trans hlen hnm⟩

theorem callsAdded_append {ρ : Type} {w w1 w2 : World ρ} {n m : Nat} (h1 : CallsAdded w w1 n)
    (h2 : CallsAdded w1 w2 m) : CallsAdded w w2 (n + m) := by
  obtain ⟨cs1, hcs1, hlen1⟩ := h1
  obtain ⟨cs2, hcs2, hlen2⟩ := h2
  refine ⟨cs1 ++ cs2, by rw [hcs2, hcs1, List.append_assoc], ?_⟩
  rw [List.length_append]
  omega

theorem callsAdded_record {ρ : Type} (w : World ρ) (call : Call) (registry : ρ) :
    CallsAdded w (w.record call registry) 1 :=
  ⟨[call], rfl, by simp⟩

theorem validateContentModulesExist_count {ρ : Type} (a : uploader ρ) (primaryRegistry : String)
    (contentModules : List Module) (w : World ρ) :
    CallsAdded w (a.validateContentModulesExist primaryRegistry contentModules w).2 1 :=
  callsAdded_record w _ _

theorem createContentModuleIfNotExist_count {ρ : Type} (a : uploader ρ)
    (primaryRegistry : String) (contentModule : Module) (createModuleVisibility : Nat)
    (createDefaultLabel : String) (w : World ρ) :
    CallsAdded w (a.createContentModuleIfNotExist primaryRegistry contentModule
      createModuleVisibility createDefaultLabel w).2 2 := by
  unfold uploader.createContentModuleIfNotExist
  cases hv : a.helpers.moduleVisibilityToV1Proto createModuleVisibility with
  | error e => exact callsAdded_mono (callsAdded_zero w) (by omega)
  | ok v =>
    simp only
    have h1 : ∀ call registry, CallsAdded w (w.record call registry) 1 := callsAdded_record w
    have h2 : ∀ call registry modules, CallsAdded w
        (a.validateContentModulesExist primaryRegistry modules (w.record call registry)).2 2 :=
      fun call registry modules =>
        callsAdded_append (h1 call registry)
          (validateContentModulesExist_count a primaryRegistry modules _)
    split
    · split_ifs
      · split <;> exact h2 _ _ _
      · exact callsAdded_mono (h1 _ _) (by omega)
    · exact callsAdded_mono (h1 _ _) (by omega)

theorem createContentModules_count {ρ : Type} (a : uploader ρ) (primaryRegistry : String)
    (o : UploadOptions) (contentModules : List Module) (w : World ρ) :
    CallsAdded w (a.createContentModules primaryRegistry o contentModules w).2
      (2 * contentModules.length) := by
  induction contentModules generalizing w with
  | nil => exact callsAdded_zero w
  | cons m rest ih =>
    have h1 := createContentModuleIfNotExist_count a primaryRegistry m
      o.createModuleVisibility o.createDefaultLabel w
    unfold uploader.createContentModules
    cases hc : a.createContentModuleIfNotExist primaryRegistry m
        o.createModuleVisibility o.createDefaultLabel w with
    | mk r w1 =>
      rw [hc] at h1
      cases r with
      | error e => exact callsAdded_mono h1 (by simp only [List.length_cons]; omega)
      | ok module =>
        have h2 := ih w1
        have h3 : CallsAdded w (a.createContentModules primaryRegistry o rest w1).2
            (2 * (m :: rest).length) :=
          callsAdded_mono (callsAdded_append h1 h2) (by simp only [List.length_cons]; omega)
        simp only
        cases hr : a.createContentModules primaryRegistry o rest w1 with
        | mk r2 w2 =>
          rw [hr] at h3
          cases r2 <;> exact h3

theorem resolveModules_count {ρ : Type} (a : uploader ρ) (primaryRegistry : String)
    (o : UploadOptions) (contentModules : List Module) (w : World ρ) :
    CallsAdded w (a.resolveModules primaryRegistry o contentModules w).2
      (if o.createIfNotExist then 2 * contentModules.length else 1) := by
  unfold uploader.resolveModules
  split_ifs
  · exact createContentModules_count a primaryRegistry o contentModules w
  · exact validateContentModulesExist_count a primaryRegistry contentModules w

/-- The world after the first part of `Upload`: unchanged, or the world after
the registry modules of the content modules were resolved. -/
theorem prepare_world {ρ : Type} (a : uploader ρ) (ms : ModuleSet)
    (uploadOptions : Except Error UploadOptions) (w : World ρ) :
    (a.prepare ms uploadOptions w).2 = w ∨
    ∃ o mods kept primaryRegistry, uploadOptions = .ok o ∧
      ms.targetLocalModulesAndTransitiveLocalDeps = .ok mods ∧
      xslices.FilterError (filterContentModule o) mods = .ok kept ∧ kept ≠ [] ∧
      (a.prepare ms uploadOptions w).2 = (a.resolveModules primaryRegistry o kept w).2 := by
  unfold uploader.prepare
  cases uploadOptions with
  | error e => exact Or.inl rfl
  | ok o =>
    simp only
    cases hm : ms.targetLocalModulesAndTransitiveLocalDeps with
    | error e => exact Or.inl rfl
    | ok mods =>
      simp only
      cases hf : xslices.FilterError (filterContentModule o) mods with
      | error e => exact Or.inl rfl
      | ok kept =>
        simp only
        by_cases hlen : kept.length = 0
        · rw [if_pos hlen]; exact Or.inl rfl
        · rw [if_neg hlen]
          cases hr : getSingleRegistryForContentModules kept with
          | error e => exact Or.inl rfl
          | ok primaryRegistry =>
            refine Or.inr ⟨o, mods, kept, primaryRegistry, rfl, rfl, hf,
              fun h => hlen (by rw [h]; rfl), ?_⟩
            simp only
            cases hres : a.resolveModules primaryRegistry o kept w with
            | mk res w1 =>
              cases res with
              | error e => rfl
              | ok modules =>
                simp only
                repeat' split
                all_goals rfl

theorem send_count {ρ : Type} (a : uploader ρ) (p : Prepared) (w : World ρ) :
    CallsAdded w (a.send p w).2 1 := by
  refine ⟨[if p.federated then Call.v1beta1Upload p.primaryRegistry p.v1beta1Request
       else Call.v1Upload p.primaryRegistry p.v1Request], ?_, le_of_eq (List.length_singleton _)⟩
  rw [send_world a p w]
  exact uploadCommits_world a p w

/-- The calls of one `Upload`: at most two per content module when the modules
are created, one otherwise, and one upload call. -/
theorem Upload_count {ρ : Type} (a : uploader ρ) (ms : ModuleSet)
    (uploadOptions : Except Error UploadOptions) (w : World ρ) :
    CallsAdded w (a.Upload ms uploadOptions w).2 0 ∨
    ∃ (o : UploadOptions) (mods kept : List Module), uploadOptions = .ok o ∧
      ms.targetLocalModulesAndTransitiveLocalDeps = .ok mods ∧
      kept.length ≤ mods.length ∧ kept ≠ [] ∧
      CallsAdded w (a.Upload ms uploadOptions w).2
        ((if o.createIfNotExist then 2 * kept.length else 1) + 1) := by
  have hw := prepare_world a ms uploadOptions w
  have hU : CallsAdded (a.prepare ms uploadOptions w).2 (a.Upload ms uploadOptions w).2 1 := by
    unfold uploader.Upload
    cases hp : a.prepare ms uploadOptions w with
    | mk r w1 =>
      cases r with
      | error e => exact callsAdded_mono (callsAdded_zero w1) (by omega)
      | ok op =>
        cases op with
        | none => exact callsAdded_mono (callsAdded_zero w1) (by omega)
        | some p => exact send_count a p w1
  rcases hw with hw | ⟨o, mods, kept, primaryRegistry, ho, hm, hf, hne, hw⟩
  · by_cases hsome : ∃ p, (a.prepare ms uploadOptions w).1 = .ok (some p)
    · obtain ⟨p, hp⟩ := hsome
      have hp' : a.prepare ms uploadOptions w = (.ok (some p), w) := Prod.ext hp hw
      obtain ⟨o, mods, modules, refs, remoteDeps, ho, hm, hf, hne, -⟩ :=
        prepare_some a ms uploadOptions w w p hp'
      refine Or.inr ⟨o, mods, p.contentModules, ho, hm,
        xslices.FilterError_length _ _ _ hf, hne, ?_⟩
      rw [hw] at hU
      exact callsAdded_mono hU (by omega)
    · left
      have hnone : CallsAdded w (a.Upload ms uploadOptions w).2 0 := by
        unfold uploader.Upload
        cases hp : a.prepare ms uploadOptions w with
        | mk r w1 =>
          rw [hp] at hw
          simp only at hw
          subst hw
          cases r with
          | error e => exact callsAdded_zero _
          | ok op =>
            cases op with
            | none => exact callsAdded_zero _
            | some p => exact absurd ⟨p, by rw [hp]⟩ hsome
      exact hnone
  · refine Or.inr ⟨o, mods, kept, ho, hm, xslices.FilterError_length _ _ _ hf, hne, ?_⟩
    have h1 := resolveModules_count a primaryRegistry o kept w
    rw [← hw] at h1
    exact callsAdded_append h1 hU

theorem Upload_at_most_two_calls_counterexample :
    ¬ (stubUploader.Upload
        (stubModuleSet [stubModule (some ⟨"buf.build", "acme", "a"⟩) "a" [],
          stubModule (some ⟨"buf.build", "acme", "b"⟩) "b" []] [])
        (.ok { stubOptions with createIfNotExist := true }) ⟨0, []⟩).2.calls.length ≤ 2 := by
  decide

/-- C25 (amended): the calls that one `Upload` adds are at most two when
create-if-not-exist is not set, and in every case at most two for each of the
modules of the module set plus one upload call; none when the modules of the
module set cannot be computed. -/
theorem Upload_call_bound {ρ : Type} (a : uploader ρ) (ms : ModuleSet)
    (uploadOptions : Except Error UploadOptions) (w : World ρ) :
    ∃ cs, (a.Upload ms uploadOptions w).2.calls = w.calls ++ cs ∧
      (∀ o, uploadOptions = .ok o → o.createIfNotExist = false → cs.length ≤ 2) ∧
      (∀ mods, ms.targetLocalModulesAndTransitiveLocalDeps = .ok mods →
        cs.length ≤ 2 * mods.length + 1) ∧
      (∀ e, ms.targetLocalModulesAndTransitiveLocalDeps = .error e → cs = []) := by
  rcases Upload_count a ms uploadOptions w with ⟨cs, hcs, hlen⟩ |
    ⟨o, mods, kept, ho, hm, hk, hne, cs, hcs, hlen⟩
  · have h0 : cs = [] := List.length_eq_zero.mp (Nat.le_zero.mp hlen)
    subst h0
    exact ⟨[], hcs, fun _ _ _ => by simp, fun _ _ => by simp, fun _ _ => rfl⟩
  · refine ⟨cs, hcs, ?_, ?_, ?_⟩
    · intro o' ho' hc
      rw [ho] at ho'
      simp only [Except.ok.injEq] at ho'
      subst ho'
      simpa [hc] using hlen
    · intro mods' hm'
      rw [hm] at hm'
      simp only [Except.ok.injEq] at hm'
      subst hm'
      have hpos : 0 < kept.length := List.length_pos.mpr hne
      split_ifs at hlen <;> omega
    · intro e he
      rw [hm] at he
      cases he

theorem Upload_call_bound_witness :
    ∃ cs, (stubUploader.Upload
        (stubModuleSet [stubModule (some ⟨"buf.build", "acme", "a"⟩) "a" [],
          stubModule (some ⟨"buf.build", "acme", "b"⟩) "b" []] [])
        (.ok { stubOptions with createIfNotExist := true }) ⟨0, []⟩).2.calls = [] ++ cs ∧
      (∀ o, (.ok { stubOptions with createIfNotExist := true } : Except Error UploadOptions) =
        .ok o → o.createIfNotExist = false → cs.length ≤ 2) ∧
      (∀ mods, (stubModuleSet [stubModule (some ⟨"buf.build", "acme", "a"⟩) "a" [],
          stubModule (some ⟨"buf.build", "acme", "b"⟩) "b" []]
          []).targetLocalModulesAndTransitiveLocalDeps = .ok mods →
        cs.length ≤ 2 * mods.length + 1) ∧
      (∀ e, (stubModuleSet [stubModule (some ⟨"buf.build", "acme", "a"⟩) "a" [],
          stubModule (some ⟨"buf.build", "acme", "b"⟩) "b" []]
          []).targetLocalModulesAndTransitiveLocalDeps = .error e → cs = []) :=
  Upload_call_bound stubUploader
    (stubModuleSet [stubModule (some ⟨"buf.build", "acme", "a"⟩) "a" [],
      stubModule (some ⟨"buf.build", "acme", "b"⟩) "b" []] [])
    (.ok { stubOptions with createIfNotExist := true }) ⟨0, []⟩

end bufmoduleapi

namespace bufmoduleapi

/-- C21: for a module set of two named local modules `A` and `B` of one
registry, in this order, with `B` depending on `A`, no remote dependencies and
create-if-not-exist set, when the registry creates each module and answers the
upload with two commits, `Upload` makes exactly the create call for `A`, the
create call for `B` and one call of the simple upload endpoint with the
contents of `A` and `B` in this order, and returns the commit of `A` followed
by the commit of `B`. -/
theorem Upload_end_to_end {ρ : Type} (a : uploader ρ) (ms : ModuleSet) (o : UploadOptions)
    (w : World ρ) (A B : Module) (fa fb : FullName) (filesA filesB : List File) (v : Nat)
    (mA mB : ProtoModule) (r1 r2 r3 : ρ) (refs : List ScopedLabelRef) (cA cB : ProtoCommit)
    (uA uB : universalProtoCommit) (idA idB : UUID)
    (hms : ms.targetLocalModulesAndTransitiveLocalDeps = .ok [A, B])
    (hfa : A.fullName = some fa) (hfb : B.fullName = some fb)
    (hreg : fb.registry = fa.registry)
    (hlA : A.isLocal = true) (hlB : B.isLocal = true)
    (hdA : A.moduleDeps = .ok [])
    (hdB : B.moduleDeps = .ok [{ fullName := some fa, description := A.description }])
    (hfilesA : A.files = .ok filesA) (hfilesB : B.files = .ok filesB)
    (hremote : ms.remoteDepsForModules [A, B] = .ok [])
    (hcreate : o.createIfNotExist = true)
    (hvis : a.helpers.moduleVisibilityToV1Proto o.createModuleVisibility = .ok v)
    (hvalid : a.helpers.validateDepRegistries fa.registry [] a.publicRegistry = none)
    (hcA : a.moduleClientProvider.CreateModules fa.registry
      [{ ownerName := fa.owner, name := fa.name, visibility := v,
         defaultLabelName := o.createDefaultLabel }] w.registry = (.ok [mA], r1))
    (hcB : a.moduleClientProvider.CreateModules fa.registry
      [{ ownerName := fb.owner, name := fb.name, visibility := v,
         defaultLabelName := o.createDefaultLabel }] r1 = (.ok [mB], r2))
    (hrefs : scopedLabelRefs o [A, B] [mA, mB] = .ok refs)
    (hup : a.moduleClientProvider.V1Upload fa.registry
      { contents :=
          [{ moduleRef := { owner := fa.owner, module := fa.name }, files := filesA,
             scopedLabelRefs := refs, sourceControlUrl := o.sourceControlURL },
           { moduleRef := { owner := fb.owner, module := fb.name }, files := filesB,
             scopedLabelRefs := refs, sourceControlUrl := o.sourceControlURL }],
        depCommitIds := [] } r2 = (.ok [cA, cB], r3))
    (huA : a.helpers.newUniversalProtoCommitForV1 cA = .ok uA)
    (huB : a.helpers.newUniversalProtoCommitForV1 cB = .ok uB)
    (hidA : a.helpers.FromDashless uA.ID = .ok idA)
    (hidB : a.helpers.FromDashless uB.ID = .ok idB)
    (hkA : a.helpers.newModuleKeyError (some fa) idA = none)
    (hkB : a.helpers.newModuleKeyError (some fb) idB = none) :
    a.Upload ms (.ok o) w =
      (.ok [{ moduleKey := { fullName := some fa, commitID := idA, digest := uA.Digest },
              createTime := uA.CreateTime },
            { moduleKey := { fullName := some fb, commitID := idB, digest := uB.Digest },
              createTime := uB.CreateTime }],
       { registry := r3,
         calls := w.calls ++
           [.createModules fa.registry
              [{ ownerName := fa.owner, name := fa.name, visibility := v,
                 defaultLabelName := o.createDefaultLabel }],
            .createModules fa.registry
              [{ ownerName := fb.owner, name := fb.name, visibility := v,
                 defaultLabelName := o.createDefaultLabel }],
            .v1Upload fa.registry
              { contents :=
                  [{ moduleRef := { owner := fa.owner, module := fa.name }, files := filesA,
                     scopedLabelRefs := refs, sourceControlUrl := o.sourceControlURL },
                   { moduleRef := { owner := fb.owner, module := fb.name }, files := filesB,
                     scopedLabelRefs := refs, sourceControlUrl := o.sourceControlURL }],
                depCommitIds := [] }] }) := by
  have hurl : (if o.sourceControlURL ≠ "" then o.sourceControlURL else "") =
      o.sourceControlURL := by
    split_ifs with h
    · rfl
    · exact (not_not.mp h).symm
  have hprep : a.prepare ms (.ok o) w =
      (.ok (some
        { contentModules := [A, B], primaryRegistry := fa.registry,
          contents :=
            [{ moduleRef := { owner := fa.owner, module := fa.name }, files := filesA,
               scopedLabelRefs := refs, sourceControlUrl := o.sourceControlURL },
             { moduleRef := { owner := fb.owner, module := fb.name }, files := filesB,
               scopedLabelRefs := refs, sourceControlUrl := o.sourceControlURL }],
          depRefs := [], remoteDepRegistries := [] }),
       { registry := r2,
         calls := w.calls ++
           [.createModules fa.registry
              [{ ownerName := fa.owner, name := fa.name, visibility := v,
                 defaultLabelName := o.createDefaultLabel }],
            .createModules fa.registry
              [{ ownerName := fb.owner, name := fb.name, visibility := v,
                 defaultLabelName := o.createDefaultLabel }]] }) := by
    have hfilter : xslices.FilterError (filterContentModule o) [A, B] = .ok [A, B] := by
      simp [xslices.FilterError, filterContentModule, hfa, hfb, hdA, hdB, xslices.Reduce]
    have hsingle : getSingleRegistryForContentModules [A, B] = .ok fa.registry := by
      simp [getSingleRegistryForContentModules, hfa, hfb, hreg]
    have hresolve : a.resolveModules fa.registry o [A, B] w =
        (.ok [mA, mB],
         { registry := r2,
           calls := w.calls ++
             [.createModules fa.registry
                [{ ownerName := fa.owner, name := fa.name, visibility := v,
                   defaultLabelName := o.createDefaultLabel }],
              .createModules fa.registry
                [{ ownerName := fb.owner, name := fb.name, visibility := v,
                   defaultLabelName := o.createDefaultLabel }]] }) := by
      simp [uploader.resolveModules, hcreate, uploader.createContentModules,
        uploader.createContentModuleIfNotExist, hvis, Module.owner, Module.name, hfa, hfb,
        hcA, hcB, World.record, expectOneModule]
    have hcontents : xslices.MapError (fun module => getV1Beta1ProtoUploadRequestContent refs
        fa.registry module o.sourceControlURL) [A, B] =
        .ok [{ moduleRef := { owner := fa.owner, module := fa.name }, files := filesA,
               scopedLabelRefs := refs, sourceControlUrl := o.sourceControlURL },
             { moduleRef := { owner := fb.owner, module := fb.name }, files := filesB,
               scopedLabelRefs := refs, sourceControlUrl := o.sourceControlURL }] := by
      simp [xslices.MapError, getV1Beta1ProtoUploadRequestContent, hlA, hlB, hfa, hfb, hreg,
        hfilesA, hfilesB, hurl]
    have hregs : remoteDepRegistriesOf [] = [] := rfl
    have hlen : ¬ [A, B].length = 0 := by simp
    have hdeps : xslices.MapError (remoteDepToV1Beta1ProtoUploadRequestDepRef a.helpers) [] =
        .ok [] := rfl
    simp only [uploader.prepare, hms, hfilter, if_neg hlen, hsingle, hresolve, hrefs, hcontents,
      hremote, hdeps, hregs, hvalid]
  simp [uploader.Upload, hprep, uploader.send, uploader.uploadCommits, Prepared.federated,
    Prepared.v1Request, v1beta1ProtoUploadRequestContentToV1ProtoUploadRequestContent, hup,
    World.record, xslices.MapError, huA, huB, newCommits, newCommit, hfa, hfb, hidA, hidB,
    hkA, hkB]

theorem Upload_end_to_end_witness :
    stubUploader.Upload
      (stubModuleSet [stubModule (some ⟨"buf.build", "acme", "a"⟩) "a" [],
        stubModule (some ⟨"buf.build", "acme", "b"⟩) "b"
          [⟨some ⟨"buf.build", "acme", "a"⟩, "a"⟩]] [])
      (.ok { stubOptions with createIfNotExist := true }) ⟨0, []⟩ =
      (.ok [{ moduleKey := { fullName := some ⟨"buf.build", "acme", "a"⟩, commitID := 1,
                             digest := "digest" }, createTime := 2 },
            { moduleKey := { fullName := some ⟨"buf.build", "acme", "b"⟩, commitID := 1,
                             digest := "digest" }, createTime := 2 }],
       { registry := 3,
         calls := [] ++
           [.createModules "buf.build" [⟨"acme", "a", 0, ""⟩],
            .createModules "buf.build" [⟨"acme", "b", 0, ""⟩],
            .v1Upload "buf.build"
              { contents :=
                  [⟨⟨"acme", "a"⟩, [⟨"a.proto", "syntax"⟩], [], ""⟩,
                   ⟨⟨"acme", "b"⟩, [⟨"a.proto", "syntax"⟩], [], ""⟩],
                depCommitIds := [] }] }) :=
  Upload_end_to_end stubUploader
    (stubModuleSet [stubModule (some ⟨"buf.build", "acme", "a"⟩) "a" [],
      stubModule (some ⟨"buf.build", "acme", "b"⟩) "b"
        [⟨some ⟨"buf.build", "acme", "a"⟩, "a"⟩]] [])
    { stubOptions with createIfNotExist := true } ⟨0, []⟩
    (stubModule (some ⟨"buf.build", "acme", "a"⟩) "a" [])
    (stubModule (some ⟨"buf.build", "acme", "b"⟩) "b" [⟨some ⟨"buf.build", "acme", "a"⟩, "a"⟩])
    ⟨"buf.build", "acme", "a"⟩ ⟨"buf.build", "acme", "b"⟩
    [⟨"a.proto", "syntax"⟩] [⟨"a.proto", "syntax"⟩] 0 ⟨"a", "main"⟩ ⟨"b", "main"⟩ 1 2 3 []
    ⟨"a", "digest", 2⟩ ⟨"b", "digest", 2⟩ ⟨"a", "digest", 2⟩ ⟨"b", "digest", 2⟩ 1 1
    rfl rfl rfl rfl rfl rfl rfl rfl rfl rfl rfl rfl rfl rfl rfl rfl rfl rfl rfl rfl rfl rfl
    rfl rfl

end bufmoduleapi

namespace strings

theorem ContainsRune_iff (s : String) (r : Char) : ContainsRune s r = true ↔ r ∈ s.data := by
  simp [ContainsRune]

theorem Contains_iff (s substr : String) :
    Contains s substr = true ↔ substr.data <:+: s.data := by
  simp only [Contains, List.any_eq_true, List.mem_tails, List.isPrefixOf_iff_prefix,
    List.infix_iff_prefix_suffix]
  constructor
  · rintro ⟨t, h1, h2⟩; exact ⟨t, h2, h1⟩
  · rintro ⟨t, h1, h2⟩; exact ⟨t, h2, h1⟩

end strings

namespace normalpath

/-- C28: `Normalize` sends the empty path and `.` to `.`, and never returns
the empty string. -/
theorem Normalize_never_empty :
    Normalize "" = "." ∧ Normalize "." = "." ∧ ∀ path : String, Normalize path ≠ "" := by
  refine ⟨by decide, by decide, ?_⟩
  intro path h
  have key : ∀ out : List Char, (if (out.length == 0) = true then ['.'] else out.reverse) ≠ [] := by
    intro out
    split_ifs with h0
    · simp
    · intro h1
      rw [List.reverse_eq_nil_iff] at h1
      simp [h1] at h0
  have h1 : filepath.cleanChars path.data = [] := by
    have := congrArg String.data h
    simpa [Normalize, filepath.ToSlash, filepath.Clean] using this
  unfold filepath.cleanChars at h1
  cases hp : path.data with
  | nil => rw [hp] at h1; cases h1
  | cons c rest =>
    rw [hp] at h1
    exact key _ h1

/-- C29: `ChunkByDir` returns no chunk for no paths, and for at least one path
and a suggested chunk size that is zero or negative it returns the paths as
the one chunk. -/
theorem ChunkByDir_degenerate (paths : List String) (suggestedChunkSize : Int) :
    ChunkByDir [] suggestedChunkSize = [] ∧
    (paths ≠ [] → suggestedChunkSize ≤ 0 → ChunkByDir paths suggestedChunkSize = [paths]) := by
  constructor
  · simp [ChunkByDir]
  · intro hne hsize
    have hlen : ¬ paths.length = 0 := fun h => hne (List.length_eq_zero.mp h)
    simp [ChunkByDir, hlen, hsize]

theorem ChunkByDir_degenerate_witness :
    ChunkByDir [] (-1) = [] ∧
    ChunkByDir ["b/x.proto", "a/y.proto", "b/z.proto"] (-1) =
      [["b/x.proto", "a/y.proto", "b/z.proto"]] :=
  ⟨(ChunkByDir_degenerate ["b/x.proto", "a/y.proto", "b/z.proto"] (-1)).1,
   (ChunkByDir_degenerate ["b/x.proto", "a/y.proto", "b/z.proto"] (-1)).2 (by decide)
     (by decide)⟩

/-- C27: `ValidatePathComponent` returns an error exactly when the component
is empty, contains `/`, contains `..`, or differs from its URL path-escaped
form; `ValidatePathComponents` returns no error exactly when every component
is valid. -/
theorem ValidatePathComponent_error_iff :
    (∀ component : String, ValidatePathComponent component ≠ none ↔
      (component = "" ∨ '/' ∈ component.data ∨ ['.', '.'] <:+: component.data ∨
        url.PathEscape component ≠ component)) ∧
    (∀ components : List String, ValidatePathComponents components = none ↔
      ∀ component ∈ components, ValidatePathComponent component = none) := by
  constructor
  · intro component
    have h1 := strings.ContainsRune_iff component '/'
    have h2 := strings.Contains_iff component ".."
    unfold ValidatePathComponent
    by_cases he : component = ""
    · rw [if_pos he]
      simp [he]
    rw [if_neg he]
    by_cases hs : strings.ContainsRune component '/' = true
    · rw [if_pos hs]
      simp [h1.mp hs]
    rw [if_neg hs]
    by_cases hd : strings.Contains component ".." = true
    · rw [if_pos hd]
      have h3 : ['.', '.'] <:+: component.data := h2.mp hd
      simp [h3]
    rw [if_neg hd]
    have h1' : ¬ '/' ∈ component.data := fun h => hs (h1.mpr h)
    have h2' : ¬ ['.', '.'] <:+: component.data := fun h => hd (h2.mpr h)
    by_cases hp : url.PathEscape component = component
    · rw [if_neg (not_not.mpr hp)]
      simp [he, hp, h1', h2']
    · rw [if_pos hp]
      simp [hp]
  · intro components
    induction components with
    | nil => simp [ValidatePathComponents]
    | cons c cs ih =>
      cases hc : ValidatePathComponent c with
      | none => simp [ValidatePathComponents, hc, ih]
      | some e => simp [ValidatePathComponents, hc]

end normalpath

namespace bufremotepluginconfig

theorem countRegistries_eq (env : Env) (l : List Bool) (n : Nat) (hn : n ≤ 1) :
    countRegistries env l n =
      if 1 < n + (l.filter (fun b => !b)).length then
        .error (.new "%s configuration contains multiple registry configurations"
          [env.ExternalConfigFilePath])
      else .ok (n + (l.filter (fun b => !b)).length) := by
  induction l generalizing n with
  | nil => simp [countRegistries, Nat.not_lt.mpr hn]
  | cons b rest ih =>
    cases b with
    | false =>
      simp only [countRegistries, Bool.not_false, if_true, List.filter_cons_of_pos,
        List.length_cons]
      by_cases h1 : n + 1 > 1
      · rw [if_pos h1, if_pos (by omega)]
      · rw [if_neg h1, ih (n + 1) (by omega)]
        have : n + ((List.filter (fun b => !b) rest).length + 1) =
            n + 1 + (List.filter (fun b => !b) rest).length := by omega
        rw [this]
    | true =>
      simp only [countRegistries, Bool.not_true, Bool.false_eq_true, if_false,
        not_false_eq_true, List.filter_cons_of_neg]
      rw [if_neg (by omega), ih n hn]

theorem filter_isNone_length (l : List Bool) :
    ((l.map (fun b => !b)).filter (fun b => !b)).length = (l.filter id).length := by
  induction l with
  | nil => rfl
  | cons b rest ih => cases b <;> simp [ih]

theorem countRegistries_registryCount (env : Env) (c : ExternalRegistryConfig) :
    countRegistries env [c.Go.isNone, c.NPM.isNone, c.Maven.isNone, c.Swift.isNone,
      c.Python.isNone, c.Cargo.isNone, c.Nuget.isNone, c.Cmake.isNone] 0 =
      if 1 < c.registryCount then
        .error (.new "%s configuration contains multiple registry configurations"
          [env.ExternalConfigFilePath])
      else .ok c.registryCount := by
  rw [countRegistries_eq env _ 0 (by omega)]
  have h : [c.Go.isNone, c.NPM.isNone, c.Maven.isNone, c.Swift.isNone,
      c.Python.isNone, c.Cargo.isNone, c.Nuget.isNone, c.Cmake.isNone] =
      [c.Go.isSome, c.NPM.isSome, c.Maven.isSome, c.Swift.isSome, c.Python.isSome,
        c.Cargo.isSome, c.Nuget.isSome, c.Cmake.isSome].map (fun b => !b) := by
    simp
  rw [h, filter_isNone_length]
  simp only [ExternalRegistryConfig.registryCount, zero_add]

theorem newGoRegistryConfig_some (env : Env) (x : ExternalGoRegistryConfig)
    (pluginDependencies : List PluginReference) (overrideRemote : String) :
    ∃ r : Except Error GoRegistryConfig,
      newGoRegistryConfig env (some x) pluginDependencies overrideRemote = r.map some := by
  unfold newGoRegistryConfig
  simp only
  repeat' split
  all_goals first | exact ⟨.error _, rfl⟩ | exact ⟨.ok _, rfl⟩

theorem newNPMRegistryConfig_some (x : ExternalNPMRegistryConfig) :
    ∃ r : Except Error NPMRegistryConfig, newNPMRegistryConfig (some x) = r.map some := by
  unfold newNPMRegistryConfig
  simp only
  repeat' split
  all_goals first | exact ⟨.error _, rfl⟩ | exact ⟨.ok _, rfl⟩

theorem newMavenRegistryConfig_some (x : ExternalMavenRegistryConfig) :
    ∃ r : Except Error MavenRegistryConfig, newMavenRegistryConfig (some x) = r.map some := by
  unfold newMavenRegistryConfig
  simp only
  repeat' split
  all_goals first | exact ⟨.error _, rfl⟩ | exact ⟨.ok _, rfl⟩

theorem newSwiftRegistryConfig_some (env : Env) (x : ExternalSwiftRegistryConfig) :
    ∃ r : Except Error SwiftRegistryConfig, newSwiftRegistryConfig env (some x) = r.map some := by
  unfold newSwiftRegistryConfig
  simp only
  repeat' split
  all_goals first | exact ⟨.error _, rfl⟩ | exact ⟨.ok _, rfl⟩

theorem newPythonRegistryConfig_some (x : ExternalPythonRegistryConfig) :
    ∃ r : Except Error PythonRegistryConfig, newPythonRegistryConfig (some x) = r.map some := by
  unfold newPythonRegistryConfig
  simp only
  repeat' split
  all_goals first | exact ⟨.error _, rfl⟩ | exact ⟨.ok _, rfl⟩

theorem newCargoRegistryConfig_some (x : ExternalCargoRegistryConfig) :
    ∃ r : Except Error CargoRegistryConfig, newCargoRegistryConfig (some x) = r.map some := by
  unfold newCargoRegistryConfig
  simp only
  repeat' split
  all_goals first | exact ⟨.error _, rfl⟩ | exact ⟨.ok _, rfl⟩

theorem newNugetRegistryConfig_some (env : Env) (x : ExternalNugetRegistryConfig) :
    ∃ r : Except Error NugetRegistryConfig, newNugetRegistryConfig env x = r.map some := by
  unfold newNugetRegistryConfig
  repeat' split
  all_goals first | exact ⟨.error _, rfl⟩ | exact ⟨.ok _, rfl⟩

theorem newCmakeRegistryConfig_some (x : ExternalCmakeRegistryConfig) :
    ∃ r : Except Error CmakeRegistryConfig, newCmakeRegistryConfig (some x) = r.map some :=
  ⟨.ok {}, rfl⟩

end bufremotepluginconfig

namespace bufremotepluginconfig

/-- C30: `newRegistryConfig` returns the multiple-registries error when more
than one of the Go, NPM, Maven, Swift, Python, Cargo, Nuget and Cmake
configurations is set, and a nil configuration with no error when none is
set.  When exactly one is set, the constructor of that registry returns an
error or a configuration, never nil; its error is returned as it is, and its
configuration is returned in a `RegistryConfig` whose only registry field
that is not nil is the field of that registry. -/
theorem newRegistryConfig_one_registry (env : Env) (pluginDependencies : List PluginReference)
    (overrideRemote : String) :
    (∀ c : ExternalRegistryConfig, 1 < c.registryCount →
      newRegistryConfig env c pluginDependencies overrideRemote =
        .error (.new "%s configuration contains multiple registry configurations"
          [env.ExternalConfigFilePath])) ∧
    (∀ c : ExternalRegistryConfig, c.registryCount = 0 →
      newRegistryConfig env c pluginDependencies overrideRemote = .ok none) ∧
    (∀ x opts, ∃ r : Except Error GoRegistryConfig,
      newGoRegistryConfig env (some x) pluginDependencies overrideRemote = r.map some ∧
      newRegistryConfig env { Go := some x, Opts := opts } pluginDependencies overrideRemote =
        r.map (fun cfg =>
          some { Go := some cfg, Options := env.OptionsSliceToPluginOptions opts })) ∧
    (∀ x opts, ∃ r : Except Error NPMRegistryConfig,
      newNPMRegistryConfig (some x) = r.map some ∧
      newRegistryConfig env { NPM := some x, Opts := opts } pluginDependencies overrideRemote =
        r.map (fun cfg =>
          some { NPM := some cfg, Options := env.OptionsSliceToPluginOptions opts })) ∧
    (∀ x opts, ∃ r : Except Error MavenRegistryConfig,
      newMavenRegistryConfig (some x) = r.map some ∧
      newRegistryConfig env { Maven := some x, Opts := opts } pluginDependencies overrideRemote =
        r.map (fun cfg =>
          some { Maven := some cfg, Options := env.OptionsSliceToPluginOptions opts })) ∧
    (∀ x opts, ∃ r : Except Error SwiftRegistryConfig,
      newSwiftRegistryConfig env (some x) = r.map some ∧
      newRegistryConfig env { Swift := some x, Opts := opts } pluginDependencies overrideRemote =
        r.map (fun cfg =>
          some { Swift := some cfg, Options := env.OptionsSliceToPluginOptions opts })) ∧
    (∀ x opts, ∃ r : Except Error PythonRegistryConfig,
      newPythonRegistryConfig (some x) = r.map some ∧
      newRegistryConfig env { Python := some x, Opts := opts } pluginDependencies overrideRemote =
        r.map (fun cfg =>
          some { Python := some cfg, Options := env.OptionsSliceToPluginOptions opts })) ∧
    (∀ x opts, ∃ r : Except Error CargoRegistryConfig,
      newCargoRegistryConfig (some x) = r.map some ∧
      newRegistryConfig env { Cargo := some x, Opts := opts } pluginDependencies overrideRemote =
        r.map (fun cfg =>
          some { Cargo := some cfg, Options := env.OptionsSliceToPluginOptions opts })) ∧
    (∀ x opts, ∃ r : Except Error NugetRegistryConfig,
      newNugetRegistryConfig env x = r.map some ∧
      newRegistryConfig env { Nuget := some x, Opts := opts } pluginDependencies overrideRemote =
        r.map (fun cfg =>
          some { Nuget := some cfg, Options := env.OptionsSliceToPluginOptions opts })) ∧
    (∀ x opts, ∃ r : Except Error CmakeRegistryConfig,
      newCmakeRegistryConfig (some x) = r.map some ∧
      newRegistryConfig env { Cmake := some x, Opts := opts } pluginDependencies overrideRemote =
        r.map (fun cfg =>
          some { Cmake := some cfg, Options := env.OptionsSliceToPluginOptions opts })) := by
  refine ⟨?_, ?_, ?_, ?_, ?_, ?_, ?_, ?_, ?_, ?_⟩
  · intro c hc
    simp only [newRegistryConfig, countRegistries_registryCount, if_pos hc]
  · intro c hc
    simp [newRegistryConfig, countRegistries_registryCount, hc]
  · intro x opts
    obtain ⟨r, hr⟩ := newGoRegistryConfig_some env x pluginDependencies overrideRemote
    refine ⟨r, hr, ?_⟩
    simp only [newRegistryConfig, countRegistries, hr]
    cases r <;> simp [Except.map]
  · intro x opts
    obtain ⟨r, hr⟩ := newNPMRegistryConfig_some x
    refine ⟨r, hr, ?_⟩
    simp only [newRegistryConfig, countRegistries, hr]
    cases r <;> simp [Except.map]
  · intro x opts
    obtain ⟨r, hr⟩ := newMavenRegistryConfig_some x
    refine ⟨r, hr, ?_⟩
    simp only [newRegistryConfig, countRegistries, hr]
    cases r <;> simp [Except.map]
  · intro x opts
    obtain ⟨r, hr⟩ := newSwiftRegistryConfig_some env x
    refine ⟨r, hr, ?_⟩
    simp only [newRegistryConfig, countRegistries, hr]
    cases r <;> simp [Except.map]
  · intro x opts
    obtain ⟨r, hr⟩ := newPythonRegistryConfig_some x
    refine ⟨r, hr, ?_⟩
    simp only [newRegistryConfig, countRegistries, hr]
    cases r <;> simp [Except.map]
  · intro x opts
    obtain ⟨r, hr⟩ := newCargoRegistryConfig_some x
    refine ⟨r, hr, ?_⟩
    simp only [newRegistryConfig, countRegistries, hr]
    cases r <;> simp [Except.map]
  · intro x opts
    obtain ⟨r, hr⟩ := newNugetRegistryConfig_some env x
    refine ⟨r, hr, ?_⟩
    simp only [newRegistryConfig, countRegistries, hr]
    cases r <;> simp [Except.map]
  · intro x opts
    obtain ⟨r, hr⟩ := newCmakeRegistryConfig_some x
    refine ⟨r, hr, ?_⟩
    simp only [newRegistryConfig, countRegistries, hr]
    cases r <;> simp [Except.map]

theorem newRegistryConfig_one_registry_witness :
    newRegistryConfig stubEnv
        { NPM := some ⟨"", [⟨"@bufbuild/protobuf", "1.0.0"⟩], "module"⟩, Cmake := some {} }
        [] "" =
      .error (.new "%s configuration contains multiple registry configurations"
        ["buf.plugin.yaml"]) ∧
    newRegistryConfig stubEnv {} [] "" = .ok none ∧
    ∃ r : Except Error NPMRegistryConfig,
      newNPMRegistryConfig (some ⟨"", [⟨"@bufbuild/protobuf", "1.0.0"⟩], "module"⟩) =
        r.map some ∧
      newRegistryConfig stubEnv
          { NPM := some ⟨"", [⟨"@bufbuild/protobuf", "1.0.0"⟩], "module"⟩, Opts := [] } [] "" =
        r.map (fun cfg =>
          some { NPM := some cfg, Options := stubEnv.OptionsSliceToPluginOptions [] }) :=
  ⟨(newRegistryConfig_one_registry stubEnv [] "").1
      { NPM := some ⟨"", [⟨"@bufbuild/protobuf", "1.0.0"⟩], "module"⟩, Cmake := some {} }
      (by decide),
   (newRegistryConfig_one_registry stubEnv [] "").2.1 {} (by decide),
   (newRegistryConfig_one_registry stubEnv [] "").2.2.2.1
      ⟨"", [⟨"@bufbuild/protobuf", "1.0.0"⟩], "module"⟩ []⟩

end bufremotepluginconfig

namespace bufmoduleapi

/-- A dependency reference that `remoteDepToV1Beta1ProtoUploadRequestDepRef`
returns has the dashless commit id and the registry of the dependency. -/
theorem remoteDepToDepRef_ok (h : Helpers) (d : RemoteDep) (ref : DepRef)
    (hd : remoteDepToV1Beta1ProtoUploadRequestDepRef h d = .ok ref) :
    ∃ fn, d.fullName = some fn ∧
      ref = { commitId := h.ToDashless d.commitID, registry := fn.registry } := by
  unfold remoteDepToV1Beta1ProtoUploadRequestDepRef at hd
  cases hfn : d.fullName with
  | none => rw [hfn] at hd; cases hd
  | some fn =>
    rw [hfn] at hd
    simp only at hd
    split_ifs at hd
    simp only [Except.ok.injEq] at hd
    exact ⟨fn, rfl, hd.symm⟩

/-- The content that `getV1Beta1ProtoUploadRequestContent` returns is the
content of its module. -/
theorem getContent_ok_moduleRef (refs : List ScopedLabelRef) (primaryRegistry : String)
    (m : Module) (url : String) (c : UploadRequestContent)
    (h : getV1Beta1ProtoUploadRequestContent refs primaryRegistry m url = .ok c) :
    ∃ fn, m.fullName = some fn ∧ c.moduleRef = { owner := fn.owner, module := fn.name } ∧
      m.files = .ok c.files := by
  simp only [getV1Beta1ProtoUploadRequestContent] at h
  repeat' split at h
  all_goals cases h
  all_goals exact ⟨_, by assumption, rfl, by assumption⟩

theorem forall₂_map_eq {α β γ : Type} {R : α → β → Prop} (f : α → γ) (g : β → γ)
    {l : List α} {r : List β} (h : List.Forall₂ R l r) (hR : ∀ a b, R a b → f a = g b) :
    l.map f = r.map g := by
  induction h with
  | nil => rfl
  | cons hab _ ih => simp [hR _ _ hab, ih]

/-- C31: in a request that `Upload` has prepared, the dependency list of the
simple request is the list of the dashless commit ids of the remote
dependencies, one for each remote dependency in their order, and it is the
list of the commit ids of the dependency references of the federated request;
each dependency reference of the federated request is the pair of the dashless
commit id and the registry of its remote dependency; in both requests the
contents are the contents of the content modules in their order; and the
upload call carries one of the two requests. -/
theorem Upload_request_forms {ρ : Type} (a : uploader ρ) (ms : ModuleSet) (o : UploadOptions)
    (w w1 : World ρ) (p : Prepared) (h : a.prepare ms (.ok o) w = (.ok (some p), w1)) :
    ∃ remoteDeps : List RemoteDep,
      ms.remoteDepsForModules p.contentModules = .ok remoteDeps ∧
      p.v1Request.depCommitIds =
        remoteDeps.map (fun remoteDep => a.helpers.ToDashless remoteDep.commitID) ∧
      p.v1Request.depCommitIds =
        p.v1beta1Request.depRefs.map (fun depRef => depRef.commitId) ∧
      List.Forall₂ (fun remoteDep depRef => ∃ fn, remoteDep.fullName = some fn ∧
          depRef = { commitId := a.helpers.ToDashless remoteDep.commitID,
                     registry := fn.registry })
        remoteDeps p.v1beta1Request.depRefs ∧
      List.Forall₂ (fun module content => ∃ fn, module.fullName = some fn ∧
          content.moduleRef = { owner := fn.owner, module := fn.name } ∧
          module.files = .ok content.files)
        p.contentModules p.v1beta1Request.contents ∧
      List.Forall₂ (fun module content => ∃ fn, module.fullName = some fn ∧
          content.moduleRef = { owner := fn.owner, module := fn.name } ∧
          module.files = .ok content.files)
        p.contentModules p.v1Request.contents ∧
      (a.send p w1).2.calls = w1.calls ++
        [if p.federated then Call.v1beta1Upload p.primaryRegistry p.v1beta1Request
         else Call.v1Upload p.primaryRegistry p.v1Request] := by
  obtain ⟨o', mods, modules, refs, remoteDeps, ho, -, -, -, -, -, -, hcontents, hdeps, hrefs, -⟩ :=
    prepare_some a ms (.ok o) w w1 p h
  simp only [Except.ok.injEq] at ho
  subst ho
  have h1 : List.Forall₂ (fun remoteDep depRef => ∃ fn, remoteDep.fullName = some fn ∧
      depRef = { commitId := a.helpers.ToDashless remoteDep.commitID,
                 registry := fn.registry }) remoteDeps p.depRefs :=
    (xslices.MapError_ok _ _ _ hrefs).imp (fun {d ref} hd => remoteDepToDepRef_ok _ d ref hd)
  have h2 : List.Forall₂ (fun module content => ∃ fn, module.fullName = some fn ∧
      content.moduleRef = { owner := fn.owner, module := fn.name } ∧
      module.files = .ok content.files) p.contentModules p.contents :=
    (xslices.MapError_ok _ _ _ hcontents).imp
      (fun {m c} hm => getContent_ok_moduleRef _ _ m _ c hm)
  refine ⟨remoteDeps, hdeps, ?_, rfl, h1, h2, ?_, ?_⟩
  · simp only [Prepared.v1Request]
    refine (forall₂_map_eq _ _ h1 ?_).symm
    rintro d ref ⟨fn, -, rfl⟩
    rfl
  · simp only [Prepared.v1Request]
    rw [List.forall₂_map_right_iff]
    exact h2
  · rw [send_world a p w1]
    exact uploadCommits_world a p w1

theorem Upload_request_forms_witness :
    ∃ remoteDeps : List RemoteDep,
      (stubModuleSet [stubModule (some ⟨"buf.build", "acme", "a"⟩) "a" []]
        [⟨some ⟨"buf.build", "acme", "d"⟩, 3, "d"⟩, ⟨some ⟨"buf.build", "acme", "e"⟩, 1, "e"⟩]
        ).remoteDepsForModules [stubModule (some ⟨"buf.build", "acme", "a"⟩) "a" []] =
        .ok remoteDeps ∧
      (["ccc", "c"] : List String) =
        remoteDeps.map (fun remoteDep => stubHelpers.ToDashless remoteDep.commitID) :=
  let ⟨remoteDeps, h1, h2, _⟩ := Upload_request_forms stubUploader
    (stubModuleSet [stubModule (some ⟨"buf.build", "acme", "a"⟩) "a" []]
      [⟨some ⟨"buf.build", "acme", "d"⟩, 3, "d"⟩, ⟨some ⟨"buf.build", "acme", "e"⟩, 1, "e"⟩])
    stubOptions ⟨0, []⟩ ⟨1, [.getModules "buf.build" [⟨"acme", "a"⟩]]⟩
    ⟨[stubModule (some ⟨"buf.build", "acme", "a"⟩) "a" []], "buf.build",
     [⟨⟨"acme", "a"⟩, [⟨"a.proto", "syntax"⟩], [], ""⟩],
     [⟨"ccc", "buf.build"⟩, ⟨"c", "buf.build"⟩], ["buf.build"]⟩ (by decide)
  ⟨remoteDeps, h1, h2⟩

end bufmoduleapi

namespace strings

theorem isPrefixOf_cons_ne {c x : Char} (sep s : List Char) (h : x ≠ c) :
    (c :: sep).isPrefixOf (x :: s) = false := by
  simp [List.isPrefixOf, Ne.symm h]

theorem isPrefixOf_append_self (sep s : List Char) : sep.isPrefixOf (sep ++ s) = true := by
  rw [List.isPrefixOf_iff_prefix]
  exact List.prefix_append sep s

/-- The first occurrence of a separator whose first character does not occur
before it. -/
theorem cutChars_of_not_mem (c : Char) (sep pre post : List Char) (h : c ∉ pre) :
    cutChars (c :: sep) (pre ++ (c :: sep) ++ post) = some (pre, post) := by
  induction pre with
  | nil =>
    have h1 := isPrefixOf_append_self (c :: sep) post
    simp only [List.nil_append, List.cons_append] at h1 ⊢
    simp only [cutChars, h1, if_true, List.length_cons]
    simp
  | cons x pre ih =>
    have hx : x ≠ c := fun hxc => h (by simp [hxc])
    have hpre : c ∉ pre := fun hc => h (List.mem_cons_of_mem _ hc)
    simp only [List.cons_append, cutChars, isPrefixOf_cons_ne _ _ hx]
    have := ih hpre
    simp only [List.cons_append, List.append_assoc] at this
    simp [this]

theorem cutChars_none_of_not_mem (c : Char) (sep s : List Char) (h : c ∉ s) :
    cutChars (c :: sep) s = none := by
  induction s with
  | nil => simp [cutChars]
  | cons x s ih =>
    have hx : x ≠ c := fun hxc => h (by simp [hxc])
    have hs : c ∉ s := fun hc => h (List.mem_cons_of_mem _ hc)
    simp [cutChars, isPrefixOf_cons_ne _ _ hx, ih hs]

/-- Every list of characters is cut at the first occurrence of a character,
or does not contain it. -/
theorem split_at_first (c : Char) (s : List Char) :
    c ∉ s ∨ ∃ pre post, c ∉ pre ∧ s = pre ++ c :: post := by
  induction s with
  | nil => exact Or.inl (by simp)
  | cons x s ih =>
    by_cases hx : x = c
    · exact Or.inr ⟨[], s, by simp, by simp [hx]⟩
    · rcases ih with h | ⟨pre, post, h1, h2⟩
      · exact Or.inl (by simp [Ne.symm hx, h])
      · exact Or.inr ⟨x :: pre, post, by simp [Ne.symm hx, h1], by simp [h2]⟩

theorem splitChars_ne_nil (sep : Char) (s : List Char) : splitChars sep s ≠ [] := by
  induction s with
  | nil => simp [splitChars]
  | cons c cs ih =>
    simp only [splitChars]
    split_ifs
    · simp
    · split <;> simp

theorem splitChars_sepFree (sep : Char) (s : List Char) :
    ∀ field ∈ splitChars sep s, sep ∉ field := by
  induction s with
  | nil => simp [splitChars]
  | cons c cs ih =>
    simp only [splitChars]
    split_ifs with hc
    · intro field hf
      rcases List.mem_cons.mp hf with rfl | hf
      · simp
      · exact ih field hf
    · cases hs : splitChars sep cs with
      | nil => exact absurd hs (splitChars_ne_nil sep cs)
      | cons field fields =>
        rw [hs] at ih
        intro f hf
        rcases List.mem_cons.mp hf with rfl | hf
        · have := ih field (List.mem_cons_self _ _)
          simp [Ne.symm hc, this]
        · exact ih f (List.mem_cons_of_mem _ hf)

theorem joinChars_cons_cons (sep elem elem2 : List Char) (elems : List (List Char)) :
    joinChars sep (elem :: elem2 :: elems) = elem ++ sep ++ joinChars sep (elem2 :: elems) :=
  rfl

theorem joinChars_splitChars (sep : Char) (s : List Char) :
    joinChars [sep] (splitChars sep s) = s := by
  induction s with
  | nil => rfl
  | cons c cs ih =>
    simp only [splitChars]
    split_ifs with hc
    · cases hs : splitChars sep cs with
      | nil => exact absurd hs (splitChars_ne_nil sep cs)
      | cons field fields =>
        rw [hs] at ih
        rw [joinChars_cons_cons, ih, hc]
        rfl
    · cases hs : splitChars sep cs with
      | nil => exact absurd hs (splitChars_ne_nil sep cs)
      | cons field fields =>
        rw [hs] at ih
        cases fields with
        | nil =>
          simp only [joinChars] at ih ⊢
          rw [ih]
        | cons field2 fields =>
          rw [joinChars_cons_cons] at ih ⊢
          simp only [List.cons_append, List.append_assoc] at ih ⊢
          rw [ih]

theorem splitChars_append_sep (sep : Char) (field rest : List Char) (h : sep ∉ field) :
    splitChars sep (field ++ sep :: rest) = field :: splitChars sep rest := by
  induction field with
  | nil => simp [splitChars]
  | cons x field ih =>
    have hx : x ≠ sep := fun hxc => h (by simp [hxc])
    have hf : sep ∉ field := fun hc => h (List.mem_cons_of_mem _ hc)
    have h1 := ih hf
    simp only [List.cons_append, splitChars, if_neg hx]
    rw [show field.append (sep :: rest) = field ++ sep :: rest from rfl, h1]

theorem splitChars_sepFree_eq (sep : Char) (field : List Char) (h : sep ∉ field) :
    splitChars sep field = [field] := by
  induction field with
  | nil => rfl
  | cons x field ih =>
    have hx : x ≠ sep := fun hxc => h (by simp [hxc])
    have hf : sep ∉ field := fun hc => h (List.mem_cons_of_mem _ hc)
    simp only [splitChars, if_neg hx, ih hf]

/-- Splitting the join of separator-free fields gives the fields back. -/
theorem splitChars_joinChars (sep : Char) (fields : List (List Char)) (hne : fields ≠ [])
    (h : ∀ field ∈ fields, sep ∉ field) : splitChars sep (joinChars [sep] fields) = fields := by
  induction fields with
  | nil => exact absurd rfl hne
  | cons field fields ih =>
    cases fields with
    | nil => exact splitChars_sepFree_eq sep field (h field (List.mem_cons_self _ _))
    | cons field2 fields =>
      rw [joinChars_cons_cons]
      simp only [List.append_assoc, List.singleton_append]
      rw [splitChars_append_sep sep field _ (h field (List.mem_cons_self _ _)),
        ih (by simp) (fun f hf => h f (List.mem_cons_of_mem _ hf))]

theorem mem_joinChars (sep : Char) (c : Char) (fields : List (List Char))
    (hc : c ∈ joinChars [sep] fields) : c = sep ∨ ∃ field ∈ fields, c ∈ field := by
  induction fields with
  | nil => simp [joinChars] at hc
  | cons field fields ih =>
    cases fields with
    | nil => exact Or.inr ⟨field, List.mem_cons_self _ _, hc⟩
    | cons field2 fields =>
      rw [joinChars_cons_cons] at hc
      simp only [List.append_assoc, List.singleton_append, List.mem_append,
        List.mem_cons] at hc
      rcases hc with hc | hc | hc
      · exact Or.inr ⟨field, List.mem_cons_self _ _, hc⟩
      · exact Or.inl hc
      · rcases ih hc with h | ⟨f, hf, hcf⟩
        · exact Or.inl h
        · exact Or.inr ⟨f, List.mem_cons_of_mem _ hf, hcf⟩

end strings

namespace bufremotepluginconfig

theorem Split_Join (fields : List String) (hne : fields ≠ [])
    (h : ∀ field ∈ fields, ':' ∉ field.data) :
    strings.Split (strings.Join fields ":") ':' = fields := by
  have h1 := strings.splitChars_joinChars ':' (fields.map String.data) (by simpa using hne)
    (by
      intro f hf
      obtain ⟨g, hg, rfl⟩ := List.mem_map.mp hf
      exact h g hg)
  simp only [strings.Split, strings.Join]
  rw [h1, List.map_map]
  have : (String.mk ∘ String.data) = id := by funext x; rfl
  rw [this, List.map_id]

theorem Cut_mavenDependencyString (fields : List String) (type : Option String)
    (h : ∀ field ∈ fields, '@' ∉ field.data) :
    strings.Cut (mavenDependencyString fields type) "@" =
      (strings.Join fields ":", type.getD "", type.isSome) := by
  have hjoin : '@' ∉ strings.joinChars [':'] (fields.map String.data) := by
    intro hc
    rcases strings.mem_joinChars ':' '@' _ hc with h1 | ⟨f, hf, hcf⟩
    · exact absurd h1 (by decide)
    · obtain ⟨g, hg, rfl⟩ := List.mem_map.mp hf
      exact h g hg hcf
  cases type with
  | none =>
    have h1 := strings.cutChars_none_of_not_mem '@' [] _ hjoin
    simp only [strings.Cut, mavenDependencyString, strings.Join, String.append_empty]
    rw [h1]
    rfl
  | some t =>
    have h1 := strings.cutChars_of_not_mem '@' [] _ t.data hjoin
    simp only [strings.Cut, mavenDependencyString, strings.Join, String.data_append]
    simp only [List.append_assoc] at h1
    rw [h1]
    rfl

/-- C34: `mavenExternalDependencyToDependencyConfig` on the string made of
fields without `:` and `@`, joined by `:`, and an optional `@` and type:
with 3 or 4 fields it returns the fields as GroupID, ArtifactID, Version and
(with 4 fields) Classifier, and the type as Extension, empty without `@`; with
another number of fields it returns an error.  Every string is of this form,
the fields being the part before the first `@` split at `:`. -/
theorem mavenExternalDependency_parse :
    (∀ (fields : List String) (type : Option String), fields ≠ [] →
      (∀ field ∈ fields, ':' ∉ field.data ∧ '@' ∉ field.data) →
      ((fields.length = 3 ∨ fields.length = 4) →
        mavenExternalDependencyToDependencyConfig (mavenDependencyString fields type) =
          .ok { GroupID := fields.getD 0 "", ArtifactID := fields.getD 1 "",
                Version := fields.getD 2 "",
                Classifier := if fields.length = 4 then fields.getD 3 "" else "",
                Extension := type.getD "" }) ∧
      (¬ (fields.length = 3 ∨ fields.length = 4) →
        ∃ err, mavenExternalDependencyToDependencyConfig (mavenDependencyString fields type) =
          .error err)) ∧
    (∀ dependency : String, ∃ (fields : List String) (type : Option String),
      fields ≠ [] ∧ (∀ field ∈ fields, ':' ∉ field.data ∧ '@' ∉ field.data) ∧
      dependency = mavenDependencyString fields type) := by
  constructor
  · intro fields type hne hfields
    have hcut := Cut_mavenDependencyString fields type (fun f hf => (hfields f hf).2)
    have hsplit := Split_Join fields hne (fun f hf => (hfields f hf).1)
    constructor
    · intro hlen
      have h3 : ¬ fields.length < 3 := by omega
      have h4 : ¬ fields.length > 4 := by omega
      simp only [mavenExternalDependencyToDependencyConfig, hcut, hsplit, if_neg h3, if_neg h4]
    · intro hlen
      simp only [mavenExternalDependencyToDependencyConfig, hcut, hsplit]
      by_cases h3 : fields.length < 3
      · exact ⟨_, by rw [if_pos h3]⟩
      · have h4 : fields.length > 4 := by omega
        exact ⟨_, by rw [if_neg h3, if_pos h4]⟩
  · intro dependency
    have key : ∀ s : List Char, '@' ∉ s → ∃ fields : List String, fields ≠ [] ∧
        (∀ field ∈ fields, ':' ∉ field.data ∧ '@' ∉ field.data) ∧
        s = (strings.Join fields ":").data := by
      intro s hs
      refine ⟨(strings.splitChars ':' s).map String.mk, ?_, ?_, ?_⟩
      · simpa using strings.splitChars_ne_nil ':' s
      · intro f hf
        obtain ⟨g, hg, rfl⟩ := List.mem_map.mp hf
        refine ⟨strings.splitChars_sepFree ':' s g hg, ?_⟩
        intro hc
        apply hs
        rw [← strings.joinChars_splitChars ':' s]
        clear hs
        have : ∀ fields : List (List Char), g ∈ fields → '@' ∈ strings.joinChars [':'] fields := by
          intro fields
          induction fields with
          | nil => simp
          | cons f fs ih =>
            intro hmem
            cases fs with
            | nil =>
              simp only [List.mem_singleton] at hmem
              subst hmem
              exact hc
            | cons f2 fs =>
              rw [strings.joinChars_cons_cons]
              rcases List.mem_cons.mp hmem with rfl | hmem
              · simp [hc]
              · simp [ih hmem]
        exact this _ hg
      · simp only [strings.Join, List.map_map]
        have : (String.data ∘ String.mk) = id := by funext x; rfl
        rw [this, List.map_id, strings.joinChars_splitChars]
    rcases strings.split_at_first '@' dependency.data with h | ⟨pre, post, h1, h2⟩
    · obtain ⟨fields, hne, hf, hs⟩ := key dependency.data h
      refine ⟨fields, none, hne, hf, ?_⟩
      apply String.ext
      simp [mavenDependencyString, hs]
    · obtain ⟨fields, hne, hf, hs⟩ := key pre h1
      refine ⟨fields, some ⟨post⟩, hne, hf, ?_⟩
      apply String.ext
      simp only [mavenDependencyString, String.data_append, ← hs, h2]
      rfl

theorem mavenExternalDependency_parse_witness :
    mavenExternalDependencyToDependencyConfig
        (mavenDependencyString ["org.acme", "lib", "1.0", "sources"] (some "jar")) =
      .ok { GroupID := "org.acme", ArtifactID := "lib", Version := "1.0",
            Classifier := "sources", Extension := "jar" } ∧
    ∃ err, mavenExternalDependencyToDependencyConfig
        (mavenDependencyString ["org.acme", "lib"] none) = .error err :=
  ⟨((mavenExternalDependency_parse.1 ["org.acme", "lib", "1.0", "sources"] (some "jar")
      (by decide) (by decide)).1 (by decide)),
   ((mavenExternalDependency_parse.1 ["org.acme", "lib"] none
      (by decide) (by decide)).2 (by decide))⟩

end bufremotepluginconfig

namespace bufconfig

theorem normalizeEach_ok (name : String) (paths outputs : List String) :
    normalizeEach name paths = .ok outputs ↔
      (∀ path ∈ paths, path ≠ "") ∧
      List.Forall₂ (fun path output => normalpath.NormalizeAndValidate path = .ok output)
        paths outputs := by
  induction paths generalizing outputs with
  | nil =>
    simp only [normalizeEach, Except.ok.injEq, List.not_mem_nil, false_implies, implies_true,
      true_and, List.forall₂_nil_left_iff]
    exact eq_comm
  | cons path paths ih =>
    simp only [normalizeEach]
    by_cases hp : path = ""
    · simp [hp]
    · rw [if_neg hp]
      cases hn : normalpath.NormalizeAndValidate path with
      | error e =>
        simp only [reduceCtorEq, false_iff, not_and]
        intro _ h
        cases h with
        | cons h1 _ => rw [hn] at h1; cases h1
      | ok output =>
        cases hr : normalizeEach name paths with
        | error e =>
          simp only [reduceCtorEq, false_iff, not_and]
          intro h0 h
          cases h with
          | cons h1 h2 =>
            have := (ih _).mpr ⟨fun p hp' => h0 p (List.mem_cons_of_mem _ hp'), h2⟩
            rw [hr] at this
            cases this
        | ok outs =>
          have ih' := (ih outs).mp hr
          simp only [Except.ok.injEq]
          constructor
          · rintro rfl
            refine ⟨?_, List.Forall₂.cons hn ih'.2⟩
            intro p hp'
            rcases List.mem_cons.mp hp' with rfl | hp'
            · exact hp
            · exact ih'.1 p hp'
          · rintro ⟨h0, h⟩
            cases h with
            | cons h1 h2 =>
              rw [hn] at h1
              simp only [Except.ok.injEq] at h1
              subst h1
              have := (ih _).mpr ⟨fun p hp' => h0 p (List.mem_cons_of_mem _ hp'), h2⟩
              rw [hr] at this
              simp only [Except.ok.injEq] at this
              rw [this]

theorem checkPair_none (name a b : String) : checkPair name a b = none ↔ NoOverlap a b := by
  unfold checkPair NoOverlap
  by_cases h1 : a = b
  · simp [h1]
  · rw [if_neg h1]
    cases h2 : normalpath.EqualsOrContainsPath b a normalpath.Relative <;>
      cases h3 : normalpath.EqualsOrContainsPath a b normalpath.Relative <;> simp [h1]

theorem checkAgainst_none (name a : String) (l : List String) :
    checkAgainst name a l = none ↔ ∀ b ∈ l, NoOverlap a b := by
  induction l with
  | nil => simp [checkAgainst]
  | cons b l ih =>
    simp only [checkAgainst, List.mem_cons, forall_eq_or_imp]
    cases hp : checkPair name a b with
    | some e =>
      simp only [reduceCtorEq, false_iff, not_and]
      intro h
      rw [← checkPair_none name, hp] at h
      cases h
    | none =>
      simp only [ih]
      exact ⟨fun h => ⟨(checkPair_none name a b).mp hp, h⟩, fun h => h.2⟩

theorem checkOutputs_none (name : String) (l : List String) :
    checkOutputs name l = none ↔ l.Pairwise NoOverlap := by
  induction l with
  | nil => simp [checkOutputs]
  | cons a l ih =>
    simp only [checkOutputs, List.pairwise_cons]
    cases hp : checkAgainst name a l with
    | some e =>
      simp only [reduceCtorEq, false_iff, not_and]
      intro h
      rw [← checkAgainst_none name, hp] at h
      cases h
    | none =>
      simp only [ih]
      exact ⟨fun h => ⟨(checkAgainst_none name a l).mp hp, h⟩, fun h => h.2⟩

end bufconfig

namespace bufconfig

theorem noOverlap_symm : Symmetric NoOverlap :=
  fun _ _ h => ⟨Ne.symm h.1, h.2.2, h.2.1⟩

theorem pairwise_noOverlap (l : List String) :
    l.Pairwise NoOverlap ↔ l.Nodup ∧
      l.Pairwise (fun a b =>
        normalpath.EqualsOrContainsPath a b normalpath.Relative = false ∧
        normalpath.EqualsOrContainsPath b a normalpath.Relative = false) := by
  unfold NoOverlap List.Nodup
  rw [List.pairwise_and_iff]
  have : ∀ a b : String,
      (normalpath.EqualsOrContainsPath b a normalpath.Relative = false ∧
        normalpath.EqualsOrContainsPath a b normalpath.Relative = false) ↔
      (normalpath.EqualsOrContainsPath a b normalpath.Relative = false ∧
        normalpath.EqualsOrContainsPath b a normalpath.Relative = false) :=
    fun a b => And.comm
  simp only [this]

theorem normalizeAndCheckPaths_ok (paths : List String) (name : String)
    (outputs : List String) :
    normalizeAndCheckPaths paths name = .ok outputs ↔
      ∃ normalized, normalizeEach name paths = .ok normalized ∧
        normalized.Pairwise NoOverlap ∧ outputs = normalpath.sortStrings normalized := by
  unfold normalizeAndCheckPaths
  by_cases hlen : paths.length = 0
  · have hp : paths = [] := List.length_eq_zero.mp hlen
    subst hp
    simp only [List.length_nil, if_true, Except.ok.injEq, normalizeEach]
    constructor
    · rintro rfl
      exact ⟨[], rfl, List.Pairwise.nil, rfl⟩
    · rintro ⟨n, hn, -, rfl⟩
      rw [← hn]
      rfl
  · rw [if_neg hlen]
    cases hn : normalizeEach name paths with
    | error e => simp
    | ok normalized =>
      have hperm : (normalpath.sortStrings normalized).Pairwise NoOverlap ↔
          normalized.Pairwise NoOverlap :=
        List.Perm.pairwise_iff (fun {a b} h => noOverlap_symm h) (List.perm_insertionSort _ _)
      simp only [Except.ok.injEq, exists_eq_left']
      cases hc : checkOutputs name (normalpath.sortStrings normalized) with
      | some e =>
        simp only [reduceCtorEq, false_iff, not_and]
        intro h
        rw [← hperm, ← checkOutputs_none name, hc] at h
        cases h
      | none =>
        have := hperm.mp ((checkOutputs_none name _).mp hc)
        simp only [Except.ok.injEq]
        exact ⟨fun h => ⟨this, h.symm⟩, fun h => h.2.symm⟩

/-- C32: `normalizeAndCheckPaths` returns the empty input with no error; it
succeeds exactly when no path is empty, every path passes
`NormalizeAndValidate`, the normalized paths are distinct and none equals or
contains another; and on success the result is the normalized paths sorted,
in strictly ascending order. -/
theorem normalizeAndCheckPaths_iff (paths : List String) (name : String) :
    normalizeAndCheckPaths [] name = .ok [] ∧
    ((∃ outputs, normalizeAndCheckPaths paths name = .ok outputs) ↔
      (∀ path ∈ paths, path ≠ "") ∧
      ∃ normalized,
        List.Forall₂ (fun path output => normalpath.NormalizeAndValidate path = .ok output)
          paths normalized ∧
        normalized.Nodup ∧
        normalized.Pairwise (fun a b =>
          normalpath.EqualsOrContainsPath a b normalpath.Relative = false ∧
          normalpath.EqualsOrContainsPath b a normalpath.Relative = false)) ∧
    (∀ outputs, normalizeAndCheckPaths paths name = .ok outputs →
      ∃ normalized,
        List.Forall₂ (fun path output => normalpath.NormalizeAndValidate path = .ok output)
          paths normalized ∧
        outputs = normalpath.sortStrings normalized ∧ outputs.Sorted (· < ·)) := by
  refine ⟨rfl, ?_, ?_⟩
  · constructor
    · rintro ⟨outputs, h⟩
      obtain ⟨normalized, hn, hp, -⟩ := (normalizeAndCheckPaths_ok paths name outputs).mp h
      have h1 := (normalizeEach_ok name paths normalized).mp hn
      have h2 := (pairwise_noOverlap normalized).mp hp
      exact ⟨h1.1, normalized, h1.2, h2.1, h2.2⟩
    · rintro ⟨h0, normalized, hf, hnd, hp⟩
      exact ⟨_, (normalizeAndCheckPaths_ok paths name _).mpr
        ⟨normalized, (normalizeEach_ok name paths normalized).mpr ⟨h0, hf⟩,
          (pairwise_noOverlap normalized).mpr ⟨hnd, hp⟩, rfl⟩⟩
  · intro outputs h
    obtain ⟨normalized, hn, hp, rfl⟩ := (normalizeAndCheckPaths_ok paths name outputs).mp h
    have h1 := (normalizeEach_ok name paths normalized).mp hn
    have h2 := (pairwise_noOverlap normalized).mp hp
    refine ⟨normalized, h1.2, rfl, ?_⟩
    have hs := normalpath.sorted_sortStrings normalized
    have hnd : (normalpath.sortStrings normalized).Nodup :=
      (List.perm_insertionSort _ _).nodup_iff.mpr h2.1
    unfold List.Sorted at hs ⊢
    unfold List.Nodup at hnd
    exact (List.Pairwise.and hs hnd).imp
      (fun {a b} hab => normalpath.strLE_lt_of_ne a b hab.1 hab.2)

theorem normalizeAndCheckPaths_iff_witness :
    ∃ normalized,
      List.Forall₂ (fun path output => normalpath.NormalizeAndValidate path = .ok output)
        ["b//c", "./a"] normalized ∧
      ["a", "b/c"] = normalpath.sortStrings normalized ∧
      List.Sorted (· < ·) ["a", "b/c"] :=
  (normalizeAndCheckPaths_iff ["b//c", "./a"] "includes").2.2 ["a", "b/c"] (by decide)

end bufconfig

namespace normalpath

theorem strLE_antisymm (a b : String) (h1 : strLE a b) (h2 : strLE b a) : a = b :=
  String.ext (le_antisymm h1 h2)

/-- Sorting depends only on the strings that are sorted, not on their order. -/
theorem sortStrings_perm {l1 l2 : List String} (h : l1.Perm l2) :
    sortStrings l1 = sortStrings l2 := by
  haveI : IsAntisymm String strLE := ⟨strLE_antisymm⟩
  exact List.eq_of_perm_of_sorted
    (((List.perm_insertionSort strLE l1).trans h).trans (List.perm_insertionSort strLE l2).symm)
    (sorted_sortStrings l1) (sorted_sortStrings l2)

theorem keys_nodup_mapAppend (m : List (String × List String)) (d x : String)
    (h : (m.map Prod.fst).Nodup) : ((mapAppend m d x).map Prod.fst).Nodup := by
  induction m with
  | nil => simp [mapAppend]
  | cons kv m ih =>
    obtain ⟨k, ps⟩ := kv
    simp only [List.map_cons, List.nodup_cons] at h
    simp only [mapAppend]
    by_cases hk : k = d
    · rw [if_pos hk]
      simpa using h
    · rw [if_neg hk]
      simp only [List.map_cons, List.nodup_cons]
      refine ⟨?_, ih h.2⟩
      intro hmem
      rcases (keys_mapAppend m d x k).mp hmem with h1 | h1
      · exact hk h1
      · exact h.1 h1

theorem keys_nodup_foldl (paths : List String) (m : List (String × List String))
    (h : (m.map Prod.fst).Nodup) :
    ((paths.foldl (fun m path => mapAppend m (filepath.Dir (Normalize path))
        (Normalize path)) m).map Prod.fst).Nodup := by
  induction paths generalizing m with
  | nil => exact h
  | cons p paths ih =>
    simp only [List.foldl_cons]
    exact ih _ (keys_nodup_mapAppend m _ _ h)

/-- The directories of the map of `ByDir` are distinct. -/
theorem keys_nodup_ByDir (paths : List String) : ((ByDir paths).map Prod.fst).Nodup := by
  unfold ByDir
  simp only [List.map_map]
  have h := keys_nodup_foldl paths [] (by simp)
  have : (Prod.fst ∘ fun kv : String × List String => (kv.1, sortStrings kv.2)) = Prod.fst := by
    funext kv; rfl
  rw [this]
  exact h

/-- The slices of `ChunkByDir` before the chunks are built depend only on the
paths, not on their order. -/
theorem sortedPathsByDir_perm {p1 p2 : List String} (h : p1.Perm p2) :
    sortedPathsByDir p1 = sortedPathsByDir p2 := by
  have hkeys : sortStrings ((ByDir p1).map Prod.fst) = sortStrings ((ByDir p2).map Prod.fst) := by
    apply sortStrings_perm
    rw [List.perm_ext_iff_of_nodup (keys_nodup_ByDir p1) (keys_nodup_ByDir p2)]
    intro d
    rw [keys_ByDir, keys_ByDir]
    constructor
    · rintro ⟨p, hp, hd⟩; exact ⟨p, h.mem_iff.mp hp, hd⟩
    · rintro ⟨p, hp, hd⟩; exact ⟨p, h.mem_iff.mpr hp, hd⟩
  have hget : ∀ d, mapGet (ByDir p1) d = mapGet (ByDir p2) d := by
    intro d
    rw [mapGet_ByDir, mapGet_ByDir]
    exact sortStrings_perm ((h.map Normalize).filter _)
  unfold sortedPathsByDir
  simp only [hkeys]
  congr 1
  exact List.map_congr_left (fun d _ => hget d)

/-- C36: for a positive suggested chunk size, the chunks of `ChunkByDir`
depend only on the paths given and not on their order: two inputs that are
permutations of each other give the same list of chunks. -/
theorem ChunkByDir_perm_invariant (paths1 paths2 : List String) (suggestedChunkSize : Int)
    (hsize : 0 < suggestedChunkSize) (hperm : paths1.Perm paths2) :
    ChunkByDir paths1 suggestedChunkSize = ChunkByDir paths2 suggestedChunkSize := by
  have hs : ¬ suggestedChunkSize ≤ 0 := by omega
  unfold ChunkByDir
  rw [hperm.length_eq, sortedPathsByDir_perm hperm, if_neg hs, if_neg hs]

theorem ChunkByDir_perm_invariant_witness :
    ChunkByDir ["a/x", "b/y", "a/z", "c/1", "d"] 2 =
      ChunkByDir ["d", "c/1", "a/z", "b/y", "a/x"] 2 :=
  ChunkByDir_perm_invariant ["a/x", "b/y", "a/z", "c/1", "d"] ["d", "c/1", "a/z", "b/y", "a/x"] 2
    (by decide) (by decide)

end normalpath

namespace normalpath

theorem mapGet_of_not_mem (m : List (String × List String)) (d : String)
    (h : d ∉ m.map Prod.fst) : mapGet m d = [] := by
  induction m with
  | nil => rfl
  | cons kv m ih =>
    obtain ⟨k, ps⟩ := kv
    simp only [List.map_cons, List.mem_cons, not_or] at h
    simp only [mapGet, if_neg (Ne.symm h.1)]
    exact ih h.2

/-- Reading every key of a map with distinct keys gives the values in order. -/
theorem map_mapGet_keys (m : List (String × List String)) (h : (m.map Prod.fst).Nodup) :
    (m.map Prod.fst).map (mapGet m) = m.map Prod.snd := by
  induction m with
  | nil => rfl
  | cons kv m ih =>
    obtain ⟨k, ps⟩ := kv
    simp only [List.map_cons, List.nodup_cons] at h
    simp only [List.map_cons, mapGet, if_true, List.cons.injEq, true_and]
    rw [← ih h.2]
    apply List.map_congr_left
    intro d hd
    have hne : k ≠ d := fun hkd => h.1 (hkd ▸ hd)
    simp only [mapGet, if_neg hne]

theorem flatten_values_mapAppend (m : List (String × List String)) (d x : String) :
    ((mapAppend m d x).map Prod.snd).flatten.Perm ((m.map Prod.snd).flatten ++ [x]) := by
  induction m with
  | nil => simp [mapAppend]
  | cons kv m ih =>
    obtain ⟨k, ps⟩ := kv
    simp only [mapAppend]
    by_cases hk : k = d
    · rw [if_pos hk]
      simp only [List.map_cons, List.flatten_cons, List.append_assoc]
      exact List.Perm.append_left ps List.perm_append_comm
    · rw [if_neg hk]
      simp only [List.map_cons, List.flatten_cons, List.append_assoc]
      exact List.Perm.append_left ps ih

theorem flatten_values_foldl (paths : List String) (m : List (String × List String)) :
    ((paths.foldl (fun m path => mapAppend m (filepath.Dir (Normalize path))
        (Normalize path)) m).map Prod.snd).flatten.Perm
      ((m.map Prod.snd).flatten ++ paths.map Normalize) := by
  induction paths generalizing m with
  | nil => simp
  | cons p paths ih =>
    simp only [List.foldl_cons, List.map_cons]
    refine (ih _).trans ?_
    refine ((flatten_values_mapAppend m _ _).append_right _).trans ?_
    simp

/-- The values of the map of `ByDir` together are the normalized paths. -/
theorem flatten_values_ByDir (paths : List String) :
    ((ByDir paths).map Prod.snd).flatten.Perm (paths.map Normalize) := by
  unfold ByDir
  simp only [List.map_map]
  have h := flatten_values_foldl paths []
  simp only [List.map_nil, List.flatten_nil, List.nil_append] at h
  refine List.Perm.trans ?_ h
  apply List.Perm.flatten_congr
  rw [List.forall₂_map_left_iff, List.forall₂_map_right_iff]
  exact List.forall₂_same.mpr (fun kv _ => List.perm_insertionSort _ _)

/-- The slices that `ChunkByDir` merges together are the normalized paths. -/
theorem flatten_sortedPathsByDir (paths : List String) :
    (sortedPathsByDir paths).flatten.Perm (paths.map Normalize) := by
  unfold sortedPathsByDir
  refine (List.Perm.flatten (List.perm_insertionSort _ _)).trans ?_
  refine (List.Perm.flatten ((List.perm_insertionSort strLE _).map _)).trans ?_
  rw [map_mapGet_keys _ (keys_nodup_ByDir paths)]
  exact flatten_values_ByDir paths

theorem sortedPathsByDir_ne_nil (paths : List String) :
    ∀ b ∈ sortedPathsByDir paths, b ≠ [] := by
  intro b hb
  obtain ⟨p, hp, rfl⟩ := (mem_sortedPathsByDir paths b).mp hb
  intro h
  have hmem : Normalize p ∈ sortStrings ((paths.map Normalize).filter
      (fun x => filepath.Dir x = filepath.Dir (Normalize p))) := by
    rw [mem_sortStrings, List.mem_filter]
    exact ⟨List.mem_map_of_mem _ hp, by simp⟩
  rw [h] at hmem
  simp at hmem

/-- The chunks that the loop adds are not empty and are together the slices
it was given. -/
theorem chunkLoop_partition (size : Int) (fuel : Nat) (l chunks : List (List String))
    (hf : l.length ≤ fuel) (hne : ∀ b ∈ l, b ≠ []) :
    ∃ new, chunkLoop size fuel l chunks = chunks ++ new ∧
      (∀ c ∈ new, c ≠ []) ∧ new.flatten.Perm l.flatten := by
  induction fuel generalizing l chunks with
  | zero =>
    have : l = [] := List.length_eq_zero.mp (Nat.le_zero.mp hf)
    subst this
    exact ⟨[], by simp [chunkLoop]⟩
  | succ fuel ih =>
    cases l with
    | nil => exact ⟨[], by simp [chunkLoop]⟩
    | cons chunk rest =>
      obtain ⟨taken, h1, h2, -⟩ := mergeSmallest_spec size chunk rest.reverse
      set r := mergeSmallest size chunk rest.reverse with hr
      have hrest : rest = r.2.reverse ++ taken.reverse := by
        have := congrArg List.reverse h1
        simpa using this
      have hlen : r.2.reverse.length ≤ fuel := by
        have : rest.length = r.2.reverse.length + taken.reverse.length := by
          rw [hrest, List.length_append]
        simp only [List.length_cons] at hf
        omega
      have hne' : ∀ b ∈ r.2.reverse, b ≠ [] := by
        intro b hb
        apply hne b
        rw [hrest]
        simp [hb]
      obtain ⟨new', e1, e2, e3⟩ := ih r.2.reverse (chunks ++ [r.1]) hlen hne'
      refine ⟨r.1 :: new', ?_, ?_, ?_⟩
      · rw [chunkLoop]
        simp only [← hr]
        rw [e1]
        simp
      · intro c hc
        rcases List.mem_cons.mp hc with rfl | hc
        · rw [h2]
          intro h
          have := List.append_eq_nil.mp h
          exact hne chunk (List.mem_cons_self _ _) this.1
        · exact e2 c hc
      · simp only [List.flatten_cons]
        rw [h2, hrest, List.flatten_append, List.append_assoc]
        refine List.Perm.append_left chunk ?_
        refine (List.Perm.append_left _ e3).trans ?_
        refine List.perm_append_comm.trans ?_
        exact List.Perm.append_left _ (List.Perm.flatten (List.reverse_perm taken)).symm

/-- C35: for at least one path and a positive suggested chunk size, no chunk
of `ChunkByDir` is empty, and the chunks together are a permutation of the
normalized paths of the input. -/
theorem ChunkByDir_partition (paths : List String) (suggestedChunkSize : Int)
    (hne : paths ≠ []) (hsize : 0 < suggestedChunkSize) :
    (∀ chunk ∈ ChunkByDir paths suggestedChunkSize, chunk ≠ []) ∧
    (ChunkByDir paths suggestedChunkSize).flatten.Perm (paths.map Normalize) := by
  rw [ChunkByDir_eq paths suggestedChunkSize hne hsize]
  obtain ⟨new, h1, h2, h3⟩ := chunkLoop_partition suggestedChunkSize
    (sortedPathsByDir paths).length (sortedPathsByDir paths) [] (le_refl _)
    (sortedPathsByDir_ne_nil paths)
  rw [h1, List.nil_append]
  exact ⟨h2, h3.trans (flatten_sortedPathsByDir paths)⟩

theorem ChunkByDir_partition_witness :
    (["a/x", "a/x", "a/z"] : List String) ≠ [] ∧
    (ChunkByDir ["a/x", "b//y", "a/z", "./a/x"] 2).flatten.Perm
      (["a/x", "b//y", "a/z", "./a/x"].map Normalize) :=
  ⟨(ChunkByDir_partition ["a/x", "b//y", "a/z", "./a/x"] 2 (by decide) (by decide)).1
      ["a/x", "a/x", "a/z"] (by decide),
   (ChunkByDir_partition ["a/x", "b//y", "a/z", "./a/x"] 2 (by decide) (by decide)).2⟩

end normalpath

namespace bufremotepluginconfig

/-- The references that the dependency loop of `newConfig` returns. -/
theorem pluginDependencies_ok (env : Env) (pluginIdentity : PluginIdentity)
    (overrideRemote : String) (deps : List ExternalDependency) (existingDeps : List String)
    (references : List PluginReference)
    (h : pluginDependencies env pluginIdentity overrideRemote deps existingDeps =
      .ok references) :
    List.Forall₂ (fun dependency reference =>
        pluginReferenceForStringWithOverrideRemote env dependency.Plugin dependency.Revision
          overrideRemote = .ok reference) deps references ∧
    (∀ reference ∈ references, reference.Remote = pluginIdentity.Remote) ∧
    (∀ reference ∈ references, reference.IdentityString ∉ existingDeps) ∧
    (references.map (fun reference => reference.IdentityString)).Nodup := by
  induction deps generalizing existingDeps references with
  | nil =>
    simp only [pluginDependencies, Except.ok.injEq] at h
    subst h
    simp
  | cons dependency rest ih =>
    simp only [pluginDependencies] at h
    cases hr : pluginReferenceForStringWithOverrideRemote env dependency.Plugin
        dependency.Revision overrideRemote with
    | error e => rw [hr] at h; cases h
    | ok reference =>
      rw [hr] at h
      simp only at h
      by_cases h1 : reference.Remote ≠ pluginIdentity.Remote
      · rw [if_pos h1] at h; cases h
      · rw [if_neg h1] at h
        by_cases h2 : reference.IdentityString ∈ existingDeps
        · rw [if_pos h2] at h; cases h
        · rw [if_neg h2] at h
          cases hl : pluginDependencies env pluginIdentity overrideRemote rest
              (reference.IdentityString :: existingDeps) with
          | error e => rw [hl] at h; cases h
          | ok dependencies =>
            rw [hl] at h
            simp only [Except.ok.injEq] at h
            subst h
            obtain ⟨i1, i2, i3, i4⟩ := ih _ _ hl
            refine ⟨List.Forall₂.cons hr i1, ?_, ?_, ?_⟩
            · intro r hmem
              rcases List.mem_cons.mp hmem with rfl | hmem
              · exact not_not.mp h1
              · exact i2 r hmem
            · intro r hmem
              rcases List.mem_cons.mp hmem with rfl | hmem
              · exact h2
              · exact fun hin => i3 r hmem (List.mem_cons_of_mem _ hin)
            · simp only [List.map_cons, List.nodup_cons]
              refine ⟨?_, i4⟩
              intro hin
              obtain ⟨r, hr1, hr2⟩ := List.mem_map.mp hin
              exact i3 r hr1 (by rw [hr2]; exact List.mem_cons_self _ _)

/-- C40: when `newConfig` succeeds, the dependencies of the configuration are
the plugin references of the external dependencies, one for each in their
order, every dependency has the remote of the plugin identity, and the identity
strings of the dependencies are pairwise distinct; and with an empty
`plugin_version`, or one that is not a semantic version, `newConfig` returns an
error. -/
theorem newConfig_dependencies (env : Env) (externalConfig : ExternalConfig)
    (options : List ConfigOption) :
    (∀ config, newConfig env externalConfig options = .ok config →
      List.Forall₂ (fun dependency reference =>
          pluginReferenceForStringWithOverrideRemote env dependency.Plugin dependency.Revision
            (applyOptions options).overrideRemote = .ok reference)
        externalConfig.Deps config.Dependencies ∧
      (∀ reference ∈ config.Dependencies, reference.Remote = config.Name.Remote) ∧
      (config.Dependencies.map (fun reference => reference.IdentityString)).Nodup) ∧
    ((externalConfig.PluginVersion = "" ∨
        env.semverIsValid externalConfig.PluginVersion = false) →
      ∃ err, newConfig env externalConfig options = .error err) := by
  constructor
  · intro config h
    unfold newConfig at h
    simp only at h
    cases hid : pluginIdentityForStringWithOverrideRemote env externalConfig.Name
        (applyOptions options).overrideRemote with
    | error e => rw [hid] at h; cases h
    | ok pluginIdentity =>
      rw [hid] at h
      simp only at h
      by_cases h1 : externalConfig.PluginVersion = ""
      · rw [if_pos h1] at h; cases h
      rw [if_neg h1] at h
      by_cases h2 : (!env.semverIsValid externalConfig.PluginVersion) = true
      · rw [if_pos h2] at h; cases h
      rw [if_neg h2] at h
      cases hdeps : (if externalConfig.Deps.length > 0 then
          pluginDependencies env pluginIdentity
            (applyOptions options).overrideRemote
            externalConfig.Deps []
          else .ok []) with
      | error e => rw [hdeps] at h; cases h
      | ok dependencies =>
        rw [hdeps] at h
        simp only at h
        have hloop : pluginDependencies env pluginIdentity
            (applyOptions options).overrideRemote
            externalConfig.Deps [] = .ok dependencies := by
          by_cases hlen : externalConfig.Deps.length > 0
          · rw [if_pos hlen] at hdeps; exact hdeps
          · rw [if_neg hlen] at hdeps
            have hnil : externalConfig.Deps = [] :=
              List.length_eq_zero.mp (Nat.eq_zero_of_not_pos hlen)
            rw [hnil]
            exact hdeps
        obtain ⟨i1, i2, -, i4⟩ := pluginDependencies_ok _ _ _ _ _ _ hloop
        have hcfg : config.Dependencies = dependencies ∧ config.Name = pluginIdentity := by
          repeat' split at h
          all_goals cases h
          all_goals exact ⟨rfl, rfl⟩
        rw [hcfg.1, hcfg.2]
        exact ⟨i1, i2, i4⟩
  · intro hv
    unfold newConfig
    simp only
    cases hid : pluginIdentityForStringWithOverrideRemote env externalConfig.Name
        (applyOptions options).overrideRemote with
    | error e => exact ⟨e, rfl⟩
    | ok pluginIdentity =>
      simp only
      rcases hv with hv | hv
      · exact ⟨_, by rw [if_pos hv]⟩
      · by_cases h1 : externalConfig.PluginVersion = ""
        · exact ⟨_, by rw [if_pos h1]⟩
        · exact ⟨_, by rw [if_neg h1, if_pos (by simp [hv])]⟩

theorem newConfig_dependencies_witness :
    (List.Forall₂ (fun (dependency : ExternalDependency) (reference : PluginReference) =>
        pluginReferenceForStringWithOverrideRemote stubEnv dependency.Plugin dependency.Revision
          (applyOptions []).overrideRemote =
          .ok reference)
      [⟨"buf.build/acme/dep-a:v1.0.0", 1⟩, ⟨"buf.build/acme/dep-b:v1.0.0", 2⟩]
      [⟨"buf.build", "buf.build/acme/dep-a", "v1.0.0", 1⟩,
       ⟨"buf.build", "buf.build/acme/dep-b", "v1.0.0", 2⟩] ∧
      (∀ reference ∈ [(⟨"buf.build", "buf.build/acme/dep-a", "v1.0.0", 1⟩ : PluginReference),
          ⟨"buf.build", "buf.build/acme/dep-b", "v1.0.0", 2⟩], reference.Remote = "buf.build") ∧
      (([⟨"buf.build", "buf.build/acme/dep-a", "v1.0.0", 1⟩,
          ⟨"buf.build", "buf.build/acme/dep-b", "v1.0.0", 2⟩] : List PluginReference).map
        (fun reference => reference.IdentityString)).Nodup) ∧
    ∃ err, newConfig stubEnv { Name := "buf.build/acme/plugin" } [] = .error err :=
  ⟨(newConfig_dependencies stubEnv
      { Name := "buf.build/acme/plugin", PluginVersion := "v1.0.0",
        Deps := [⟨"buf.build/acme/dep-a:v1.0.0", 1⟩, ⟨"buf.build/acme/dep-b:v1.0.0", 2⟩] }
      []).1
      { Name := ⟨"buf.build", "acme", "plugin", "buf.build/acme/plugin"⟩
        PluginVersion := "v1.0.0"
        Dependencies := [⟨"buf.build", "buf.build/acme/dep-a", "v1.0.0", 1⟩,
          ⟨"buf.build", "buf.build/acme/dep-b", "v1.0.0", 2⟩]
        Registry := none, SourceURL := "", Description := "", OutputLanguages := []
        SPDXLicenseID := "", LicenseURL := "", IntegrationGuideURL := ""
        Deprecated := false } (by decide),
   (newConfig_dependencies stubEnv { Name := "buf.build/acme/plugin" } []).2 (Or.inl rfl)⟩

end bufremotepluginconfig

namespace bufremotepluginconfig

theorem foundConfigFilePaths_none (readBucket : ReadBucket) (paths : List String)
    (h : ∀ path ∈ paths, readBucket.Exists path = .ok false) :
    foundConfigFilePaths readBucket paths = .ok [] := by
  induction paths with
  | nil => rfl
  | cons p paths ih =>
    simp only [foundConfigFilePaths, h p (List.mem_cons_self _ _),
      ih (fun q hq => h q (List.mem_cons_of_mem _ hq))]
    rfl

/-- The external configuration `ExternalConfig{}` has no plugin version, so
`newConfig` returns an error for it. -/
theorem newConfig_default_error (env : Env) (options : List ConfigOption) :
    ∃ err, newConfig env {} options = .error err := by
  unfold newConfig
  simp only
  cases hid : pluginIdentityForStringWithOverrideRemote env ({} : ExternalConfig).Name
      (applyOptions options).overrideRemote with
  | error e => exact ⟨e, rfl⟩
  | ok pluginIdentity => exact ⟨_, rfl⟩

/-- C33: the code diverges from the claim.  When none of the plugin
configuration files is present in the bucket, `getConfigForBucket` returns no
configuration and an error, the error of `newConfig` for the external
configuration `ExternalConfig{}`, which has no plugin version; it does not
return a default configuration. -/
theorem getConfigForBucket_no_file (env : Env) (genv : GetEnv) (readBucket : ReadBucket)
    (options : List ConfigOption)
    (h : ∀ path ∈ genv.AllConfigFilePaths, readBucket.Exists path = .ok false) :
    ∃ err, newConfig env {} options = .error err ∧
      getConfigForBucket env genv readBucket options = (none, some (.plain err)) := by
  obtain ⟨err, herr⟩ := newConfig_default_error env options
  refine ⟨err, herr, ?_⟩
  simp only [getConfigForBucket, foundConfigFilePaths_none readBucket _ h, herr]

theorem getConfigForBucket_no_file_witness :
    getConfigForBucket stubEnv stubGetEnv emptyBucket [] =
      (none, some (.plain (.new "invalid plugin identity %q" [""]))) := by
  obtain ⟨err, h1, h2⟩ :=
    getConfigForBucket_no_file stubEnv stubGetEnv emptyBucket [] (fun _ _ => rfl)
  have h3 : newConfig stubEnv {} [] = .error (.new "invalid plugin identity %q" [""]) := by
    decide
  rw [h3] at h1
  cases h1
  exact h2

end bufremotepluginconfig

namespace filepath

/-- The result of `Clean` has at least one character. -/
theorem cleanChars_ne_nil (path : List Char) : cleanChars path ≠ [] := by
  have key : ∀ out : List Char,
      (if (out.length == 0) = true then ['.'] else out.reverse) ≠ [] := by
    intro out
    by_cases h0 : (out.length == 0) = true
    · rw [if_pos h0]
      simp
    · rw [if_neg h0]
      intro h1
      rw [List.reverse_eq_nil_iff] at h1
      simp [h1] at h0
  unfold cleanChars
  cases path with
  | nil => simp
  | cons c rest => exact key _

end filepath

namespace normalpath

theorem Normalize_ne_empty (path : String) : Normalize path ≠ "" := by
  intro h
  have := congrArg String.data h
  exact filepath.cleanChars_ne_nil path.data
    (by simpa [Normalize, filepath.ToSlash, filepath.Clean] using this)

end normalpath

namespace internal

open FileScheme

/-- C39: `newSingleRef` returns the no-path error for the empty path, and the
invalid-path error for a path that contains `://`, starts with none of
`http://`, `https://` and `file://`, and is not the standard input, the
standard output or the null device; when it succeeds, the path of the
reference is empty exactly when the file scheme is stdio, stdin, stdout or
null, and for the local scheme the path is not empty and is `Normalize` of the
given path without the prefix `file://`. -/
theorem newSingleRef_paths (app : App) (format path : String)
    (compressionType : CompressionType) (customOptions : Option (List (String × String))) :
    (path = "" →
      newSingleRef app format path compressionType customOptions = .error .noPath) ∧
    (strings.Contains path "://" = true →
      strings.HasPrefix path "http://" = false → strings.HasPrefix path "https://" = false →
      strings.HasPrefix path "file://" = false →
      app.IsDevStdin path = false → app.IsDevStdout path = false →
      app.IsDevNull path = false →
      newSingleRef app format path compressionType customOptions =
        .error (.invalidPath format path)) ∧
    (∀ ref, newSingleRef app format path compressionType customOptions = .ok ref →
      (ref.path = "" ↔ ref.fileScheme = FileSchemeStdio ∨ ref.fileScheme = FileSchemeStdin ∨
        ref.fileScheme = FileSchemeStdout ∨ ref.fileScheme = FileSchemeNull) ∧
      (ref.fileScheme = FileSchemeLocal →
        ref.path ≠ "" ∧
        ref.path = normalpath.Normalize (strings.TrimPrefix path "file://"))) := by
  refine ⟨?_, ?_, ?_⟩
  · intro h
    simp [newSingleRef, h]
  · intro hc h1 h2 h3 h4 h5 h6
    have hne : path ≠ "" := by
      rintro rfl
      exact absurd hc (by decide)
    have hdash : path ≠ "-" := by
      rintro rfl
      exact absurd hc (by decide)
    unfold newSingleRef
    rw [if_neg hne]
    by_cases herr : app.IsDevStderr path = true
    · rw [if_pos herr]
    · rw [if_neg herr, if_neg hdash]
      simp [h4, h5, h6, schemeLoop, fileSchemePrefixToFileScheme, h1, h2, h3, hc]
  · intro ref h
    unfold newSingleRef at h
    by_cases hne : path = ""
    · rw [if_pos hne] at h; cases h
    rw [if_neg hne] at h
    by_cases herr : app.IsDevStderr path = true
    · rw [if_pos herr] at h; cases h
    rw [if_neg herr] at h
    by_cases hdash : path = "-"
    · rw [if_pos hdash] at h
      cases h
      simp [newDirectSingleRef]
    rw [if_neg hdash] at h
    by_cases h4 : app.IsDevStdin path = true
    · rw [if_pos h4] at h
      cases h
      simp [newDirectSingleRef]
    rw [if_neg h4] at h
    by_cases h5 : app.IsDevStdout path = true
    · rw [if_pos h5] at h
      cases h
      simp [newDirectSingleRef]
    rw [if_neg h5] at h
    by_cases h6 : app.IsDevNull path = true
    · rw [if_pos h6] at h
      cases h
      simp [newDirectSingleRef]
    rw [if_neg h6] at h
    simp only [schemeLoop, fileSchemePrefixToFileScheme] at h
    by_cases h1 : strings.HasPrefix path "http://" = true
    · rw [if_pos h1] at h
      simp only [reduceCtorEq, if_false] at h
      by_cases hp : strings.TrimPrefix path "http://" = ""
      · rw [if_pos hp] at h; cases h
      · rw [if_neg hp] at h
        cases h
        simp [newDirectSingleRef, hp]
    rw [if_neg h1] at h
    by_cases h2 : strings.HasPrefix path "https://" = true
    · rw [if_pos h2] at h
      simp only [reduceCtorEq, if_false] at h
      by_cases hp : strings.TrimPrefix path "https://" = ""
      · rw [if_pos hp] at h; cases h
      · rw [if_neg hp] at h
        cases h
        simp [newDirectSingleRef, hp]
    rw [if_neg h2] at h
    by_cases h3 : strings.HasPrefix path "file://" = true
    · rw [if_pos h3] at h
      simp only [if_true] at h
      have hp := normalpath.Normalize_ne_empty (strings.TrimPrefix path "file://")
      rw [if_neg hp] at h
      cases h
      simp [newDirectSingleRef, hp]
    rw [if_neg h3] at h
    simp only at h
    by_cases hc : strings.Contains path "://" = true
    · rw [if_pos hc] at h; cases h
    · rw [if_neg hc] at h
      cases h
      have hp := normalpath.Normalize_ne_empty path
      have ht : strings.TrimPrefix path "file://" = path := by
        simp [strings.TrimPrefix, h3]
      simp [newDirectSingleRef, hp, ht]

theorem newSingleRef_paths_witness :
    newSingleRef unixApp "binpb" "" 0 none = .error .noPath ∧
    newSingleRef unixApp "binpb" "ftp://host/a.binpb" 0 none =
      .error (.invalidPath "binpb" "ftp://host/a.binpb") ∧
    ((("a/b.binpb" : String) = "" ↔ FileSchemeLocal = FileSchemeStdio ∨
        FileSchemeLocal = FileSchemeStdin ∨ FileSchemeLocal = FileSchemeStdout ∨
        FileSchemeLocal = FileSchemeNull) ∧
      (FileSchemeLocal = FileSchemeLocal →
        ("a/b.binpb" : String) ≠ "" ∧
        "a/b.binpb" = normalpath.Normalize (strings.TrimPrefix "file://a//b.binpb" "file://"))) :=
  ⟨(newSingleRef_paths unixApp "binpb" "" 0 none).1 rfl,
   (newSingleRef_paths unixApp "binpb" "ftp://host/a.binpb" 0 none).2.1
     (by decide) (by decide) (by decide) (by decide) (by decide) (by decide) (by decide),
   (newSingleRef_paths unixApp "binpb" "file://a//b.binpb" 0 none).2.2
     ⟨"binpb", "a/b.binpb", FileSchemeLocal, 0, []⟩ (by decide)⟩

end internal

namespace strconv

theorem digitChar_spec : ∀ d, d < 10 →
    isDigit (digitChar d) = true ∧ (digitChar d).toNat - '0'.toNat = d := by
  decide

/-- Parsing the digits that `itoaLoop` wrote gives the number back. -/
theorem parseDigits_itoaLoop (fuel u : Nat) (acc : List Char) (hf : u < fuel) :
    parseDigits (itoaLoop fuel u acc) 0 = parseDigits acc u := by
  induction fuel generalizing u acc with
  | zero => omega
  | succ fuel ih =>
    simp only [itoaLoop]
    by_cases hu : u < 10
    · rw [if_pos hu]
      have h := digitChar_spec u hu
      simp only [parseDigits, h.1, if_true, h.2]
      simp
    · rw [if_neg hu]
      have h := digitChar_spec (u % 10) (Nat.mod_lt _ (by omega))
      rw [ih (u / 10) _ (by omega)]
      simp only [parseDigits, h.1, if_true, h.2]
      rw [Nat.div_add_mod']

theorem mem_itoaLoop (fuel u : Nat) (acc : List Char) (c : Char)
    (hc : c ∈ itoaLoop fuel u acc) : isDigit c = true ∨ c ∈ acc := by
  induction fuel generalizing u acc with
  | zero => exact Or.inr hc
  | succ fuel ih =>
    simp only [itoaLoop] at hc
    by_cases hu : u < 10
    · rw [if_pos hu] at hc
      rcases List.mem_cons.mp hc with rfl | hc
      · exact Or.inl (digitChar_spec u hu).1
      · exact Or.inr hc
    · rw [if_neg hu] at hc
      rcases ih _ _ hc with h | h
      · exact Or.inl h
      · rcases List.mem_cons.mp h with rfl | h
        · exact Or.inl (digitChar_spec (u % 10) (Nat.mod_lt _ (by omega))).1
        · exact Or.inr h

theorem itoaLoop_ne_nil (fuel u : Nat) (acc : List Char) (hf : 0 < fuel) :
    itoaLoop fuel u acc ≠ [] := by
  induction fuel generalizing u acc with
  | zero => omega
  | succ fuel ih =>
    simp only [itoaLoop]
    by_cases hu : u < 10
    · rw [if_pos hu]; simp
    · rw [if_neg hu]
      cases fuel with
      | zero => simp [itoaLoop]
      | succ fuel => exact ih _ _ (by omega)

theorem natChars_isDigit (u : Nat) (c : Char) (hc : c ∈ natChars u) : isDigit c = true := by
  rcases mem_itoaLoop _ _ _ _ hc with h | h
  · exact h
  · simp at h

theorem natChars_ne_nil (u : Nat) : natChars u ≠ [] := itoaLoop_ne_nil _ _ _ (by omega)

theorem not_mem_natChars (u : Nat) (c : Char) (hc : isDigit c = false) : c ∉ natChars u :=
  fun h => by rw [natChars_isDigit u c h] at hc; cases hc

theorem parseDigits_natChars (u : Nat) : parseDigits (natChars u) 0 = some u := by
  unfold natChars
  rw [parseDigits_itoaLoop _ _ _ (by omega)]
  rfl

/-- `ParseInt` reads what `Itoa` writes, for a number of 0 to 2^31 - 1. -/
theorem ParseInt_Itoa (i : Int) (h0 : 0 ≤ i) (h1 : i < 2 ^ 31) : ParseInt (Itoa i) = some i := by
  have hneg : ¬ i < 0 := by omega
  simp only [Itoa, if_neg hneg, ParseInt]
  cases hd : natChars i.toNat with
  | nil => exact absurd hd (natChars_ne_nil _)
  | cons c cs =>
    have hc : isDigit c = true := natChars_isDigit i.toNat c (by rw [hd]; simp)
    have hplus : c ≠ '+' := by rintro rfl; exact absurd hc (by decide)
    have hminus : c ≠ '-' := by rintro rfl; exact absurd hc (by decide)
    have hp := parseDigits_natChars i.toNat
    rw [hd] at hp
    have hlt : ¬ i.toNat ≥ 2 ^ 31 := by omega
    simp [hplus, hminus, hp, hlt]
    omega

theorem Itoa_data (i : Int) (h0 : 0 ≤ i) : (Itoa i).data = natChars i.toNat := by
  have hneg : ¬ i < 0 := by omega
  simp only [Itoa, if_neg hneg]

/-- The values that `ParseInt` returns are the values of an `int32`. -/
theorem ParseInt_range (s : String) (v : Int) (h : ParseInt s = some v) :
    -(2 ^ 31) ≤ v ∧ v < 2 ^ 31 := by
  unfold ParseInt at h
  cases hs : s.data with
  | nil => rw [hs] at h; cases h
  | cons c cs =>
    rw [hs] at h
    simp only at h
    by_cases hd : (if c = '+' ∨ c = '-' then cs else c :: cs) = []
    · rw [if_pos hd] at h; cases h
    rw [if_neg hd] at h
    cases hp : parseDigits (if c = '+' ∨ c = '-' then cs else c :: cs) 0 with
    | none => rw [hp] at h; cases h
    | some un =>
      rw [hp] at h
      simp only at h
      by_cases hneg : c = '-'
      · have hb : (c == '-') = true := by simpa using hneg
        simp only [hb, Bool.not_true, Bool.false_and, Bool.false_eq_true, if_false,
          Bool.true_and, decide_eq_true_eq, if_true] at h
        by_cases h2 : un > 2 ^ 31
        · rw [if_pos h2] at h; cases h
        · rw [if_neg h2] at h
          cases h
          omega
      · have hb : (c == '-') = false := by simpa using hneg
        simp only [hb, Bool.not_false, Bool.true_and, decide_eq_true_eq, Bool.false_and,
          Bool.false_eq_true, if_false] at h
        by_cases h2 : un ≥ 2 ^ 31
        · rw [if_pos h2] at h; cases h
        · rw [if_neg h2] at h
          cases h
          omega

end strconv

namespace strings

theorem cutChars_some_eq (sep s before after : List Char)
    (h : cutChars sep s = some (before, after)) : s = before ++ sep ++ after := by
  induction s generalizing before with
  | nil =>
    simp only [cutChars] at h
    split_ifs at h with hs
    cases h
    simp [hs]
  | cons c cs ih =>
    simp only [cutChars] at h
    by_cases hp : sep.isPrefixOf (c :: cs) = true
    · rw [if_pos hp] at h
      cases h
      rw [List.isPrefixOf_iff_prefix] at hp
      obtain ⟨t, ht⟩ := hp
      rw [← ht]
      simp
    · rw [if_neg hp] at h
      cases hr : cutChars sep cs with
      | none => rw [hr] at h; cases h
      | some r =>
        obtain ⟨b, a⟩ := r
        rw [hr] at h
        simp only [Option.map_some', Option.some.injEq, Prod.mk.injEq] at h
        obtain ⟨rfl, rfl⟩ := h
        rw [ih b hr]
        simp

theorem Contains_eq_false_of_not_mem (s sub : String) (c : Char) (hc : c ∈ sub.data)
    (hs : c ∉ s.data) : Contains s sub = false := by
  cases h : Contains s sub with
  | false => rfl
  | true =>
    have := (Contains_iff s sub).mp h
    exact absurd (this.subset hc) hs

theorem Contains_append (pre sub post : List Char) :
    Contains ⟨pre ++ sub ++ post⟩ ⟨sub⟩ = true :=
  (Contains_iff _ _).mpr ⟨pre, post, rfl⟩

theorem Contains_char (s : String) (c : Char) :
    Contains s ⟨[c]⟩ = true ↔ c ∈ s.data := by
  rw [Contains_iff]
  constructor
  · intro h
    exact h.subset (List.mem_singleton_self c)
  · intro h
    obtain ⟨pre, post, hs⟩ := List.append_of_mem h
    exact ⟨pre, post, by rw [hs]; simp⟩

theorem SplitN_of_not_mem (c : Char) (sep pre post : List Char) (h : c ∉ pre) :
    SplitN ⟨pre ++ (c :: sep) ++ post⟩ ⟨c :: sep⟩ = [⟨pre⟩, ⟨post⟩] := by
  simp only [SplitN, cutChars_of_not_mem c sep pre post h]

theorem SplitN_two (s sep split0 split1 : String) (h : SplitN s sep = [split0, split1]) :
    s.data = split0.data ++ sep.data ++ split1.data := by
  unfold SplitN at h
  cases hc : cutChars sep.data s.data with
  | none => rw [hc] at h; simp at h
  | some r =>
    obtain ⟨b, a⟩ := r
    rw [hc] at h
    simp only [List.cons.injEq, and_true] at h
    obtain ⟨rfl, rfl⟩ := h
    exact cutChars_some_eq _ _ _ _ hc

theorem utf8_ne_nil (c : Char) : url.utf8 c ≠ [] := by
  unfold url.utf8
  simp only
  split_ifs <;> simp

theorem len_cons_cons (c d : Char) (rest : List Char) : 2 ≤ len ⟨c :: d :: rest⟩ := by
  have h1 := List.length_pos.mpr (utf8_ne_nil c)
  have h2 := List.length_pos.mpr (utf8_ne_nil d)
  simp only [len, List.flatMap_cons, List.length_append]
  omega

theorem len_lt_two (s : String) (h : len s < 2) : s.data.length < 2 := by
  cases hs : s.data with
  | nil => simp
  | cons c cs =>
    cases cs with
    | nil => simp
    | cons d rest =>
      have := len_cons_cons c d rest
      have hs' : s = ⟨c :: d :: rest⟩ := String.ext hs
      rw [hs'] at h
      omega

end strings

namespace protoversion

theorem getNumber_Itoa (i minimum : Int) (hm : minimum ≤ i) (h0 : 0 ≤ i) (h1 : i < 2 ^ 31) :
    getNumber (strconv.Itoa i) minimum = some i := by
  have hne : strconv.Itoa i ≠ "" := by
    intro h
    have := congrArg String.data h
    rw [strconv.Itoa_data i h0] at this
    exact strconv.natChars_ne_nil _ this
  have hlt : ¬ i < minimum := by omega
  simp only [getNumber, if_neg hne, strconv.ParseInt_Itoa i h0 h1, if_neg hlt]

theorem getNumber_range (s : String) (minimum v : Int) (h : getNumber s minimum = some v) :
    minimum ≤ v ∧ -(2 ^ 31) ≤ v ∧ v < 2 ^ 31 := by
  unfold getNumber at h
  split_ifs at h with h1
  cases hp : strconv.ParseInt s with
  | none => rw [hp] at h; cases h
  | some value =>
    rw [hp] at h
    simp only at h
    split_ifs at h with h2
    cases h
    have := strconv.ParseInt_range s v hp
    exact ⟨by omega, this.1, this.2⟩

end protoversion

namespace protoversion

open StabilityLevel

theorem minMajorVersionNumber_nonneg (options : List PackageVersionOption) :
    0 ≤ minMajorVersionNumber options := by
  unfold minMajorVersionNumber
  simp only
  split_ifs <;> omega

/-- What `getAlphaBetaMajorPatch` returns: a major number of at least the
minimum, and a patch number that is 0 or at least 1. -/
theorem getAlphaBetaMajorPatch_range (remainder : String) (minimum major patch : Int)
    (h : getAlphaBetaMajorPatch remainder minimum = some (major, patch)) :
    (minimum ≤ major ∧ -(2 ^ 31) ≤ major ∧ major < 2 ^ 31) ∧
      (patch = 0 ∨ (1 ≤ patch ∧ patch < 2 ^ 31)) := by
  unfold getAlphaBetaMajorPatch at h
  by_cases hp : strings.Contains remainder "p" = true
  · rw [if_pos hp] at h
    split at h
    · rename_i s0 s1 _
      cases h0 : getNumber s0 minimum with
      | none => rw [h0] at h; cases h
      | some m =>
        rw [h0] at h
        simp only at h
        cases h1 : getNumber s1 1 with
        | none => rw [h1] at h; cases h
        | some p =>
          rw [h1] at h
          simp only [Option.some.injEq, Prod.mk.injEq] at h
          obtain ⟨rfl, rfl⟩ := h
          have r0 := getNumber_range _ _ _ h0
          have r1 := getNumber_range _ _ _ h1
          exact ⟨r0, Or.inr ⟨r1.1, r1.2.2⟩⟩
    · cases h
  · rw [if_neg hp] at h
    cases h0 : getNumber remainder minimum with
    | none => rw [h0] at h; cases h
    | some m =>
      rw [h0] at h
      simp only [Option.some.injEq, Prod.mk.injEq] at h
      obtain ⟨rfl, rfl⟩ := h
      exact ⟨getNumber_range _ _ _ h0, Or.inl rfl⟩

/-- The versions that `versionForComponent` returns. -/
theorem versionForComponent_inv (ls : StabilityLevel → String) (version : String)
    (minimum : Int) (v : packageVersion)
    (h : versionForComponent ls version minimum = some v) :
    (minimum ≤ v.major ∧ -(2 ^ 31) ≤ v.major ∧ v.major < 2 ^ 31) ∧
    (v.stabilityLevel = StabilityLevelStable → v.minor = 0 ∧ v.patch = 0 ∧ v.suffix = "") ∧
    (v.stabilityLevel = StabilityLevelTest → v.minor = 0 ∧ v.patch = 0) ∧
    (v.stabilityLevel ≠ StabilityLevelTest → v.suffix = "") ∧
    (v.minor = 0 ∨ (1 ≤ v.minor ∧ v.minor < 2 ^ 31)) ∧
    (v.patch = 0 ∨ (1 ≤ v.patch ∧ v.patch < 2 ^ 31)) ∧
    (∀ c ∈ v.suffix.data, c ∈ version.data) := by
  unfold versionForComponent at h
  by_cases ht : strings.Contains version "test" = true
  · rw [if_pos ht] at h
    split at h
    · rename_i s0 s1 hsplit
      cases h0 : getNumber s0 minimum with
      | none => rw [h0] at h; cases h
      | some m =>
        rw [h0] at h
        simp only [Option.some.injEq] at h
        subst h
        have hd := strings.SplitN_two _ _ _ _ hsplit
        refine ⟨getNumber_range _ _ _ h0, ?_, ?_, ?_, Or.inl rfl, Or.inl rfl, ?_⟩
        · intro hl; cases hl
        · intro _; exact ⟨rfl, rfl⟩
        · intro hl; exact absurd rfl hl
        · intro c hc
          rw [hd]
          simp only [newPackageVersion] at hc
          simp [hc]
    · cases h
  · rw [if_neg ht] at h
    simp only at h
    by_cases hboth : (strings.Contains version "alpha" && strings.Contains version "beta") = true
    · rw [if_pos hboth] at h; cases h
    rw [if_neg hboth] at h
    have hLT : (if (!strings.Contains version "alpha" && !strings.Contains version "beta") = true
        then StabilityLevelStable
        else if (strings.Contains version "alpha" && !strings.Contains version "beta") = true
          then StabilityLevelAlpha else StabilityLevelBeta) ≠ StabilityLevelTest := by
      split_ifs <;> decide
    generalize (if (!strings.Contains version "alpha" && !strings.Contains version "beta") = true
        then StabilityLevelStable
        else if (strings.Contains version "alpha" && !strings.Contains version "beta") = true
          then StabilityLevelAlpha else StabilityLevelBeta) = L at h hLT
    by_cases hlevel : L ≠ StabilityLevelStable
    · rw [if_pos hlevel] at h
      split at h
      · rename_i s0 s1 hsplit
        cases hminor : (if s1 ≠ "" then getNumber s1 1 else some 0) with
        | none => rw [hminor] at h; cases h
        | some minor =>
          rw [hminor] at h
          simp only at h
          cases hmp : getAlphaBetaMajorPatch s0 minimum with
          | none => rw [hmp] at h; cases h
          | some mp =>
            obtain ⟨major, patch⟩ := mp
            rw [hmp] at h
            simp only [Option.some.injEq] at h
            subst h
            have r := getAlphaBetaMajorPatch_range _ _ _ _ hmp
            have hm : minor = 0 ∨ (1 ≤ minor ∧ minor < 2 ^ 31) := by
              split_ifs at hminor with hs1
              · have := getNumber_range _ _ _ hminor
                exact Or.inr ⟨this.1, this.2.2⟩
              · simp only [Option.some.injEq] at hminor
                exact Or.inl hminor.symm
            refine ⟨r.1, ?_, ?_, ?_, hm, r.2, ?_⟩
            · intro hl
              exact absurd hl hlevel
            · intro hl
              exact absurd hl hLT
            · intro _; rfl
            · intro c hc
              simp [newPackageVersion] at hc
      · cases h
    · rw [if_neg hlevel] at h
      cases h0 : getNumber version minimum with
      | none => rw [h0] at h; cases h
      | some m =>
        rw [h0] at h
        simp only [Option.some.injEq] at h
        subst h
        refine ⟨getNumber_range _ _ _ h0, ?_, ?_, ?_, Or.inl rfl, Or.inl rfl, ?_⟩
        · intro _; exact ⟨rfl, rfl, rfl⟩
        · intro hl; cases hl
        · intro _; rfl
        · intro c hc
          simp [newPackageVersion] at hc

/-- The part of `newPackageVersionForComponent` before the version is read. -/
theorem newPackageVersionForComponent_v (ls : StabilityLevel → String) (rest : List Char)
    (options : List PackageVersionOption) (hne : rest ≠ []) (hdot : '.' ∉ rest) :
    newPackageVersionForComponent ls ⟨'v' :: rest⟩ options =
      versionForComponent ls ⟨rest⟩ (minMajorVersionNumber options) := by
  have h1 : strings.Contains ⟨'v' :: rest⟩ "." = false := by
    apply strings.Contains_eq_false_of_not_mem _ _ '.' (by decide)
    simp [hdot]
  have h2 : ¬ strings.len ⟨'v' :: rest⟩ < 2 := by
    cases rest with
    | nil => exact absurd rfl hne
    | cons d rest =>
      have := strings.len_cons_cons 'v' d rest
      omega
  simp only [newPackageVersionForComponent, h1, Bool.false_eq_true, if_false, if_neg h2,
    ne_eq, not_true_eq_false]

/-- What `newPackageVersionForComponent` accepts is a `v` followed by a
version that `versionForComponent` accepts. -/
theorem newPackageVersionForComponent_some (ls : StabilityLevel → String) (component : String)
    (options : List PackageVersionOption) (v : packageVersion)
    (h : newPackageVersionForComponent ls component options = some v) :
    ∃ rest, component.data = 'v' :: rest ∧ rest ≠ [] ∧ '.' ∉ component.data ∧
      versionForComponent ls ⟨rest⟩ (minMajorVersionNumber options) = some v := by
  unfold newPackageVersionForComponent at h
  simp only at h
  by_cases h1 : strings.Contains component "." = true
  · rw [if_pos h1] at h; cases h
  rw [if_neg h1] at h
  by_cases h2 : strings.len component < 2
  · rw [if_pos h2] at h; cases h
  rw [if_neg h2] at h
  cases hd : component.data with
  | nil => rw [hd] at h; cases h
  | cons c rest =>
    rw [hd] at h
    simp only at h
    by_cases hc : c ≠ 'v'
    · rw [if_pos hc] at h; cases h
    · rw [if_neg hc] at h
      have hc' : c = 'v' := not_not.mp hc
      subst hc'
      refine ⟨rest, rfl, ?_, ?_, h⟩
      · rintro rfl
        apply h2
        have : component = ⟨['v']⟩ := String.ext hd
        rw [this]
        decide
      · intro hmem
        apply h1
        rw [show ("." : String) = ⟨['.']⟩ from rfl, strings.Contains_char, hd]
        exact hmem

end protoversion

namespace protoversion

open StabilityLevel

/-- The characters that `String` writes. -/
theorem String_data (ls : StabilityLevel → String) (v : packageVersion) (h0 : 0 ≤ v.major)
    (h1 : 0 ≤ v.minor) (h2 : 0 ≤ v.patch) :
    (v.String ls).data = 'v' :: (strconv.natChars v.major.toNat ++
      ((if v.patch > 0 then 'p' :: strconv.natChars v.patch.toNat else []) ++
        ((ls v.stabilityLevel).data ++
          ((if v.minor > 0 then strconv.natChars v.minor.toNat else []) ++ v.suffix.data)))) := by
  unfold packageVersion.String
  simp only [String.data_append, strconv.Itoa_data _ h0]
  by_cases hp : v.patch > 0 <;> by_cases hm : v.minor > 0 <;> by_cases hs : v.suffix = "" <;>
    simp [hp, hm, hs, strconv.Itoa_data _ h1, strconv.Itoa_data _ h2]

theorem versionForComponent_test (ls : StabilityLevel → String) (major minimum : Int)
    (suffix : String) (hm : minimum ≤ major) (h0 : 0 ≤ major) (h1 : major < 2 ^ 31) :
    versionForComponent ls
        ⟨strconv.natChars major.toNat ++ ['t', 'e', 's', 't'] ++ suffix.data⟩ minimum =
      some ⟨major, StabilityLevelTest, 0, 0, suffix⟩ := by
  have hc := strings.Contains_append (strconv.natChars major.toNat) ['t', 'e', 's', 't']
    suffix.data
  have hs := strings.SplitN_of_not_mem 't' ['e', 's', 't'] (strconv.natChars major.toNat)
    suffix.data (strconv.not_mem_natChars _ 't' (by decide))
  have hn := getNumber_Itoa major minimum hm h0 h1
  have hi : strconv.Itoa major = ⟨strconv.natChars major.toNat⟩ :=
    String.ext (strconv.Itoa_data major h0)
  rw [hi] at hn
  unfold versionForComponent
  rw [show ("test" : String) = ⟨['t', 'e', 's', 't']⟩ from rfl, if_pos hc, hs]
  simp only [hn, newPackageVersion]

theorem versionForComponent_stable (ls : StabilityLevel → String) (major minimum : Int)
    (hm : minimum ≤ major) (h0 : 0 ≤ major) (h1 : major < 2 ^ 31) :
    versionForComponent ls ⟨strconv.natChars major.toNat⟩ minimum =
      some ⟨major, StabilityLevelStable, 0, 0, ""⟩ := by
  have hn := getNumber_Itoa major minimum hm h0 h1
  have hi : strconv.Itoa major = ⟨strconv.natChars major.toNat⟩ :=
    String.ext (strconv.Itoa_data major h0)
  rw [hi] at hn
  have ht : strings.Contains ⟨strconv.natChars major.toNat⟩ "test" = false :=
    strings.Contains_eq_false_of_not_mem _ _ 't' (by decide)
      (strconv.not_mem_natChars _ 't' (by decide))
  have ha : strings.Contains ⟨strconv.natChars major.toNat⟩ "alpha" = false :=
    strings.Contains_eq_false_of_not_mem _ _ 'a' (by decide)
      (strconv.not_mem_natChars _ 'a' (by decide))
  have hb : strings.Contains ⟨strconv.natChars major.toNat⟩ "beta" = false :=
    strings.Contains_eq_false_of_not_mem _ _ 'b' (by decide)
      (strconv.not_mem_natChars _ 'b' (by decide))
  unfold versionForComponent
  simp [ht, ha, hb, hn, newPackageVersion]

/-- The major and patch numbers are read back from what `String` writes
before the stability level. -/
theorem getAlphaBetaMajorPatch_canonical (major patch minimum : Int) (hm : minimum ≤ major)
    (h0 : 0 ≤ major) (h1 : major < 2 ^ 31) (hp : patch = 0 ∨ (1 ≤ patch ∧ patch < 2 ^ 31)) :
    getAlphaBetaMajorPatch
        ⟨strconv.natChars major.toNat ++
          (if patch > 0 then 'p' :: strconv.natChars patch.toNat else [])⟩ minimum =
      some (major, patch) := by
  have hn := getNumber_Itoa major minimum hm h0 h1
  have hi : strconv.Itoa major = ⟨strconv.natChars major.toNat⟩ :=
    String.ext (strconv.Itoa_data major h0)
  rw [hi] at hn
  unfold getAlphaBetaMajorPatch
  rcases hp with rfl | ⟨hp1, hp2⟩
  · have hc : strings.Contains ⟨strconv.natChars major.toNat⟩ "p" = false :=
      strings.Contains_eq_false_of_not_mem _ _ 'p' (by decide)
        (strconv.not_mem_natChars _ 'p' (by decide))
    simp [hc, hn]
  · have hpos : patch > 0 := by omega
    have hnp := getNumber_Itoa patch 1 hp1 (by omega) hp2
    have hip : strconv.Itoa patch = ⟨strconv.natChars patch.toNat⟩ :=
      String.ext (strconv.Itoa_data patch (by omega))
    rw [hip] at hnp
    have hc := strings.Contains_append (strconv.natChars major.toNat) ['p']
      (strconv.natChars patch.toNat)
    have hs := strings.SplitN_of_not_mem 'p' [] (strconv.natChars major.toNat)
      (strconv.natChars patch.toNat) (strconv.not_mem_natChars _ 'p' (by decide))
    simp only [List.append_assoc, List.singleton_append] at hc hs
    rw [if_pos hpos, show ("p" : String) = ⟨['p']⟩ from rfl, if_pos hc, hs]
    simp only [hn, hnp]

/-- The minor number is read back from what `String` writes after the
stability level. -/
theorem getNumber_minor (minor : Int) (hmin : minor = 0 ∨ (1 ≤ minor ∧ minor < 2 ^ 31)) :
    (if (⟨if minor > 0 then strconv.natChars minor.toNat else []⟩ : String) ≠ "" then
      getNumber ⟨if minor > 0 then strconv.natChars minor.toNat else []⟩ 1 else some 0) =
      some minor := by
  rcases hmin with rfl | ⟨h1, h2⟩
  · simp
  · have hpos : minor > 0 := by omega
    have hn := getNumber_Itoa minor 1 h1 (by omega) h2
    have hi : strconv.Itoa minor = ⟨strconv.natChars minor.toNat⟩ :=
      String.ext (strconv.Itoa_data minor (by omega))
    rw [hi] at hn
    have hne : (⟨strconv.natChars minor.toNat⟩ : String) ≠ "" := by
      intro h
      exact strconv.natChars_ne_nil _ (congrArg String.data h)
    rw [if_pos hpos, if_pos hne, hn]

end protoversion

namespace protoversion

open StabilityLevel

/-- A character that is not a digit, not `p` and not in the name of the
level is not in what `String` writes after the `v`, without suffix. -/
theorem not_mem_canonical (c : Char) (major patch minor : Nat) (name : List Char)
    (hd : strconv.isDigit c = false) (hp : c ≠ 'p') (hn : c ∉ name) (bp bm : Prop)
    [Decidable bp] [Decidable bm] :
    c ∉ (strconv.natChars major ++ (if bp then 'p' :: strconv.natChars patch else [])) ++
      name ++ (if bm then strconv.natChars minor else []) := by
  have h1 := strconv.not_mem_natChars major c hd
  have h2 := strconv.not_mem_natChars patch c hd
  have h3 := strconv.not_mem_natChars minor c hd
  by_cases hbp : bp <;> by_cases hbm : bm <;> simp [hbp, hbm, h1, h2, h3, hp, hn]

theorem versionForComponent_alpha (ls : StabilityLevel → String)
    (hA : ls StabilityLevelAlpha = "alpha") (major minor patch minimum : Int)
    (hm : minimum ≤ major) (h0 : 0 ≤ major) (h1 : major < 2 ^ 31)
    (hmin : minor = 0 ∨ (1 ≤ minor ∧ minor < 2 ^ 31))
    (hp : patch = 0 ∨ (1 ≤ patch ∧ patch < 2 ^ 31)) :
    versionForComponent ls
        ⟨(strconv.natChars major.toNat ++
            (if patch > 0 then 'p' :: strconv.natChars patch.toNat else [])) ++
          ['a', 'l', 'p', 'h', 'a'] ++
          (if minor > 0 then strconv.natChars minor.toNat else [])⟩ minimum =
      some ⟨major, StabilityLevelAlpha, minor, patch, ""⟩ := by
  have ht := strings.Contains_eq_false_of_not_mem _ "test" 's' (by decide)
    (not_mem_canonical 's' major.toNat patch.toNat minor.toNat ['a', 'l', 'p', 'h', 'a']
      (by decide) (by decide) (by decide) (patch > 0) (minor > 0))
  have hb := strings.Contains_eq_false_of_not_mem _ "beta" 'b' (by decide)
    (not_mem_canonical 'b' major.toNat patch.toNat minor.toNat ['a', 'l', 'p', 'h', 'a']
      (by decide) (by decide) (by decide) (patch > 0) (minor > 0))
  have ha := strings.Contains_append
    (strconv.natChars major.toNat ++
      (if patch > 0 then 'p' :: strconv.natChars patch.toNat else []))
    ['a', 'l', 'p', 'h', 'a'] (if minor > 0 then strconv.natChars minor.toNat else [])
  have hpre : 'a' ∉ strconv.natChars major.toNat ++
      (if patch > 0 then 'p' :: strconv.natChars patch.toNat else []) := by
    have h1 := strconv.not_mem_natChars major.toNat 'a' (by decide)
    have h2 := strconv.not_mem_natChars patch.toNat 'a' (by decide)
    by_cases hbp : patch > 0 <;> simp [hbp, h1, h2]
  have hs := strings.SplitN_of_not_mem 'a' ['l', 'p', 'h', 'a'] _
    (if minor > 0 then strconv.natChars minor.toNat else []) hpre
  have hmp := getAlphaBetaMajorPatch_canonical major patch minimum hm h0 h1 hp
  have hmi := getNumber_minor minor hmin
  unfold versionForComponent
  rw [ht]
  simp only [Bool.false_eq_true, if_false]
  rw [show ("alpha" : String) = ⟨['a', 'l', 'p', 'h', 'a']⟩ from rfl, ha, hb]
  simp only [Bool.not_true, Bool.not_false, Bool.and_false, Bool.and_true, Bool.false_eq_true,
    if_false, if_true, ne_eq, reduceCtorEq, not_false_eq_true, hA]
  rw [show ("alpha" : String) = ⟨['a', 'l', 'p', 'h', 'a']⟩ from rfl, hs]
  simp only [ne_eq] at hmi
  simp only [ne_eq, hmi, hmp, newPackageVersion]

theorem versionForComponent_beta (ls : StabilityLevel → String)
    (hB : ls StabilityLevelBeta = "beta") (major minor patch minimum : Int)
    (hm : minimum ≤ major) (h0 : 0 ≤ major) (h1 : major < 2 ^ 31)
    (hmin : minor = 0 ∨ (1 ≤ minor ∧ minor < 2 ^ 31))
    (hp : patch = 0 ∨ (1 ≤ patch ∧ patch < 2 ^ 31)) :
    versionForComponent ls
        ⟨(strconv.natChars major.toNat ++
            (if patch > 0 then 'p' :: strconv.natChars patch.toNat else [])) ++
          ['b', 'e', 't', 'a'] ++
          (if minor > 0 then strconv.natChars minor.toNat else [])⟩ minimum =
      some ⟨major, StabilityLevelBeta, minor, patch, ""⟩ := by
  have ht := strings.Contains_eq_false_of_not_mem _ "test" 's' (by decide)
    (not_mem_canonical 's' major.toNat patch.toNat minor.toNat ['b', 'e', 't', 'a']
      (by decide) (by decide) (by decide) (patch > 0) (minor > 0))
  have ha := strings.Contains_eq_false_of_not_mem _ "alpha" 'l' (by decide)
    (not_mem_canonical 'l' major.toNat patch.toNat minor.toNat ['b', 'e', 't', 'a']
      (by decide) (by decide) (by decide) (patch > 0) (minor > 0))
  have hb := strings.Contains_append
    (strconv.natChars major.toNat ++
      (if patch > 0 then 'p' :: strconv.natChars patch.toNat else []))
    ['b', 'e', 't', 'a'] (if minor > 0 then strconv.natChars minor.toNat else [])
  have hpre : 'b' ∉ strconv.natChars major.toNat ++
      (if patch > 0 then 'p' :: strconv.natChars patch.toNat else []) := by
    have h1 := strconv.not_mem_natChars major.toNat 'b' (by decide)
    have h2 := strconv.not_mem_natChars patch.toNat 'b' (by decide)
    by_cases hbp : patch > 0 <;> simp [hbp, h1, h2]
  have hs := strings.SplitN_of_not_mem 'b' ['e', 't', 'a'] _
    (if minor > 0 then strconv.natChars minor.toNat else []) hpre
  have hmp := getAlphaBetaMajorPatch_canonical major patch minimum hm h0 h1 hp
  have hmi := getNumber_minor minor hmin
  unfold versionForComponent
  rw [ht]
  simp only [Bool.false_eq_true, if_false]
  rw [ha, show ("beta" : String) = ⟨['b', 'e', 't', 'a']⟩ from rfl, hb]
  simp only [Bool.not_true, Bool.not_false, Bool.and_false, Bool.and_true, Bool.false_eq_true,
    Bool.false_and, Bool.true_and, if_false, if_true, ne_eq, reduceCtorEq, not_false_eq_true, hB]
  rw [show ("beta" : String) = ⟨['b', 'e', 't', 'a']⟩ from rfl, hs]
  simp only [ne_eq] at hmi
  simp only [ne_eq, hmi, hmp, newPackageVersion]

end protoversion

namespace protoversion

open StabilityLevel

/-- C37: with the level strings `""`, `alpha`, `beta` and `test`, `String` is
a canonical form: when `newPackageVersionForComponent` accepts a component
and returns the version `v`, it accepts `v.String()` as well, under the same
options, and returns the same major, stability level, minor, patch and
suffix. -/
theorem String_canonical (ls : StabilityLevel → String)
    (hS : ls StabilityLevelStable = "") (hA : ls StabilityLevelAlpha = "alpha")
    (hB : ls StabilityLevelBeta = "beta") (hT : ls StabilityLevelTest = "test")
    (component : String) (options : List PackageVersionOption) (v : packageVersion)
    (h : newPackageVersionForComponent ls component options = some v) :
    newPackageVersionForComponent ls (v.String ls) options = some v := by
  obtain ⟨rest, hdata, -, hdot, hv⟩ := newPackageVersionForComponent_some ls component options v h
  obtain ⟨⟨hm, -, h1⟩, iS, iT, iNT, hmin, hp, hsuf⟩ := versionForComponent_inv ls _ _ v hv
  have hmin0 := minMajorVersionNumber_nonneg options
  have h0 : 0 ≤ v.major := by omega
  have hminor0 : 0 ≤ v.minor := by rcases hmin with h | h <;> omega
  have hpatch0 : 0 ≤ v.patch := by rcases hp with h | h <;> omega
  have hsd := String_data ls v h0 hminor0 hpatch0
  have hdotsuf : '.' ∉ v.suffix.data := by
    intro hc
    apply hdot
    rw [hdata]
    exact List.mem_cons_of_mem _ (hsuf _ hc)
  have hdotD : ∀ n, '.' ∉ strconv.natChars n :=
    fun n => strconv.not_mem_natChars n '.' (by decide)
  obtain ⟨major, level, minor, patch, suffix⟩ := v
  simp only at hm h1 iS iT iNT hmin hp hsuf h0 hminor0 hpatch0 hsd hdotsuf
  have hstr : packageVersion.String ls ⟨major, level, minor, patch, suffix⟩ = ⟨_⟩ :=
    String.ext hsd
  rw [hstr]
  have hne : ∀ l : List Char, strconv.natChars major.toNat ++ l ≠ [] := by
    intro l hl
    exact strconv.natChars_ne_nil _ (List.append_eq_nil.mp hl).1
  cases level with
  | StabilityLevelStable =>
    obtain ⟨rfl, rfl, rfl⟩ := iS rfl
    rw [newPackageVersionForComponent_v ls _ options (hne _)
      (by simp [hS, hdotD])]
    have := versionForComponent_stable ls major _ hm h0 h1
    simpa [hS] using this
  | StabilityLevelTest =>
    obtain ⟨rfl, rfl⟩ := iT rfl
    rw [newPackageVersionForComponent_v ls _ options (hne _)
      (by simp [hT, hdotD, hdotsuf])]
    have := versionForComponent_test ls major _ suffix hm h0 h1
    simpa [hT] using this
  | StabilityLevelAlpha =>
    have hsfx := iNT (by decide)
    subst hsfx
    rw [newPackageVersionForComponent_v ls _ options (hne _)
      (by
        have := not_mem_canonical '.' major.toNat patch.toNat minor.toNat
          ['a', 'l', 'p', 'h', 'a'] (by decide) (by decide) (by decide) (patch > 0) (minor > 0)
        simpa [hA] using this)]
    have := versionForComponent_alpha ls hA major minor patch _ hm h0 h1 hmin hp
    simpa [hA] using this
  | StabilityLevelBeta =>
    have hsfx := iNT (by decide)
    subst hsfx
    rw [newPackageVersionForComponent_v ls _ options (hne _)
      (by
        have := not_mem_canonical '.' major.toNat patch.toNat minor.toNat
          ['b', 'e', 't', 'a'] (by decide) (by decide) (by decide) (patch > 0) (minor > 0)
        simpa [hB] using this)]
    have := versionForComponent_beta ls hB major minor patch _ hm h0 h1 hmin hp
    simpa [hB] using this

theorem String_canonical_witness :
    newPackageVersionForComponent levelNames
      (packageVersion.String levelNames ⟨1, StabilityLevelAlpha, 2, 3, ""⟩) [] =
      some ⟨1, StabilityLevelAlpha, 2, 3, ""⟩ :=
  String_canonical levelNames rfl rfl rfl rfl "v+01p03alpha2" []
    ⟨1, StabilityLevelAlpha, 2, 3, ""⟩ (by decide)

end protoversion

namespace protoversion

open StabilityLevel

theorem Contains_cons_of_ne (c a : Char) (rest sub : List Char) (hne : a ≠ c)
    (h : strings.Contains ⟨c :: rest⟩ ⟨a :: sub⟩ = true) :
    strings.Contains ⟨rest⟩ ⟨a :: sub⟩ = true := by
  rw [strings.Contains_iff] at h ⊢
  rcases List.infix_cons_iff.mp h with h1 | h1
  · obtain ⟨t, ht⟩ := h1
    simp only [List.cons_append, List.cons.injEq] at ht
    exact absurd ht.1 hne
  · exact h1

theorem Contains_cons_false (c : Char) (rest : List Char) (sub : String)
    (h : strings.Contains ⟨c :: rest⟩ sub = false) : strings.Contains ⟨rest⟩ sub = false := by
  cases hr : strings.Contains ⟨rest⟩ sub with
  | false => rfl
  | true =>
    have h1 := (strings.Contains_iff _ _).mp hr
    have h2 : strings.Contains ⟨c :: rest⟩ sub = true :=
      (strings.Contains_iff _ _).mpr (List.infix_cons h1)
    rw [h] at h2
    cases h2

theorem versionForComponent_alpha_beta (ls : StabilityLevel → String) (version : String)
    (minimum : Int) (ht : strings.Contains version "test" = false)
    (ha : strings.Contains version "alpha" = true)
    (hb : strings.Contains version "beta" = true) :
    versionForComponent ls version minimum = none := by
  simp [versionForComponent, ht, ha, hb]

/-- C38: a package version that `newPackageVersionForComponent` accepts has a
major number of at least 1, or at least 0 when v0 is allowed, its major, minor
and patch numbers are values of an `int32`, a stable version has no minor, no
patch and no suffix, a test version has no minor and no patch, and an alpha or
beta version has no suffix and minor and patch numbers that are 0 or at least
1.  A component that does not start with `v`, has fewer than 2 characters,
contains `.`, or contains `alpha` and `beta` and not `test`, is rejected. -/
theorem accepted_version_invariants (ls : StabilityLevel → String) (component : String)
    (options : List PackageVersionOption) :
    (minMajorVersionNumber options =
      if (options.foldl (fun packageVersionOptions option => option packageVersionOptions)
        newPackageVersionOptions).allowV0 then 0 else 1) ∧
    (∀ v, newPackageVersionForComponent ls component options = some v →
      minMajorVersionNumber options ≤ v.major ∧
      (-(2 ^ 31) ≤ v.major ∧ v.major < 2 ^ 31) ∧ (-(2 ^ 31) ≤ v.minor ∧ v.minor < 2 ^ 31) ∧
      (-(2 ^ 31) ≤ v.patch ∧ v.patch < 2 ^ 31) ∧
      (v.stabilityLevel = StabilityLevelStable → v.minor = 0 ∧ v.patch = 0 ∧ v.suffix = "") ∧
      (v.stabilityLevel = StabilityLevelTest → v.minor = 0 ∧ v.patch = 0) ∧
      (v.stabilityLevel = StabilityLevelAlpha ∨ v.stabilityLevel = StabilityLevelBeta →
        v.suffix = "" ∧ (v.minor = 0 ∨ 1 ≤ v.minor) ∧ (v.patch = 0 ∨ 1 ≤ v.patch))) ∧
    (component.data.head? ≠ some 'v' →
      newPackageVersionForComponent ls component options = none) ∧
    (component.data.length < 2 →
      newPackageVersionForComponent ls component options = none) ∧
    ('.' ∈ component.data → newPackageVersionForComponent ls component options = none) ∧
    (strings.Contains component "alpha" = true → strings.Contains component "beta" = true →
      strings.Contains component "test" = false →
      newPackageVersionForComponent ls component options = none) := by
  refine ⟨rfl, ?_, ?_, ?_, ?_, ?_⟩
  · intro v h
    obtain ⟨rest, -, -, -, hv⟩ := newPackageVersionForComponent_some ls component options v h
    obtain ⟨⟨hm, h0, h1⟩, iS, iT, iNT, hmin, hp, -⟩ := versionForComponent_inv ls _ _ v hv
    refine ⟨hm, ⟨h0, h1⟩, ?_, ?_, iS, iT, ?_⟩
    · rcases hmin with h | h <;> omega
    · rcases hp with h | h <;> omega
    · intro hl
      refine ⟨iNT ?_, ?_, ?_⟩
      · rcases hl with hl | hl <;> rw [hl] <;> decide
      · rcases hmin with h | h
        · exact Or.inl h
        · exact Or.inr h.1
      · rcases hp with h | h
        · exact Or.inl h
        · exact Or.inr h.1
  · intro hhead
    cases hr : newPackageVersionForComponent ls component options with
    | none => rfl
    | some v =>
      obtain ⟨rest, hd, -⟩ := newPackageVersionForComponent_some ls component options v hr
      rw [hd] at hhead
      exact absurd rfl hhead
  · intro hlen
    cases hr : newPackageVersionForComponent ls component options with
    | none => rfl
    | some v =>
      obtain ⟨rest, hd, hne, -⟩ := newPackageVersionForComponent_some ls component options v hr
      rw [hd] at hlen
      cases rest with
      | nil => exact absurd rfl hne
      | cons d rest =>
        simp only [List.length_cons] at hlen
        omega
  · intro hdot
    cases hr : newPackageVersionForComponent ls component options with
    | none => rfl
    | some v =>
      obtain ⟨rest, -, -, hnd, -⟩ := newPackageVersionForComponent_some ls component options v hr
      exact absurd hdot hnd
  · intro ha hb ht
    cases hr : newPackageVersionForComponent ls component options with
    | none => rfl
    | some v =>
      obtain ⟨rest, hd, -, -, hv⟩ := newPackageVersionForComponent_some ls component options v hr
      have hc : component = ⟨'v' :: rest⟩ := String.ext hd
      rw [hc] at ha hb ht
      have ha' := Contains_cons_of_ne 'v' 'a' rest ['l', 'p', 'h', 'a'] (by decide) ha
      have hb' := Contains_cons_of_ne 'v' 'b' rest ['e', 't', 'a'] (by decide) hb
      have ht' := Contains_cons_false 'v' rest "test" ht
      rw [versionForComponent_alpha_beta ls _ _ ht' ha' hb'] at hv
      cases hv

theorem accepted_version_invariants_witness :
    (minMajorVersionNumber [] ≤ (1 : Int) ∧
      (-(2 ^ 31) ≤ (1 : Int) ∧ (1 : Int) < 2 ^ 31) ∧ (-(2 ^ 31) ≤ (2 : Int) ∧ (2 : Int) < 2 ^ 31) ∧
      (-(2 ^ 31) ≤ (3 : Int) ∧ (3 : Int) < 2 ^ 31) ∧
      (StabilityLevelBeta = StabilityLevelStable → (2 : Int) = 0 ∧ (3 : Int) = 0 ∧ "" = "") ∧
      (StabilityLevelBeta = StabilityLevelTest → (2 : Int) = 0 ∧ (3 : Int) = 0) ∧
      (StabilityLevelBeta = StabilityLevelAlpha ∨ StabilityLevelBeta = StabilityLevelBeta →
        "" = "" ∧ ((2 : Int) = 0 ∨ 1 ≤ (2 : Int)) ∧ ((3 : Int) = 0 ∨ 1 ≤ (3 : Int)))) ∧
    newPackageVersionForComponent levelNames "v1alphabeta" [] = none :=
  ⟨(accepted_version_invariants levelNames "v1p3beta2" []).2.1
      ⟨1, StabilityLevelBeta, 2, 3, ""⟩ (by decide),
   (accepted_version_invariants levelNames "v1alphabeta" []).2.2.2.2.2
      (by decide) (by decide) (by decide)⟩

end protoversion
